import Mathlib

/-! ## DB2DatabaseLoader

A shallow embedding of `src/server/shared/DataStores/DB2DatabaseLoader.cpp`
(`DB2DatabaseLoader::Load`, `DB2DatabaseLoader::LoadStrings`,
`DB2DatabaseLoader::AddString`) and theorems about it.

Conventions of the embedding.

* Memory is a list of allocations (blocks). An address is a block number and a
  byte offset. A memory cell is a data byte or one byte of a stored pointer, so
  a `memcpy` keeps pointers intact. Freed blocks stay in the list as `none`.
  The index table is kept outside the heap, as the list of its entries with its
  allocated length; no pointer into it is ever stored.
* `uint32` arithmetic on the packing offset is written with an explicit
  `% 2 ^ 32`. The column counter `f` and the loop counters are bounded by the
  `uint32` column count of a row and cannot wrap. `records`, `minId` and the IDs
  are only compared and copied. Allocation sizes are 64-bit products of a row
  count and a `uint32`; they are not reduced.
* Integers are stored little-endian in two's complement; a float is stored as its
  32-bit pattern.
* An access outside an allocation or an array is undefined behaviour in C++;
  here it stops the execution with `Fault.outOfBounds`. `ABORT_MSG` and a
  failed `ASSERT` stop it with `Fault.abort`.
* The database layer is external. A query result is the list of its rows; a
  null `PreparedQueryResult` is `none`. The `custom` flag is only forwarded to
  the query and therefore is not a parameter.
* `std::vector::reserve` changes only the capacity of the string pool, which
  is not observable, and is left out. Allocation failure is not modelled.
* `TC_LOG_ERROR` in `LoadStrings` is kept as the list of the IDs it reports.
  `GetStringFieldCount` is defined outside the translated file; its value is a
  parameter of `LoadStrings`. A locale is its index in a `LocalizedString`.
-/

namespace DB2DatabaseLoader

/-! ## Faults -/

/-- The ways an execution stops without returning. -/
inductive Fault
  | abort
  | outOfBounds
  deriving DecidableEq, Repr

/-! ## Build constants -/

/-- Constants that the loader uses and that are declared outside the translated
file: `sizeof(char*)`, `TOTAL_LOCALES` and `LOCALE_enUS`. They are parameters of
the embedding. -/
structure Layout where
  ptrSize : Nat
  TOTAL_LOCALES : Nat
  LOCALE_enUS : Nat
  deriving DecidableEq, Repr

/-- The layout of a 64-bit build: 8-byte pointers, twelve locales, enUS first. -/
def layout64 : Layout := ⟨8, 12, 0⟩

/-- The value of `sizeof(LocalizedString)`: one pointer per locale. -/
def Layout.sizeofLocalizedString (L : Layout) : Nat := L.TOTAL_LOCALES * L.ptrSize

/-! ## Schema -/

/-- Field format characters; `other` is any character that is none of the seven. -/
inductive DBCFormer
  | FT_STRING
  | FT_STRING_NOT_LOCALIZED
  | FT_FLOAT
  | FT_INT
  | FT_BYTE
  | FT_SHORT
  | FT_LONG
  | other (c : Nat)
  deriving DecidableEq, Repr

/-- One entry of `DB2Meta::Fields`. -/
structure DB2MetaField where
  Type_ : DBCFormer
  ArraySize : Nat
  deriving DecidableEq, Repr

/-- One entry of `DB2LoadInfo::Fields`: the descriptor of one database column. -/
structure DB2FieldMeta where
  Type_ : DBCFormer
  deriving DecidableEq, Repr

/-- The schema description. `Fields` has `FieldCount` entries. The four accessors
`GetRecordSize`, `GetDbFieldCount`, `GetDbIndexField` and `HasIndexFieldInData`
are defined outside the translated file; their results are parameters. -/
structure DB2Meta where
  Fields : List DB2MetaField
  GetRecordSize : Nat
  GetDbFieldCount : Nat
  GetDbIndexField : Nat
  HasIndexFieldInData : Bool
  deriving DecidableEq, Repr

/-- The number of declared fields, `DB2Meta::FieldCount`. -/
def DB2Meta.FieldCount (m : DB2Meta) : Nat := m.Fields.length

/-- The load description of one storage: column descriptors and schema. -/
structure DB2LoadInfo where
  Fields : List DB2FieldMeta
  Meta : DB2Meta
  deriving DecidableEq, Repr

/-! ## Query results -/

/-- Modelled from the spec: a typed cell of a query row, with the getters of the
external database layer. An integer cell converts to each integer type by
wrapping, a float cell is its 32-bit pattern, a string cell is its bytes. -/
inductive Field
  | int (v : Int)
  | float (bits : Nat)
  | string (s : List Nat)
  deriving DecidableEq, Repr

def Field.GetUInt32 : Field → Nat
  | .int v => (v % 2 ^ 32).toNat
  | _ => 0

def Field.GetUInt64 : Field → Nat
  | .int v => (v % 2 ^ 64).toNat
  | _ => 0

def Field.GetInt8 : Field → Int
  | .int v => v.bmod (2 ^ 8)
  | _ => 0

def Field.GetInt16 : Field → Int
  | .int v => v.bmod (2 ^ 16)
  | _ => 0

def Field.GetInt32 : Field → Int
  | .int v => v.bmod (2 ^ 32)
  | _ => 0

def Field.GetInt64 : Field → Int
  | .int v => v.bmod (2 ^ 64)
  | _ => 0

def Field.GetFloat : Field → Nat
  | .float b => b % 2 ^ 32
  | _ => 0

def Field.GetStringView : Field → List Nat
  | .string s => s
  | _ => []

/-- Modelled from the spec: a non-null query result. The database layer returns
a null result instead of an empty one, so a result has a first row. -/
structure PreparedResultSet where
  fieldCount : Nat
  row : List Field
  more : List (List Field)
  deriving DecidableEq, Repr

/-- All rows in the order in which `Fetch` and `NextRow` deliver them. -/
def PreparedResultSet.rows (r : PreparedResultSet) : List (List Field) := r.row :: r.more

def PreparedResultSet.GetFieldCount (r : PreparedResultSet) : Nat := r.fieldCount

def PreparedResultSet.GetRowCount (r : PreparedResultSet) : Nat := r.more.length + 1

/-! ## Memory -/

/-- An address inside a heap allocation. -/
structure Addr where
  block : Nat
  off : Nat
  deriving DecidableEq, Repr

/-- A `char const*` value held by a string slot: the static literal `nullStr` or a
heap address. -/
inductive CStr
  | nullStr
  | heap (a : Addr)
  deriving DecidableEq, Repr

/-- One byte of memory. -/
inductive MemVal
  | undef
  | byte (b : Nat)
  | frag (p : CStr) (k : Nat)
  deriving DecidableEq, Repr

abbrev Heap := List (Option (List MemVal))

/-- The address `&p[n]`. -/
def Addr.add (a : Addr) (n : Nat) : Addr := ⟨a.block, a.off + n⟩

/-- Overwrite `vals.length` cells of `data` starting at `off`. -/
def writeAt (data : List MemVal) (off : Nat) (vals : List MemVal) : List MemVal :=
  data.take off ++ vals ++ data.drop (off + vals.length)

/-- The `n` cells of `data` starting at `off`. -/
def readAt (data : List MemVal) (off n : Nat) : List MemVal := (data.drop off).take n

/-- A store through a pointer: defined only inside a live allocation. -/
def store (h : Heap) (a : Addr) (vals : List MemVal) : Except Fault Heap :=
  match h[a.block]? with
  | some (some data) =>
    if a.off + vals.length ≤ data.length then
      .ok (h.set a.block (some (writeAt data a.off vals)))
    else .error .outOfBounds
  | _ => .error .outOfBounds

/-- A read of `n` cells through a pointer; `none` outside a live allocation. -/
def fetch (h : Heap) (a : Addr) (n : Nat) : Option (List MemVal) :=
  match h[a.block]? with
  | some (some data) => if a.off + n ≤ data.length then some (readAt data a.off n) else none
  | _ => none

/-- The `w` little-endian bytes of `v`. -/
def leBytes : Nat → Nat → List MemVal
  | 0, _ => []
  | w + 1, v => MemVal.byte (v % 256) :: leBytes w (v / 256)

/-- The number that a list of data bytes holds, little-endian. -/
def leValue : List MemVal → Option Nat
  | [] => some 0
  | MemVal.byte b :: rest => (leValue rest).map (fun r => b + 256 * r)
  | _ :: _ => none

/-- The bytes of a signed integer of `w` bytes. -/
def intBytes (w : Nat) (v : Int) : List MemVal := leBytes w (v % 2 ^ (8 * w)).toNat

/-- The signed integer that `w` data bytes hold. -/
def intValue (w : Nat) (vs : List MemVal) : Option Int :=
  match leValue vs with
  | some u => some (if u < 2 ^ (8 * w - 1) then (u : Int) else (u : Int) - 2 ^ (8 * w))
  | none => none

/-- The `n` bytes of a stored pointer. -/
def ptrBytes (n : Nat) (p : CStr) : List MemVal := (List.range n).map (MemVal.frag p)

/-- The pointer that `n` cells hold, if they are the bytes of one pointer in order. -/
def ptrValue (n : Nat) (vs : List MemVal) : Option CStr :=
  match vs with
  | MemVal.frag p _ :: _ => if vs = ptrBytes n p then some p else none
  | _ => none

/-- The pointer `nullStr`: the address of the static empty string literal. -/
def nullStr : CStr := CStr.nullStr

/-- The bytes up to the first NUL of a list of cells, if there is a NUL. -/
def cstrOf : List MemVal → Option (List Nat)
  | MemVal.byte b :: rest => if b = 0 then some [] else (cstrOf rest).map (fun s => b :: s)
  | _ => none

/-- The C string that a `char const*` points to. -/
def readCStr (h : Heap) : CStr → Option (List Nat)
  | .nullStr => some []
  | .heap a =>
    match h[a.block]? with
    | some (some data) => cstrOf (data.drop a.off)
    | _ => none

/-- The bytes of a list of cells that ends with its only terminating NUL cell. -/
def textOf : List MemVal → Option (List Nat)
  | [] => none
  | [MemVal.byte b] => if b = 0 then some [] else none
  | MemVal.byte b :: rest => (textOf rest).map (fun s => b :: s)
  | _ :: _ => none

/-- The text of the string allocation that a `char const*` points into: all bytes
from the pointer to the end of the allocation, without the final NUL. -/
def pooledText (h : Heap) : CStr → Option (List Nat)
  | .nullStr => some []
  | .heap a =>
    match h[a.block]? with
    | some (some data) => textOf (data.drop a.off)
    | _ => none

/-! ## The loader -/

/-- The in/out parameters of `Load` (`records`, `indexTable`, `stringPool`,
`minId`) together with the heap. `indexTable` is the array that the pointer
designates, with its allocated length. -/
structure Storage where
  records : Nat
  indexTable : List (Option Addr)
  stringPool : List Addr
  minId : Nat
  heap : Heap
  deriving DecidableEq, Repr

/-- `DB2DatabaseLoader::AddString`: a non-empty value is copied into a new
NUL-terminated allocation whose address is stored in `holder` and returned; an
empty value leaves `holder` alone and returns null. -/
def AddString (L : Layout) (h : Heap) (holder : Addr) (value : List Nat) :
    Except Fault (Option Addr × Heap) :=
  if value ≠ [] then
    let str : Addr := ⟨h.length, 0⟩
    let h1 := h ++ [some (value.map MemVal.byte ++ [MemVal.byte 0])]
    match store h1 holder (ptrBytes L.ptrSize (CStr.heap str)) with
    | .ok h2 => .ok (some str, h2)
    | .error e => .error e
  else .ok (none, h)

/-- The loop `for (char const*& localeStr : slot->Str) localeStr = nullStr;`
over the first `n` locale slots, in ascending order. -/
def fillNullStr (L : Layout) (slot : Addr) : Nat → Heap → Except Fault Heap
  | 0, h => .ok h
  | n + 1, h =>
    match fillNullStr L slot n h with
    | .ok h1 => store h1 (slot.add (n * L.ptrSize)) (ptrBytes L.ptrSize nullStr)
    | .error e => .error e

/-- The variables that the field loops of one row update: the column counter
`f`, the `uint32` byte offset, the heap and the string pool. -/
structure Cursor where
  f : Nat
  offset : Nat
  heap : Heap
  stringPool : List Addr
  deriving DecidableEq, Repr

/-- A numeric case of the switch: store the bytes at `&dataValue[offset]` and
advance the offset by their width. -/
def storeValue (dataValue : Addr) (c : Cursor) (w : Nat) (bytes : List MemVal) :
    Except Fault Cursor :=
  match store c.heap (dataValue.add c.offset) bytes with
  | .ok h => .ok { c with heap := h, offset := (c.offset + w) % 2 ^ 32, f := c.f + 1 }
  | .error e => .error e

/-- The column `fields[f]` of the fetched row. -/
def column (fields : List Field) (f : Nat) : Except Fault Field :=
  match fields[f]? with
  | some cell => .ok cell
  | none => .error .outOfBounds

/-- The body of the inner loop of `Load`: the switch on `_loadInfo->Fields[f].Type`
followed by `++f`. -/
def packElement (L : Layout) (li : DB2LoadInfo) (isNew : Bool) (dataValue : Addr)
    (fields : List Field) (c : Cursor) : Except Fault Cursor :=
  match li.Fields[c.f]? with
  | none => .error .outOfBounds
  | some fm =>
    match fm.Type_ with
    | .FT_FLOAT =>
      match column fields c.f with
      | .error e => .error e
      | .ok cell => storeValue dataValue c 4 (leBytes 4 cell.GetFloat)
    | .FT_INT =>
      match column fields c.f with
      | .error e => .error e
      | .ok cell => storeValue dataValue c 4 (intBytes 4 cell.GetInt32)
    | .FT_BYTE =>
      match column fields c.f with
      | .error e => .error e
      | .ok cell => storeValue dataValue c 1 (intBytes 1 cell.GetInt8)
    | .FT_SHORT =>
      match column fields c.f with
      | .error e => .error e
      | .ok cell => storeValue dataValue c 2 (intBytes 2 cell.GetInt16)
    | .FT_LONG =>
      match column fields c.f with
      | .error e => .error e
      | .ok cell => storeValue dataValue c 8 (intBytes 8 cell.GetInt64)
    | .FT_STRING =>
      let slot := dataValue.add c.offset
      match (if isNew then fillNullStr L slot L.TOTAL_LOCALES c.heap else Except.ok c.heap) with
      | .error e => .error e
      | .ok h1 =>
        match column fields c.f with
        | .error e => .error e
        | .ok cell =>
          match AddString L h1 (slot.add (L.LOCALE_enUS * L.ptrSize)) cell.GetStringView with
          | .error e => .error e
          | .ok (str, h2) =>
            .ok { f := c.f + 1, offset := (c.offset + L.sizeofLocalizedString) % 2 ^ 32,
                  heap := h2,
                  stringPool := match str with
                    | some s => c.stringPool ++ [s]
                    | none => c.stringPool }
    | .FT_STRING_NOT_LOCALIZED =>
      let slot := dataValue.add c.offset
      match column fields c.f with
      | .error e => .error e
      | .ok cell =>
        match AddString L c.heap slot cell.GetStringView with
        | .error e => .error e
        | .ok (some s, h1) =>
          .ok { f := c.f + 1, offset := (c.offset + L.ptrSize) % 2 ^ 32,
                heap := h1, stringPool := c.stringPool ++ [s] }
        | .ok (none, h1) =>
          match store h1 slot (ptrBytes L.ptrSize nullStr) with
          | .error e => .error e
          | .ok h2 =>
            .ok { f := c.f + 1, offset := (c.offset + L.ptrSize) % 2 ^ 32,
                  heap := h2, stringPool := c.stringPool }
    | .other _ => .error .abort

/-- The inner loop `for (z = 0; z < ArraySize; ++z)`. -/
def packArray (L : Layout) (li : DB2LoadInfo) (isNew : Bool) (dataValue : Addr)
    (fields : List Field) : Nat → Cursor → Except Fault Cursor
  | 0, c => .ok c
  | n + 1, c =>
    match packElement L li isNew dataValue fields c with
    | .ok c1 => packArray L li isNew dataValue fields n c1
    | .error e => .error e

/-- The outer loop `for (x = 0; x < FieldCount; ++x)` over `Meta->Fields`. -/
def packFields (L : Layout) (li : DB2LoadInfo) (isNew : Bool) (dataValue : Addr)
    (fields : List Field) : List DB2MetaField → Cursor → Except Fault Cursor
  | [], c => .ok c
  | m :: ms, c =>
    match packArray L li isNew dataValue fields m.ArraySize c with
    | .ok c1 => packFields L li isNew dataValue fields ms c1
    | .error e => .error e

/-- The variables that the row loop of `Load` updates: the heap, the string pool
and `newIndexes[0 .. newRecords)`; `newRecords` is the length of that list. -/
structure Pass where
  heap : Heap
  stringPool : List Addr
  newIndexes : List Nat
  deriving DecidableEq, Repr

/-- The count `newRecords`. -/
def Pass.newRecords (p : Pass) : Nat := p.newIndexes.length

/-- The body of the `do ... while (result->NextRow())` loop of `Load` for the
fetched row `fields`. `tempDataTable` is the start of the provisional buffer. -/
def loadRow (L : Layout) (li : DB2LoadInfo) (indexTable : List (Option Addr))
    (tempDataTable : Addr) (fields : List Field) (p : Pass) : Except Fault Pass :=
  let recordSize := li.Meta.GetRecordSize
  match fields[li.Meta.GetDbIndexField]? with
  | none => .error .outOfBounds
  | some idCell =>
    let indexValue := idCell.GetUInt32
    match indexTable[indexValue]? with
    | none => .error .outOfBounds
    | some entry =>
      let isNew := entry.isNone
      let dataValue := entry.getD (tempDataTable.add (p.newRecords * recordSize))
      let newIndexes := if isNew then p.newIndexes ++ [indexValue] else p.newIndexes
      let c0 : Cursor := { f := 0, offset := 0, heap := p.heap, stringPool := p.stringPool }
      match (if li.Meta.HasIndexFieldInData then Except.ok c0
          else storeValue dataValue c0 4 (leBytes 4 indexValue)) with
      | .error e => .error e
      | .ok c1 =>
        match packFields L li isNew dataValue fields li.Meta.Fields c1 with
        | .error e => .error e
        | .ok c2 =>
          if c2.offset = recordSize then
            .ok { heap := c2.heap, stringPool := c2.stringPool, newIndexes := newIndexes }
          else .error .abort

/-- The row loop over all rows of the result, in order. -/
def loadRows (L : Layout) (li : DB2LoadInfo) (indexTable : List (Option Addr))
    (tempDataTable : Addr) : List (List Field) → Pass → Except Fault Pass
  | [], p => .ok p
  | fields :: rest, p =>
    match loadRow L li indexTable tempDataTable fields p with
    | .ok p1 => loadRows L li indexTable tempDataTable rest p1
    | .error e => .error e

/-- The table size chosen by the resize step: `records`, or the max-ID hint
truncated to `uint32` when a hint exists and exceeds `records`. -/
def targetSize (records : Nat) (maxIdResult : Option Field) : Nat :=
  match maxIdResult with
  | some cell => if cell.GetUInt64 % 2 ^ 32 > records then cell.GetUInt64 % 2 ^ 32 else records
  | none => records

/-- The resize step: a larger table gets a new zeroed array into which the first
`records` entries of the old array are copied. -/
def resizeIndexTable (records indexTableSize : Nat) (indexTable : List (Option Addr)) :
    Except Fault (List (Option Addr)) :=
  if indexTableSize > records then
    if records ≤ indexTable.length then
      .ok (indexTable.take records ++ List.replicate (indexTableSize - records) none)
    else .error .outOfBounds
  else .ok indexTable

/-- The loop that inserts the new records into the index table and lowers
`minId`; `i` is the loop counter. -/
def insertNew (recordSize : Nat) (dataTable : Addr) :
    List Nat → Nat → List (Option Addr) × Nat → List (Option Addr) × Nat
  | [], _, acc => acc
  | newId :: rest, i, (indexTable, minId) =>
    insertNew recordSize dataTable rest (i + 1)
      (indexTable.set newId (some (dataTable.add (i * recordSize))), min minId newId)

/-- `DB2DatabaseLoader::Load`. `result` is the result of the row query and
`maxIdResult` the first cell of the max-ID query, if it returned one. The value
is the returned buffer (or null) and the storage after the call. -/
def Load (L : Layout) (li : DB2LoadInfo) (result : Option PreparedResultSet)
    (maxIdResult : Option Field) (st : Storage) : Except Fault (Option Addr × Storage) :=
  match result with
  | none => .ok (none, st)
  | some result =>
    if li.Meta.GetDbFieldCount ≠ result.GetFieldCount then .ok (none, st)
    else do
      let recordSize := li.Meta.GetRecordSize
      let indexTableSize := targetSize st.records maxIdResult
      let indexTable ← resizeIndexTable st.records indexTableSize st.indexTable
      let tempDataTable : Addr := ⟨st.heap.length, 0⟩
      let h0 := st.heap ++ [some (List.replicate (result.GetRowCount * recordSize) (MemVal.byte 0))]
      let p ← loadRows L li indexTable tempDataTable result.rows
        { heap := h0, stringPool := st.stringPool, newIndexes := [] }
      if p.newRecords = 0 then
        .ok (none, { st with indexTable := indexTable, stringPool := p.stringPool,
                             heap := p.heap.set tempDataTable.block none })
      else
        match p.heap[tempDataTable.block]? with
        | some (some temp) =>
          let dataTable : Addr := ⟨p.heap.length, 0⟩
          let h1 := p.heap ++ [some (temp.take (p.newRecords * recordSize))]
          let (indexTable1, minId1) :=
            insertNew recordSize dataTable p.newIndexes 0 (indexTable, st.minId)
          .ok (some dataTable,
            { records := indexTableSize, indexTable := indexTable1, stringPool := p.stringPool,
              minId := minId1, heap := h1.set tempDataTable.block none })
        | _ => .error .outOfBounds

/-! ## The locale pass -/

/-- The variables that the field loops of `LoadStrings` update for one row: the
column counter `fieldIndex`, the `uint32` byte offset, the counter
`stringFieldNumInRecord`, the heap and the string pool. -/
structure StringsCursor where
  fieldIndex : Nat
  offset : Nat
  stringFieldNumInRecord : Nat
  heap : Heap
  stringPool : List Addr
  deriving DecidableEq, Repr

/-- The body of the inner loop of `LoadStrings`: the switch on
`_loadInfo->Fields[fieldIndex].Type` followed by `++fieldIndex`. Only a localized
string element writes: `AddString` on the slot of `locale`, from the next text
column of the locale row. -/
def patchElement (L : Layout) (li : DB2LoadInfo) (locale : Nat) (dataValue : Addr)
    (fields : List Field) (c : StringsCursor) : Except Fault StringsCursor :=
  match li.Fields[c.fieldIndex]? with
  | none => .error .outOfBounds
  | some fm =>
    match fm.Type_ with
    | .FT_FLOAT =>
      .ok { c with offset := (c.offset + 4) % 2 ^ 32, fieldIndex := c.fieldIndex + 1 }
    | .FT_INT =>
      .ok { c with offset := (c.offset + 4) % 2 ^ 32, fieldIndex := c.fieldIndex + 1 }
    | .FT_BYTE =>
      .ok { c with offset := (c.offset + 1) % 2 ^ 32, fieldIndex := c.fieldIndex + 1 }
    | .FT_SHORT =>
      .ok { c with offset := (c.offset + 2) % 2 ^ 32, fieldIndex := c.fieldIndex + 1 }
    | .FT_LONG =>
      .ok { c with offset := (c.offset + 8) % 2 ^ 32, fieldIndex := c.fieldIndex + 1 }
    | .FT_STRING =>
      let db2str := dataValue.add c.offset
      match column fields (1 + c.stringFieldNumInRecord) with
      | .error e => .error e
      | .ok cell =>
        match AddString L c.heap (db2str.add (locale * L.ptrSize)) cell.GetStringView with
        | .error e => .error e
        | .ok (str, h1) =>
          .ok { fieldIndex := c.fieldIndex + 1,
                offset := (c.offset + L.sizeofLocalizedString) % 2 ^ 32,
                stringFieldNumInRecord := c.stringFieldNumInRecord + 1,
                heap := h1,
                stringPool := match str with
                  | some s => c.stringPool ++ [s]
                  | none => c.stringPool }
    | .FT_STRING_NOT_LOCALIZED =>
      .ok { c with offset := (c.offset + L.ptrSize) % 2 ^ 32, fieldIndex := c.fieldIndex + 1 }
    | .other _ => .error .abort

/-- The inner loop `for (z = 0; z < ArraySize; ++z)` of `LoadStrings`. -/
def patchArray (L : Layout) (li : DB2LoadInfo) (locale : Nat) (dataValue : Addr)
    (fields : List Field) : Nat → StringsCursor → Except Fault StringsCursor
  | 0, c => .ok c
  | n + 1, c =>
    match patchElement L li locale dataValue fields c with
    | .ok c1 => patchArray L li locale dataValue fields n c1
    | .error e => .error e

/-- The outer loop `for (x = 0; x < fieldCount; ++x)` of `LoadStrings`. -/
def patchFields (L : Layout) (li : DB2LoadInfo) (locale : Nat) (dataValue : Addr)
    (fields : List Field) : List DB2MetaField → StringsCursor → Except Fault StringsCursor
  | [], c => .ok c
  | m :: ms, c =>
    match patchArray L li locale dataValue fields m.ArraySize c with
    | .ok c1 => patchFields L li locale dataValue fields ms c1
    | .error e => .error e

/-- The variables that the row loop of `LoadStrings` updates: the heap and the
string pool. `errors` lists the IDs that `TC_LOG_ERROR` reported, in order. -/
structure StringsPass where
  heap : Heap
  stringPool : List Addr
  errors : List Nat
  deriving DecidableEq, Repr

/-- The body of the `do ... while (result->NextRow())` loop of `LoadStrings` for
the fetched row `fields`. A `continue` in a `do ... while` loop goes on with the
loop condition, that is with the next row. -/
def loadStringsRow (L : Layout) (li : DB2LoadInfo) (locale records : Nat)
    (indexTable : List (Option Addr)) (fields : List Field) (s : StringsPass) :
    Except Fault StringsPass :=
  match fields[0]? with
  | none => .error .outOfBounds
  | some idCell =>
    let indexValue := idCell.GetUInt32
    if indexValue ≥ records then .ok s
    else
      match indexTable[indexValue]? with
      | none => .error .outOfBounds
      | some none => .ok { s with errors := s.errors ++ [indexValue] }
      | some (some dataValue) =>
        let c0 : StringsCursor :=
          if li.Meta.HasIndexFieldInData then
            { fieldIndex := 0, offset := 0, stringFieldNumInRecord := 0,
              heap := s.heap, stringPool := s.stringPool }
          else
            { fieldIndex := 1, offset := 4, stringFieldNumInRecord := 0,
              heap := s.heap, stringPool := s.stringPool }
        match patchFields L li locale dataValue fields li.Meta.Fields c0 with
        | .error e => .error e
        | .ok c =>
          if c.offset = li.Meta.GetRecordSize then
            .ok { heap := c.heap, stringPool := c.stringPool, errors := s.errors }
          else .error .abort

/-- The row loop of `LoadStrings` over all rows of the result, in order. -/
def loadStringsRows (L : Layout) (li : DB2LoadInfo) (locale records : Nat)
    (indexTable : List (Option Addr)) : List (List Field) → StringsPass →
    Except Fault StringsPass
  | [], s => .ok s
  | fields :: rest, s =>
    match loadStringsRow L li locale records indexTable fields s with
    | .ok s1 => loadStringsRows L li locale records indexTable rest s1
    | .error e => .error e

/-- `DB2DatabaseLoader::LoadStrings`. `result` is the result of the locale query,
`locale` the index of the locale in a `LocalizedString`, and `stringFields` the
value of `_loadInfo->GetStringFieldCount(true)`, an accessor defined outside the
translated file. `records` and `indexTable` are passed by value and come from the
storage. The value is the storage after the call and the IDs that were logged as
missing. -/
def LoadStrings (L : Layout) (li : DB2LoadInfo) (stringFields locale : Nat)
    (result : Option PreparedResultSet) (st : Storage) : Except Fault (Storage × List Nat) :=
  match result with
  | none => .ok (st, [])
  | some result =>
    if result.GetFieldCount ≠ stringFields + 1 then .ok (st, [])
    else
      match loadStringsRows L li locale st.records st.indexTable result.rows
          { heap := st.heap, stringPool := st.stringPool, errors := [] } with
      | .error e => .error e
      | .ok s => .ok ({ st with heap := s.heap, stringPool := s.stringPool }, s.errors)

/-! ## Vocabulary of the statements -/

deriving instance DecidableEq for Except

/-- The ID of a fetched row: `fields[indexField].GetUInt32()`. -/
def rowId (li : DB2LoadInfo) (fields : List Field) : Nat :=
  match fields[li.Meta.GetDbIndexField]? with
  | some cell => cell.GetUInt32
  | none => 0

/-- The index table that the row loop of `Load` consults: the table after the
resize step. -/
def resized (st : Storage) (maxIdResult : Option Field) : List (Option Addr) :=
  if targetSize st.records maxIdResult > st.records then
    st.indexTable.take st.records ++
      List.replicate (targetSize st.records maxIdResult - st.records) none
  else st.indexTable

/-- An ID is new for a table when its entry is inside the table and null. -/
def isNewId (indexTable : List (Option Addr)) (id : Nat) : Bool :=
  decide (indexTable[id]? = some none)

/-- The IDs of the rows that are new for a table, in row order. -/
def newIds (li : DB2LoadInfo) (indexTable : List (Option Addr)) (rows : List (List Field)) :
    List Nat :=
  (rows.map (rowId li)).filter (isNewId indexTable)

/-- The rows that are new for a table, in row order. -/
def newRows (li : DB2LoadInfo) (indexTable : List (Option Addr)) (rows : List (List Field)) :
    List (List Field) :=
  rows.filter (fun fields => isNewId indexTable (rowId li fields))

/-- The pass state with which the row loop of `Load` starts. -/
def startPass (li : DB2LoadInfo) (rs : PreparedResultSet) (st : Storage) : Pass :=
  { heap := st.heap ++
      [some (List.replicate (rs.GetRowCount * li.Meta.GetRecordSize) (MemVal.byte 0))],
    stringPool := st.stringPool, newIndexes := [] }

/-- The value of a successful execution, or `d` after a fault. -/
def okValue {α : Type} (d : α) : Except Fault α → α
  | .ok a => a
  | .error _ => d

/-- Whether an execution returned. -/
def returns {α : Type} : Except Fault α → Bool
  | .ok _ => true
  | .error _ => false

/-- A storage with an empty index table, pool and heap. -/
def emptyStorage (minId : Nat) : Storage :=
  { records := 0, indexTable := [], stringPool := [], minId := minId, heap := [] }

/-! ### Example schemas and results -/

/-- A schema with one `Int32` field that is also the index. -/
def minIdSchema : DB2LoadInfo :=
  { Fields := [⟨.FT_INT⟩],
    Meta := { Fields := [⟨.FT_INT, 1⟩], GetRecordSize := 4, GetDbFieldCount := 1,
              GetDbIndexField := 0, HasIndexFieldInData := true } }

/-- Three rows with the IDs 50, 3 and 9999. -/
def minIdRows : PreparedResultSet :=
  { fieldCount := 1, row := [.int 50], more := [[.int 3], [.int 9999]] }

/-- The three rows loaded into an empty table with the max-ID hint 10000 and an
initial `minId` of 4294967295. -/
def minIdLoad : Except Fault (Option Addr × Storage) :=
  Load layout64 minIdSchema (some minIdRows) (some (.int 10000)) (emptyStorage 4294967295)

/-- The schema of the packing example: an `Int32` field `a` and a plain string
field `b`, the ID not embedded in the record. Column 0 is the ID column. -/
def exampleSchema : DB2LoadInfo :=
  { Fields := [⟨.FT_INT⟩, ⟨.FT_INT⟩, ⟨.FT_STRING_NOT_LOCALIZED⟩],
    Meta := { Fields := [⟨.FT_INT, 1⟩, ⟨.FT_STRING_NOT_LOCALIZED, 1⟩], GetRecordSize := 16,
              GetDbFieldCount := 3, GetDbIndexField := 0, HasIndexFieldInData := false } }

/-- The bytes of the text "hello". -/
def hello : List Nat := [104, 101, 108, 108, 111]

/-- The row (id = 7, a = 42, b = "hello"). -/
def exampleRows : PreparedResultSet :=
  { fieldCount := 3, row := [.int 7, .int 42, .string hello], more := [] }

/-- The example row loaded into an empty table with the max-ID hint 8. -/
def exampleLoad : Except Fault (Option Addr × Storage) :=
  Load layout64 exampleSchema (some exampleRows) (some (.int 8)) (emptyStorage 4294967295)

/-- The heap `h'` extends `h`, keeps every live block of `h` live with its length,
and differs from `h` in no cell outside `W` (a set of block and cell numbers). -/
def Frame (W : Nat → Nat → Prop) (h h' : Heap) : Prop :=
  h.length ≤ h'.length ∧
  ∀ b data, h[b]? = some (some data) →
    ∃ data', h'[b]? = some (some data') ∧ data'.length = data.length ∧
      ∀ j, ¬ W b j → data'[j]? = data[j]?

/-- The cells `lo ≤ j < hi` of block `b`. -/
def Region (b lo hi : Nat) : Nat → Nat → Prop := fun b' j => b' = b ∧ lo ≤ j ∧ j < hi

/-! ### The layout of a packed record -/

/-- The advance of the offset in each case of the switch of `Load`. -/
def width (L : Layout) : DBCFormer → Nat
  | .FT_FLOAT => 4
  | .FT_INT => 4
  | .FT_BYTE => 1
  | .FT_SHORT => 2
  | .FT_LONG => 8
  | .FT_STRING => L.sizeofLocalizedString
  | .FT_STRING_NOT_LOCALIZED => L.ptrSize
  | .other _ => 0

/-- The type of column `f`, `_loadInfo->Fields[f].Type`. -/
def typeAt (li : DB2LoadInfo) (f : Nat) : DBCFormer :=
  match li.Fields[f]? with
  | some fm => fm.Type_
  | none => .other 0

/-- The cell `fields[f]` of a row. -/
def cellAt (fields : List Field) (f : Nat) : Field :=
  match fields[f]? with
  | some cell => cell
  | none => .int 0

/-- The string slot value `q` stands for `text`: the sentinel for the empty text,
and otherwise a string of the pool, allocated in block `lo` or later, that holds
the text and a terminating NUL. -/
def StrRef (pool : List Addr) (lo : Nat) (h : Heap) (q : CStr) (text : List Nat) : Prop :=
  (text = [] ∧ q = nullStr) ∨
  (text ≠ [] ∧ ∃ b, q = CStr.heap ⟨b, 0⟩ ∧ lo ≤ b ∧ (⟨b, 0⟩ : Addr) ∈ pool ∧
    h[b]? = some (some (text.map MemVal.byte ++ [MemVal.byte 0])))

/-- The element of type `ty` at address `a` of a new record holds the cell. -/
def ElemPacked (L : Layout) (pool : List Addr) (lo : Nat) (h : Heap) (ty : DBCFormer)
    (cell : Field) (a : Addr) : Prop :=
  match ty with
  | .FT_FLOAT => fetch h a 4 = some (leBytes 4 cell.GetFloat)
  | .FT_INT => fetch h a 4 = some (intBytes 4 cell.GetInt32)
  | .FT_BYTE => fetch h a 1 = some (intBytes 1 cell.GetInt8)
  | .FT_SHORT => fetch h a 2 = some (intBytes 2 cell.GetInt16)
  | .FT_LONG => fetch h a 8 = some (intBytes 8 cell.GetInt64)
  | .FT_STRING =>
    ∀ i, i < L.TOTAL_LOCALES →
      ∃ q, fetch h (a.add (i * L.ptrSize)) L.ptrSize = some (ptrBytes L.ptrSize q) ∧
        (if i = L.LOCALE_enUS then StrRef pool lo h q cell.GetStringView else q = nullStr)
  | .FT_STRING_NOT_LOCALIZED =>
    ∃ q, fetch h a L.ptrSize = some (ptrBytes L.ptrSize q) ∧
      StrRef pool lo h q cell.GetStringView
  | .other _ => False

/-- The sum of the widths of the `n` columns from column `f` on. -/
def sumWidths (L : Layout) (li : DB2LoadInfo) : Nat → Nat → Nat
  | _, 0 => 0
  | f, n + 1 => width L (typeAt li f) + sumWidths L li (f + 1) n

/-- The `n` elements from column `f` on, laid out from offset `off` of the new
record at `dv`, hold the cells of the row. -/
def ElemsPacked (L : Layout) (li : DB2LoadInfo) (pool : List Addr) (lo : Nat) (h : Heap)
    (fields : List Field) (dv : Addr) : Nat → Nat → Nat → Prop
  | 0, _, _ => True
  | n + 1, f, off =>
    ElemPacked L pool lo h (typeAt li f) (cellAt fields f) (dv.add off) ∧
    ElemsPacked L li pool lo h fields dv n (f + 1) (off + width L (typeAt li f))

/-- The number of packed elements of a schema: the sum of the array sizes. -/
def totalElems (ms : List DB2MetaField) : Nat := (ms.map (fun m => m.ArraySize)).sum

/-- Every read inside the `n` bytes at `a` in `h` gives the same cells at `a'` in
`h'`. -/
def SameBytes (h : Heap) (a : Addr) (h' : Heap) (a' : Addr) (n : Nat) : Prop :=
  ∀ off len v, off + len ≤ n → fetch h (a.add off) len = some v →
    fetch h' (a'.add off) len = some v

/-- Every live block numbered `lo` or higher is the same in `h'`. -/
def KeepsBlocks (lo : Nat) (h h' : Heap) : Prop :=
  ∀ b d, lo ≤ b → h[b]? = some (some d) → h'[b]? = some (some d)

/-- The bytes that a prepended ID takes: 4 when the index is not embedded. -/
def idWidth (li : DB2LoadInfo) : Nat := if li.Meta.HasIndexFieldInData then 0 else 4

/-- The first column that holds a declared field: column 0 is the ID column when
the index is not embedded. -/
def firstColumn (li : DB2LoadInfo) : Nat := if li.Meta.HasIndexFieldInData then 0 else 1

/-- The sum of the packed widths of a schema, the prepended ID included. -/
def packedSize (L : Layout) (li : DB2LoadInfo) : Nat :=
  idWidth li + sumWidths L li (firstColumn li) (totalElems li.Meta.Fields)

/-- The new record at `dv` holds the row: the prepended ID when the index is not
embedded, and every declared element at its offset. -/
def RowPacked (L : Layout) (li : DB2LoadInfo) (pool : List Addr) (lo : Nat) (h : Heap)
    (fields : List Field) (dv : Addr) : Prop :=
  (li.Meta.HasIndexFieldInData = false → fetch h dv 4 = some (leBytes 4 (rowId li fields))) ∧
  ElemsPacked L li pool lo h fields dv (totalElems li.Meta.Fields) (firstColumn li) (idWidth li)

/-- The record that `loadRow` writes for a row: the existing record of the ID, or
the next free record of the provisional buffer. -/
def targetOf (li : DB2LoadInfo) (tbl : List (Option Addr)) (temp : Addr) (p : Pass)
    (fields : List Field) : Addr :=
  match tbl[rowId li fields]? with
  | some (some a) => a
  | _ => temp.add (p.newRecords * li.Meta.GetRecordSize)

/-- Every populated entry of the table points into a block below `tb`. -/
def EntriesBelow (tbl : List (Option Addr)) (tb : Nat) : Prop :=
  ∀ (id : Nat) (a : Addr), tbl[id]? = some (some a) → a.block < tb

/-! ### Decoding a record -/

/-- A decoded element: a float by its bit pattern, an integer by its value, a
string by its content together with whether its slot holds the sentinel. -/
inductive Value
  | float (bits : Nat)
  | int (v : Int)
  | text (sentinel : Bool) (s : List Nat)
  deriving DecidableEq, Repr

/-- The value that the cell of a row gives to an element of type `ty`. -/
def expected (ty : DBCFormer) (cell : Field) : Option Value :=
  match ty with
  | .FT_FLOAT => some (.float cell.GetFloat)
  | .FT_INT => some (.int cell.GetInt32)
  | .FT_BYTE => some (.int cell.GetInt8)
  | .FT_SHORT => some (.int cell.GetInt16)
  | .FT_LONG => some (.int cell.GetInt64)
  | .FT_STRING => some (.text (decide (cell.GetStringView = [])) cell.GetStringView)
  | .FT_STRING_NOT_LOCALIZED =>
    some (.text (decide (cell.GetStringView = [])) cell.GetStringView)
  | .other _ => none

/-- Read the string slot at `a`: the pointer it holds and, through the string
reader `rd`, the text there. -/
def readString (L : Layout) (rd : Heap → CStr → Option (List Nat)) (h : Heap) (a : Addr) :
    Option Value :=
  match fetch h a L.ptrSize with
  | none => none
  | some vs =>
    match ptrValue L.ptrSize vs with
    | none => none
    | some q => (rd h q).map (Value.text (decide (q = nullStr)))

/-- Decode the element of type `ty` at address `a`; a localized string is read
from its base-locale slot. -/
def decodeElement (L : Layout) (rd : Heap → CStr → Option (List Nat)) (h : Heap)
    (ty : DBCFormer) (a : Addr) : Option Value :=
  match ty with
  | .FT_FLOAT => ((fetch h a 4).bind leValue).map Value.float
  | .FT_INT => ((fetch h a 4).bind (intValue 4)).map Value.int
  | .FT_BYTE => ((fetch h a 1).bind (intValue 1)).map Value.int
  | .FT_SHORT => ((fetch h a 2).bind (intValue 2)).map Value.int
  | .FT_LONG => ((fetch h a 8).bind (intValue 8)).map Value.int
  | .FT_STRING => readString L rd h (a.add (L.LOCALE_enUS * L.ptrSize))
  | .FT_STRING_NOT_LOCALIZED => readString L rd h a
  | .other _ => none

/-- Decode the `n` elements from column `f` on at the schema's field offsets,
starting at offset `off` of the record at `dv`. -/
def decodeElems (L : Layout) (li : DB2LoadInfo) (rd : Heap → CStr → Option (List Nat))
    (h : Heap) (dv : Addr) : Nat → Nat → Nat → Option (List Value)
  | 0, _, _ => some []
  | n + 1, f, off =>
    match decodeElement L rd h (typeAt li f) (dv.add off),
        decodeElems L li rd h dv n (f + 1) (off + width L (typeAt li f)) with
    | some v, some vs => some (v :: vs)
    | _, _ => none

/-- The values that a row gives to the `n` elements from column `f` on. -/
def expectedElems (li : DB2LoadInfo) (fields : List Field) : Nat → Nat → Option (List Value)
  | 0, _ => some []
  | n + 1, f =>
    match expected (typeAt li f) (cellAt fields f), expectedElems li fields n (f + 1) with
    | some v, some vs => some (v :: vs)
    | _, _ => none

/-- Decode the record at `dv`: the prepended ID, when the index is not embedded,
followed by all declared elements. Strings are read with `rd`: `pooledText` gives
the content of the string allocation, `readCStr` the C string. -/
def decodeRecord (L : Layout) (li : DB2LoadInfo) (rd : Heap → CStr → Option (List Nat))
    (h : Heap) (dv : Addr) : Option (List Value) :=
  if li.Meta.HasIndexFieldInData then
    decodeElems L li rd h dv (totalElems li.Meta.Fields) 0 0
  else
    match (fetch h dv 4).bind leValue,
        decodeElems L li rd h dv (totalElems li.Meta.Fields) 1 4 with
    | some id, some vs => some (Value.int id :: vs)
    | _, _ => none

/-- The values of a row: its ID, when the index is not embedded, followed by the
values of all declared elements. -/
def expectedRecord (li : DB2LoadInfo) (fields : List Field) : Option (List Value) :=
  if li.Meta.HasIndexFieldInData then
    expectedElems li fields (totalElems li.Meta.Fields) 0
  else
    (expectedElems li fields (totalElems li.Meta.Fields) 1).map
      (fun vs => Value.int (rowId li fields) :: vs)

/-- No string cell of the row contains a NUL byte. -/
def NulFree (fields : List Field) : Prop :=
  ∀ cell ∈ fields, ∀ x ∈ cell.GetStringView, x ≠ 0

/-- A string reader gives, for the sentinel, the empty text and, for a pointer to
an allocation that holds `text` and a terminating NUL, `text`. -/
def ReadsText (rd : Heap → CStr → Option (List Nat)) (text : List Nat) : Prop :=
  (∀ h, rd h CStr.nullStr = some []) ∧
  ∀ h b, h[b]? = some (some (text.map MemVal.byte ++ [MemVal.byte 0])) →
    rd h (CStr.heap ⟨b, 0⟩) = some text

/-- The offset of the `k`-th packed element of a record: the width of a prepended
ID plus the widths of all earlier elements. -/
def elemOffset (L : Layout) (li : DB2LoadInfo) (k : Nat) : Nat :=
  idWidth li + sumWidths L li (firstColumn li) k

/-- The schema with the same declared fields and the index embedded in the
record: the ID column is dropped from the column descriptors. -/
def withEmbeddedIndex (li : DB2LoadInfo) : DB2LoadInfo :=
  { Fields := li.Fields.drop (firstColumn li),
    Meta := { li.Meta with HasIndexFieldInData := true } }

/-- A schema with one localized string field, the ID not embedded in the record. -/
def localizedSchema : DB2LoadInfo :=
  { Fields := [⟨.FT_INT⟩, ⟨.FT_STRING⟩],
    Meta := { Fields := [⟨.FT_STRING, 1⟩], GetRecordSize := 100,
              GetDbFieldCount := 2, GetDbIndexField := 0, HasIndexFieldInData := false } }

/-- The row (id = 7, "hello"). -/
def localizedRows : PreparedResultSet :=
  { fieldCount := 2, row := [.int 7, .string hello], more := [] }

/-- The localized example row loaded into an empty table with the max-ID hint 8. -/
def localizedLoad : Except Fault (Option Addr × Storage) :=
  Load layout64 localizedSchema (some localizedRows) (some (.int 8)) (emptyStorage 4294967295)

/-- The records of two different IDs do not overlap. -/
def RecordsDisjoint (recordSize : Nat) (tbl : List (Option Addr)) : Prop :=
  ∀ (id1 id2 : Nat) (a1 a2 : Addr), id1 ≠ id2 →
    tbl[id1]? = some (some a1) → tbl[id2]? = some (some a2) →
    a1.block ≠ a2.block ∨ a1.off + recordSize ≤ a2.off ∨ a2.off + recordSize ≤ a1.off

/-- The invariant of a storage that the frame properties of `Load` rely on: every
index entry points into an existing block, and the records of different IDs do
not overlap. -/
def StoreInv (li : DB2LoadInfo) (st : Storage) : Prop :=
  EntriesBelow st.indexTable st.heap.length ∧
  RecordsDisjoint li.Meta.GetRecordSize st.indexTable

/-- The cells that the rows of a pass may write in blocks that existed before the
pass: the records of the rows whose ID is present. -/
def Touched (li : DB2LoadInfo) (tbl : List (Option Addr)) (rows : List (List Field)) :
    Nat → Nat → Prop :=
  fun b j => ∃ fields ∈ rows, ∃ a, tbl[rowId li fields]? = some (some a) ∧
    Region a.block a.off (a.off + li.Meta.GetRecordSize) b j

/-- The storage after the example load. -/
def exampleStorage : Storage := (okValue (none, emptyStorage 0) exampleLoad).2

/-- The row (id = 7, a = 43, b = "hello"): the ID of the example row with another
value of `a`. -/
def overwriteRows : PreparedResultSet :=
  { fieldCount := 3, row := [.int 7, .int 43, .string hello], more := [] }

/-- A second load, of a row with the ID that the example load inserted. -/
def overwriteLoad : Except Fault (Option Addr × Storage) :=
  Load layout64 exampleSchema (some overwriteRows) (some (.int 8)) exampleStorage

/-- The row (id = 5, a = 1, b = ""), with an ID that the example load did not
insert. -/
def otherRows : PreparedResultSet :=
  { fieldCount := 3, row := [.int 5, .int 1, .string []], more := [] }

/-- A second load, of a row with another ID. -/
def otherLoad : Except Fault (Option Addr × Storage) :=
  Load layout64 exampleSchema (some otherRows) (some (.int 8)) exampleStorage

/-! ### Preconditions of a pass -/

/-- The `n` cells at `a` lie inside a live allocation. -/
def Valid (h : Heap) (a : Addr) (n : Nat) : Prop :=
  ∃ data, h[a.block]? = some (some data) ∧ a.off + n ≤ data.length

/-- The schema is consistent: the column descriptors cover all packed columns with
known types, and the packed widths sum to the record size, a `uint32`. -/
def SchemaOk (L : Layout) (li : DB2LoadInfo) : Prop :=
  L.LOCALE_enUS < L.TOTAL_LOCALES ∧
  packedSize L li = li.Meta.GetRecordSize ∧ li.Meta.GetRecordSize < 2 ^ 32 ∧
  ∀ k, k < totalElems li.Meta.Fields →
    firstColumn li + k < li.Fields.length ∧
    ∀ c, typeAt li (firstColumn li + k) ≠ DBCFormer.other c

/-- A row fits the schema and the table: it has the ID column and all packed
columns, and its ID lies inside the table. -/
def RowOk (li : DB2LoadInfo) (tbl : List (Option Addr)) (fields : List Field) : Prop :=
  li.Meta.GetDbIndexField < fields.length ∧
  firstColumn li + totalElems li.Meta.Fields ≤ fields.length ∧
  rowId li fields < tbl.length

/-- Every record of the table is a live region of the heap. -/
def RecordsValid (li : DB2LoadInfo) (tbl : List (Option Addr)) (h : Heap) : Prop :=
  ∀ (id : Nat) (a : Addr), tbl[id]? = some (some a) → Valid h a li.Meta.GetRecordSize

/-- The precondition under which `Load` returns: a consistent schema, rows that
fit the schema and the table after the resize step, a reported size within the
allocated table, and valid records. -/
def LoadPre (L : Layout) (li : DB2LoadInfo) (rs : PreparedResultSet) (hint : Option Field)
    (st : Storage) : Prop :=
  SchemaOk L li ∧
  st.records ≤ st.indexTable.length ∧
  RecordsValid li st.indexTable st.heap ∧
  ∀ fields ∈ rs.rows, RowOk li (resized st hint) fields

/-- The packing example with a declared record size of 20 bytes, 4 more than the
packed widths. -/
def mismatchSchema : DB2LoadInfo :=
  { exampleSchema with Meta := { exampleSchema.Meta with GetRecordSize := 20 } }

/-- The example row loaded with the schema whose record size does not match. -/
def mismatchLoad : Except Fault (Option Addr × Storage) :=
  Load layout64 mismatchSchema (some exampleRows) (some (.int 8)) (emptyStorage 4294967295)

/-! ### The locale pass -/

/-- The ID of a fetched locale row: `fields[0].GetUInt32()`. -/
def localeRowId (fields : List Field) : Nat :=
  match fields[0]? with
  | some cell => cell.GetUInt32
  | none => 0

/-- The cursor with which the field loops of `LoadStrings` start on a record. -/
def startCursor (li : DB2LoadInfo) (s : StringsPass) : StringsCursor :=
  { fieldIndex := firstColumn li, offset := idWidth li, stringFieldNumInRecord := 0,
    heap := s.heap, stringPool := s.stringPool }

/-- The cells of the `locale` slots of the localized string elements among the `n`
elements from column `f` on, laid out from offset `off` of the record at `dv`. -/
def SlotsFrom (L : Layout) (li : DB2LoadInfo) (locale : Nat) (dv : Addr) (f off n : Nat) :
    Nat → Nat → Prop :=
  fun b j => ∃ k, k < n ∧ typeAt li (f + k) = DBCFormer.FT_STRING ∧
    Region dv.block (dv.off + (off + sumWidths L li f k) + locale * L.ptrSize)
      (dv.off + (off + sumWidths L li f k) + locale * L.ptrSize + L.ptrSize) b j

/-- The cells of the `locale` slots of all localized string elements of the
record at `a`. -/
def LocaleSlots (L : Layout) (li : DB2LoadInfo) (locale : Nat) (a : Addr) :
    Nat → Nat → Prop :=
  SlotsFrom L li locale a (firstColumn li) (idWidth li) (totalElems li.Meta.Fields)

/-- The cells that a locale pass may write: the `locale` slots of the records whose
IDs occur in the locale rows. -/
def Patched (L : Layout) (li : DB2LoadInfo) (locale records : Nat)
    (tbl : List (Option Addr)) (rows : List (List Field)) : Nat → Nat → Prop :=
  fun b j => ∃ fields ∈ rows, ∃ a, localeRowId fields < records ∧
    tbl[localeRowId fields]? = some (some a) ∧ LocaleSlots L li locale a b j

/-- The packing example with the format character 'x' (120), which is none of the
seven types, in place of the plain string. -/
def unknownSchema : DB2LoadInfo :=
  { Fields := [⟨.FT_INT⟩, ⟨.FT_INT⟩, ⟨.other 120⟩],
    Meta := { Fields := [⟨.FT_INT, 1⟩, ⟨.other 120, 1⟩], GetRecordSize := 16,
              GetDbFieldCount := 3, GetDbIndexField := 0, HasIndexFieldInData := false } }

/-- The example row loaded with the schema that has an unknown type. -/
def unknownLoad : Except Fault (Option Addr × Storage) :=
  Load layout64 unknownSchema (some exampleRows) (some (.int 8)) (emptyStorage 4294967295)

/-- A locale row with the ID 7 and no text column. -/
def idOnlyRows : PreparedResultSet := { fieldCount := 1, row := [.int 7], more := [] }

/-- A locale pass with the schema that has an unknown type, over the storage of the
packing example, in which the ID 7 is present. -/
def unknownPatch : Except Fault (Storage × List Nat) :=
  LoadStrings layout64 unknownSchema 0 2 (some idOnlyRows) exampleStorage

/-- Three rows with the IDs 0, 1 and 1. -/
def crowdedRows : PreparedResultSet :=
  { fieldCount := 1, row := [.int 0], more := [[.int 1], [.int 1]] }

/-- The three rows loaded into an empty table with the max-ID hint 2. -/
def crowdedLoad : Except Fault (Option Addr × Storage) :=
  Load layout64 minIdSchema (some crowdedRows) (some (.int 2)) (emptyStorage 4294967295)

/-- Two rows: (id = 7, a = 43, b = "hello"), whose ID the example load inserted,
and (id = 5, a = 1, b = ""), whose ID is new. -/
def mixedRows : PreparedResultSet :=
  { fieldCount := 3, row := [.int 7, .int 43, .string hello],
    more := [[.int 5, .int 1, .string []]] }

/-- A second load, of one row with a present ID and one row with a new ID. -/
def mixedLoad : Except Fault (Option Addr × Storage) :=
  Load layout64 exampleSchema (some mixedRows) (some (.int 8)) exampleStorage

/-- Two rows with new IDs: (id = 5, a = 1, b = "") and (id = 3, a = 2, b = "hello"). -/
def twoRows : PreparedResultSet :=
  { fieldCount := 3, row := [.int 5, .int 1, .string []],
    more := [[.int 3, .int 2, .string hello]] }

/-- A second load, of two rows with new IDs. -/
def twoLoad : Except Fault (Option Addr × Storage) :=
  Load layout64 exampleSchema (some twoRows) (some (.int 8)) exampleStorage

/-- A second load with the max-ID hint 10, which grows the table of the example
from 8 to 10 entries. -/
def grownLoad : Except Fault (Option Addr × Storage) :=
  Load layout64 exampleSchema (some otherRows) (some (.int 10)) exampleStorage

/-- The storage after the load of the localized example row. -/
def localizedStorage : Storage := (okValue (none, emptyStorage 0) localizedLoad).2

/-- A locale other than enUS for the examples: the index 2, which is frFR in
`LocaleConstant`. -/
def LOCALE_frFR : Nat := 2

/-- The bytes of the text "bonjour". -/
def bonjour : List Nat := [98, 111, 110, 106, 111, 117, 114]

/-- The locale row (id = 7, "bonjour"). -/
def patchRows : PreparedResultSet :=
  { fieldCount := 2, row := [.int 7, .string bonjour], more := [] }

/-- The locale pass for frFR with the row (7, "bonjour") after the localized
example load. -/
def patchLoad : Except Fault (Storage × List Nat) :=
  LoadStrings layout64 localizedSchema 1 LOCALE_frFR (some patchRows) localizedStorage

/-- The locale row (id = 12345, "bonjour"), whose ID is not in the table. -/
def danglingRows : PreparedResultSet :=
  { fieldCount := 2, row := [.int 12345, .string bonjour], more := [] }

/-- The locale pass for frFR with the dangling row after the localized example
load. -/
def danglingLoad : Except Fault (Storage × List Nat) :=
  LoadStrings layout64 localizedSchema 1 LOCALE_frFR (some danglingRows) localizedStorage

/-- The locale rows (id = 3, "bonjour"), whose entry is null, and (7, "bonjour"). -/
def nullEntryRows : PreparedResultSet :=
  { fieldCount := 2, row := [.int 3, .string bonjour], more := [[.int 7, .string bonjour]] }

/-- The locale pass for frFR with a row of a null entry followed by a row of a
present ID, after the localized example load. -/
def nullEntryLoad : Except Fault (Storage × List Nat) :=
  LoadStrings layout64 localizedSchema 1 LOCALE_frFR (some nullEntryRows) localizedStorage

/-- Two rows with the same new ID: (id = 5, a = 1, b = "") and
(id = 5, a = 2, b = "hello"). -/
def dupRows : PreparedResultSet :=
  { fieldCount := 3, row := [.int 5, .int 1, .string []],
    more := [[.int 5, .int 2, .string hello]] }

/-- A second load, of two rows with the same new ID. -/
def dupLoad : Except Fault (Option Addr × Storage) :=
  Load layout64 exampleSchema (some dupRows) (some (.int 8)) exampleStorage

/-- A load of a row with a present ID and the max-ID hint 10: the table of the
example is grown to 10 entries and no row is new. -/
def grownNoNewLoad : Except Fault (Option Addr × Storage) :=
  Load layout64 exampleSchema (some overwriteRows) (some (.int 10)) exampleStorage

/-- The storage after the load that grew the table without a new row. -/
def grownStorage : Storage := (okValue (none, emptyStorage 0) grownNoNewLoad).2

/-- A load without a max-ID hint of a row with the new ID 5 into the grown
storage. -/
def lateLoad : Except Fault (Option Addr × Storage) :=
  Load layout64 exampleSchema (some otherRows) none grownStorage

/-- The number of localized string elements among the `n` elements from column `f`
on. -/
def countStrings (li : DB2LoadInfo) : Nat → Nat → Nat
  | _, 0 => 0
  | f, n + 1 => (if typeAt li f = DBCFormer.FT_STRING then 1 else 0) + countStrings li (f + 1) n

/-- The column of a locale row that holds the text for the `k`-th packed element:
`1 + stringFieldNumInRecord`, one more than the number of localized string
elements before it. -/
def textColumn (li : DB2LoadInfo) (k : Nat) : Nat := 1 + countStrings li (firstColumn li) k

/-- The address of the slot of `locale` in the `k`-th packed element of the record
at `a`. -/
def localeSlot (L : Layout) (li : DB2LoadInfo) (locale : Nat) (a : Addr) (k : Nat) : Addr :=
  (a.add (elemOffset L li k)).add (locale * L.ptrSize)

/-- The pass state with which the row loop of `LoadStrings` starts. -/
def startStrings (st : Storage) : StringsPass :=
  { heap := st.heap, stringPool := st.stringPool, errors := [] }

/-- The storage after the locale pass of the example. -/
def patchedStorage : Storage := (okValue (emptyStorage 0, []) patchLoad).1

/-- The bytes of the text "salut". -/
def salut : List Nat := [115, 97, 108, 117, 116]

/-- The body of the row loop for the locale row (7, "salut") on the storage in
which the frFR slot of the record already refers to "bonjour". -/
def repatchRowStep : Except Fault StringsPass :=
  loadStringsRow layout64 localizedSchema LOCALE_frFR patchedStorage.records
    patchedStorage.indexTable [.int 7, .string salut] (startStrings patchedStorage)

/-- A second locale pass for frFR, with the row (7, "salut"), after the locale
pass of the example. -/
def repatchLoad : Except Fault (Storage × List Nat) :=
  LoadStrings layout64 localizedSchema 1 LOCALE_frFR
    (some { fieldCount := 2, row := [.int 7, .string salut], more := [] }) patchedStorage

/-- The text "world". -/
def world : List Nat := [119, 111, 114, 108, 100]

/-- The string slot at `slot` holds the sentinel `nullStr` or the address of an
entry of the string pool. -/
def SlotOwned (L : Layout) (pool : List Addr) (h : Heap) (slot : Addr) : Prop :=
  ∃ q, fetch h slot L.ptrSize = some (ptrBytes L.ptrSize q) ∧
    (q = nullStr ∨ ∃ s ∈ pool, q = CStr.heap s)

/-- Every string slot of the record at `a` is owned: the slot of each
`FT_STRING_NOT_LOCALIZED` element, and each of the `TOTAL_LOCALES` slots of each
`FT_STRING` element. -/
def RecordOwned (L : Layout) (li : DB2LoadInfo) (pool : List Addr) (h : Heap) (a : Addr) :
    Prop :=
  ∀ k, k < totalElems li.Meta.Fields →
    (typeAt li (firstColumn li + k) = DBCFormer.FT_STRING_NOT_LOCALIZED →
      SlotOwned L pool h (a.add (elemOffset L li k))) ∧
    (typeAt li (firstColumn li + k) = DBCFormer.FT_STRING →
      ∀ i, i < L.TOTAL_LOCALES → SlotOwned L pool h (localeSlot L li i a k))

/-- Every record that an entry of the index table `tbl` points to is owned. -/
def Owned (L : Layout) (li : DB2LoadInfo) (tbl : List (Option Addr)) (pool : List Addr)
    (h : Heap) : Prop :=
  ∀ (id : Nat) (a : Addr), tbl[id]? = some (some a) → RecordOwned L li pool h a

/-- A call of one of the two entry points of the loader, with its arguments. -/
inductive Call
  | load (result : Option PreparedResultSet) (maxIdResult : Option Field)
  | loadStrings (stringFields locale : Nat) (result : Option PreparedResultSet)
  deriving DecidableEq, Repr

/-- Whether a call passes a locale that has a slot in a localized string. -/
def Call.localeOk (L : Layout) : Call → Bool
  | .load _ _ => true
  | .loadStrings _ locale _ => decide (locale < L.TOTAL_LOCALES)

/-- A sequence of `Load` and `LoadStrings` calls of one loader on the same
`records`, `indexTable`, `stringPool` and `minId`, each call starting from the
storage that the call before it left. -/
def runCalls (L : Layout) (li : DB2LoadInfo) : List Call → Storage → Except Fault Storage
  | [], st => .ok st
  | .load result maxIdResult :: rest, st =>
    match Load L li result maxIdResult st with
    | .ok (_, st1) => runCalls L li rest st1
    | .error e => .error e
  | .loadStrings stringFields locale result :: rest, st =>
    match LoadStrings L li stringFields locale result st with
    | .ok (st1, _) => runCalls L li rest st1
    | .error e => .error e

/-- The calls of the examples: the localized example load, the frFR locale pass
with "bonjour", a load of the row (7, "world") and a frFR locale pass with
"salut". -/
def exampleCalls : List Call :=
  [ .load (some localizedRows) (some (.int 8)),
    .loadStrings 1 LOCALE_frFR (some patchRows),
    .load (some ⟨2, [.int 7, .string world], []⟩) (some (.int 8)),
    .loadStrings 1 LOCALE_frFR (some ⟨2, [.int 7, .string salut], []⟩) ]

/-- The storage after the calls of the examples on an empty storage. -/
def exampleRun : Except Fault Storage :=
  runCalls layout64 localizedSchema exampleCalls (emptyStorage 4294967295)

/-- The row (id = 9, a = 1, b = ""): its ID is not below the reported size 8 of
the grown storage and lies inside its table of 10 entries. -/
def beyondRows : PreparedResultSet :=
  { fieldCount := 3, row := [.int 9, .int 1, .string []], more := [] }

/-- A load without a max-ID hint of the row with the ID 9 into the grown storage. -/
def beyondLoad : Except Fault (Option Addr × Storage) :=
  Load layout64 exampleSchema (some beyondRows) none grownStorage

/-- The storage after the load of the ID 9 into the grown storage: the entry 9 is
populated and the reported size is 8. -/
def beyondStorage : Storage := (okValue (none, emptyStorage 0) beyondLoad).2

/-- A load of a row with the new ID 5 and the max-ID hint 12 into the storage
whose entry 9 is populated beyond the reported size. -/
def regrownLoad : Except Fault (Option Addr × Storage) :=
  Load layout64 exampleSchema (some otherRows) (some (.int 12)) beyondStorage

/-- A load of a row with the present ID 7 and the max-ID hint 12 into the storage
whose entry 9 is populated beyond the reported size. -/
def regrownNoNewLoad : Except Fault (Option Addr × Storage) :=
  Load layout64 exampleSchema (some overwriteRows) (some (.int 12)) beyondStorage

/-- A result with one row of two columns, one column less than the schemas of the
packing examples have. -/
def shortRows : PreparedResultSet := { fieldCount := 2, row := [.int 7, .int 42], more := [] }

/-- The two-column result loaded with the schema whose record size does not
match. -/
def shortMismatchLoad : Except Fault (Option Addr × Storage) :=
  Load layout64 mismatchSchema (some shortRows) (some (.int 8)) (emptyStorage 4294967295)

/-- The two-column result loaded with the schema that has an unknown type. -/
def shortUnknownLoad : Except Fault (Option Addr × Storage) :=
  Load layout64 unknownSchema (some shortRows) (some (.int 8)) (emptyStorage 4294967295)

/-- A locale pass with the schema that has an unknown type and no localized string
over a result of two columns, whose row has the present ID 7. -/
def wideUnknownPatch : Except Fault (Storage × List Nat) :=
  LoadStrings layout64 unknownSchema 0 2 (some patchRows) exampleStorage

/-- A locale pass with the schema that has an unknown type over the row of the ID
9, whose entry is populated beyond the reported size. -/
def beyondUnknownPatch : Except Fault (Storage × List Nat) :=
  LoadStrings layout64 unknownSchema 0 2 (some { fieldCount := 1, row := [.int 9], more := [] })
    beyondStorage

/-- The non-empty texts that the locale rows with the ID `id` carry for the `k`-th
packed element, in row order. -/
def incomingTexts (li : DB2LoadInfo) (id k : Nat) (rows : List (List Field)) :
    List (List Nat) :=
  ((rows.filter (fun fields => decide (localeRowId fields = id))).map
    (fun fields => (cellAt fields (textColumn li k)).GetStringView)).filter
    (fun t => decide (t ≠ []))

/-- The rows of a result that have the ID `id`, in row order. -/
def rowsOf (li : DB2LoadInfo) (id : Nat) (rows : List (List Field)) : List (List Field) :=
  rows.filter (fun fields => decide (rowId li fields = id))

/-- The non-empty texts that the rows with the ID `id` carry in the column `f`, in
row order. -/
def packedTexts (li : DB2LoadInfo) (id f : Nat) (rows : List (List Field)) :
    List (List Nat) :=
  ((rowsOf li id rows).map (fun fields => (cellAt fields f).GetStringView)).filter
    (fun t => decide (t ≠ []))

/-- What the rows of a pass with the ID `id` leave in the record `a` of that ID:
the record in the heap `h'` holds the ID prefix and, in every element that is not a
localized string, the cell of the last row with the ID; the base-locale slot of a
localized string element refers to a new pool string with the last non-empty text
of these rows for the element, or reads as in the heap `h` when there is none, and
every other locale slot reads as in `h`. New strings are those of `new`, in blocks
from `lo` on. -/
def OverwrittenBy (L : Layout) (li : DB2LoadInfo) (id : Nat) (rows : List (List Field))
    (new : List Addr) (lo : Nat) (h h' : Heap) (a : Addr) : Prop :=
  (∀ fields, (rowsOf li id rows).getLast? = some fields →
    (li.Meta.HasIndexFieldInData = false → fetch h' a 4 = some (leBytes 4 id)) ∧
    ∀ k, k < totalElems li.Meta.Fields →
      typeAt li (firstColumn li + k) ≠ DBCFormer.FT_STRING →
      ElemPacked L new lo h' (typeAt li (firstColumn li + k))
        (cellAt fields (firstColumn li + k)) (a.add (elemOffset L li k))) ∧
  ∀ k, k < totalElems li.Meta.Fields →
    typeAt li (firstColumn li + k) = DBCFormer.FT_STRING →
    (∀ t, (packedTexts li id (firstColumn li + k) rows).getLast? = some t →
      ∃ b, fetch h' (localeSlot L li L.LOCALE_enUS a k) L.ptrSize
          = some (ptrBytes L.ptrSize (CStr.heap ⟨b, 0⟩)) ∧
        lo ≤ b ∧ (⟨b, 0⟩ : Addr) ∈ new ∧
        h'[b]? = some (some (t.map MemVal.byte ++ [MemVal.byte 0]))) ∧
    (packedTexts li id (firstColumn li + k) rows = [] →
      ∀ v, fetch h (localeSlot L li L.LOCALE_enUS a k) L.ptrSize = some v →
        fetch h' (localeSlot L li L.LOCALE_enUS a k) L.ptrSize = some v) ∧
    ∀ i, i < L.TOTAL_LOCALES → i ≠ L.LOCALE_enUS →
      ∀ v, fetch h (localeSlot L li i a k) L.ptrSize = some v →
        fetch h' (localeSlot L li i a k) L.ptrSize = some v

end DB2DatabaseLoader

namespace Util

/-! ## Util

A shallow embedding of functions of `src/common/Utilities/Util.cpp`
(`Trinity::Tokenize`, `secsToTimeString`, `MoneyStringToMoney`,
`TimeStringToSecs`, `GetMainPartOfName`, `Trinity::Impl::ByteArrayToHexStr`,
`Trinity::Impl::HexStrToByteArray`).

Conventions of the embedding.

* A `std::string` and a `std::string_view` are the list of their characters; a
  `std::wstring` is the list of the codes of its wide characters.
* `uint32` and `int64` arithmetic is written with an explicit `% 2 ^ 32` and an
  explicit reduction to the signed 64-bit range. Positions in a string (`size_t`)
  are bounded by its length and are not reduced. In the hex functions `size_t` is
  64 bits wide, the conversion of a length to `int32` is `toInt32`, and an `int`
  sum outside the range of `int` stops with `Fault.overflow`.
* A `for` or `while` loop whose counter is compared with `!=` or that searches a
  string runs on a count of remaining steps; when the count is used up before the
  loop ends the result is `Fault.outOfFuel`, and the theorems show that this does
  not happen. An access outside a string or an array stops with
  `Fault.outOfBounds`, as does `substr` with a position beyond the string, which
  throws; a failed `ASSERT` stops with `Fault.abort`.
* The formatting library is external. `{}` of an unsigned integer is its decimal
  numeral, `{:02}` the decimal numeral padded with zeros to two characters and
  `{:02X}` the upper-case hexadecimal numeral padded with zeros to two
  characters.
* `Trinity::StringTo` (`StringConvert.h`) and `isCyrillicCharacter` (`Util.h`) are
  defined outside the translated file; they are parameters of the functions that
  call them.
-/

/-- The ways an execution stops without returning. -/
inductive Fault
  | abort
  | outOfBounds
  | outOfFuel
  | overflow
  deriving DecidableEq, Repr

/-! ### Strings -/

/-- The position of the first `sep` in `rest`, counted from `pos`, the position of
the head of `rest`. -/
def findFrom (sep : Char) : List Char → Nat → Option Nat
  | [], _ => none
  | c :: rest, pos => if c = sep then some pos else findFrom sep rest (pos + 1)

/-- `std::string_view::find(sep, pos)`: the position of the first `sep` at or
after `pos`; `none` is `npos`. -/
def find (str : List Char) (sep : Char) (pos : Nat) : Option Nat :=
  findFrom sep (str.drop pos) pos

/-- `std::string_view::substr(pos, n)` for `pos` inside the string. -/
def substr (str : List Char) (pos n : Nat) : List Char := (str.drop pos).take n

/-! ### `Tokenize` -/

/-- The `for` loop of `Trinity::Tokenize` together with the final `push_back`:
`start` and `tokens` are the variables of the loop, and each step evaluates
`str.find(sep, start)`. -/
def tokenizeLoop (str : List Char) (sep : Char) (keepEmpty : Bool) :
    Nat → Nat → List (List Char) → Except Fault (List (List Char))
  | 0, _, _ => .error .outOfFuel
  | fuel + 1, start, tokens =>
    match find str sep start with
    | some end_ =>
      tokenizeLoop str sep keepEmpty fuel (end_ + 1)
        (if keepEmpty || decide (start < end_) then
          tokens ++ [substr str start (end_ - start)]
        else tokens)
    | none =>
      .ok (if keepEmpty || decide (start < str.length) then tokens ++ [str.drop start]
        else tokens)

/-- `Trinity::Tokenize`. The loop runs at most once for each character and once
more for the end of the string. -/
def Tokenize (str : List Char) (sep : Char) (keepEmpty : Bool) :
    Except Fault (List (List Char)) :=
  tokenizeLoop str sep keepEmpty (str.length + 1) 0 []

/-! ### Time strings -/

/-- Modelled from the spec: the time constant `MINUTE` of `Common.h`, which is
not among the sources: the seconds of a minute. -/
def MINUTE : Nat := 60

/-- Modelled from the spec: the time constant `HOUR` of `Common.h`, which is not
among the sources: the seconds of an hour. -/
def HOUR : Nat := MINUTE * 60

/-- Modelled from the spec: the time constant `DAY` of `Common.h`, which is not
among the sources: the seconds of a day. -/
def DAY : Nat := HOUR * 24

/-- The values of `enum class TimeFormat` that `secsToTimeString` distinguishes;
`other` is any further value. -/
inductive TimeFormat
  | FullText
  | ShortText
  | Numeric
  | other (c : Nat)
  deriving DecidableEq, Repr

/-- The format `{}` of an unsigned integer: its decimal numeral. -/
def fmtDecimal (n : Nat) : List Char := Nat.toDigits 10 n

/-- The format `{:02}` of an unsigned integer: its decimal numeral, padded on the
left with zeros to two characters. -/
def fmtDecimal02 (n : Nat) : List Char :=
  List.replicate (2 - (fmtDecimal n).length) '0' ++ fmtDecimal n

/-- The lambda `formatTimeField` of `secsToTimeString`. -/
def formatTimeField (result : List Char) (value : Nat) (label : List Char) : List Char :=
  let result1 := if result ≠ [] then result ++ [' '] else result
  let result2 := result1 ++ fmtDecimal value ++ [' '] ++ label
  if value ≠ 1 then result2 ++ ['s'] else result2

/-- `secsToTimeString`. -/
def secsToTimeString (timeInSecs : Nat) (timeFormat : TimeFormat) (hoursOnly : Bool) :
    List Char :=
  let secs := timeInSecs % MINUTE
  let minutes := timeInSecs % HOUR / MINUTE
  let hours := timeInSecs % DAY / HOUR
  let days := timeInSecs / DAY
  match timeFormat with
  | .Numeric =>
    if days ≠ 0 then
      fmtDecimal days ++ [':'] ++ fmtDecimal02 hours ++ [':'] ++ fmtDecimal02 minutes
        ++ [':'] ++ fmtDecimal02 secs
    else if hours ≠ 0 then
      fmtDecimal hours ++ [':'] ++ fmtDecimal02 minutes ++ [':'] ++ fmtDecimal02 secs
    else if minutes ≠ 0 then fmtDecimal minutes ++ [':'] ++ fmtDecimal02 secs
    else ['0', ':'] ++ fmtDecimal02 secs
  | .ShortText =>
    let r1 : List Char := if days ≠ 0 then fmtDecimal days ++ ['d'] else []
    let r2 := if hours ≠ 0 || hoursOnly then r1 ++ fmtDecimal hours ++ ['h'] else r1
    if !hoursOnly then
      let r3 := if minutes ≠ 0 then r2 ++ fmtDecimal minutes ++ ['m'] else r2
      if secs ≠ 0 || r3.isEmpty then r3 ++ fmtDecimal secs ++ ['s'] else r3
    else r2
  | .FullText =>
    let r1 : List Char := if days ≠ 0 then formatTimeField [] days "Day".toList else []
    let r2 := if hours ≠ 0 || hoursOnly then formatTimeField r1 hours "Hour".toList else r1
    let r4 :=
      if !hoursOnly then
        let r3 := if minutes ≠ 0 then formatTimeField r2 minutes "Minute".toList else r2
        if secs ≠ 0 || r3.isEmpty then formatTimeField r3 secs "Second".toList else r3
      else r2
    r4 ++ ['.']
  | .other _ => "<Unknown time format>".toList

/-- The multiplier that the switch of `TimeStringToSecs` selects for a unit
character; `none` is the `default` case. -/
def timeUnit (itr : Char) : Option Nat :=
  if itr = 'd' then some DAY
  else if itr = 'h' then some HOUR
  else if itr = 'm' then some MINUTE
  else if itr = 's' then some 1
  else none

/-- The loop of `TimeStringToSecs` over the remaining characters, with the
variables `secs`, `buffer` and `multiplier`. -/
def timeLoop : List Char → Nat → Nat → Nat → Nat
  | [], secs, _, _ => secs
  | itr :: rest, secs, buffer, multiplier =>
    if itr.isDigit then
      timeLoop rest secs ((buffer * 10 % 2 ^ 32 + (itr.toNat - '0'.toNat)) % 2 ^ 32) multiplier
    else
      match timeUnit itr with
      | some m => timeLoop rest ((secs + buffer * m % 2 ^ 32) % 2 ^ 32) 0 m
      | none => 0

/-- `TimeStringToSecs`. -/
def TimeStringToSecs (timestring : List Char) : Nat := timeLoop timestring 0 0 0

/-! ### Hexadecimal strings -/

/-- The format `{:02X}` of an unsigned integer: its hexadecimal numeral in upper
case, padded on the left with zeros to two characters. -/
def fmtHex02 (n : Nat) : List Char :=
  List.replicate (2 - (Nat.toDigits 16 n).length) '0' ++ (Nat.toDigits 16 n).map Char.toUpper

/-- The conversion of an integer to `int32`: its value modulo `2 ^ 32`, taken in
the range from `-2 ^ 31` to `2 ^ 31 - 1`. -/
def toInt32 (n : Int) : Int := n.bmod (2 ^ 32)

/-- The difference of two `size_t` values, which wraps around modulo `2 ^ 64`. -/
def sizeSub (a b : Nat) : Nat := (a + 2 ^ 64 - b % 2 ^ 64) % 2 ^ 64

/-- The loop of `ByteArrayToHexStr`, with the `int32` counter `i` and the
characters written through `inserter` so far. A byte is a `uint8`, for which
`{:02X}` writes two characters. The sum `i + op` is an `int`; a sum outside the
range of `int` is a signed overflow, which is undefined behaviour. -/
def hexStrLoop (bytes : List Nat) (end_ op : Int) :
    Nat → Int → List Char → Except Fault (List Char)
  | 0, i, result => if i = end_ then .ok result else .error .outOfFuel
  | fuel + 1, i, result =>
    if i = end_ then .ok result
    else if i < 0 then .error .outOfBounds
    else
      match bytes[i.toNat]? with
      | none => .error .outOfBounds
      | some b =>
        if i + op < -2 ^ 31 ∨ 2 ^ 31 ≤ i + op then .error .overflow
        else hexStrLoop bytes end_ op fuel (i + op) (result ++ fmtHex02 (b % 2 ^ 8))

/-- `Trinity::Impl::ByteArrayToHexStr`; `arrayLen` is the length of `bytes`. The
counters `init` and `end` are `int32` values to which the `size_t` length is
converted. The string is resized to `arrayLen * 2` characters before the loop, so
that characters that the loop does not write are null characters. The loop reads
a different byte of the array in each round, so it ends or stops within
`arrayLen + 1` rounds. -/
def ByteArrayToHexStr (bytes : List Nat) (reverse : Bool) : Except Fault (List Char) :=
  let arrayLen := bytes.length
  let init : Int := if reverse then toInt32 (sizeSub arrayLen 1) else 0
  let end_ : Int := if reverse then -1 else toInt32 arrayLen
  let op : Int := if reverse then -1 else 1
  match hexStrLoop bytes end_ op (arrayLen + 1) init [] with
  | .error e => .error e
  | .ok written =>
    .ok (written ++ List.replicate (arrayLen * 2 % 2 ^ 64 - written.length) (Char.ofNat 0))

/-- The loop of `HexStrToByteArray`, with the `int32` counter `i`, the `uint32`
index `j` and the array `out`; `StringTo` is `Trinity::StringTo<uint8>` with the
base 16. The counter is converted to `size_t` for `substr`, which throws when the
position is beyond the end of the string. The sum `i + 2 * op` is an `int`; a sum
outside the range of `int` is a signed overflow, which is undefined behaviour. -/
def byteArrayLoop (StringTo : List Char → Option Nat) (str : List Char) (end_ op : Int) :
    Nat → Int → Nat → List Nat → Except Fault (List Nat)
  | 0, i, _, out => if i = end_ then .ok out else .error .outOfFuel
  | fuel + 1, i, j, out =>
    if i = end_ then .ok out
    else if i < 0 ∨ str.length < i.toNat then .error .outOfBounds
    else if out.length ≤ j then .error .outOfBounds
    else if i + 2 * op < -2 ^ 31 ∨ 2 ^ 31 ≤ i + 2 * op then .error .overflow
    else
      byteArrayLoop StringTo str end_ op fuel (i + 2 * op) ((j + 1) % 2 ^ 32)
        (out.set j ((StringTo (substr str i.toNat 2)).getD 0 % 2 ^ 8))

/-- `Trinity::Impl::HexStrToByteArray`; `out` is the array of `outlen` bytes that
the caller passes, and the value is its content after the call. The counters
`init` and `end` are `int32` values to which the `size_t` length is converted.
The loop writes a different byte of `out` in each round, so it ends or stops
within `outlen + 1` rounds. -/
def HexStrToByteArray (StringTo : List Char → Option Nat) (str : List Char) (out : List Nat)
    (reverse : Bool) : Except Fault (List Nat) :=
  let outlen := out.length
  if str.length ≠ 2 * outlen % 2 ^ 64 then .error .abort
  else
    let init : Int := if reverse then toInt32 (sizeSub str.length 2) else 0
    let end_ : Int := if reverse then -2 else toInt32 str.length
    let op : Int := if reverse then -1 else 1
    byteArrayLoop StringTo str end_ op (outlen + 1) init 0 out

/-- The value of an upper-case or lower-case hexadecimal digit. -/
def hexDigitValue (c : Char) : Option Nat :=
  if c.isDigit then some (c.toNat - '0'.toNat)
  else if 'a'.toNat ≤ c.toNat ∧ c.toNat ≤ 'f'.toNat then some (c.toNat - 'a'.toNat + 10)
  else if 'A'.toNat ≤ c.toNat ∧ c.toNat ≤ 'F'.toNat then some (c.toNat - 'A'.toNat + 10)
  else none

/-- The number that a list of digits of the base `base` denotes after the digits
`acc`; `none` when a character is not a digit of the base. -/
def digitsValue (base : Nat) : List Char → Nat → Option Nat
  | [], acc => some acc
  | c :: rest, acc =>
    match hexDigitValue c with
    | some d => if d < base then digitsValue base rest (acc * base + d) else none
    | none => none

/-- An implementation of the parameter `StringTo` for an unsigned type of `bits`
bits, used in the examples: the whole string must be a non-empty numeral of the
base, without a sign, whose value fits the type. -/
def parseUnsigned (bits base : Nat) (str : List Char) : Option Nat :=
  if str = [] then none
  else
    match digitsValue base str 0 with
    | some v => if v < 2 ^ bits then some v else none
    | none => none

/-! ### `MoneyStringToMoney` -/

/-- The variables that the token loop of `MoneyStringToMoney` updates. -/
structure MoneyVars where
  money : Int
  hadG : Bool
  hadS : Bool
  hadC : Bool
  deriving DecidableEq, Repr

/-- The switch on the last character of a token: the `unit` and the variables
after the case, or `none` when the case returns `std::nullopt`. -/
def moneyUnit (last : Char) (v : MoneyVars) : Option (Nat × MoneyVars) :=
  if last = 'g' then
    if v.hadG then none else some (100 * 100, { v with hadG := true })
  else if last = 's' then
    if v.hadS then none else some (100, { v with hadS := true })
  else if last = 'c' then
    if v.hadC then none else some (1, { v with hadC := true })
  else none

/-- The body of the token loop of `MoneyStringToMoney`: the variables after the
token, or `none` when the function returns `std::nullopt`. `StringTo` is
`Trinity::StringTo<uint32>`. The product is a `uint64` and the sum an `int64`. -/
def moneyToken (StringTo : List Char → Option Nat) (token : List Char) (v : MoneyVars) :
    Except Fault (Option MoneyVars) :=
  match token.getLast? with
  | none => .error .outOfBounds
  | some last =>
    match moneyUnit last v with
    | none => .ok none
    | some (unit, v1) =>
      match StringTo (substr token 0 (token.length - 1)) with
      | some amount =>
        .ok (some { v1 with
          money := (v1.money + ((unit * amount % 2 ^ 64 : Nat) : Int)).bmod (2 ^ 64) })
      | none => .ok none

/-- The token loop of `MoneyStringToMoney`. -/
def moneyLoop (StringTo : List Char → Option Nat) :
    List (List Char) → MoneyVars → Except Fault (Option Int)
  | [], v => .ok (some v.money)
  | token :: rest, v =>
    match moneyToken StringTo token v with
    | .error e => .error e
    | .ok none => .ok none
    | .ok (some v1) => moneyLoop StringTo rest v1

/-- `MoneyStringToMoney`; `none` is `std::nullopt`. -/
def MoneyStringToMoney (StringTo : List Char → Option Nat) (moneyString : List Char) :
    Except Fault (Option Int) :=
  match Tokenize moneyString ' ' false with
  | .error e => .error e
  | .ok tokens => moneyLoop StringTo tokens ⟨0, false, false, false⟩

/-- The copper value of one of a unit: 10000 for `g`, 100 for `s`, 1 for `c`. -/
def unitValue (u : Char) : Nat :=
  if u = 'g' then 10000 else if u = 's' then 100 else if u = 'c' then 1 else 0

/-- The amount that a list of parsed tokens, each with its digits, unit and
amount, gives for the unit `u`. -/
def amountOf (u : Char) (parts : List (List Char × Char × Nat)) : Nat :=
  ((parts.filter (fun p => decide (p.2.1 = u))).map (fun p => p.2.2)).sum

/-- The flag `hadG`, `hadS` or `hadC` of the unit `u`; `false` for another
character. -/
def hadUnit (v : MoneyVars) (u : Char) : Bool :=
  if u = 'g' then v.hadG else if u = 's' then v.hadS else if u = 'c' then v.hadC else false

/-- The token of a parsed part: its digits followed by its unit. -/
def partToken (p : List Char × Char × Nat) : List Char := p.1 ++ [p.2.1]

/-- The sum of the amounts of the parts, each in copper. -/
def partsTotal (parts : List (List Char × Char × Nat)) : Nat :=
  (parts.map (fun p => unitValue p.2.1 * p.2.2)).sum

/-! ### `GetMainPartOfName` -/

/-- The table `dropEnds` of `GetMainPartOfName`: for each of the six declensions
its seven endings, as lists of wide character codes; `[]` is the empty
`std::wstring_view` that fills a row. -/
def dropEnds : List (List (List Nat)) :=
  let a_End := [0x430]
  let o_End := [0x43E]
  let ya_End := [0x44F]
  let ie_End := [0x435]
  let i_End := [0x438]
  let yeru_End := [0x44B]
  let u_End := [0x443]
  let yu_End := [0x44E]
  let oj_End := [0x43E, 0x439]
  let ie_j_End := [0x435, 0x439]
  let io_j_End := [0x451, 0x439]
  let o_m_End := [0x43E, 0x43C]
  let io_m_End := [0x451, 0x43C]
  let ie_m_End := [0x435, 0x43C]
  let soft_End := [0x44C]
  let j_End := [0x439]
  [ [a_End, o_End, ya_End, ie_End, soft_End, j_End, []],
    [a_End, ya_End, yeru_End, i_End, [], [], []],
    [ie_End, u_End, yu_End, i_End, [], [], []],
    [u_End, yu_End, o_End, ie_End, soft_End, ya_End, a_End],
    [oj_End, io_j_End, ie_j_End, o_m_End, io_m_End, ie_m_End, yu_End],
    [ie_End, i_End, [], [], [], [], []] ]

/-- The loop of `GetMainPartOfName` over the remaining endings of the row; the
value is `result` after the loop. -/
def dropEndLoop (wname : List Nat) : List (List Nat) → List Nat
  | [] => wname
  | itr :: rest =>
    if itr = [] then wname
    else
      let thisLen := wname.length
      let endLen := itr.length
      if endLen > thisLen then dropEndLoop wname rest
      else if wname.drop (thisLen - endLen) = itr then wname.take (thisLen - endLen)
      else dropEndLoop wname rest

/-- `GetMainPartOfName`; `isCyrillicCharacter` is the function of `Util.h`. -/
def GetMainPartOfName (isCyrillicCharacter : Nat → Bool) (wname : List Nat)
    (declension : Nat) : List Nat :=
  match wname with
  | [] => wname
  | first :: _ =>
    if !isCyrillicCharacter first || decide (declension > 5) then wname
    else dropEndLoop wname (dropEnds.getD declension [])

/-- The endings that the loop of `GetMainPartOfName` tries for a declension, in
order: the entries of the row before its first empty entry. -/
def endingsOf (declension : Nat) : List (List Nat) :=
  (dropEnds.getD declension []).takeWhile (fun e => decide (e ≠ []))

/-- An implementation of the parameter `isCyrillicCharacter`, used in the
examples: the letters from CYRILLIC CAPITAL LETTER A to CYRILLIC SMALL LETTER YA
and the two letters IO. -/
def isCyrillicExample (wchar : Nat) : Bool :=
  decide (0x0410 ≤ wchar ∧ wchar ≤ 0x044F) || decide (wchar = 0x0401) || decide (wchar = 0x0451)

end Util

namespace DB2DatabaseLoader

/-! ## Theorems -/

/-! ### The control flow of `Load` -/

theorem Load_none (L : Layout) (li : DB2LoadInfo) (hint : Option Field) (st : Storage) :
    Load L li none hint st = .ok (none, st) := rfl

theorem Load_mismatch (L : Layout) (li : DB2LoadInfo) (rs : PreparedResultSet)
    (hint : Option Field) (st : Storage) (h : li.Meta.GetDbFieldCount ≠ rs.GetFieldCount) :
    Load L li (some rs) hint st = .ok (none, st) := by
  simp [Load, h]

theorem resizeIndexTable_ok {records size : Nat} {tbl tbl' : List (Option Addr)}
    (h : resizeIndexTable records size tbl = .ok tbl') :
    tbl' = (if size > records then tbl.take records ++ List.replicate (size - records) none
      else tbl) := by
  unfold resizeIndexTable at h
  by_cases h1 : size > records
  · simp only [h1, if_true] at h ⊢
    split at h
    · exact (Except.ok.inj h).symm
    · cases h
  · simp only [h1, if_false] at h ⊢
    exact (Except.ok.inj h).symm

theorem resizeIndexTable_resized {st : Storage} {hint : Option Field} {tbl' : List (Option Addr)}
    (h : resizeIndexTable st.records (targetSize st.records hint) st.indexTable = .ok tbl') :
    tbl' = resized st hint := by
  rw [resizeIndexTable_ok h]; rfl

/-- A successful `Load` on a result with the right number of columns went through
the resize step and the row loop, and then took one of its two exits. -/
theorem Load_ok_cases {L : Layout} {li : DB2LoadInfo} {rs : PreparedResultSet}
    {hint : Option Field} {st : Storage} {buf : Option Addr} {st' : Storage}
    (hc : li.Meta.GetDbFieldCount = rs.GetFieldCount)
    (h : Load L li (some rs) hint st = .ok (buf, st')) :
    ∃ p, resizeIndexTable st.records (targetSize st.records hint) st.indexTable
          = .ok (resized st hint) ∧
      loadRows L li (resized st hint) ⟨st.heap.length, 0⟩ rs.rows (startPass li rs st) = .ok p ∧
      ((p.newIndexes = [] ∧ buf = none ∧
          st' = { st with indexTable := resized st hint, stringPool := p.stringPool,
                          heap := p.heap.set st.heap.length none }) ∨
       (p.newIndexes ≠ [] ∧ ∃ temp, p.heap[st.heap.length]? = some (some temp) ∧
          buf = some ⟨p.heap.length, 0⟩ ∧
          st' = { records := targetSize st.records hint,
                  indexTable := (insertNew li.Meta.GetRecordSize ⟨p.heap.length, 0⟩
                    p.newIndexes 0 (resized st hint, st.minId)).1,
                  stringPool := p.stringPool,
                  minId := (insertNew li.Meta.GetRecordSize ⟨p.heap.length, 0⟩
                    p.newIndexes 0 (resized st hint, st.minId)).2,
                  heap := (p.heap ++ [some (temp.take (p.newRecords * li.Meta.GetRecordSize))]).set
                    st.heap.length none })) := by
  simp only [Load, hc, ne_eq, not_true_eq_false, ite_false, bind, Except.bind] at h
  split at h
  · simp at h
  · rename_i tbl htbl
    have ht := resizeIndexTable_resized htbl
    subst ht
    split at h
    · simp at h
    · rename_i p hp
      refine ⟨p, htbl, hp, ?_⟩
      by_cases hn : p.newIndexes = []
      · left
        simp only [Pass.newRecords, hn, List.length_nil, if_true] at h
        have h2 := Except.ok.inj h
        simp only [Prod.mk.injEq] at h2
        exact ⟨hn, h2.1.symm, h2.2.symm⟩
      · right
        have hlen : p.newIndexes.length ≠ 0 := by
          intro h0; exact hn (List.length_eq_zero.mp h0)
        simp only [Pass.newRecords, hlen, if_false] at h
        split at h
        · rename_i temp htemp
          have h2 := Except.ok.inj h
          simp only [Prod.mk.injEq] at h2
          exact ⟨hn, temp, htemp, h2.1.symm, h2.2.symm⟩
        · simp at h

/-- A successful `loadRow` found the ID column and the table entry, packed the
fields and passed the final assertion. -/
theorem loadRow_ok_cases {L : Layout} {li : DB2LoadInfo} {tbl : List (Option Addr)}
    {temp : Addr} {fields : List Field} {p p1 : Pass}
    (h : loadRow L li tbl temp fields p = .ok p1) :
    ∃ idCell entry c1 c2,
      fields[li.Meta.GetDbIndexField]? = some idCell ∧
      rowId li fields = idCell.GetUInt32 ∧
      tbl[rowId li fields]? = some entry ∧
      (if li.Meta.HasIndexFieldInData then
          Except.ok { f := 0, offset := 0, heap := p.heap, stringPool := p.stringPool }
        else storeValue (entry.getD (temp.add (p.newRecords * li.Meta.GetRecordSize)))
          { f := 0, offset := 0, heap := p.heap, stringPool := p.stringPool } 4
          (leBytes 4 (rowId li fields))) = .ok c1 ∧
      packFields L li entry.isNone (entry.getD (temp.add (p.newRecords * li.Meta.GetRecordSize)))
        fields li.Meta.Fields c1 = .ok c2 ∧
      c2.offset = li.Meta.GetRecordSize ∧
      p1 = { heap := c2.heap, stringPool := c2.stringPool,
             newIndexes := if entry.isNone then p.newIndexes ++ [rowId li fields]
               else p.newIndexes } := by
  unfold loadRow at h
  cases hid : fields[li.Meta.GetDbIndexField]? with
  | none => rw [hid] at h; cases h
  | some idCell =>
    rw [hid] at h
    have hrow : rowId li fields = idCell.GetUInt32 := by simp [rowId, hid]
    simp only [← hrow] at h
    cases hentry : tbl[rowId li fields]? with
    | none => rw [hentry] at h; cases h
    | some entry =>
      rw [hentry] at h
      simp only at h
      split at h
      · cases h
      · rename_i c1 hc1
        split at h
        · cases h
        · rename_i c2 hc2
          split at h
          · rename_i hoff
            exact ⟨idCell, entry, c1, c2, rfl, hrow, rfl, hc1, hc2, hoff, (Except.ok.inj h).symm⟩
          · cases h

theorem loadRow_newIndexes {L : Layout} {li : DB2LoadInfo} {tbl : List (Option Addr)}
    {temp : Addr} {fields : List Field} {p p1 : Pass}
    (h : loadRow L li tbl temp fields p = .ok p1) :
    rowId li fields < tbl.length ∧
    p1.newIndexes = p.newIndexes ++ newIds li tbl [fields] := by
  obtain ⟨idCell, entry, c1, c2, _, _, hentry, _, _, _, hp1⟩ := loadRow_ok_cases h
  constructor
  · by_contra hlt
    rw [List.getElem?_eq_none (by omega)] at hentry
    cases hentry
  · subst hp1
    cases entry with
    | none => simp [newIds, isNewId, hentry]
    | some a => simp [newIds, isNewId, hentry]

theorem newIds_cons (li : DB2LoadInfo) (tbl : List (Option Addr)) (fields : List Field)
    (rest : List (List Field)) :
    newIds li tbl (fields :: rest) = newIds li tbl [fields] ++ newIds li tbl rest := by
  simp only [newIds, List.map_cons, List.map_nil]
  by_cases h : isNewId tbl (rowId li fields) = true
  · simp [List.filter_cons, h]
  · simp [List.filter_cons, h]

theorem loadRows_newIndexes {L : Layout} {li : DB2LoadInfo} {tbl : List (Option Addr)}
    {temp : Addr} (rows : List (List Field)) {p p1 : Pass}
    (h : loadRows L li tbl temp rows p = .ok p1) :
    (∀ fields ∈ rows, rowId li fields < tbl.length) ∧
    p1.newIndexes = p.newIndexes ++ newIds li tbl rows := by
  induction rows generalizing p with
  | nil =>
    simp only [loadRows] at h
    cases h
    simp [newIds]
  | cons fields rest ih =>
    simp only [loadRows] at h
    split at h
    · rename_i p2 hp2
      obtain ⟨hlt, hnew⟩ := loadRow_newIndexes hp2
      obtain ⟨hall, hrest⟩ := ih h
      constructor
      · intro f hf
        rcases List.mem_cons.mp hf with rfl | hf
        · exact hlt
        · exact hall f hf
      · rw [hrest, hnew, newIds_cons li tbl fields rest, List.append_assoc]
    · cases h

/-! ### The insertion loop -/

theorem insertNew_minId (recordSize : Nat) (dataTable : Addr) (ids : List Nat) (i : Nat)
    (tbl : List (Option Addr)) (minId : Nat) :
    (insertNew recordSize dataTable ids i (tbl, minId)).2 = ids.foldl min minId := by
  induction ids generalizing i tbl minId with
  | nil => rfl
  | cons id rest ih => simp only [insertNew, List.foldl_cons]; exact ih _ _ _

theorem insertNew_length (recordSize : Nat) (dataTable : Addr) (ids : List Nat) (i : Nat)
    (tbl : List (Option Addr)) (minId : Nat) :
    (insertNew recordSize dataTable ids i (tbl, minId)).1.length = tbl.length := by
  induction ids generalizing i tbl minId with
  | nil => rfl
  | cons id rest ih => simp only [insertNew]; rw [ih]; exact List.length_set ..

theorem insertNew_other (recordSize : Nat) (dataTable : Addr) (ids : List Nat) (i : Nat)
    (tbl : List (Option Addr)) (minId : Nat) (j : Nat) (hj : j ∉ ids) :
    (insertNew recordSize dataTable ids i (tbl, minId)).1[j]? = tbl[j]? := by
  induction ids generalizing i tbl minId with
  | nil => rfl
  | cons id rest ih =>
    simp only [insertNew]
    rw [ih _ _ _ (fun h => hj (List.mem_cons_of_mem _ h))]
    have hne : id ≠ j := fun h => hj (h ▸ List.mem_cons_self _ _)
    exact List.getElem?_set_ne hne

theorem foldl_min_le_init (ids : List Nat) (m : Nat) : ids.foldl min m ≤ m := by
  induction ids generalizing m with
  | nil => exact Nat.le_refl _
  | cons id rest ih => exact Nat.le_trans (ih _) (Nat.min_le_left _ _)

theorem foldl_min_le_mem (ids : List Nat) (m : Nat) (id : Nat) (h : id ∈ ids) :
    ids.foldl min m ≤ id := by
  induction ids generalizing m with
  | nil => cases h
  | cons x rest ih =>
    rcases List.mem_cons.mp h with rfl | h
    · rw [List.foldl_cons]
      exact Nat.le_trans (foldl_min_le_init _ _) (Nat.min_le_right _ _)
    · exact ih _ h

theorem foldl_min_mem (ids : List Nat) (m : Nat) :
    ids.foldl min m = m ∨ ids.foldl min m ∈ ids := by
  induction ids generalizing m with
  | nil => exact Or.inl rfl
  | cons x rest ih =>
    rcases ih (min m x) with h | h
    · rw [List.foldl_cons, h]
      rcases Nat.le_total m x with hle | hle
      · exact Or.inl (Nat.min_eq_left hle)
      · exact Or.inr (by rw [Nat.min_eq_right hle]; exact List.mem_cons_self _ _)
    · exact Or.inr (List.mem_cons_of_mem _ h)

theorem mem_newIds {li : DB2LoadInfo} {tbl : List (Option Addr)} {rows : List (List Field)}
    {id : Nat} : id ∈ newIds li tbl rows ↔
      ∃ fields ∈ rows, rowId li fields = id ∧ tbl[id]? = some none := by
  simp only [newIds, List.mem_filter, List.mem_map, isNewId, decide_eq_true_eq]
  constructor
  · rintro ⟨⟨f, hf, rfl⟩, h⟩; exact ⟨f, hf, rfl, h⟩
  · rintro ⟨f, hf, rfl, h⟩; exact ⟨⟨f, hf, rfl⟩, h⟩

theorem targetSize_ge (records : Nat) (hint : Option Field) :
    records ≤ targetSize records hint := by
  unfold targetSize
  cases hint with
  | none => exact Nat.le_refl _
  | some cell =>
    simp only
    split
    · omega
    · exact Nat.le_refl _

theorem okValue_of_returns {α β : Type} (d : α × β) (r : Except Fault (α × β))
    (h : returns r = true) : r = .ok ((okValue d r).1, (okValue d r).2) := by
  cases r with
  | ok a => rfl
  | error e => cases h

/-! ### Claims about the pass as a whole -/

/-- Claim C3. After a `Load` that ran its row loop, `minId` is the minimum of the
`minId` passed in and the IDs of the rows that were new in this pass: it is the
fold of `min` over those IDs, it is a lower bound of the old `minId` and of every
new ID, it is one of them, and it is the old `minId` when no row was new. -/
theorem Load_minId_is_min_of_new_ids (L : Layout) (li : DB2LoadInfo) (rs : PreparedResultSet)
    (hint : Option Field) (st : Storage) (buf : Option Addr) (st' : Storage)
    (hc : li.Meta.GetDbFieldCount = rs.GetFieldCount)
    (h : Load L li (some rs) hint st = .ok (buf, st')) :
    st'.minId = (newIds li (resized st hint) rs.rows).foldl min st.minId ∧
    st'.minId ≤ st.minId ∧
    (∀ id ∈ newIds li (resized st hint) rs.rows, st'.minId ≤ id) ∧
    (st'.minId = st.minId ∨ st'.minId ∈ newIds li (resized st hint) rs.rows) ∧
    (newIds li (resized st hint) rs.rows = [] → st'.minId = st.minId) := by
  obtain ⟨p, _, hp, hcase⟩ := Load_ok_cases hc h
  have hnew : p.newIndexes = newIds li (resized st hint) rs.rows := by
    have := (loadRows_newIndexes rs.rows hp).2
    simpa [startPass] using this
  have hmin : st'.minId = (newIds li (resized st hint) rs.rows).foldl min st.minId := by
    rcases hcase with ⟨hnil, _, hst⟩ | ⟨_, temp, _, _, hst⟩
    · rw [← hnew, hnil, hst]; rfl
    · rw [hst, ← hnew]; exact insertNew_minId ..
  refine ⟨hmin, ?_, ?_, ?_, ?_⟩
  · rw [hmin]; exact foldl_min_le_init _ _
  · intro id hid; rw [hmin]; exact foldl_min_le_mem _ _ _ hid
  · rw [hmin]; exact foldl_min_mem _ _
  · intro hnil; rw [hmin, hnil]; rfl

/-- The rows with the new IDs 50, 3 and 9999, loaded into an empty table with the
hint 10000 and an initial `minId` of 4294967295, leave `minId` at 3. -/
theorem Load_minId_is_min_of_new_ids_witness :
    (okValue (none, emptyStorage 0) minIdLoad).2.minId = 3 ∧
    (okValue (none, emptyStorage 0) minIdLoad).2.minId
      = (newIds minIdSchema (resized (emptyStorage 4294967295) (some (.int 10000)))
          minIdRows.rows).foldl min (emptyStorage 4294967295).minId :=
  ⟨by decide!,
    (Load_minId_is_min_of_new_ids layout64 minIdSchema minIdRows (some (.int 10000))
      (emptyStorage 4294967295) (okValue (none, emptyStorage 0) minIdLoad).1
      (okValue (none, emptyStorage 0) minIdLoad).2 (by decide)
      (okValue_of_returns (none, emptyStorage 0) minIdLoad (by decide!))).1⟩

theorem Load_records_le {L : Layout} {li : DB2LoadInfo}
    {result : Option PreparedResultSet} {hint : Option Field} {st : Storage}
    {buf : Option Addr} {st' : Storage}
    (h : Load L li result hint st = .ok (buf, st')) :
    st.records ≤ st'.records := by
  cases result with
  | none =>
    rw [Load_none] at h
    cases h; exact Nat.le_refl _
  | some rs =>
    by_cases hc : li.Meta.GetDbFieldCount = rs.GetFieldCount
    · obtain ⟨p, _, _, hcase⟩ := Load_ok_cases hc h
      rcases hcase with ⟨_, _, hst⟩ | ⟨_, temp, _, _, hst⟩
      · rw [hst]
      · rw [hst]; exact targetSize_ge _ _
    · rw [Load_mismatch L li rs hint st hc] at h
      cases h; exact Nat.le_refl _

/-- Claim C5. The reported table size `records` never decreases over a call of
`Load`, whatever the result and whether or not a buffer is returned. -/
theorem Load_records_monotone (L : Layout) (li : DB2LoadInfo)
    (result : Option PreparedResultSet) (hint : Option Field) (st : Storage)
    (buf : Option Addr) (st' : Storage)
    (h : Load L li result hint st = .ok (buf, st')) :
    st.records ≤ st'.records :=
  Load_records_le h

/-- The example row loaded into an empty table with the hint 8 raises the reported
size from 0 to 8. -/
theorem Load_records_monotone_witness :
    (okValue (none, emptyStorage 0) exampleLoad).2.records = 8 ∧
    (emptyStorage 4294967295).records ≤ (okValue (none, emptyStorage 0) exampleLoad).2.records :=
  ⟨by decide!,
    Load_records_monotone layout64 exampleSchema (some exampleRows) (some (.int 8))
      (emptyStorage 4294967295) (okValue (none, emptyStorage 0) exampleLoad).1
      (okValue (none, emptyStorage 0) exampleLoad).2
      (okValue_of_returns (none, emptyStorage 0) exampleLoad (by decide!))⟩

/-- Claim C6. A null row result, and a result whose column count differs from the
schema's database field count, make `Load` return no buffer and leave the index
table, the reported size, the string pool, `minId` and the heap as they were. -/
theorem Load_empty_result_noop (L : Layout) (li : DB2LoadInfo) (hint : Option Field)
    (st : Storage) :
    Load L li none hint st = .ok (none, st) ∧
    ∀ rs : PreparedResultSet, li.Meta.GetDbFieldCount ≠ rs.GetFieldCount →
      Load L li (some rs) hint st = .ok (none, st) :=
  ⟨Load_none L li hint st, fun rs h => Load_mismatch L li rs hint st h⟩

/-- The three one-column rows offered to a schema that expects two columns are
ignored. -/
theorem Load_empty_result_noop_witness :
    Load layout64 { minIdSchema with Meta := { minIdSchema.Meta with GetDbFieldCount := 2 } }
      (some minIdRows) (some (.int 10000)) (emptyStorage 7) = .ok (none, emptyStorage 7) :=
  (Load_empty_result_noop layout64
    { minIdSchema with Meta := { minIdSchema.Meta with GetDbFieldCount := 2 } }
    (some (.int 10000)) (emptyStorage 7)).2 minIdRows (by decide)

/-! ### The size of the index table -/

theorem resized_length_ge {st : Storage} (hint : Option Field)
    (h : st.records ≤ st.indexTable.length) :
    targetSize st.records hint ≤ (resized st hint).length := by
  unfold resized
  split
  · rw [List.length_append, List.length_take, List.length_replicate, Nat.min_eq_left h]
    omega
  · rename_i hle
    have := targetSize_ge st.records hint
    omega

theorem writeAt_length {data vals : List MemVal} {off : Nat}
    (h : off + vals.length ≤ data.length) : (writeAt data off vals).length = data.length := by
  simp only [writeAt, List.length_append, List.length_take, List.length_drop]
  omega

theorem writeAt_getElem? {data vals : List MemVal} {off : Nat}
    (h : off + vals.length ≤ data.length) (j : Nat) :
    (writeAt data off vals)[j]? =
      if off ≤ j ∧ j < off + vals.length then vals[j - off]? else data[j]? := by
  have htake : (data.take off).length = off := by rw [List.length_take]; omega
  unfold writeAt
  by_cases h1 : j < off
  · rw [if_neg (by omega), List.append_assoc, List.getElem?_append_left (by omega),
      List.getElem?_take_of_lt h1]
  · by_cases h2 : j < off + vals.length
    · rw [if_pos (by omega), List.append_assoc, List.getElem?_append_right (by omega), htake,
        List.getElem?_append_left (by omega)]
    · rw [if_neg (by omega), List.getElem?_append_right
        (by rw [List.length_append, htake]; omega), List.length_append, htake,
        List.getElem?_drop]
      congr 1
      omega

theorem readAt_getElem? (data : List MemVal) (off n i : Nat) :
    (readAt data off n)[i]? = if i < n then data[off + i]? else none := by
  unfold readAt
  by_cases h : i < n
  · rw [if_pos h, List.getElem?_take_of_lt h, List.getElem?_drop]
  · rw [if_neg h, List.getElem?_eq_none_iff, List.length_take]
    omega

theorem readAt_length {data : List MemVal} {off n : Nat} (h : off + n ≤ data.length) :
    (readAt data off n).length = n := by
  simp only [readAt, List.length_take, List.length_drop]
  omega

/-- Two reads of the same length agree when the cells agree. -/
theorem readAt_congr {data data' : List MemVal} {off off' n : Nat}
    (h : ∀ i, i < n → data'[off' + i]? = data[off + i]?) :
    readAt data' off' n = readAt data off n := by
  apply List.ext_getElem?
  intro i
  rw [readAt_getElem?, readAt_getElem?]
  by_cases hi : i < n
  · rw [if_pos hi, if_pos hi, h i hi]
  · rw [if_neg hi, if_neg hi]

theorem readAt_writeAt_same {data vals : List MemVal} {off : Nat}
    (h : off + vals.length ≤ data.length) :
    readAt (writeAt data off vals) off vals.length = vals := by
  apply List.ext_getElem?
  intro i
  rw [readAt_getElem?]
  by_cases hi : i < vals.length
  · rw [if_pos hi, writeAt_getElem? h, if_pos (by omega)]
    congr 1
    omega
  · rw [if_neg hi, eq_comm, List.getElem?_eq_none_iff]
    omega

theorem store_ok {h h' : Heap} {a : Addr} {vals : List MemVal}
    (hs : store h a vals = .ok h') :
    ∃ data, h[a.block]? = some (some data) ∧ a.off + vals.length ≤ data.length ∧
      h' = h.set a.block (some (writeAt data a.off vals)) := by
  unfold store at hs
  split at hs
  · rename_i data hd
    split at hs
    · rename_i hle
      exact ⟨data, hd, hle, (Except.ok.inj hs).symm⟩
    · cases hs
  · cases hs

theorem store_eq_ok {h : Heap} {a : Addr} {vals data : List MemVal}
    (hd : h[a.block]? = some (some data)) (hle : a.off + vals.length ≤ data.length) :
    store h a vals = .ok (h.set a.block (some (writeAt data a.off vals))) := by
  unfold store
  rw [hd]
  simp only
  rw [if_pos hle]

theorem fetch_eq_some {h : Heap} {a : Addr} {n : Nat} {data : List MemVal}
    (hd : h[a.block]? = some (some data)) (hle : a.off + n ≤ data.length) :
    fetch h a n = some (readAt data a.off n) := by
  unfold fetch
  rw [hd]
  simp only
  rw [if_pos hle]

theorem fetch_some {h : Heap} {a : Addr} {n : Nat} {v : List MemVal}
    (hf : fetch h a n = some v) :
    ∃ data, h[a.block]? = some (some data) ∧ a.off + n ≤ data.length ∧
      v = readAt data a.off n := by
  unfold fetch at hf
  split at hf
  · rename_i data hd
    split at hf
    · rename_i hle
      exact ⟨data, hd, hle, (Option.some.inj hf).symm⟩
    · cases hf
  · cases hf

/-- A store followed by a read of the same cells yields the stored cells. -/
theorem fetch_store_same {h h' : Heap} {a : Addr} {vals : List MemVal}
    (hs : store h a vals = .ok h') : fetch h' a vals.length = some vals := by
  obtain ⟨data, hd, hle, rfl⟩ := store_ok hs
  have hlt : a.block < h.length := by
    by_contra hge
    rw [List.getElem?_eq_none (by omega)] at hd
    cases hd
  have hd' : (h.set a.block (some (writeAt data a.off vals)))[a.block]?
      = some (some (writeAt data a.off vals)) := by
    rw [List.getElem?_set_self hlt]
  rw [fetch_eq_some hd' (by rw [writeAt_length hle]; exact hle), readAt_writeAt_same hle]

theorem Frame.refl (W : Nat → Nat → Prop) (h : Heap) : Frame W h h :=
  ⟨Nat.le_refl _, fun _ data hd => ⟨data, hd, rfl, fun _ _ => rfl⟩⟩

theorem Frame.trans {W : Nat → Nat → Prop} {h1 h2 h3 : Heap}
    (h12 : Frame W h1 h2) (h23 : Frame W h2 h3) : Frame W h1 h3 := by
  refine ⟨Nat.le_trans h12.1 h23.1, fun b data hd => ?_⟩
  obtain ⟨d2, hd2, hl2, hc2⟩ := h12.2 b data hd
  obtain ⟨d3, hd3, hl3, hc3⟩ := h23.2 b d2 hd2
  exact ⟨d3, hd3, hl3.trans hl2, fun j hj => (hc3 j hj).trans (hc2 j hj)⟩

theorem Frame.mono {W W' : Nat → Nat → Prop} {h h' : Heap}
    (hf : Frame W h h') (hsub : ∀ b j, W b j → W' b j) : Frame W' h h' := by
  refine ⟨hf.1, fun b data hd => ?_⟩
  obtain ⟨d, hd', hl, hc⟩ := hf.2 b data hd
  exact ⟨d, hd', hl, fun j hj => hc j (fun hw => hj (hsub b j hw))⟩

theorem Frame.append (W : Nat → Nat → Prop) (h : Heap) (blk : Option (List MemVal)) :
    Frame W h (h ++ [blk]) := by
  refine ⟨by simp, fun b data hd => ⟨data, ?_, rfl, fun _ _ => rfl⟩⟩
  have hlt : b < h.length := by
    by_contra hge
    rw [List.getElem?_eq_none (by omega)] at hd
    cases hd
  rw [List.getElem?_append_left hlt]
  exact hd

theorem store_frame {h h' : Heap} {a : Addr} {vals : List MemVal}
    (hs : store h a vals = .ok h') :
    Frame (Region a.block a.off (a.off + vals.length)) h h' := by
  obtain ⟨data, hd, hle, rfl⟩ := store_ok hs
  have hlt : a.block < h.length := by
    by_contra hge
    rw [List.getElem?_eq_none (by omega)] at hd
    cases hd
  refine ⟨by simp, fun b d hb => ?_⟩
  by_cases hbe : b = a.block
  · subst hbe
    rw [hd] at hb
    have hdd : data = d := Option.some.inj (Option.some.inj hb)
    subst hdd
    refine ⟨writeAt data a.off vals, List.getElem?_set_self hlt, writeAt_length hle, fun j hj => ?_⟩
    rw [writeAt_getElem? hle, if_neg]
    intro hcon
    exact hj ⟨rfl, hcon.1, hcon.2⟩
  · refine ⟨d, ?_, rfl, fun _ _ => rfl⟩
    rw [List.getElem?_set_ne (Ne.symm hbe)]
    exact hb

/-- Freeing a block that did not exist in `h` keeps the frame. -/
theorem Frame.set_none {W : Nat → Nat → Prop} {h h' : Heap} (hf : Frame W h h') (b : Nat)
    (hb : h.length ≤ b) : Frame W h (h'.set b none) := by
  refine ⟨by rw [List.length_set]; exact hf.1, fun b' data hd => ?_⟩
  obtain ⟨d, hd', hl, hc⟩ := hf.2 b' data hd
  have hlt : b' < h.length := by
    by_contra hge
    rw [List.getElem?_eq_none (by omega)] at hd
    cases hd
  exact ⟨d, by rw [List.getElem?_set_ne (by omega)]; exact hd', hl, hc⟩

theorem Frame.live_lt {h : Heap} {b : Nat} {data : List MemVal}
    (hd : h[b]? = some (some data)) : b < h.length := by
  by_contra hge
  rw [List.getElem?_eq_none (by omega)] at hd
  cases hd

/-- A block that `W` does not touch is unchanged. -/
theorem Frame.block_eq {W : Nat → Nat → Prop} {h h' : Heap} (hf : Frame W h h') {b : Nat}
    {data : List MemVal} (hd : h[b]? = some (some data)) (hW : ∀ j, ¬ W b j) :
    h'[b]? = some (some data) := by
  obtain ⟨d, hd', hl, hc⟩ := hf.2 b data hd
  rw [hd']
  congr 2
  exact List.ext_getElem? (fun j => hc j (hW j))

/-- A read of cells that `W` does not touch is unchanged. -/
theorem Frame.fetch_eq {W : Nat → Nat → Prop} {h h' : Heap} (hf : Frame W h h') {a : Addr}
    {n : Nat} {v : List MemVal} (hv : fetch h a n = some v)
    (hW : ∀ j, a.off ≤ j → j < a.off + n → ¬ W a.block j) : fetch h' a n = some v := by
  obtain ⟨data, hd, hle, rfl⟩ := fetch_some hv
  obtain ⟨d, hd', hl, hc⟩ := hf.2 a.block data hd
  rw [fetch_eq_some hd' (by omega)]
  congr 1
  exact readAt_congr (fun i hi => hc _ (hW _ (by omega) (by omega)))

/-! ### The effect of packing one element -/

theorem leBytes_length (w v : Nat) : (leBytes w v).length = w := by
  induction w generalizing v with
  | zero => rfl
  | succ n ih => simp [leBytes, ih]

theorem ptrBytes_length (n : Nat) (p : CStr) : (ptrBytes n p).length = n := by
  simp [ptrBytes]

theorem storeValue_ok {dv : Addr} {c c' : Cursor} {w : Nat} {bytes : List MemVal}
    (h : storeValue dv c w bytes = .ok c') :
    store c.heap (dv.add c.offset) bytes = .ok c'.heap ∧ c'.f = c.f + 1 ∧
    c'.offset = (c.offset + w) % 2 ^ 32 ∧ c'.stringPool = c.stringPool := by
  unfold storeValue at h
  split at h
  · rename_i h1 hs
    cases h
    exact ⟨hs, rfl, rfl, rfl⟩
  · cases h

theorem AddString_ok {L : Layout} {h h' : Heap} {holder : Addr} {value : List Nat}
    {str : Option Addr} (hs : AddString L h holder value = .ok (str, h')) :
    (value = [] ∧ str = none ∧ h' = h) ∨
    (value ≠ [] ∧ str = some ⟨h.length, 0⟩ ∧
      store (h ++ [some (value.map MemVal.byte ++ [MemVal.byte 0])]) holder
        (ptrBytes L.ptrSize (CStr.heap ⟨h.length, 0⟩)) = .ok h') := by
  unfold AddString at hs
  by_cases hv : value = []
  · left
    rw [if_neg (by simp [hv])] at hs
    cases hs
    exact ⟨hv, rfl, rfl⟩
  · right
    rw [if_pos hv] at hs
    simp only at hs
    split at hs
    · rename_i h2 hst
      cases hs
      exact ⟨hv, rfl, hst⟩
    · cases hs

theorem Addr.add_block (a : Addr) (n : Nat) : (a.add n).block = a.block := rfl

theorem Addr.add_off (a : Addr) (n : Nat) : (a.add n).off = a.off + n := rfl

theorem Addr.add_add (a : Addr) (m n : Nat) : (a.add m).add n = a.add (m + n) := by
  simp [Addr.add, Nat.add_assoc]

/-- The loop that clears the locale slots writes only inside the slots. -/
theorem fillNullStr_frame {L : Layout} {slot : Addr} (n : Nat) {h h' : Heap}
    (hs : fillNullStr L slot n h = .ok h') :
    Frame (Region slot.block slot.off (slot.off + n * L.ptrSize)) h h' ∧
    h'.length = h.length := by
  induction n generalizing h' with
  | zero =>
    simp only [fillNullStr] at hs
    cases hs
    exact ⟨Frame.refl _ _, rfl⟩
  | succ n ih =>
    simp only [fillNullStr] at hs
    split at hs
    · rename_i h1 hh1
      obtain ⟨hf1, hl1⟩ := ih hh1
      have hf2 := store_frame hs
      have hl2 : h'.length = h1.length := by
        obtain ⟨_, _, _, rfl⟩ := store_ok hs
        simp
      refine ⟨Frame.trans (hf1.mono ?_) (hf2.mono ?_), hl2.trans hl1⟩
      · rintro b j ⟨hb, hlo, hhi⟩
        exact ⟨hb, hlo, by rw [Nat.succ_mul]; omega⟩
      · rintro b j ⟨hb, hlo, hhi⟩
        simp only [Addr.add_block, Addr.add_off, ptrBytes_length] at hb hlo hhi
        exact ⟨hb, by omega, by rw [Nat.succ_mul]; omega⟩
    · cases hs

/-- After the loop that clears the locale slots, each of them holds `nullStr`. -/
theorem fillNullStr_slots {L : Layout} {slot : Addr} (n : Nat) {h h' : Heap}
    (hs : fillNullStr L slot n h = .ok h') (i : Nat) (hi : i < n) :
    fetch h' (slot.add (i * L.ptrSize)) L.ptrSize = some (ptrBytes L.ptrSize nullStr) := by
  induction n generalizing h' with
  | zero => omega
  | succ n ih =>
    simp only [fillNullStr] at hs
    split at hs
    · rename_i h1 hh1
      by_cases hin : i = n
      · subst hin
        have := fetch_store_same hs
        rw [ptrBytes_length] at this
        exact this
      · have h1' := ih hh1 (by omega)
        refine (store_frame hs).fetch_eq h1' ?_
        intro j hlo hhi hreg
        simp only [Addr.add_block, Addr.add_off, ptrBytes_length, Region] at hlo hhi hreg
        have : (i + 1) * L.ptrSize ≤ n * L.ptrSize := Nat.mul_le_mul_right _ (by omega)
        rw [Nat.succ_mul] at this
        omega
    · cases hs

theorem typeAt_eq {li : DB2LoadInfo} {f : Nat} {fm : DB2FieldMeta}
    (h : li.Fields[f]? = some fm) : typeAt li f = fm.Type_ := by
  simp [typeAt, h]

theorem cellAt_eq {fields : List Field} {f : Nat} {cell : Field}
    (h : fields[f]? = some cell) : cellAt fields f = cell := by
  simp [cellAt, h]

theorem column_eq_ok {fields : List Field} {f : Nat} {cell : Field}
    (h : column fields f = .ok cell) : cellAt fields f = cell ∧ f < fields.length := by
  unfold column at h
  split at h
  · rename_i c hc
    cases h
    refine ⟨cellAt_eq hc, ?_⟩
    by_contra hge
    rw [List.getElem?_eq_none (by omega)] at hc
    cases hc
  · cases h

theorem store_length {h h' : Heap} {a : Addr} {vals : List MemVal}
    (hs : store h a vals = .ok h') : h'.length = h.length := by
  obtain ⟨_, _, _, rfl⟩ := store_ok hs
  simp

/-- The numeric cases of the switch. -/
theorem storeValue_effect {dv : Addr} {c c' : Cursor} {w : Nat}
    {bytes : List MemVal} (h : storeValue dv c w bytes = .ok c') (hlen : bytes.length = w) :
    c'.f = c.f + 1 ∧ c'.offset = (c.offset + w) % 2 ^ 32 ∧
    Frame (Region dv.block (dv.off + c.offset) (dv.off + c.offset + w)) c.heap c'.heap ∧
    c'.stringPool = c.stringPool ∧ c'.heap.length = c.heap.length ∧
    fetch c'.heap (dv.add c.offset) w = some bytes := by
  obtain ⟨hs, hf, ho, hp⟩ := storeValue_ok h
  have hfr := store_frame hs
  have hft := fetch_store_same hs
  rw [hlen] at hft
  simp only [Addr.add_block, Addr.add_off, hlen] at hfr
  exact ⟨hf, ho, hfr, hp, store_length hs, hft⟩

/-- What `AddString` does to the heap when the holder is inside an older block. -/
theorem AddString_effect {L : Layout} {h h' : Heap} {holder : Addr} {value : List Nat}
    {str : Option Addr} (hs : AddString L h holder value = .ok (str, h')) :
    Frame (Region holder.block holder.off (holder.off + L.ptrSize)) h h' ∧
    ((value = [] ∧ str = none ∧ h' = h) ∨
     (value ≠ [] ∧ str = some ⟨h.length, 0⟩ ∧ h'.length = h.length + 1 ∧
      fetch h' holder L.ptrSize = some (ptrBytes L.ptrSize (CStr.heap ⟨h.length, 0⟩)) ∧
      (holder.block < h.length →
        h'[h.length]? = some (some (value.map MemVal.byte ++ [MemVal.byte 0]))))) := by
  rcases AddString_ok hs with ⟨hv, hstr, rfl⟩ | ⟨hv, hstr, hst⟩
  · exact ⟨Frame.refl _ _, Or.inl ⟨hv, hstr, rfl⟩⟩
  · have hfr := store_frame hst
    rw [ptrBytes_length] at hfr
    have hft := fetch_store_same hst
    rw [ptrBytes_length] at hft
    refine ⟨(Frame.append _ h _).trans hfr, Or.inr ⟨hv, hstr, ?_, hft, ?_⟩⟩
    · rw [store_length hst]; simp
    · intro hlt
      refine hfr.block_eq ?_ ?_
      · rw [List.getElem?_append_right (Nat.le_refl _)]; simp
      · rintro j ⟨hb, _, _⟩
        omega

theorem packElement_frame {L : Layout} {li : DB2LoadInfo} {isNew : Bool} {dv : Addr}
    {fields : List Field} {c c' : Cursor}
    (h : packElement L li isNew dv fields c = .ok c')
    (hen : L.LOCALE_enUS < L.TOTAL_LOCALES) :
    c'.f = c.f + 1 ∧ c'.offset = (c.offset + width L (typeAt li c.f)) % 2 ^ 32 ∧
    c.f < li.Fields.length ∧ c.f < fields.length ∧
    Frame (Region dv.block (dv.off + c.offset) (dv.off + c.offset + width L (typeAt li c.f)))
      c.heap c'.heap ∧
    (∃ new, c'.stringPool = c.stringPool ++ new) := by
  unfold packElement at h
  cases hfm : li.Fields[c.f]? with
  | none => rw [hfm] at h; cases h
  | some fm =>
    have hflt : c.f < li.Fields.length := by
      by_contra hge
      rw [List.getElem?_eq_none (by omega)] at hfm
      cases hfm
    rw [hfm] at h
    have hty := typeAt_eq hfm
    simp only at h
    cases hT : fm.Type_ with
    | FT_FLOAT | FT_INT | FT_BYTE | FT_SHORT | FT_LONG =>
      rw [hT] at h hty
      simp only at h
      cases hcell : column fields c.f with
      | error e => rw [hcell] at h; cases h
      | ok cell =>
        rw [hcell] at h
        obtain ⟨h1, h2, h3, h4, _, _⟩ := storeValue_effect h
          (leBytes_length _ _)
        rw [hty]
        exact ⟨h1, h2, hflt, (column_eq_ok hcell).2, h3, [], by simp [h4]⟩
    | FT_STRING =>
      rw [hT] at h hty
      simp only at h
      generalize hfill : (if isNew = true then fillNullStr L (dv.add c.offset) L.TOTAL_LOCALES c.heap
        else Except.ok c.heap) = r1 at h
      cases r1 with
      | error e => cases h
      | ok h1 =>
        simp only at h
        cases hcell : column fields c.f with
        | error e => rw [hcell] at h; cases h
        | ok cell =>
          rw [hcell] at h
          simp only at h
          cases hadd : AddString L h1 ((dv.add c.offset).add (L.LOCALE_enUS * L.ptrSize))
              cell.GetStringView with
          | error e => rw [hadd] at h; cases h
          | ok r =>
            obtain ⟨str, h2⟩ := r
            rw [hadd] at h
            cases h
            obtain ⟨hfr2, hcases⟩ := AddString_effect hadd
            have hfr1 : Frame (Region dv.block (dv.off + c.offset)
                (dv.off + c.offset + L.TOTAL_LOCALES * L.ptrSize)) c.heap h1 := by
              cases isNew with
              | false =>
                simp only [Bool.false_eq_true, if_false] at hfill
                cases hfill
                exact Frame.refl _ _
              | true =>
                simp only [if_true] at hfill
                exact (fillNullStr_frame _ hfill).1
            have hmul : (L.LOCALE_enUS + 1) * L.ptrSize ≤ L.TOTAL_LOCALES * L.ptrSize :=
              Nat.mul_le_mul_right _ hen
            rw [Nat.succ_mul] at hmul
            rw [hty]
            refine ⟨rfl, rfl, hflt, (column_eq_ok hcell).2, ?_, ?_⟩
            · refine hfr1.trans (hfr2.mono ?_)
              rintro b j ⟨hb, hlo, hhi⟩
              simp only [Addr.add_block, Addr.add_off] at hb hlo hhi
              refine ⟨hb, by omega, ?_⟩
              show j < dv.off + c.offset + L.TOTAL_LOCALES * L.ptrSize
              omega
            · cases str with
              | none => exact ⟨[], by simp⟩
              | some s => exact ⟨[s], rfl⟩
    | FT_STRING_NOT_LOCALIZED =>
      rw [hT] at h hty
      simp only at h
      cases hcell : column fields c.f with
      | error e => rw [hcell] at h; cases h
      | ok cell =>
        rw [hcell] at h
        simp only at h
        cases hadd : AddString L c.heap (dv.add c.offset) cell.GetStringView with
        | error e => rw [hadd] at h; cases h
        | ok r =>
          obtain ⟨str, h1⟩ := r
          rw [hadd] at h
          obtain ⟨hfr1, _⟩ := AddString_effect hadd
          simp only [Addr.add_block, Addr.add_off] at hfr1
          rw [hty]
          cases str with
          | some s =>
            cases h
            exact ⟨rfl, rfl, hflt, (column_eq_ok hcell).2, hfr1, [s], rfl⟩
          | none =>
            simp only at h
            cases hst : store h1 (dv.add c.offset) (ptrBytes L.ptrSize nullStr) with
            | error e => rw [hst] at h; cases h
            | ok h2 =>
              rw [hst] at h
              cases h
              have hfr2 := store_frame hst
              simp only [Addr.add_block, Addr.add_off, ptrBytes_length] at hfr2
              exact ⟨rfl, rfl, hflt, (column_eq_ok hcell).2, hfr1.trans hfr2, [], by simp⟩
    | other x =>
      rw [hT] at h
      cases h

/-- Packing one element of a new record leaves the cell's value at the element's
address. A string allocated on the way lies in a new block and is the one string
that the step appends to the pool. -/
theorem packElement_packed {L : Layout} {li : DB2LoadInfo} {dv : Addr}
    {fields : List Field} {c c' : Cursor}
    (h : packElement L li true dv fields c = .ok c')
    (hlive : dv.block < c.heap.length) :
    ∃ new, c'.stringPool = c.stringPool ++ new ∧
      ElemPacked L new c.heap.length c'.heap (typeAt li c.f) (cellAt fields c.f)
        (dv.add c.offset) := by
  unfold packElement at h
  cases hfm : li.Fields[c.f]? with
  | none => rw [hfm] at h; cases h
  | some fm =>
    rw [hfm] at h
    have hty := typeAt_eq hfm
    simp only at h
    cases hT : fm.Type_ with
    | FT_FLOAT | FT_INT | FT_BYTE | FT_SHORT | FT_LONG =>
      rw [hT] at h hty
      simp only at h
      cases hcell : column fields c.f with
      | error e => rw [hcell] at h; cases h
      | ok cell =>
        rw [hcell] at h
        obtain ⟨_, _, _, hpool, _, hft⟩ := storeValue_effect h (leBytes_length _ _)
        rw [hty, (column_eq_ok hcell).1]
        exact ⟨[], by rw [hpool, List.append_nil], hft⟩
    | FT_STRING =>
      rw [hT] at h hty
      simp only [if_true] at h
      cases hfill : fillNullStr L (dv.add c.offset) L.TOTAL_LOCALES c.heap with
      | error e => rw [hfill] at h; cases h
      | ok h1 =>
        rw [hfill] at h
        simp only at h
        cases hcell : column fields c.f with
        | error e => rw [hcell] at h; cases h
        | ok cell =>
          rw [hcell] at h
          simp only at h
          cases hadd : AddString L h1 ((dv.add c.offset).add (L.LOCALE_enUS * L.ptrSize))
              cell.GetStringView with
          | error e => rw [hadd] at h; cases h
          | ok r =>
            obtain ⟨str, h2⟩ := r
            rw [hadd] at h
            cases h
            have hl1 := (fillNullStr_frame _ hfill).2
            obtain ⟨hfr2, hcases⟩ := AddString_effect hadd
            rw [hty, (column_eq_ok hcell).1]
            rcases hcases with ⟨hv, hstr, hh⟩ | ⟨hv, hstr, hlen, hft, hblk⟩
            · subst hh hstr
              refine ⟨[], by simp, fun i hi => ?_⟩
              refine ⟨nullStr, fillNullStr_slots _ hfill i hi, ?_⟩
              split
              · exact Or.inl ⟨hv, rfl⟩
              · rfl
            · subst hstr
              refine ⟨[⟨h1.length, 0⟩], rfl, fun i hi => ?_⟩
              have hslot := fillNullStr_slots _ hfill i hi
              by_cases hie : i = L.LOCALE_enUS
              · subst hie
                refine ⟨CStr.heap ⟨h1.length, 0⟩, hft, ?_⟩
                rw [if_pos rfl]
                refine Or.inr ⟨hv, h1.length, rfl, by omega, by simp, ?_⟩
                exact hblk (by simp only [Addr.add_block]; omega)
              · refine ⟨nullStr, hfr2.fetch_eq hslot ?_, by rw [if_neg hie]⟩
                intro j hlo hhi hreg
                simp only [Addr.add_block, Addr.add_off, Region] at hlo hhi hreg
                rcases Nat.lt_or_gt_of_ne hie with hlt | hgt
                · have : (i + 1) * L.ptrSize ≤ L.LOCALE_enUS * L.ptrSize :=
                    Nat.mul_le_mul_right _ hlt
                  rw [Nat.succ_mul] at this
                  omega
                · have : (L.LOCALE_enUS + 1) * L.ptrSize ≤ i * L.ptrSize :=
                    Nat.mul_le_mul_right _ hgt
                  rw [Nat.succ_mul] at this
                  omega
    | FT_STRING_NOT_LOCALIZED =>
      rw [hT] at h hty
      simp only at h
      cases hcell : column fields c.f with
      | error e => rw [hcell] at h; cases h
      | ok cell =>
        rw [hcell] at h
        simp only at h
        cases hadd : AddString L c.heap (dv.add c.offset) cell.GetStringView with
        | error e => rw [hadd] at h; cases h
        | ok r =>
          obtain ⟨str, h1⟩ := r
          rw [hadd] at h
          obtain ⟨_, hcases⟩ := AddString_effect hadd
          rw [hty, (column_eq_ok hcell).1]
          rcases hcases with ⟨hv, hstr, hh⟩ | ⟨hv, hstr, hlen, hft, hblk⟩
          · subst hstr
            simp only at h
            cases hst : store h1 (dv.add c.offset) (ptrBytes L.ptrSize nullStr) with
            | error e => rw [hst] at h; cases h
            | ok h2 =>
              rw [hst] at h
              cases h
              have hft := fetch_store_same hst
              rw [ptrBytes_length] at hft
              exact ⟨[], by simp, nullStr, hft, Or.inl ⟨hv, rfl⟩⟩
          · subst hstr
            cases h
            exact ⟨[⟨c.heap.length, 0⟩], rfl, CStr.heap ⟨c.heap.length, 0⟩, hft,
              Or.inr ⟨hv, c.heap.length, rfl, Nat.le_refl _, by simp, hblk hlive⟩⟩
    | other x =>
      rw [hT] at h
      cases h

/-! ### The field loops -/

theorem packArray_add (L : Layout) (li : DB2LoadInfo) (isNew : Bool) (dv : Addr)
    (fields : List Field) (m n : Nat) (c : Cursor) :
    packArray L li isNew dv fields (m + n) c =
      match packArray L li isNew dv fields m c with
      | .ok c1 => packArray L li isNew dv fields n c1
      | .error e => .error e := by
  induction m generalizing c with
  | zero => simp [packArray]
  | succ m ih =>
    rw [Nat.succ_add]
    simp only [packArray]
    cases packElement L li isNew dv fields c with
    | error e => rfl
    | ok c1 => exact ih c1

/-- The two nested loops of `Load` are one loop over all packed elements. -/
theorem packFields_eq_packArray (L : Layout) (li : DB2LoadInfo) (isNew : Bool) (dv : Addr)
    (fields : List Field) (ms : List DB2MetaField) (c : Cursor) :
    packFields L li isNew dv fields ms c = packArray L li isNew dv fields (totalElems ms) c := by
  induction ms generalizing c with
  | nil => rfl
  | cons m ms ih =>
    have : totalElems (m :: ms) = m.ArraySize + totalElems ms := by simp [totalElems]
    rw [this, packArray_add]
    simp only [packFields]
    cases packArray L li isNew dv fields m.ArraySize c with
    | error e => rfl
    | ok c1 => exact ih c1

theorem SameBytes.shift {h h' : Heap} {a a' : Addr} {n : Nat} (hs : SameBytes h a h' a' n)
    (off w : Nat) (hle : off + w ≤ n) : SameBytes h (a.add off) h' (a'.add off) w := by
  intro o len v hlen hf
  rw [Addr.add_add] at hf ⊢
  exact hs _ _ _ (by omega) hf

theorem SameBytes.fetch {h h' : Heap} {a a' : Addr} {n : Nat} (hs : SameBytes h a h' a' n)
    {len : Nat} {v : List MemVal} (hle : len ≤ n) (hf : fetch h a len = some v) :
    fetch h' a' len = some v :=
  hs 0 len v (by omega) hf

theorem Frame.sameBytes {W : Nat → Nat → Prop} {h h' : Heap} (hf : Frame W h h') (a : Addr)
    (n : Nat) (hW : ∀ j, a.off ≤ j → j < a.off + n → ¬ W a.block j) :
    SameBytes h a h' a n := by
  intro off len v hle hv
  refine hf.fetch_eq hv ?_
  intro j hlo hhi
  simp only [Addr.add_block, Addr.add_off] at hlo hhi ⊢
  exact hW j (by omega) (by omega)

theorem Frame.keepsBlocks {W : Nat → Nat → Prop} {h h' : Heap} (hf : Frame W h h') (lo : Nat)
    (hW : ∀ b j, W b j → b < lo) : KeepsBlocks lo h h' := by
  intro b d hb hd
  exact hf.block_eq hd (fun j hw => by have := hW b j hw; omega)

theorem StrRef.transfer_str {pool pool' : List Addr} {lo : Nat} {h h' : Heap} {q : CStr}
    {text : List Nat} (hr : StrRef pool lo h q text) (hk : KeepsBlocks lo h h')
    (hp : ∀ x ∈ pool, x ∈ pool') : StrRef pool' lo h' q text := by
  rcases hr with hl | ⟨hv, b, hq, hlo, hmem, hblk⟩
  · exact Or.inl hl
  · exact Or.inr ⟨hv, b, hq, hlo, hp _ hmem, hk b _ hlo hblk⟩

theorem StrRef.mono_lo_str {pool : List Addr} {lo lo' : Nat} {h : Heap} {q : CStr}
    {text : List Nat} (hr : StrRef pool lo h q text) (hle : lo' ≤ lo) :
    StrRef pool lo' h q text := by
  rcases hr with hl | ⟨hv, b, hq, hlo, hmem, hblk⟩
  · exact Or.inl hl
  · exact Or.inr ⟨hv, b, hq, by omega, hmem, hblk⟩

theorem ElemPacked.mono_lo {L : Layout} {pool : List Addr} {lo lo' : Nat} {h : Heap}
    {ty : DBCFormer} {cell : Field} {a : Addr}
    (he : ElemPacked L pool lo h ty cell a) (hle : lo' ≤ lo) :
    ElemPacked L pool lo' h ty cell a := by
  cases ty with
  | FT_FLOAT | FT_INT | FT_BYTE | FT_SHORT | FT_LONG => exact he
  | FT_STRING =>
    intro i hi
    obtain ⟨q, hq, hrest⟩ := he i hi
    refine ⟨q, hq, ?_⟩
    split
    · rename_i hie
      rw [if_pos hie] at hrest
      exact hrest.mono_lo_str hle
    · rename_i hie
      rw [if_neg hie] at hrest
      exact hrest
  | FT_STRING_NOT_LOCALIZED =>
    obtain ⟨q, hq, hrest⟩ := he
    exact ⟨q, hq, hrest.mono_lo_str hle⟩
  | other x => exact he

/-- A packed element stays packed when its bytes, the string blocks and the pool
are carried over to another address and heap. -/
theorem ElemPacked.transfer_elem {L : Layout} {pool pool' : List Addr} {lo : Nat} {h h' : Heap}
    {ty : DBCFormer} {cell : Field} {a a' : Addr}
    (he : ElemPacked L pool lo h ty cell a)
    (hs : SameBytes h a h' a' (width L ty)) (hk : KeepsBlocks lo h h')
    (hp : ∀ x ∈ pool, x ∈ pool') : ElemPacked L pool' lo h' ty cell a' := by
  cases ty with
  | FT_FLOAT | FT_INT | FT_BYTE | FT_SHORT | FT_LONG =>
    exact hs.fetch (Nat.le_refl _) he
  | FT_STRING =>
    intro i hi
    obtain ⟨q, hq, hrest⟩ := he i hi
    have hmul : (i + 1) * L.ptrSize ≤ L.TOTAL_LOCALES * L.ptrSize :=
      Nat.mul_le_mul_right _ hi
    rw [Nat.succ_mul] at hmul
    refine ⟨q, hs _ _ _ hmul hq, ?_⟩
    split
    · rename_i hie
      rw [if_pos hie] at hrest
      exact hrest.transfer_str hk hp
    · rename_i hie
      rw [if_neg hie] at hrest
      exact hrest
  | FT_STRING_NOT_LOCALIZED =>
    obtain ⟨q, hq, hrest⟩ := he
    exact ⟨q, hs.fetch (Nat.le_refl _) hq, hrest.transfer_str hk hp⟩
  | other x => exact he

theorem ElemsPacked.transfer_elems {L : Layout} {li : DB2LoadInfo} {pool pool' : List Addr}
    {lo : Nat} {h h' : Heap} {fields : List Field} {dv dv' : Addr} (rs : Nat)
    (hs : SameBytes h dv h' dv' rs) (hk : KeepsBlocks lo h h')
    (hp : ∀ x ∈ pool, x ∈ pool') (n f off : Nat)
    (hle : off + sumWidths L li f n ≤ rs)
    (he : ElemsPacked L li pool lo h fields dv n f off) :
    ElemsPacked L li pool' lo h' fields dv' n f off := by
  induction n generalizing f off with
  | zero => trivial
  | succ n ih =>
    simp only [sumWidths] at hle
    exact ⟨he.1.transfer_elem (hs.shift _ _ (by omega)) hk hp, ih _ _ (by omega) he.2⟩

theorem packArray_frame {L : Layout} {li : DB2LoadInfo} {isNew : Bool} {dv : Addr}
    {fields : List Field} (hen : L.LOCALE_enUS < L.TOTAL_LOCALES) (n : Nat) {c c' : Cursor}
    (h : packArray L li isNew dv fields n c = .ok c')
    (hnw : c.offset + sumWidths L li c.f n < 2 ^ 32) :
    c'.f = c.f + n ∧ c'.offset = c.offset + sumWidths L li c.f n ∧
    Frame (Region dv.block (dv.off + c.offset) (dv.off + c.offset + sumWidths L li c.f n))
      c.heap c'.heap ∧
    (∃ new, c'.stringPool = c.stringPool ++ new) := by
  induction n generalizing c with
  | zero =>
    simp only [packArray] at h
    cases h
    exact ⟨rfl, rfl, Frame.refl _ _, [], by simp⟩
  | succ n ih =>
    simp only [packArray] at h
    simp only [sumWidths] at hnw ⊢
    cases h1 : packElement L li isNew dv fields c with
    | error e => rw [h1] at h; cases h
    | ok c1 =>
      rw [h1] at h
      obtain ⟨hf1, ho1, _, _, hfr1, new1, hp1⟩ := packElement_frame h1 hen
      rw [Nat.mod_eq_of_lt (by omega)] at ho1
      obtain ⟨hf2, ho2, hfr2, new2, hp2⟩ := ih h (by rw [hf1, ho1]; omega)
      rw [hf1] at hf2 ho2 hfr2
      rw [ho1] at ho2 hfr2
      refine ⟨by omega, by omega, ?_, new1 ++ new2, by rw [hp2, hp1, List.append_assoc]⟩
      refine Frame.trans (hfr1.mono ?_) (hfr2.mono ?_)
      · rintro b j ⟨hb, hlo, hhi⟩; exact ⟨hb, hlo, by omega⟩
      · rintro b j ⟨hb, hlo, hhi⟩; exact ⟨hb, by omega, by omega⟩

theorem ElemsPacked.mono_pool {L : Layout} {li : DB2LoadInfo} {pool pool' : List Addr}
    {lo : Nat} {h : Heap} {fields : List Field} {dv : Addr}
    (hp : ∀ x ∈ pool, x ∈ pool') (n f off : Nat)
    (he : ElemsPacked L li pool lo h fields dv n f off) :
    ElemsPacked L li pool' lo h fields dv n f off :=
  ElemsPacked.transfer_elems (off + sumWidths L li f n) (fun _ _ _ _ hf => hf)
    (fun _ _ _ hd => hd) hp n f off (Nat.le_refl _) he

/-- The element loop on a new record leaves every element packed; the strings
the elements refer to are among those that the loop appends to the pool. -/
theorem packArray_packed {L : Layout} {li : DB2LoadInfo} {dv : Addr}
    {fields : List Field} (hen : L.LOCALE_enUS < L.TOTAL_LOCALES) (lo : Nat) (n : Nat)
    {c c' : Cursor}
    (h : packArray L li true dv fields n c = .ok c')
    (hnw : c.offset + sumWidths L li c.f n < 2 ^ 32)
    (hdv : dv.block < lo) (hlo : lo ≤ c.heap.length) :
    ∃ new, c'.stringPool = c.stringPool ++ new ∧
      ElemsPacked L li new lo c'.heap fields dv n c.f c.offset := by
  induction n generalizing c with
  | zero =>
    simp only [packArray] at h
    cases h
    exact ⟨[], by simp, trivial⟩
  | succ n ih =>
    simp only [packArray] at h
    simp only [sumWidths] at hnw
    cases h1 : packElement L li true dv fields c with
    | error e => rw [h1] at h; cases h
    | ok c1 =>
      rw [h1] at h
      obtain ⟨hf1, ho1, _, _, hfr1, _, _⟩ := packElement_frame h1 hen
      rw [Nat.mod_eq_of_lt (by omega)] at ho1
      obtain ⟨new1, hp1, hp⟩ := packElement_packed h1 (by omega)
      have hlen1 := hfr1.1
      obtain ⟨new2, hp2, hrest⟩ := ih h (by rw [hf1, ho1]; omega) (by omega)
      rw [hf1, ho1] at hrest
      obtain ⟨_, _, hfr2, _, _⟩ := packArray_frame hen n h (by rw [hf1, ho1]; omega)
      refine ⟨new1 ++ new2, by rw [hp2, hp1, List.append_assoc], ?_,
        hrest.mono_pool (fun x hx => List.mem_append_right _ hx) _ _ _⟩
      refine (hp.mono_lo hlo).transfer_elem (hfr2.sameBytes _ _ ?_) (hfr2.keepsBlocks lo ?_)
        (fun x hx => List.mem_append_left _ hx)
      · rintro j hlo' hhi ⟨_, hj1, _⟩
        simp only [Addr.add_off] at hlo' hhi
        rw [ho1] at hj1
        omega
      · rintro b j ⟨hb, _, _⟩
        omega

/-! ### One row -/

/-- Everything a successful `loadRow` does to the heap happens inside the record
it writes to, and the schema's packed size is the record size. -/
theorem loadRow_frame {L : Layout} {li : DB2LoadInfo} {tbl : List (Option Addr)}
    {temp : Addr} {fields : List Field} {p p1 : Pass}
    (hen : L.LOCALE_enUS < L.TOTAL_LOCALES) (hfit : packedSize L li < 2 ^ 32)
    (h : loadRow L li tbl temp fields p = .ok p1) :
    packedSize L li = li.Meta.GetRecordSize ∧
    Frame (Region (targetOf li tbl temp p fields).block (targetOf li tbl temp p fields).off
      ((targetOf li tbl temp p fields).off + li.Meta.GetRecordSize)) p.heap p1.heap ∧
    (∃ new, p1.stringPool = p.stringPool ++ new) := by
  obtain ⟨idCell, entry, c1, c2, _, _, hentry, hc1, hc2, hoff, hp1⟩ := loadRow_ok_cases h
  have hdv : targetOf li tbl temp p fields
      = entry.getD (temp.add (p.newRecords * li.Meta.GetRecordSize)) := by
    unfold targetOf
    rw [hentry]
    cases entry <;> rfl
  rw [hdv]
  rw [packFields_eq_packArray] at hc2
  generalize entry.getD (temp.add (p.newRecords * li.Meta.GetRecordSize)) = dv at hc1 hc2 ⊢
  unfold packedSize idWidth firstColumn at hfit
  unfold packedSize idWidth firstColumn
  subst hp1
  cases hI : li.Meta.HasIndexFieldInData with
  | true =>
    rw [hI] at hc1 hfit
    simp only [if_true, Nat.zero_add] at hc1 hfit ⊢
    cases hc1
    obtain ⟨_, ho, hfr, new, hpool⟩ := packArray_frame hen _ hc2 (by simpa using hfit)
    simp only [Nat.zero_add, Nat.add_zero] at ho hfr
    have hsz : sumWidths L li 0 (totalElems li.Meta.Fields) = li.Meta.GetRecordSize := by
      rw [← hoff, ho]
    rw [hsz] at hfr
    exact ⟨hsz, hfr, new, hpool⟩
  | false =>
    rw [hI] at hc1 hfit
    simp only [Bool.false_eq_true, if_false] at hc1 hfit ⊢
    obtain ⟨hf1, ho1, hfr1, hp1', _, _⟩ := storeValue_effect hc1 (leBytes_length _ _)
    simp only [Nat.zero_add, Nat.add_zero] at hf1 ho1 hfr1
    rw [Nat.mod_eq_of_lt (by omega)] at ho1
    obtain ⟨_, ho, hfr, new, hpool⟩ := packArray_frame hen _ hc2 (by rw [hf1, ho1]; exact hfit)
    rw [hf1, ho1] at ho
    rw [hf1] at hfr
    rw [ho1] at hfr
    have hsz : 4 + sumWidths L li 1 (totalElems li.Meta.Fields) = li.Meta.GetRecordSize := by
      rw [← hoff, ho]
    refine ⟨hsz, Frame.trans (hfr1.mono ?_) (hfr.mono ?_), new, by rw [hpool, hp1']⟩
    · rintro b j ⟨hb, hlo, hhi⟩; exact ⟨hb, hlo, by omega⟩
    · rintro b j ⟨hb, hlo, hhi⟩; exact ⟨hb, by omega, by omega⟩

/-- A successful `loadRow` on a new row leaves the row packed in the next free
record of the provisional buffer. -/
theorem loadRow_packed {L : Layout} {li : DB2LoadInfo} {tbl : List (Option Addr)}
    {temp : Addr} {fields : List Field} {p p1 : Pass}
    (hen : L.LOCALE_enUS < L.TOTAL_LOCALES) (hfit : packedSize L li < 2 ^ 32)
    (h : loadRow L li tbl temp fields p = .ok p1)
    (hnew : tbl[rowId li fields]? = some none)
    (lo : Nat) (htemp : temp.block < lo) (hlo : lo ≤ p.heap.length) :
    ∃ new, p1.stringPool = p.stringPool ++ new ∧
      RowPacked L li new lo p1.heap fields
        (temp.add (p.newRecords * li.Meta.GetRecordSize)) := by
  obtain ⟨idCell, entry, c1, c2, _, _, hentry, hc1, hc2, hoff, hp1⟩ := loadRow_ok_cases h
  rw [hnew] at hentry
  cases hentry
  simp only [Option.getD_none, Option.isNone_none] at hc1 hc2
  rw [packFields_eq_packArray] at hc2
  unfold packedSize idWidth firstColumn at hfit
  unfold RowPacked idWidth firstColumn
  subst hp1
  cases hI : li.Meta.HasIndexFieldInData with
  | true =>
    rw [hI] at hc1 hfit
    simp only [if_true] at hc1 hfit
    cases hc1
    obtain ⟨new, hpool, hpk⟩ := packArray_packed hen lo _ hc2 (by simpa using hfit) htemp hlo
    exact ⟨new, hpool, fun hcon => (by cases hcon), hpk⟩
  | false =>
    rw [hI] at hc1 hfit
    simp only [Bool.false_eq_true, if_false] at hc1 hfit
    obtain ⟨hf1, ho1, hfr1, hpool1, hlen1, hft1⟩ := storeValue_effect hc1 (leBytes_length _ _)
    simp only [Nat.zero_add, Nat.add_zero] at hf1 ho1 hfr1 hlen1 hpool1
    rw [Nat.mod_eq_of_lt (by omega)] at ho1
    have hnw : c1.offset + sumWidths L li c1.f (totalElems li.Meta.Fields) < 2 ^ 32 := by
      rw [hf1, ho1]; exact hfit
    obtain ⟨_, _, hfr, _, _⟩ := packArray_frame hen _ hc2 hnw
    obtain ⟨new, hpool, hpk⟩ := packArray_packed hen lo _ hc2 hnw htemp (by omega)
    rw [hf1, ho1] at hpk
    rw [ho1] at hfr
    refine ⟨new, by rw [hpool, hpool1], fun _ => ?_, hpk⟩
    refine hfr.fetch_eq hft1 ?_
    rintro j hlo' hhi ⟨_, hj, _⟩
    simp only [Addr.add_off] at hlo' hhi hj
    omega

/-! ### The row loop -/

theorem RowPacked.transfer_row {L : Layout} {li : DB2LoadInfo} {pool pool' : List Addr}
    {lo : Nat} {h h' : Heap} {fields : List Field} {dv dv' : Addr} (rs : Nat)
    (hr : RowPacked L li pool lo h fields dv)
    (hs : SameBytes h dv h' dv' rs) (hk : KeepsBlocks lo h h')
    (hp : ∀ x ∈ pool, x ∈ pool') (hsz : packedSize L li ≤ rs) :
    RowPacked L li pool' lo h' fields dv' := by
  unfold packedSize at hsz
  refine ⟨fun hI => ?_, ElemsPacked.transfer_elems rs hs hk hp _ _ _ hsz hr.2⟩
  have h4 : idWidth li = 4 := by simp [idWidth, hI]
  exact hs.fetch (by omega) (hr.1 hI)

theorem newRows_cons (li : DB2LoadInfo) (tbl : List (Option Addr)) (fields : List Field)
    (rest : List (List Field)) :
    newRows li tbl (fields :: rest) =
      (if tbl[rowId li fields]? = some none then [fields] else []) ++ newRows li tbl rest := by
  unfold newRows isNewId
  by_cases h : tbl[rowId li fields]? = some none
  · simp [List.filter_cons, h]
  · simp [List.filter_cons, h]

theorem newIds_single (li : DB2LoadInfo) (tbl : List (Option Addr)) (fields : List Field) :
    newIds li tbl [fields] =
      if tbl[rowId li fields]? = some none then [rowId li fields] else [] := by
  unfold newIds isNewId
  by_cases h : tbl[rowId li fields]? = some none
  · simp [h]
  · simp [h]

theorem targetOf_new {li : DB2LoadInfo} {tbl : List (Option Addr)} {temp : Addr} {p : Pass}
    {fields : List Field} (h : tbl[rowId li fields]? = some none) :
    targetOf li tbl temp p fields = temp.add (p.newRecords * li.Meta.GetRecordSize) := by
  simp [targetOf, h]

theorem targetOf_old {li : DB2LoadInfo} {tbl : List (Option Addr)} {temp : Addr} {p : Pass}
    {fields : List Field} {a : Addr} (h : tbl[rowId li fields]? = some (some a)) :
    targetOf li tbl temp p fields = a := by
  simp [targetOf, h]

/-- The entry that a successfully loaded row found is inside the table. -/
theorem loadRow_entry {L : Layout} {li : DB2LoadInfo} {tbl : List (Option Addr)}
    {temp : Addr} {fields : List Field} {p p1 : Pass}
    (h : loadRow L li tbl temp fields p = .ok p1) :
    tbl[rowId li fields]? = some none ∨ ∃ a, tbl[rowId li fields]? = some (some a) := by
  obtain ⟨_, entry, _, _, _, _, hentry, _⟩ := loadRow_ok_cases h
  cases entry with
  | none => exact Or.inl hentry
  | some a => exact Or.inr ⟨a, hentry⟩

/-- After the row loop, the `i`-th record of the provisional buffer holds the
`i`-th new row; `acc` are the strings appended to the pool since the loop began. -/
theorem loadRows_packed {L : Layout} {li : DB2LoadInfo} {tbl : List (Option Addr)}
    (temp : Addr) (hen : L.LOCALE_enUS < L.TOTAL_LOCALES) (hfit : packedSize L li < 2 ^ 32)
    (hbelow : EntriesBelow tbl temp.block) (pool0 : List Addr)
    (rows : List (List Field)) {p p1 : Pass} (done : List (List Field)) (acc : List Addr)
    (h : loadRows L li tbl temp rows p = .ok p1)
    (hlen : p.newIndexes.length = done.length)
    (hheap : temp.block < p.heap.length)
    (hpool : p.stringPool = pool0 ++ acc)
    (hdone : ∀ i fields, done[i]? = some fields →
      RowPacked L li acc (temp.block + 1) p.heap fields
        (temp.add (i * li.Meta.GetRecordSize))) :
    temp.block < p1.heap.length ∧
    ∃ acc1, p1.stringPool = pool0 ++ acc1 ∧
      ∀ i fields, (done ++ newRows li tbl rows)[i]? = some fields →
        RowPacked L li acc1 (temp.block + 1) p1.heap fields
          (temp.add (i * li.Meta.GetRecordSize)) := by
  induction rows generalizing p done acc with
  | nil =>
    simp only [loadRows] at h
    cases h
    refine ⟨hheap, acc, hpool, fun i fields hi => hdone i fields ?_⟩
    simpa [newRows] using hi
  | cons fields rest ih =>
    simp only [loadRows] at h
    cases h2 : loadRow L li tbl temp fields p with
    | error e => rw [h2] at h; cases h
    | ok p2 =>
      rw [h2] at h
      simp only at h
      obtain ⟨hsz, hfr, new, hpool2⟩ := loadRow_frame hen hfit h2
      have hni := (loadRow_newIndexes h2).2
      rw [newIds_single] at hni
      rw [newRows_cons, ← List.append_assoc]
      have hpool2' : p2.stringPool = pool0 ++ (acc ++ new) := by
        rw [hpool2, hpool, List.append_assoc]
      have hkeepOld : ∀ i fs, done[i]? = some fs →
          RowPacked L li (acc ++ new) (temp.block + 1) p2.heap fs
            (temp.add (i * li.Meta.GetRecordSize)) := by
        intro i fs hi
        have hilt : i < done.length := by
          by_contra hge
          rw [List.getElem?_eq_none (by omega)] at hi
          cases hi
        refine (hdone i fs hi).transfer_row _ (hfr.sameBytes _ _ ?_) (hfr.keepsBlocks _ ?_)
          (fun x hx => List.mem_append_left _ hx) (Nat.le_of_eq hsz)
        · rintro j hlo hhi ⟨hb, hj1, hj2⟩
          simp only [Addr.add_block, Addr.add_off] at hb hlo hhi
          rcases loadRow_entry h2 with hnew | ⟨a, hold⟩
          · rw [targetOf_new hnew] at hj1 hj2
            simp only [Addr.add_off, Pass.newRecords, hlen] at hj1 hj2
            have : (i + 1) * li.Meta.GetRecordSize ≤ done.length * li.Meta.GetRecordSize :=
              Nat.mul_le_mul_right _ hilt
            rw [Nat.succ_mul] at this
            omega
          · rw [targetOf_old hold] at hb
            have := hbelow _ _ hold
            omega
        · rintro b j ⟨hb, _, _⟩
          rcases loadRow_entry h2 with hnew | ⟨a, hold⟩
          · rw [targetOf_new hnew] at hb
            simp only [Addr.add_block] at hb
            omega
          · rw [targetOf_old hold] at hb
            have := hbelow _ _ hold
            omega
      have hheap2 : temp.block < p2.heap.length := Nat.lt_of_lt_of_le hheap hfr.1
      by_cases hnew : tbl[rowId li fields]? = some none
      · rw [if_pos hnew] at hni ⊢
        obtain ⟨new', hpool', hpk⟩ :=
          loadRow_packed hen hfit h2 hnew (temp.block + 1) (by omega) (by omega)
        have hnn : new' = new := by
          rw [hpool2] at hpool'
          exact (List.append_cancel_left hpool').symm
        subst hnn
        refine ih (done ++ [fields]) (acc ++ new') h (by rw [hni]; simp [hlen]) hheap2 hpool2' ?_
        intro i fs hi
        by_cases hilt : i < done.length
        · rw [List.getElem?_append_left hilt] at hi
          exact hkeepOld i fs hi
        · have hieq : i = done.length := by
            by_contra hne
            rw [List.getElem?_eq_none (by simp; omega)] at hi
            cases hi
          subst hieq
          rw [List.getElem?_append_right (Nat.le_refl _)] at hi
          simp only [Nat.sub_self, List.getElem?_cons_zero, Option.some.injEq] at hi
          subst hi
          rw [Pass.newRecords, hlen] at hpk
          exact hpk.transfer_row li.Meta.GetRecordSize (fun _ _ _ _ hf => hf)
            (fun _ _ _ hd => hd) (fun x hx => List.mem_append_right _ hx) (Nat.le_of_eq hsz)
      · rw [if_neg hnew] at hni ⊢
        rw [List.append_nil] at hni ⊢
        exact ih done (acc ++ new) h (by rw [hni]; exact hlen) hheap2 hpool2' hkeepOld

/-! ### Encoding and decoding of values -/

theorem leValue_leBytes (w v : Nat) : leValue (leBytes w v) = some (v % 256 ^ w) := by
  induction w generalizing v with
  | zero => simp [leBytes, leValue, Nat.mod_one]
  | succ n ih =>
    simp only [leBytes, leValue, ih, Option.map_some']
    congr 1
    rw [Nat.pow_succ, Nat.mul_comm (256 ^ n) 256, Nat.mod_mul, Nat.add_comm]

theorem leValue_leBytes_of_lt {w v : Nat} (h : v < 256 ^ w) :
    leValue (leBytes w v) = some v := by
  rw [leValue_leBytes, Nat.mod_eq_of_lt h]

theorem intValue_intBytes {w : Nat} {v : Int} (hw : 0 < w)
    (hlo : -(2 ^ (8 * w - 1) : Int) ≤ v) (hhi : v < 2 ^ (8 * w - 1)) :
    intValue w (intBytes w v) = some v := by
  have hM : (2 : Int) ^ (8 * w) = 2 * 2 ^ (8 * w - 1) := by
    have : 8 * w = (8 * w - 1) + 1 := by omega
    rw [this, pow_succ]
    simp
    ring
  have hHpos : (0 : Int) < 2 ^ (8 * w - 1) := by positivity
  have h256 : (256 : Nat) ^ w = 2 ^ (8 * w) := by
    rw [show (256 : Nat) = 2 ^ 8 by norm_num, ← Nat.pow_mul]
  have hmodnn : 0 ≤ v % 2 ^ (8 * w) := Int.emod_nonneg _ (by positivity)
  have hmodlt : v % 2 ^ (8 * w) < 2 ^ (8 * w) := Int.emod_lt_of_pos _ (by positivity)
  have hlt : (v % 2 ^ (8 * w)).toNat < 256 ^ w := by
    rw [h256]
    have : ((v % 2 ^ (8 * w)).toNat : Int) < ((2 ^ (8 * w) : Nat) : Int) := by
      rw [Int.toNat_of_nonneg hmodnn]
      push_cast
      exact hmodlt
    exact_mod_cast this
  unfold intValue intBytes
  rw [leValue_leBytes_of_lt hlt]
  simp only
  congr 1
  have hcast : ((v % 2 ^ (8 * w)).toNat : Int) = v % 2 ^ (8 * w) := Int.toNat_of_nonneg hmodnn
  by_cases hv : 0 ≤ v
  · have hmod : v % 2 ^ (8 * w) = v := Int.emod_eq_of_lt hv (by omega)
    have hsmall : (v % 2 ^ (8 * w)).toNat < 2 ^ (8 * w - 1) := by
      have : ((v % 2 ^ (8 * w)).toNat : Int) < ((2 ^ (8 * w - 1) : Nat) : Int) := by
        rw [hcast, hmod]; push_cast; exact hhi
      exact_mod_cast this
    rw [if_pos hsmall, hcast, hmod]
  · have hmod : v % 2 ^ (8 * w) = v + 2 ^ (8 * w) := by
      rw [← Int.add_emod_self]
      exact Int.emod_eq_of_lt (by omega) (by omega)
    have hbig : ¬ (v % 2 ^ (8 * w)).toNat < 2 ^ (8 * w - 1) := by
      intro hcon
      have : ((v % 2 ^ (8 * w)).toNat : Int) < ((2 ^ (8 * w - 1) : Nat) : Int) := by
        exact_mod_cast hcon
      rw [hcast, hmod] at this
      push_cast at this
      omega
    rw [if_neg hbig, hcast, hmod]
    omega

theorem ptrValue_ptrBytes {n : Nat} (hn : 0 < n) (q : CStr) :
    ptrValue n (ptrBytes n q) = some q := by
  obtain ⟨m, rfl⟩ : ∃ m, n = m + 1 := ⟨n - 1, by omega⟩
  unfold ptrValue
  have : ptrBytes (m + 1) q = MemVal.frag q 0 :: (List.range' 1 m).map (MemVal.frag q) := by
    simp [ptrBytes, List.range_eq_range', List.range'_succ]
  rw [this]
  simp only
  rw [← this, if_pos rfl]

theorem cstrOf_text (text : List Nat) (rest : List MemVal) (h : ∀ x ∈ text, x ≠ 0) :
    cstrOf (text.map MemVal.byte ++ MemVal.byte 0 :: rest) = some text := by
  induction text with
  | nil => simp [cstrOf]
  | cons x xs ih =>
    have hx : x ≠ 0 := h x (List.mem_cons_self _ _)
    have ih' := ih (fun y hy => h y (List.mem_cons_of_mem _ hy))
    simp only [List.map_cons, List.cons_append, cstrOf, if_neg hx]
    show Option.map (fun s => x :: s) (cstrOf (List.map MemVal.byte xs ++ MemVal.byte 0 :: rest))
      = some (x :: xs)
    rw [ih']
    rfl

theorem GetUInt32_lt (cell : Field) : cell.GetUInt32 < 256 ^ 4 := by
  cases cell with
  | int v =>
    simp only [Field.GetUInt32]
    have h1 : 0 ≤ v % 2 ^ 32 := Int.emod_nonneg _ (by norm_num)
    have h2 : v % 2 ^ 32 < 2 ^ 32 := Int.emod_lt_of_pos _ (by norm_num)
    omega
  | float b => simp [Field.GetUInt32]
  | string s => simp [Field.GetUInt32]

theorem rowId_lt (li : DB2LoadInfo) (fields : List Field) : rowId li fields < 256 ^ 4 := by
  unfold rowId
  split
  · exact GetUInt32_lt _
  · norm_num

theorem GetFloat_lt (cell : Field) : cell.GetFloat < 256 ^ 4 := by
  cases cell with
  | int v => simp [Field.GetFloat]
  | float b =>
    simp only [Field.GetFloat]
    exact Nat.mod_lt _ (by norm_num)
  | string s => simp [Field.GetFloat]

theorem bmod_range (v : Int) (m : Nat) (hm : 0 < m) (hev : m % 2 = 0) :
    -((m / 2 : Nat) : Int) ≤ v.bmod m ∧ v.bmod m < ((m / 2 : Nat) : Int) := by
  have h1 := Int.le_bmod (x := v) hm
  have h2 := Int.bmod_lt (x := v) hm
  constructor
  · omega
  · omega

theorem intValue_GetInt8 (cell : Field) : intValue 1 (intBytes 1 cell.GetInt8) = some cell.GetInt8 := by
  refine intValue_intBytes (by norm_num) ?_ ?_
  · cases cell with
    | int v => have := bmod_range v (2 ^ 8) (by norm_num) (by norm_num); simp only [Field.GetInt8]; norm_num at this ⊢; omega
    | float b => simp [Field.GetInt8]
    | string s => simp [Field.GetInt8]
  · cases cell with
    | int v => have := bmod_range v (2 ^ 8) (by norm_num) (by norm_num); simp only [Field.GetInt8]; norm_num at this ⊢; omega
    | float b => simp [Field.GetInt8]
    | string s => simp [Field.GetInt8]

theorem intValue_GetInt16 (cell : Field) :
    intValue 2 (intBytes 2 cell.GetInt16) = some cell.GetInt16 := by
  refine intValue_intBytes (by norm_num) ?_ ?_
  · cases cell with
    | int v => have := bmod_range v (2 ^ 16) (by norm_num) (by norm_num); simp only [Field.GetInt16]; norm_num at this ⊢; omega
    | float b => simp [Field.GetInt16]
    | string s => simp [Field.GetInt16]
  · cases cell with
    | int v => have := bmod_range v (2 ^ 16) (by norm_num) (by norm_num); simp only [Field.GetInt16]; norm_num at this ⊢; omega
    | float b => simp [Field.GetInt16]
    | string s => simp [Field.GetInt16]

theorem intValue_GetInt32 (cell : Field) :
    intValue 4 (intBytes 4 cell.GetInt32) = some cell.GetInt32 := by
  refine intValue_intBytes (by norm_num) ?_ ?_
  · cases cell with
    | int v => have := bmod_range v (2 ^ 32) (by norm_num) (by norm_num); simp only [Field.GetInt32]; norm_num at this ⊢; omega
    | float b => simp [Field.GetInt32]
    | string s => simp [Field.GetInt32]
  · cases cell with
    | int v => have := bmod_range v (2 ^ 32) (by norm_num) (by norm_num); simp only [Field.GetInt32]; norm_num at this ⊢; omega
    | float b => simp [Field.GetInt32]
    | string s => simp [Field.GetInt32]

theorem intValue_GetInt64 (cell : Field) :
    intValue 8 (intBytes 8 cell.GetInt64) = some cell.GetInt64 := by
  refine intValue_intBytes (by norm_num) ?_ ?_
  · cases cell with
    | int v => have := bmod_range v (2 ^ 64) (by norm_num) (by norm_num); simp only [Field.GetInt64]; norm_num at this ⊢; omega
    | float b => simp [Field.GetInt64]
    | string s => simp [Field.GetInt64]
  · cases cell with
    | int v => have := bmod_range v (2 ^ 64) (by norm_num) (by norm_num); simp only [Field.GetInt64]; norm_num at this ⊢; omega
    | float b => simp [Field.GetInt64]
    | string s => simp [Field.GetInt64]

theorem textOf_text (text : List Nat) :
    textOf (text.map MemVal.byte ++ [MemVal.byte 0]) = some text := by
  induction text with
  | nil => simp [textOf]
  | cons x xs ih =>
    cases xs with
    | nil => simp [textOf]
    | cons y ys =>
      simp only [List.map_cons, List.cons_append] at ih ⊢
      simp only [textOf, ih]
      rfl

theorem pooledText_reads (text : List Nat) : ReadsText pooledText text := by
  refine ⟨fun _ => rfl, fun h b hb => ?_⟩
  simp only [pooledText, hb, List.drop_zero]
  exact textOf_text text

theorem readCStr_reads (text : List Nat) (hnul : ∀ x ∈ text, x ≠ 0) :
    ReadsText readCStr text := by
  refine ⟨fun _ => rfl, fun h b hb => ?_⟩
  simp only [readCStr, hb, List.drop_zero]
  exact cstrOf_text text [] hnul

/-- Reading a string slot that stands for a text gives the text. -/
theorem readString_of_StrRef {L : Layout} {rd : Heap → CStr → Option (List Nat)}
    {pool : List Addr} {lo : Nat} {h : Heap} {a : Addr}
    {q : CStr} {text : List Nat} (hptr : 0 < L.ptrSize)
    (hf : fetch h a L.ptrSize = some (ptrBytes L.ptrSize q)) (hr : StrRef pool lo h q text)
    (hrd : ReadsText rd text) :
    readString L rd h a = some (Value.text (decide (text = [])) text) := by
  unfold readString
  rw [hf]
  simp only [ptrValue_ptrBytes hptr]
  rcases hr with ⟨ht, hq⟩ | ⟨ht, b, hq, _, _, hblk⟩
  · subst ht hq
    simp [hrd.1, nullStr]
  · subst hq
    rw [hrd.2 h b hblk]
    simp [nullStr, ht]

theorem cellAt_nulFree {fields : List Field} (hn : NulFree fields) (f : Nat) :
    ∀ x ∈ (cellAt fields f).GetStringView, x ≠ 0 := by
  unfold cellAt
  cases hc : fields[f]? with
  | none => simp [Field.GetStringView]
  | some cell => exact hn cell (List.getElem?_mem hc)

/-- A packed element decodes to the value of its cell. -/
theorem ElemPacked.decode_elem {L : Layout} (rd : Heap → CStr → Option (List Nat))
    {pool : List Addr} {lo : Nat} {h : Heap}
    {ty : DBCFormer} {cell : Field} {a : Addr} (hptr : 0 < L.ptrSize)
    (hen : L.LOCALE_enUS < L.TOTAL_LOCALES) (hrd : ReadsText rd cell.GetStringView)
    (he : ElemPacked L pool lo h ty cell a) :
    decodeElement L rd h ty a = expected ty cell ∧ (expected ty cell).isSome = true := by
  cases ty with
  | FT_FLOAT =>
    simp only [ElemPacked] at he
    simp [decodeElement, expected, he, leValue_leBytes_of_lt (GetFloat_lt cell)]
  | FT_INT =>
    simp only [ElemPacked] at he
    simp [decodeElement, expected, he, intValue_GetInt32]
  | FT_BYTE =>
    simp only [ElemPacked] at he
    simp [decodeElement, expected, he, intValue_GetInt8]
  | FT_SHORT =>
    simp only [ElemPacked] at he
    simp [decodeElement, expected, he, intValue_GetInt16]
  | FT_LONG =>
    simp only [ElemPacked] at he
    simp [decodeElement, expected, he, intValue_GetInt64]
  | FT_STRING =>
    obtain ⟨q, hq, hr⟩ := he L.LOCALE_enUS hen
    rw [if_pos rfl] at hr
    simp only [decodeElement, expected]
    exact ⟨readString_of_StrRef hptr hq hr hrd, rfl⟩
  | FT_STRING_NOT_LOCALIZED =>
    obtain ⟨q, hq, hr⟩ := he
    simp only [decodeElement, expected]
    exact ⟨readString_of_StrRef hptr hq hr hrd, rfl⟩
  | other x => exact he.elim

theorem ElemsPacked.decode_elems {L : Layout} {li : DB2LoadInfo}
    (rd : Heap → CStr → Option (List Nat)) {pool : List Addr} {lo : Nat}
    {h : Heap} {fields : List Field} {dv : Addr} (hptr : 0 < L.ptrSize)
    (hen : L.LOCALE_enUS < L.TOTAL_LOCALES)
    (hrd : ∀ f, ReadsText rd (cellAt fields f).GetStringView) (n f off : Nat)
    (he : ElemsPacked L li pool lo h fields dv n f off) :
    decodeElems L li rd h dv n f off = expectedElems li fields n f ∧
    (expectedElems li fields n f).isSome = true := by
  induction n generalizing f off with
  | zero => exact ⟨rfl, rfl⟩
  | succ n ih =>
    obtain ⟨h1, h2⟩ := he.1.decode_elem rd hptr hen (hrd f)
    obtain ⟨h3, h4⟩ := ih _ _ he.2
    simp only [decodeElems, expectedElems, h1, h3]
    obtain ⟨v, hv⟩ := Option.isSome_iff_exists.mp h2
    obtain ⟨vs, hvs⟩ := Option.isSome_iff_exists.mp h4
    rw [hv, hvs]
    exact ⟨trivial, rfl⟩

/-- A packed record decodes to the values of its row. -/
theorem RowPacked.decode_row {L : Layout} {li : DB2LoadInfo}
    (rd : Heap → CStr → Option (List Nat)) {pool : List Addr} {lo : Nat}
    {h : Heap} {fields : List Field} {dv : Addr} (hptr : 0 < L.ptrSize)
    (hen : L.LOCALE_enUS < L.TOTAL_LOCALES)
    (hrd : ∀ f, ReadsText rd (cellAt fields f).GetStringView)
    (hr : RowPacked L li pool lo h fields dv) :
    decodeRecord L li rd h dv = expectedRecord li fields ∧
    (expectedRecord li fields).isSome = true := by
  obtain ⟨h1, h2⟩ := hr.2.decode_elems rd hptr hen hrd
  unfold decodeRecord expectedRecord
  unfold idWidth at h1
  unfold firstColumn at h1 h2
  cases hI : li.Meta.HasIndexFieldInData with
  | true =>
    rw [hI] at h1 h2
    simp only [if_true] at h1 h2 ⊢
    exact ⟨h1, h2⟩
  | false =>
    rw [hI] at h1 h2
    simp only [Bool.false_eq_true, if_false] at h1 h2 ⊢
    rw [hr.1 hI, h1]
    obtain ⟨vs, hvs⟩ := Option.isSome_iff_exists.mp h2
    rw [hvs]
    simp [leValue_leBytes_of_lt (rowId_lt li fields)]

/-! ### The new records after `Load` -/

theorem newIds_eq_map (li : DB2LoadInfo) (tbl : List (Option Addr)) (rows : List (List Field)) :
    newIds li tbl rows = (newRows li tbl rows).map (rowId li) := by
  unfold newIds newRows
  rw [List.filter_map]
  rfl

theorem EntriesBelow.resized {st : Storage} (hint : Option Field)
    (h : EntriesBelow st.indexTable st.heap.length) :
    EntriesBelow (resized st hint) st.heap.length := by
  intro id a hid
  unfold DB2DatabaseLoader.resized at hid
  split at hid
  · by_cases hlt : id < (List.take st.records st.indexTable).length
    · rw [List.getElem?_append_left hlt] at hid
      have hlt' : id < st.records := by
        rw [List.length_take] at hlt
        omega
      rw [List.getElem?_take_of_lt hlt'] at hid
      exact h id a hid
    · rw [List.getElem?_append_right (by omega), List.getElem?_replicate] at hid
      split at hid <;> cases hid
  · exact h id a hid

/-- After a `Load` that returns, the `i`-th record of the returned buffer holds
the `i`-th new row; the strings it refers to were appended to the pool by this
call and lie in blocks that did not exist before it. -/
theorem Load_new_rows_packed {L : Layout} {li : DB2LoadInfo} {rs : PreparedResultSet}
    {hint : Option Field} {st : Storage} {buf : Option Addr} {st' : Storage}
    (hen : L.LOCALE_enUS < L.TOTAL_LOCALES) (hfit : packedSize L li < 2 ^ 32)
    (hc : li.Meta.GetDbFieldCount = rs.GetFieldCount)
    (hbelow : EntriesBelow st.indexTable st.heap.length)
    (h : Load L li (some rs) hint st = .ok (buf, st')) :
    ∃ new, st'.stringPool = st.stringPool ++ new ∧
      ∀ i fields, (newRows li (resized st hint) rs.rows)[i]? = some fields →
        ∃ dt, buf = some dt ∧ dt.off = 0 ∧ st.heap.length < dt.block ∧
          RowPacked L li new (st.heap.length + 1) st'.heap fields
            (dt.add (i * li.Meta.GetRecordSize)) := by
  obtain ⟨p, _, hp, hcase⟩ := Load_ok_cases hc h
  have hnew := (loadRows_newIndexes rs.rows hp).2
  simp only [startPass, List.nil_append] at hnew
  have hlenEq : p.newIndexes.length = (newRows li (resized st hint) rs.rows).length := by
    rw [hnew, newIds_eq_map, List.length_map]
  obtain ⟨hheap, acc, hpool, hpacked⟩ := loadRows_packed ⟨st.heap.length, 0⟩ hen hfit
    (hbelow.resized hint) st.stringPool rs.rows [] [] hp rfl (by simp [startPass])
    (by simp [startPass]) (fun j fs hj => by simp at hj)
  simp only [List.nil_append] at hpacked hheap
  have hpool' : st'.stringPool = st.stringPool ++ acc := by
    rcases hcase with ⟨_, _, hst⟩ | ⟨_, _, _, _, hst⟩ <;> rw [hst] <;> exact hpool
  refine ⟨acc, hpool', fun i fields hi => ?_⟩
  have hilt : i < (newRows li (resized st hint) rs.rows).length := by
    by_contra hge
    rw [List.getElem?_eq_none (by omega)] at hi
    cases hi
  have hrow := hpacked i fields hi
  rcases hcase with ⟨hnil, _, _⟩ | ⟨_, temp, htemp, hbuf, hst⟩
  · rw [hnil] at hlenEq
    simp only [List.length_nil] at hlenEq
    omega
  · refine ⟨⟨p.heap.length, 0⟩, hbuf, rfl, hheap, ?_⟩
    have hsz : packedSize L li = li.Meta.GetRecordSize := by
      have hmem := List.getElem?_mem hi
      unfold newRows at hmem
      have hmem' := (List.mem_filter.mp hmem).1
      clear hrow hpacked
      have : ∀ (rows : List (List Field)) (q q1 : Pass),
          loadRows L li (resized st hint) ⟨st.heap.length, 0⟩ rows q = .ok q1 →
          fields ∈ rows → packedSize L li = li.Meta.GetRecordSize := by
        intro rows
        induction rows with
        | nil => intro _ _ _ hm; cases hm
        | cons r rest ih =>
          intro q q1 hq hm
          simp only [loadRows] at hq
          cases hr : loadRow L li (resized st hint) ⟨st.heap.length, 0⟩ r q with
          | error e => rw [hr] at hq; cases hq
          | ok q2 =>
            rw [hr] at hq
            rcases List.mem_cons.mp hm with rfl | hm
            · exact (loadRow_frame hen hfit hr).1
            · exact ih q2 q1 hq hm
      exact this _ _ _ hp hmem'
    have hdt : st'.heap[p.heap.length]?
        = some (some (temp.take (p.newRecords * li.Meta.GetRecordSize))) := by
      rw [hst]
      simp only
      rw [List.getElem?_set_ne (by omega), List.getElem?_append_right (Nat.le_refl _)]
      simp
    refine hrow.transfer_row li.Meta.GetRecordSize ?_ ?_ (fun x hx => hx) (Nat.le_of_eq hsz)
    · intro off len v hle hf
      obtain ⟨data, hd, hbound, rfl⟩ := fetch_some hf
      simp only [Addr.add_block, Addr.add_off] at hd hbound ⊢
      rw [htemp] at hd
      have hdd : temp = data := Option.some.inj (Option.some.inj hd)
      subst hdd
      have hmul : (i + 1) * li.Meta.GetRecordSize ≤ p.newRecords * li.Meta.GetRecordSize :=
        Nat.mul_le_mul_right _ (by rw [Pass.newRecords, hlenEq]; exact hilt)
      rw [Nat.succ_mul] at hmul
      have hfe := fetch_eq_some (a := (Addr.mk p.heap.length 0).add
          (i * li.Meta.GetRecordSize) |>.add off) (n := len) hdt
        (by simp only [Addr.add_off, List.length_take]; omega)
      rw [hfe]
      congr 1
      apply readAt_congr
      intro k hk
      simp only [Addr.add_off]
      exact List.getElem?_take_of_lt (by omega)
    · intro b d hb hd
      rw [hst]
      simp only
      have hblt := Frame.live_lt hd
      rw [List.getElem?_set_ne (by omega), List.getElem?_append_left hblt]
      exact hd

/-! ### Claims about the packed record -/

theorem sumWidths_succ (L : Layout) (li : DB2LoadInfo) (f k : Nat) :
    sumWidths L li f (k + 1) = sumWidths L li f k + width L (typeAt li (f + k)) := by
  induction k generalizing f with
  | zero => simp [sumWidths]
  | succ k ih =>
    rw [sumWidths, ih (f + 1), sumWidths]
    have : f + 1 + k = f + (k + 1) := by omega
    rw [this]
    omega

theorem ElemsPacked.nth {L : Layout} {li : DB2LoadInfo} {pool : List Addr} {lo : Nat}
    {h : Heap} {fields : List Field} {dv : Addr} (n f off : Nat)
    (he : ElemsPacked L li pool lo h fields dv n f off) (k : Nat) (hk : k < n) :
    ElemPacked L pool lo h (typeAt li (f + k)) (cellAt fields (f + k))
      (dv.add (off + sumWidths L li f k)) := by
  induction n generalizing f off k with
  | zero => omega
  | succ n ih =>
    cases k with
    | zero => exact he.1
    | succ k =>
      have := ih (f + 1) (off + width L (typeAt li f)) he.2 k (by omega)
      have h1 : f + 1 + k = f + (k + 1) := by omega
      have h2 : off + width L (typeAt li f) + sumWidths L li (f + 1) k
          = off + sumWidths L li f (k + 1) := by
        simp only [sumWidths]; omega
      rw [h1, h2] at this
      exact this

/-- Claim C1. For a schema whose packed widths sum to the record size, every row
whose ID was not in the index table round-trips: the record that `Load` packed
for it, the `i`-th record of the returned buffer for the `i`-th new row, decodes
at the schema's field offsets to the values of the row's cells (integers by
value, floats by bit pattern, strings by the content of their pooled string, an
empty string as the sentinel). Read as C strings, the texts come back as well
when no text of the row contains a NUL byte. -/
theorem Load_round_trip (L : Layout) (li : DB2LoadInfo) (rs : PreparedResultSet)
    (hint : Option Field) (st : Storage) (buf : Option Addr) (st' : Storage)
    (i : Nat) (fields : List Field)
    (hptr : 0 < L.ptrSize) (hen : L.LOCALE_enUS < L.TOTAL_LOCALES)
    (hsize : packedSize L li = li.Meta.GetRecordSize) (h32 : li.Meta.GetRecordSize < 2 ^ 32)
    (hc : li.Meta.GetDbFieldCount = rs.GetFieldCount)
    (hbelow : EntriesBelow st.indexTable st.heap.length)
    (h : Load L li (some rs) hint st = .ok (buf, st'))
    (hi : (newRows li (resized st hint) rs.rows)[i]? = some fields) :
    ∃ dt values, buf = some dt ∧ expectedRecord li fields = some values ∧
      decodeRecord L li pooledText st'.heap (dt.add (i * li.Meta.GetRecordSize)) = some values ∧
      (NulFree fields →
        decodeRecord L li readCStr st'.heap (dt.add (i * li.Meta.GetRecordSize))
          = some values) := by
  obtain ⟨new, _, hall⟩ :=
    Load_new_rows_packed hen (by rw [hsize]; exact h32) hc hbelow h
  obtain ⟨dt, hbuf, _, _, hrow⟩ := hall i fields hi
  obtain ⟨hdec, hsome⟩ := hrow.decode_row pooledText hptr hen
    (fun f => pooledText_reads _)
  obtain ⟨values, hvalues⟩ := Option.isSome_iff_exists.mp hsome
  refine ⟨dt, values, hbuf, hvalues, by rw [hdec, hvalues], fun hnul => ?_⟩
  rw [(hrow.decode_row readCStr hptr hen
    (fun f => readCStr_reads _ (cellAt_nulFree hnul f))).1, hvalues]

/-- The row (id = 7, a = 42, b = "hello") is packed into the record at offset 0
of block 2 and decodes to 7, 42 and "hello". -/
theorem Load_round_trip_witness :
    (okValue (none, emptyStorage 0) exampleLoad).1 = some ⟨2, 0⟩ ∧
    decodeRecord layout64 exampleSchema readCStr
      (okValue (none, emptyStorage 0) exampleLoad).2.heap ⟨2, 0⟩
      = some [Value.int 7, Value.int 42, Value.text false hello] ∧
    ∃ dt values, (okValue (none, emptyStorage 0) exampleLoad).1 = some dt ∧
      expectedRecord exampleSchema exampleRows.row = some values ∧
      decodeRecord layout64 exampleSchema pooledText
        (okValue (none, emptyStorage 0) exampleLoad).2.heap
        (dt.add (0 * exampleSchema.Meta.GetRecordSize)) = some values ∧
      (NulFree exampleRows.row →
        decodeRecord layout64 exampleSchema readCStr
          (okValue (none, emptyStorage 0) exampleLoad).2.heap
          (dt.add (0 * exampleSchema.Meta.GetRecordSize)) = some values) :=
  ⟨by decide!, by decide!,
    Load_round_trip layout64 exampleSchema exampleRows (some (.int 8))
      (emptyStorage 4294967295) (okValue (none, emptyStorage 0) exampleLoad).1
      (okValue (none, emptyStorage 0) exampleLoad).2 0 exampleRows.row
      (by decide) (by decide) (by decide) (by decide) (by decide)
      (fun id a h => by simp [emptyStorage] at h)
      (okValue_of_returns (none, emptyStorage 0) exampleLoad (by decide!))
      (by decide)⟩

/-- Claim C10. In the record of a new row, every locale slot of a `LocalizedString`
element other than the base-locale slot holds the sentinel `nullStr`; the
base-locale slot holds the sentinel when the row's text is empty and otherwise a
pointer to a string that this call allocated and appended to the pool and that
holds the text; and the next element starts `TOTAL_LOCALES` pointers later. -/
theorem Load_localized_string_of_new_record (L : Layout) (li : DB2LoadInfo)
    (rs : PreparedResultSet) (hint : Option Field) (st : Storage) (buf : Option Addr)
    (st' : Storage) (i : Nat) (fields : List Field) (k : Nat)
    (hen : L.LOCALE_enUS < L.TOTAL_LOCALES)
    (hsize : packedSize L li = li.Meta.GetRecordSize) (h32 : li.Meta.GetRecordSize < 2 ^ 32)
    (hc : li.Meta.GetDbFieldCount = rs.GetFieldCount)
    (hbelow : EntriesBelow st.indexTable st.heap.length)
    (h : Load L li (some rs) hint st = .ok (buf, st'))
    (hi : (newRows li (resized st hint) rs.rows)[i]? = some fields)
    (hk : k < totalElems li.Meta.Fields)
    (hty : typeAt li (firstColumn li + k) = DBCFormer.FT_STRING) :
    ∃ dt new, buf = some dt ∧ st'.stringPool = st.stringPool ++ new ∧
      (∀ j, j < L.TOTAL_LOCALES → j ≠ L.LOCALE_enUS →
        fetch st'.heap (((dt.add (i * li.Meta.GetRecordSize)).add (elemOffset L li k)).add
          (j * L.ptrSize)) L.ptrSize = some (ptrBytes L.ptrSize nullStr)) ∧
      ((cellAt fields (firstColumn li + k)).GetStringView = [] →
        fetch st'.heap (((dt.add (i * li.Meta.GetRecordSize)).add (elemOffset L li k)).add
          (L.LOCALE_enUS * L.ptrSize)) L.ptrSize = some (ptrBytes L.ptrSize nullStr)) ∧
      ((cellAt fields (firstColumn li + k)).GetStringView ≠ [] →
        ∃ b, fetch st'.heap (((dt.add (i * li.Meta.GetRecordSize)).add (elemOffset L li k)).add
            (L.LOCALE_enUS * L.ptrSize)) L.ptrSize
            = some (ptrBytes L.ptrSize (CStr.heap ⟨b, 0⟩)) ∧
          (⟨b, 0⟩ : Addr) ∈ new ∧ st.heap.length < b ∧
          st'.heap[b]? = some (some
            ((cellAt fields (firstColumn li + k)).GetStringView.map MemVal.byte
              ++ [MemVal.byte 0]))) ∧
      elemOffset L li (k + 1) = elemOffset L li k + L.TOTAL_LOCALES * L.ptrSize := by
  obtain ⟨new, hpool, hall⟩ :=
    Load_new_rows_packed hen (by rw [hsize]; exact h32) hc hbelow h
  obtain ⟨dt, hbuf, _, _, hrow⟩ := hall i fields hi
  have hel := hrow.2.nth _ _ _ k hk
  rw [hty] at hel
  have hadd : (dt.add (i * li.Meta.GetRecordSize)).add (elemOffset L li k)
      = (dt.add (i * li.Meta.GetRecordSize)).add
          (idWidth li + sumWidths L li (firstColumn li) k) := rfl
  refine ⟨dt, new, hbuf, hpool, ?_, ?_, ?_, ?_⟩
  · intro j hj hne
    obtain ⟨q, hq, hrest⟩ := hel j hj
    rw [if_neg hne] at hrest
    rw [hadd, ← hrest]
    exact hq
  · intro htext
    obtain ⟨q, hq, hrest⟩ := hel L.LOCALE_enUS hen
    rw [if_pos rfl] at hrest
    rcases hrest with ⟨_, hqn⟩ | ⟨hne, _⟩
    · rw [hadd, ← hqn]; exact hq
    · exact absurd htext hne
  · intro htext
    obtain ⟨q, hq, hrest⟩ := hel L.LOCALE_enUS hen
    rw [if_pos rfl] at hrest
    rcases hrest with ⟨he, _⟩ | ⟨_, b, hqb, hlo, hmem, hblk⟩
    · exact absurd he htext
    · refine ⟨b, ?_, hmem, by omega, hblk⟩
      rw [hadd, ← hqb]; exact hq
  · unfold elemOffset
    rw [sumWidths_succ, hty]
    simp only [width, Layout.sizeofLocalizedString]
    omega

/-- The example row with a localized string: the enUS slot (offset 4) points to the
pooled "hello" in block 1, the frFR slot (offset 20) holds the sentinel. -/
theorem Load_localized_string_of_new_record_witness :
    fetch (okValue (none, emptyStorage 0) localizedLoad).2.heap ⟨2, 4⟩ 8
      = some (ptrBytes 8 (CStr.heap ⟨1, 0⟩)) ∧
    fetch (okValue (none, emptyStorage 0) localizedLoad).2.heap ⟨2, 20⟩ 8
      = some (ptrBytes 8 nullStr) ∧
    (okValue (none, emptyStorage 0) localizedLoad).2.stringPool = [⟨1, 0⟩] ∧
    ∃ dt new, (okValue (none, emptyStorage 0) localizedLoad).1 = some dt ∧
      (okValue (none, emptyStorage 0) localizedLoad).2.stringPool
        = (emptyStorage 4294967295).stringPool ++ new ∧
      (∀ j, j < layout64.TOTAL_LOCALES → j ≠ layout64.LOCALE_enUS →
        fetch (okValue (none, emptyStorage 0) localizedLoad).2.heap
          (((dt.add (0 * localizedSchema.Meta.GetRecordSize)).add
            (elemOffset layout64 localizedSchema 0)).add (j * layout64.ptrSize))
          layout64.ptrSize = some (ptrBytes layout64.ptrSize nullStr)) ∧
      ((cellAt localizedRows.row (firstColumn localizedSchema + 0)).GetStringView = [] →
        fetch (okValue (none, emptyStorage 0) localizedLoad).2.heap
          (((dt.add (0 * localizedSchema.Meta.GetRecordSize)).add
            (elemOffset layout64 localizedSchema 0)).add
            (layout64.LOCALE_enUS * layout64.ptrSize))
          layout64.ptrSize = some (ptrBytes layout64.ptrSize nullStr)) ∧
      ((cellAt localizedRows.row (firstColumn localizedSchema + 0)).GetStringView ≠ [] →
        ∃ b, fetch (okValue (none, emptyStorage 0) localizedLoad).2.heap
            (((dt.add (0 * localizedSchema.Meta.GetRecordSize)).add
              (elemOffset layout64 localizedSchema 0)).add
              (layout64.LOCALE_enUS * layout64.ptrSize))
            layout64.ptrSize = some (ptrBytes layout64.ptrSize (CStr.heap ⟨b, 0⟩)) ∧
          (⟨b, 0⟩ : Addr) ∈ new ∧ (emptyStorage 4294967295).heap.length < b ∧
          (okValue (none, emptyStorage 0) localizedLoad).2.heap[b]? = some (some
            ((cellAt localizedRows.row (firstColumn localizedSchema + 0)).GetStringView.map
              MemVal.byte ++ [MemVal.byte 0]))) ∧
      elemOffset layout64 localizedSchema (0 + 1)
        = elemOffset layout64 localizedSchema 0
          + layout64.TOTAL_LOCALES * layout64.ptrSize :=
  ⟨by decide!, by decide!, by decide!,
    Load_localized_string_of_new_record layout64 localizedSchema localizedRows (some (.int 8))
      (emptyStorage 4294967295) (okValue (none, emptyStorage 0) localizedLoad).1
      (okValue (none, emptyStorage 0) localizedLoad).2 0 localizedRows.row 0
      (by decide) (by decide) (by decide) (by decide)
      (fun id a h => by simp [emptyStorage] at h)
      (okValue_of_returns (none, emptyStorage 0) localizedLoad (by decide!))
      (by decide) (by decide) (by decide)⟩

theorem sumWidths_congr {L : Layout} {li li' : DB2LoadInfo} (f f' k : Nat)
    (h : ∀ j, j < k → typeAt li (f + j) = typeAt li' (f' + j)) :
    sumWidths L li f k = sumWidths L li' f' k := by
  induction k generalizing f f' with
  | zero => rfl
  | succ k ih =>
    simp only [sumWidths]
    have h0 := h 0 (by omega)
    simp only [Nat.add_zero] at h0
    rw [h0, ih (f + 1) (f' + 1)]
    intro j hj
    have := h (j + 1) (by omega)
    have e1 : f + 1 + j = f + (j + 1) := by omega
    have e2 : f' + 1 + j = f' + (j + 1) := by omega
    rw [e1, e2]
    exact this

theorem typeAt_withEmbeddedIndex (li : DB2LoadInfo) (j : Nat) :
    typeAt (withEmbeddedIndex li) j = typeAt li (firstColumn li + j) := by
  simp only [typeAt, withEmbeddedIndex, List.getElem?_drop]

/-- With the index not embedded every element lies 4 bytes later than with the
index embedded. -/
theorem elemOffset_not_embedded (L : Layout) (li : DB2LoadInfo)
    (hI : li.Meta.HasIndexFieldInData = false) (k : Nat) :
    elemOffset L li k = 4 + elemOffset L (withEmbeddedIndex li) k := by
  have h1 : idWidth li = 4 := by simp [idWidth, hI]
  have h2 : idWidth (withEmbeddedIndex li) = 0 := by simp [idWidth, withEmbeddedIndex]
  have h3 : firstColumn (withEmbeddedIndex li) = 0 := by simp [firstColumn, withEmbeddedIndex]
  unfold elemOffset
  rw [h1, h2, h3, Nat.zero_add]
  congr 1
  apply sumWidths_congr
  intro j _
  rw [typeAt_withEmbeddedIndex, Nat.zero_add]

/-- The cursor with which the field loops of a successfully loaded row start, and
what the row did before and after them. -/
theorem loadRow_cursor {L : Layout} {li : DB2LoadInfo} {tbl : List (Option Addr)}
    {temp : Addr} {fields : List Field} {p p1 : Pass}
    (h : loadRow L li tbl temp fields p = .ok p1) :
    ∃ c1 c2, c1.f = firstColumn li ∧ c1.offset = idWidth li ∧
      (li.Meta.HasIndexFieldInData = false →
        fetch c1.heap (targetOf li tbl temp p fields) 4 = some (leBytes 4 (rowId li fields))) ∧
      Frame (Region (targetOf li tbl temp p fields).block (targetOf li tbl temp p fields).off
        ((targetOf li tbl temp p fields).off + idWidth li)) p.heap c1.heap ∧
      packArray L li (isNewId tbl (rowId li fields)) (targetOf li tbl temp p fields) fields
        (totalElems li.Meta.Fields) c1 = .ok c2 ∧
      c2.offset = li.Meta.GetRecordSize ∧ p1.heap = c2.heap := by
  obtain ⟨idCell, entry, c1, c2, _, _, hentry, hc1, hc2, hoff, hp1⟩ := loadRow_ok_cases h
  have hdv : targetOf li tbl temp p fields
      = entry.getD (temp.add (p.newRecords * li.Meta.GetRecordSize)) := by
    unfold targetOf
    rw [hentry]
    cases entry <;> rfl
  have hnew : isNewId tbl (rowId li fields) = entry.isNone := by
    unfold isNewId
    rw [hentry]
    cases entry <;> simp
  rw [packFields_eq_packArray] at hc2
  rw [hdv, hnew]
  refine ⟨c1, c2, ?_, ?_, ?_, ?_, hc2, hoff, by rw [hp1]⟩
  · unfold firstColumn
    cases hI : li.Meta.HasIndexFieldInData with
    | true => rw [hI] at hc1; simp only [if_true] at hc1 ⊢; cases hc1; rfl
    | false =>
      rw [hI] at hc1
      simp only [Bool.false_eq_true, if_false] at hc1 ⊢
      exact (storeValue_ok hc1).2.1
  · unfold idWidth
    cases hI : li.Meta.HasIndexFieldInData with
    | true => rw [hI] at hc1; simp only [if_true] at hc1 ⊢; cases hc1; rfl
    | false =>
      rw [hI] at hc1
      simp only [Bool.false_eq_true, if_false] at hc1 ⊢
      exact (storeValue_ok hc1).2.2.1
  · intro hI
    rw [hI] at hc1
    simp only [Bool.false_eq_true, if_false] at hc1
    exact (storeValue_effect hc1 (leBytes_length _ _)).2.2.2.2.2
  · unfold idWidth
    cases hI : li.Meta.HasIndexFieldInData with
    | true =>
      rw [hI] at hc1
      simp only [if_true] at hc1 ⊢
      cases hc1
      exact Frame.refl _ _
    | false =>
      rw [hI] at hc1
      simp only [Bool.false_eq_true, if_false] at hc1 ⊢
      have := (storeValue_effect hc1 (leBytes_length _ _)).2.2.1
      simpa using this

theorem packArray_split {L : Layout} {li : DB2LoadInfo} {isNew : Bool} {dv : Addr}
    {fields : List Field} {n : Nat} {c c' : Cursor}
    (h : packArray L li isNew dv fields n c = .ok c') (k : Nat) (hk : k < n) :
    ∃ ck ck', packArray L li isNew dv fields k c = .ok ck ∧
      packElement L li isNew dv fields ck = .ok ck' ∧
      packArray L li isNew dv fields (n - k - 1) ck' = .ok c' := by
  have hn : n = k + (1 + (n - k - 1)) := by omega
  rw [hn, packArray_add] at h
  cases hk1 : packArray L li isNew dv fields k c with
  | error e => rw [hk1] at h; cases h
  | ok ck =>
    rw [hk1] at h
    simp only at h
    rw [packArray_add] at h
    simp only [packArray] at h
    cases hk2 : packElement L li isNew dv fields ck with
    | error e => rw [hk2] at h; cases h
    | ok ck' =>
      rw [hk2] at h
      exact ⟨ck, ck', rfl, hk2, h⟩

theorem sumWidths_le (L : Layout) (li : DB2LoadInfo) (f k n : Nat) (hk : k ≤ n) :
    sumWidths L li f k ≤ sumWidths L li f n := by
  induction n generalizing f k with
  | zero =>
    have : k = 0 := by omega
    subst this
    exact Nat.le_refl _
  | succ n ih =>
    cases k with
    | zero => simp [sumWidths]
    | succ k =>
      simp only [sumWidths]
      have := ih (f + 1) k (by omega)
      omega

/-- The offset of the cursor after `n` elements, in `uint32` arithmetic. -/
theorem packArray_offset_mod {L : Layout} {li : DB2LoadInfo} {isNew : Bool} {dv : Addr}
    {fields : List Field} (hen : L.LOCALE_enUS < L.TOTAL_LOCALES) (n : Nat) {c c' : Cursor}
    (h : packArray L li isNew dv fields n c = .ok c') (hc : c.offset < 2 ^ 32) :
    c'.f = c.f + n ∧ c'.offset = (c.offset + sumWidths L li c.f n) % 2 ^ 32 := by
  induction n generalizing c with
  | zero =>
    simp only [packArray] at h
    cases h
    exact ⟨rfl, by simp only [sumWidths, Nat.add_zero]; exact (Nat.mod_eq_of_lt hc).symm⟩
  | succ n ih =>
    simp only [packArray] at h
    cases h1 : packElement L li isNew dv fields c with
    | error e => rw [h1] at h; cases h
    | ok c1 =>
      rw [h1] at h
      obtain ⟨hf1, ho1, _, _, _, _⟩ := packElement_frame h1 hen
      obtain ⟨hf2, ho2⟩ := ih h (by rw [ho1]; exact Nat.mod_lt _ (by norm_num))
      refine ⟨by omega, ?_⟩
      rw [ho2, hf1, ho1]
      simp only [sumWidths]
      rw [Nat.mod_add_mod, Nat.add_assoc]

/-- Claim C8. When the index is not embedded in the record, every load of a row
leaves the row's ID as a 4-byte value at offset 0 of the record it writes to;
every declared element lies 4 bytes later than with an embedded index; and in the
record of a new row the ID is at offset 0 and each element holds the row's cell at
that shifted offset. -/
theorem Load_id_prefix_when_index_not_embedded (L : Layout) (li : DB2LoadInfo)
    (hen : L.LOCALE_enUS < L.TOTAL_LOCALES)
    (hsize : packedSize L li = li.Meta.GetRecordSize) (h32 : li.Meta.GetRecordSize < 2 ^ 32)
    (hI : li.Meta.HasIndexFieldInData = false) :
    (∀ tbl temp fields p p1, loadRow L li tbl temp fields p = .ok p1 →
      fetch p1.heap (targetOf li tbl temp p fields) 4 = some (leBytes 4 (rowId li fields))) ∧
    (∀ k, elemOffset L li k = 4 + elemOffset L (withEmbeddedIndex li) k) ∧
    (∀ rs hint st buf st', li.Meta.GetDbFieldCount = rs.GetFieldCount →
      EntriesBelow st.indexTable st.heap.length →
      Load L li (some rs) hint st = .ok (buf, st') →
      ∃ new, st'.stringPool = st.stringPool ++ new ∧
        ∀ i fields, (newRows li (resized st hint) rs.rows)[i]? = some fields →
          ∃ dt, buf = some dt ∧
            fetch st'.heap (dt.add (i * li.Meta.GetRecordSize)) 4
              = some (leBytes 4 (rowId li fields)) ∧
            ∀ k, k < totalElems li.Meta.Fields →
              ElemPacked L new (st.heap.length + 1) st'.heap (typeAt li (firstColumn li + k))
                (cellAt fields (firstColumn li + k))
                ((dt.add (i * li.Meta.GetRecordSize)).add
                  (4 + elemOffset L (withEmbeddedIndex li) k))) := by
  have hfit : packedSize L li < 2 ^ 32 := by rw [hsize]; exact h32
  refine ⟨?_, elemOffset_not_embedded L li hI, ?_⟩
  · intro tbl temp fields p p1 h
    obtain ⟨c1, c2, hf, ho, hid, _, hpa, _, hheap⟩ := loadRow_cursor h
    have h4 : idWidth li = 4 := by simp [idWidth, hI]
    obtain ⟨_, _, hfr, _⟩ := packArray_frame hen _ hpa
      (by rw [hf, ho]; exact hfit)
    rw [hheap]
    refine hfr.fetch_eq (hid hI) ?_
    rintro j hlo hhi ⟨_, hj, _⟩
    rw [ho, h4] at hj
    omega
  · intro rs hint st buf st' hc hbelow h
    obtain ⟨new, hpool, hall⟩ := Load_new_rows_packed hen hfit hc hbelow h
    refine ⟨new, hpool, fun i fields hi => ?_⟩
    obtain ⟨dt, hbuf, _, _, hrow⟩ := hall i fields hi
    refine ⟨dt, hbuf, hrow.1 hI, fun k hk => ?_⟩
    rw [← elemOffset_not_embedded L li hI k]
    exact hrow.2.nth _ _ _ k hk

/-- The example row packs to bytes 0 to 3 holding 7, bytes 4 to 7 holding 42 and,
at offset 8, a pointer to the pooled string "hello". -/
theorem Load_id_prefix_when_index_not_embedded_witness :
    (okValue (none, emptyStorage 0) exampleLoad).1 = some ⟨2, 0⟩ ∧
    fetch (okValue (none, emptyStorage 0) exampleLoad).2.heap ⟨2, 0⟩ 4 = some (leBytes 4 7) ∧
    fetch (okValue (none, emptyStorage 0) exampleLoad).2.heap ⟨2, 4⟩ 4 = some (leBytes 4 42) ∧
    fetch (okValue (none, emptyStorage 0) exampleLoad).2.heap ⟨2, 8⟩ 8
      = some (ptrBytes 8 (CStr.heap ⟨1, 0⟩)) ∧
    (okValue (none, emptyStorage 0) exampleLoad).2.heap[1]?
      = some (some (hello.map MemVal.byte ++ [MemVal.byte 0])) ∧
    (okValue (none, emptyStorage 0) exampleLoad).2.stringPool = [⟨1, 0⟩] ∧
    ∀ k, elemOffset layout64 exampleSchema k
      = 4 + elemOffset layout64 (withEmbeddedIndex exampleSchema) k :=
  ⟨by decide!, by decide!, by decide!, by decide!, by decide!, by decide!,
    (Load_id_prefix_when_index_not_embedded layout64 exampleSchema (by decide) (by decide)
      (by decide) (by decide)).2.1⟩

/-- Claim C9. In every load of a row the `k`-th packed element (columns in
declared order, each field repeated `ArraySize` times) is written at the offset
of a prepended ID (4 if the index is not embedded, else 0) plus the widths of all
earlier elements, where the width is 4 for a float and an `Int32`, 1 for an
`Int8`, 2 for an `Int16`, 8 for an `Int64`, one pointer for a plain string and
`TOTAL_LOCALES` pointers for a localized string. The cursor has that offset, as a
`uint32`, when the element is packed, and the step writes only the element's
bytes there; when the packed size fits 32 bits the offset is the plain sum, and in
the record of a new row the element's value is found there. -/
theorem Load_field_offsets (L : Layout) (li : DB2LoadInfo)
    (hen : L.LOCALE_enUS < L.TOTAL_LOCALES) :
    (width L .FT_FLOAT = 4 ∧ width L .FT_INT = 4 ∧ width L .FT_BYTE = 1 ∧
      width L .FT_SHORT = 2 ∧ width L .FT_LONG = 8 ∧
      width L .FT_STRING_NOT_LOCALIZED = L.ptrSize ∧
      width L .FT_STRING = L.ptrSize * L.TOTAL_LOCALES) ∧
    (∀ k, elemOffset L li k
      = (if li.Meta.HasIndexFieldInData then 0 else 4) + sumWidths L li (firstColumn li) k) ∧
    (∀ tbl temp fields p p1, loadRow L li tbl temp fields p = .ok p1 →
      ∀ k, k < totalElems li.Meta.Fields →
        ∃ c1 ck ck', c1.f = firstColumn li ∧ c1.offset = idWidth li ∧
          packArray L li (isNewId tbl (rowId li fields)) (targetOf li tbl temp p fields) fields
            k c1 = .ok ck ∧
          ck.f = firstColumn li + k ∧ ck.offset = elemOffset L li k % 2 ^ 32 ∧
          packElement L li (isNewId tbl (rowId li fields)) (targetOf li tbl temp p fields)
            fields ck = .ok ck' ∧
          Frame (Region (targetOf li tbl temp p fields).block
            ((targetOf li tbl temp p fields).off + ck.offset)
            ((targetOf li tbl temp p fields).off + ck.offset
              + width L (typeAt li (firstColumn li + k)))) ck.heap ck'.heap ∧
          (packedSize L li < 2 ^ 32 →
            ck.offset = elemOffset L li k ∧ ck'.offset = elemOffset L li (k + 1))) ∧
    (packedSize L li < 2 ^ 32 →
      ∀ rs hint st buf st', li.Meta.GetDbFieldCount = rs.GetFieldCount →
      EntriesBelow st.indexTable st.heap.length →
      Load L li (some rs) hint st = .ok (buf, st') →
      ∃ new, st'.stringPool = st.stringPool ++ new ∧
        ∀ i fields, (newRows li (resized st hint) rs.rows)[i]? = some fields →
          ∃ dt, buf = some dt ∧
            ∀ k, k < totalElems li.Meta.Fields →
              ElemPacked L new (st.heap.length + 1) st'.heap (typeAt li (firstColumn li + k))
                (cellAt fields (firstColumn li + k))
                ((dt.add (i * li.Meta.GetRecordSize)).add (elemOffset L li k))) := by
  refine ⟨⟨rfl, rfl, rfl, rfl, rfl, rfl, Nat.mul_comm _ _⟩, fun k => rfl, ?_, ?_⟩
  · intro tbl temp fields p p1 h k hk
    obtain ⟨c1, c2, hf, ho, _, _, hpa, _, _⟩ := loadRow_cursor h
    obtain ⟨ck, ck', hk1, hk2, _⟩ := packArray_split hpa k hk
    have ho32 : c1.offset < 2 ^ 32 := by
      rw [ho]; unfold idWidth; split <;> norm_num
    obtain ⟨hfk, hok⟩ := packArray_offset_mod hen k hk1 ho32
    obtain ⟨_, hok', _, _, hfr, _⟩ := packElement_frame hk2 hen
    rw [hf] at hfk
    rw [hf, ho] at hok
    rw [hfk] at hok' hfr
    refine ⟨c1, ck, ck', hf, ho, hk1, hfk, hok, hk2, hfr, fun hfit => ?_⟩
    have hle := sumWidths_le L li (firstColumn li) (k + 1)
      (totalElems li.Meta.Fields) (by omega)
    have hsum := sumWidths_succ L li (firstColumn li) k
    unfold packedSize at hfit
    have hk0 : ck.offset = idWidth li + sumWidths L li (firstColumn li) k := by
      rw [hok]
      exact Nat.mod_eq_of_lt (by omega)
    refine ⟨hk0, ?_⟩
    rw [hok', hk0, Nat.mod_eq_of_lt (by omega)]
    unfold elemOffset
    omega
  · intro hfit rs hint st buf st' hc hbelow h
    obtain ⟨new, hpool, hall⟩ := Load_new_rows_packed hen hfit hc hbelow h
    refine ⟨new, hpool, fun i fields hi => ?_⟩
    obtain ⟨dt, hbuf, _, _, hrow⟩ := hall i fields hi
    exact ⟨dt, hbuf, fun k hk => hrow.2.nth _ _ _ k hk⟩

/-- In the example schema the `Int32` field lies at offset 4 and the string field
at offset 8, and the record of the example row holds 42 and the pointer there. -/
theorem Load_field_offsets_witness :
    elemOffset layout64 exampleSchema 0 = 4 ∧ elemOffset layout64 exampleSchema 1 = 8 ∧
    elemOffset layout64 exampleSchema 2 = 16 ∧
    fetch (okValue (none, emptyStorage 0) exampleLoad).2.heap ⟨2, 4⟩ 4 = some (leBytes 4 42) ∧
    fetch (okValue (none, emptyStorage 0) exampleLoad).2.heap ⟨2, 8⟩ 8
      = some (ptrBytes 8 (CStr.heap ⟨1, 0⟩)) ∧
    ∀ k, elemOffset layout64 exampleSchema k
      = (if exampleSchema.Meta.HasIndexFieldInData then 0 else 4)
        + sumWidths layout64 exampleSchema (firstColumn exampleSchema) k :=
  ⟨by decide, by decide, by decide, by decide!, by decide!,
    (Load_field_offsets layout64 exampleSchema (by decide)).2.1⟩

/-! ### Frame of a pass -/

theorem resized_entry {st : Storage} {hint : Option Field} {id : Nat} {a : Addr}
    (h : (resized st hint)[id]? = some (some a)) :
    st.indexTable[id]? = some (some a) ∧ (targetSize st.records hint > st.records →
      id < st.records) := by
  unfold resized at h
  split at h
  · rename_i hgt
    by_cases hlt : id < (List.take st.records st.indexTable).length
    · rw [List.getElem?_append_left hlt] at h
      have hlt' : id < st.records := by
        rw [List.length_take] at hlt
        omega
      rw [List.getElem?_take_of_lt hlt'] at h
      exact ⟨h, fun _ => hlt'⟩
    · rw [List.getElem?_append_right (by omega), List.getElem?_replicate] at h
      split at h <;> cases h
  · rename_i hgt
    exact ⟨h, fun hc => absurd hc hgt⟩

/-- The resize step keeps every entry below the reported size. -/
theorem resized_keeps {st : Storage} (hint : Option Field) {id : Nat}
    (hlt : id < st.records)
    (hok : targetSize st.records hint > st.records → st.records ≤ st.indexTable.length) :
    (resized st hint)[id]? = st.indexTable[id]? := by
  unfold resized
  split
  · rename_i hgt
    have hlen := hok hgt
    rw [List.getElem?_append_left (by rw [List.length_take]; omega),
      List.getElem?_take_of_lt hlt]
  · rfl

theorem resizeIndexTable_bound {records size : Nat} {tbl tbl' : List (Option Addr)}
    (h : resizeIndexTable records size tbl = .ok tbl') (hgt : size > records) :
    records ≤ tbl.length := by
  unfold resizeIndexTable at h
  rw [if_pos hgt] at h
  split at h
  · assumption
  · cases h

/-- An entry of the table after the insertion loop is an old entry or the record
of one of the new IDs. -/
theorem insertNew_entry (recordSize : Nat) (dataTable : Addr) (ids : List Nat) (i : Nat)
    (tbl : List (Option Addr)) (minId : Nat) (j : Nat) (a : Addr)
    (h : (insertNew recordSize dataTable ids i (tbl, minId)).1[j]? = some (some a)) :
    (j ∉ ids ∧ tbl[j]? = some (some a)) ∨
    (∃ k, k < ids.length ∧ ids[k]? = some j ∧ a = dataTable.add ((i + k) * recordSize)) := by
  induction ids generalizing i tbl minId with
  | nil => exact Or.inl ⟨by simp, h⟩
  | cons id rest ih =>
    simp only [insertNew] at h
    rcases ih _ _ _ h with ⟨hnot, hent⟩ | ⟨k, hk, hidk, ha⟩
    · by_cases hj : id = j
      · subst hj
        right
        refine ⟨0, by simp, by simp, ?_⟩
        by_cases hlt : id < tbl.length
        · rw [List.getElem?_set_self hlt] at hent
          simp only [Option.some.injEq] at hent
          rw [← hent]
          simp
        · rw [List.getElem?_eq_none (by simp; omega)] at hent
          cases hent
      · left
        rw [List.getElem?_set_ne hj] at hent
        exact ⟨by simp [hnot, Ne.symm hj], hent⟩
    · right
      refine ⟨k + 1, by simp; omega, by simpa using hidk, ?_⟩
      rw [ha]
      congr 2
      omega

/-- The entry of a present ID survives the insertion loop. -/
theorem insertNew_keeps {li : DB2LoadInfo} {tbl : List (Option Addr)}
    {rows : List (List Field)} (recordSize : Nat) (dataTable : Addr) (i minId : Nat)
    {id : Nat} {a : Addr} (h : tbl[id]? = some (some a)) :
    (insertNew recordSize dataTable (newIds li tbl rows) i (tbl, minId)).1[id]?
      = some (some a) := by
  rw [insertNew_other]
  · exact h
  · intro hmem
    obtain ⟨_, _, _, hnone⟩ := mem_newIds.mp hmem
    rw [h] at hnone
    cases hnone

/-- The rows of the row loop write, in the blocks that existed before the loop
and are not the provisional buffer, only into the records of present IDs. -/
theorem loadRows_frame {L : Layout} {li : DB2LoadInfo} {tbl : List (Option Addr)}
    {temp : Addr} (hen : L.LOCALE_enUS < L.TOTAL_LOCALES) (hfit : packedSize L li < 2 ^ 32)
    (rows : List (List Field)) {p p1 : Pass}
    (h : loadRows L li tbl temp rows p = .ok p1) :
    Frame (fun b j => b = temp.block ∨ Touched li tbl rows b j) p.heap p1.heap ∧
    ∃ new, p1.stringPool = p.stringPool ++ new := by
  induction rows generalizing p with
  | nil =>
    simp only [loadRows] at h
    cases h
    exact ⟨Frame.refl _ _, [], by simp⟩
  | cons fields rest ih =>
    simp only [loadRows] at h
    cases h2 : loadRow L li tbl temp fields p with
    | error e => rw [h2] at h; cases h
    | ok p2 =>
      rw [h2] at h
      simp only at h
      obtain ⟨_, hfr, new, hpool⟩ := loadRow_frame hen hfit h2
      obtain ⟨hfr2, new2, hpool2⟩ := ih h
      refine ⟨Frame.trans (hfr.mono ?_) (hfr2.mono ?_), new ++ new2,
        by rw [hpool2, hpool, List.append_assoc]⟩
      · rintro b j ⟨hb, hlo, hhi⟩
        rcases loadRow_entry h2 with hnew | ⟨a, hold⟩
        · left
          rw [targetOf_new hnew] at hb
          exact hb
        · right
          rw [targetOf_old hold] at hb hlo hhi
          exact ⟨fields, List.mem_cons_self _ _, a, hold, hb, hlo, hhi⟩
      · rintro b j (hb | ⟨f, hf, a, ha, hreg⟩)
        · exact Or.inl hb
        · exact Or.inr ⟨f, List.mem_cons_of_mem _ hf, a, ha, hreg⟩

/-- A `Load` that returns changes, in the heap it was given, only cells of records
whose ID occurs among its rows. -/
theorem Load_frame {L : Layout} {li : DB2LoadInfo} {rs : PreparedResultSet}
    {hint : Option Field} {st : Storage} {buf : Option Addr} {st' : Storage}
    (hen : L.LOCALE_enUS < L.TOTAL_LOCALES) (hfit : packedSize L li < 2 ^ 32)
    (hc : li.Meta.GetDbFieldCount = rs.GetFieldCount)
    (h : Load L li (some rs) hint st = .ok (buf, st')) :
    Frame (Touched li (resized st hint) rs.rows) st.heap st'.heap := by
  obtain ⟨p, _, hp, hcase⟩ := Load_ok_cases hc h
  obtain ⟨hfr, _⟩ := loadRows_frame hen hfit rs.rows hp
  have hfr0 : Frame (fun b j => b = st.heap.length ∨ Touched li (resized st hint) rs.rows b j)
      st.heap p.heap := Frame.trans (Frame.append _ _ _) hfr
  have hfr1 : Frame (Touched li (resized st hint) rs.rows) st.heap p.heap := by
    refine ⟨hfr0.1, fun b data hd => ?_⟩
    obtain ⟨d', hd', hl, hcell⟩ := hfr0.2 b data hd
    refine ⟨d', hd', hl, fun j hj => hcell j ?_⟩
    rintro (hb | ht)
    · have := Frame.live_lt hd
      omega
    · exact hj ht
  rcases hcase with ⟨_, _, hst⟩ | ⟨_, temp, _, _, hst⟩
  · rw [hst]
    exact hfr1.set_none _ (Nat.le_refl _)
  · rw [hst]
    exact (hfr1.trans (Frame.append _ _ _)).set_none _ (Nat.le_refl _)

theorem loadRows_heap_length {L : Layout} {li : DB2LoadInfo} {tbl : List (Option Addr)}
    {temp : Addr} (hen : L.LOCALE_enUS < L.TOTAL_LOCALES) (hfit : packedSize L li < 2 ^ 32)
    (rows : List (List Field)) {p p1 : Pass}
    (h : loadRows L li tbl temp rows p = .ok p1) : p.heap.length ≤ p1.heap.length :=
  (loadRows_frame hen hfit rows h).1.1

/-- `Load` keeps the invariant of the storage. -/
theorem Load_preserves_StoreInv {L : Layout} {li : DB2LoadInfo} {rs : PreparedResultSet}
    {hint : Option Field} {st : Storage} {buf : Option Addr} {st' : Storage}
    (hen : L.LOCALE_enUS < L.TOTAL_LOCALES) (hfit : packedSize L li < 2 ^ 32)
    (hc : li.Meta.GetDbFieldCount = rs.GetFieldCount)
    (hinv : StoreInv li st)
    (h : Load L li (some rs) hint st = .ok (buf, st')) : StoreInv li st' := by
  obtain ⟨p, _, hp, hcase⟩ := Load_ok_cases hc h
  have hlen := loadRows_heap_length hen hfit rs.rows hp
  simp only [startPass, List.length_append, List.length_singleton] at hlen
  rcases hcase with ⟨_, _, hst⟩ | ⟨_, temp, _, _, hst⟩
  · constructor
    · intro id a hid
      rw [hst] at hid ⊢
      simp only [List.length_set] at hid ⊢
      have := hinv.1 id a (resized_entry hid).1
      omega
    · intro id1 id2 a1 a2 hne h1 h2
      rw [hst] at h1 h2
      exact hinv.2 id1 id2 a1 a2 hne (resized_entry h1).1 (resized_entry h2).1
  · have hent : ∀ id a, st'.indexTable[id]? = some (some a) →
        st.indexTable[id]? = some (some a) ∨
        ∃ k, p.newIndexes[k]? = some id ∧
          a = (Addr.mk p.heap.length 0).add ((0 + k) * li.Meta.GetRecordSize) := by
      intro id a hid
      rw [hst] at hid
      rcases insertNew_entry _ _ _ _ _ _ _ _ hid with ⟨_, hold⟩ | ⟨k, _, hk, ha⟩
      · exact Or.inl (resized_entry hold).1
      · exact Or.inr ⟨k, hk, ha⟩
    have hheap : st'.heap.length = p.heap.length + 1 := by rw [hst]; simp
    constructor
    · intro id a hid
      rw [hheap]
      rcases hent id a hid with hold | ⟨k, _, ha⟩
      · have := hinv.1 id a hold
        omega
      · rw [ha]
        simp only [Addr.add_block]
        omega
    · intro id1 id2 a1 a2 hne h1 h2
      rcases hent id1 a1 h1 with hold1 | ⟨k1, hk1, ha1⟩
      · rcases hent id2 a2 h2 with hold2 | ⟨k2, hk2, ha2⟩
        · exact hinv.2 id1 id2 a1 a2 hne hold1 hold2
        · left
          have := hinv.1 id1 a1 hold1
          rw [ha2]
          simp only [Addr.add_block]
          omega
      · rcases hent id2 a2 h2 with hold2 | ⟨k2, hk2, ha2⟩
        · left
          have := hinv.1 id2 a2 hold2
          rw [ha1]
          simp only [Addr.add_block]
          omega
        · right
          have hk : k1 ≠ k2 := by
            rintro rfl
            rw [hk1] at hk2
            exact hne (Option.some.inj hk2)
          rw [ha1, ha2]
          simp only [Addr.add_off, Nat.zero_add]
          rcases Nat.lt_or_gt_of_ne hk with hlt | hgt
          · left
            have : (k1 + 1) * li.Meta.GetRecordSize ≤ k2 * li.Meta.GetRecordSize :=
              Nat.mul_le_mul_right _ hlt
            rw [Nat.succ_mul] at this
            omega
          · right
            have : (k2 + 1) * li.Meta.GetRecordSize ≤ k1 * li.Meta.GetRecordSize :=
              Nat.mul_le_mul_right _ hgt
            rw [Nat.succ_mul] at this
            omega

theorem StoreInv_empty (li : DB2LoadInfo) (minId : Nat) : StoreInv li (emptyStorage minId) :=
  ⟨fun id a h => by simp [emptyStorage] at h, fun id1 id2 a1 a2 _ h => by simp [emptyStorage] at h⟩

/-- Claim C2 fails as stated. After the example load of (id = 7, a = 42, "hello"),
a second load of (id = 7, a = 43, "hello") returns no buffer, keeps the record
address of ID 7 and overwrites the record in place: its field `a` reads 43 and its
string slot points to a new pooled string. -/
theorem Load_overwrites_existing_record :
    exampleStorage.indexTable[7]? = some (some ⟨2, 0⟩) ∧
    (okValue (some ⟨0, 0⟩, emptyStorage 0) overwriteLoad).1 = none ∧
    (okValue (none, emptyStorage 0) overwriteLoad).2.indexTable[7]? = some (some ⟨2, 0⟩) ∧
    fetch exampleStorage.heap ⟨2, 4⟩ 4 = some (leBytes 4 42) ∧
    fetch (okValue (none, emptyStorage 0) overwriteLoad).2.heap ⟨2, 4⟩ 4
      = some (leBytes 4 43) ∧
    fetch exampleStorage.heap ⟨2, 8⟩ 8 = some (ptrBytes 8 (CStr.heap ⟨1, 0⟩)) ∧
    fetch (okValue (none, emptyStorage 0) overwriteLoad).2.heap ⟨2, 8⟩ 8
      = some (ptrBytes 8 (CStr.heap ⟨4, 0⟩)) ∧
    fetch (okValue (none, emptyStorage 0) overwriteLoad).2.heap ⟨2, 0⟩ 16
      ≠ fetch exampleStorage.heap ⟨2, 0⟩ 16 := by
  refine ⟨by decide!, by decide!, by decide!, by decide!, by decide!, by decide!, by decide!,
    by decide!⟩

/-! ### `Load` returns under its precondition -/

theorem Valid.frame {W : Nat → Nat → Prop} {h h' : Heap} {a : Addr} {n : Nat}
    (hv : Valid h a n) (hf : Frame W h h') : Valid h' a n := by
  obtain ⟨data, hd, hle⟩ := hv
  obtain ⟨d', hd', hl, _⟩ := hf.2 _ _ hd
  exact ⟨d', hd', by omega⟩

theorem Valid.sub {h : Heap} {a : Addr} {n : Nat} (hv : Valid h a n) (off m : Nat)
    (hle : off + m ≤ n) : Valid h (a.add off) m := by
  obtain ⟨data, hd, hb⟩ := hv
  exact ⟨data, hd, by simp only [Addr.add_off]; omega⟩

theorem Valid.shrink {h : Heap} {a : Addr} {n : Nat} (hv : Valid h a n) (m : Nat)
    (hle : m ≤ n) : Valid h a m := by
  obtain ⟨data, hd, hb⟩ := hv
  exact ⟨data, hd, by omega⟩

theorem store_returns {h : Heap} {a : Addr} (vals : List MemVal) (hv : Valid h a vals.length) :
    ∃ h', store h a vals = .ok h' := by
  obtain ⟨data, hd, hle⟩ := hv
  exact ⟨_, store_eq_ok hd hle⟩

theorem storeValue_returns (dv : Addr) (c : Cursor) (w : Nat) (bytes : List MemVal)
    (hv : Valid c.heap (dv.add c.offset) bytes.length) :
    ∃ c', storeValue dv c w bytes = .ok c' := by
  obtain ⟨h', hs⟩ := store_returns _ hv
  unfold storeValue
  rw [hs]
  exact ⟨_, rfl⟩

theorem fillNullStr_returns {L : Layout} {slot : Addr} (n : Nat) {h : Heap}
    (hv : Valid h slot (n * L.ptrSize)) : ∃ h', fillNullStr L slot n h = .ok h' := by
  induction n with
  | zero => exact ⟨h, rfl⟩
  | succ n ih =>
    rw [Nat.succ_mul] at hv
    obtain ⟨h1, hh1⟩ := ih (by
      obtain ⟨data, hd, hb⟩ := hv
      exact ⟨data, hd, by omega⟩)
    have hv1 : Valid h1 (slot.add (n * L.ptrSize)) (ptrBytes L.ptrSize nullStr).length := by
      rw [ptrBytes_length]
      exact (hv.frame (fillNullStr_frame n hh1).1).sub _ _ (Nat.le_refl _)
    obtain ⟨h2, hh2⟩ := store_returns _ hv1
    simp only [fillNullStr, hh1]
    exact ⟨h2, hh2⟩

theorem AddString_returns {L : Layout} {h : Heap} {holder : Addr} (value : List Nat)
    (hv : Valid h holder L.ptrSize) : ∃ r, AddString L h holder value = .ok r := by
  unfold AddString
  by_cases hval : value = []
  · rw [if_neg (by simp [hval])]
    exact ⟨_, rfl⟩
  · rw [if_pos hval]
    have hv1 : Valid (h ++ [some (value.map MemVal.byte ++ [MemVal.byte 0])]) holder
        (ptrBytes L.ptrSize (CStr.heap ⟨h.length, 0⟩)).length := by
      rw [ptrBytes_length]
      exact hv.frame (Frame.append (fun _ _ => False) _ _)
    obtain ⟨h2, hh2⟩ := store_returns _ hv1
    simp only [hh2]
    exact ⟨_, rfl⟩

/-- One element is packed without a fault when its column exists with a known
type, the row has the cell and the element lies inside a live allocation. -/
theorem packElement_returns {L : Layout} {li : DB2LoadInfo} (isNew : Bool) (dv : Addr)
    (fields : List Field) {c : Cursor} (hen : L.LOCALE_enUS < L.TOTAL_LOCALES)
    (hcol : c.f < li.Fields.length) (hknown : ∀ x, typeAt li c.f ≠ DBCFormer.other x)
    (hcell : c.f < fields.length)
    (hv : Valid c.heap (dv.add c.offset) (width L (typeAt li c.f))) :
    ∃ c', packElement L li isNew dv fields c = .ok c' := by
  obtain ⟨fm, hfm⟩ : ∃ fm, li.Fields[c.f]? = some fm :=
    ⟨li.Fields[c.f], List.getElem?_eq_getElem hcol⟩
  obtain ⟨cell, hce⟩ : ∃ cell, fields[c.f]? = some cell :=
    ⟨fields[c.f], List.getElem?_eq_getElem hcell⟩
  have hcolumn : column fields c.f = .ok cell := by simp [column, hce]
  have hty := typeAt_eq hfm
  rw [hty] at hv hknown
  unfold packElement
  rw [hfm]
  simp only
  cases hT : fm.Type_ with
  | FT_FLOAT | FT_INT | FT_BYTE | FT_SHORT | FT_LONG =>
    rw [hT] at hv
    simp only [hcolumn]
    exact storeValue_returns _ _ _ _ (by simp only [intBytes, leBytes_length]; exact hv)
  | FT_STRING =>
    rw [hT] at hv
    simp only [width, Layout.sizeofLocalizedString] at hv
    have hfill : ∃ h1, (if isNew = true then fillNullStr L (dv.add c.offset) L.TOTAL_LOCALES c.heap
        else Except.ok c.heap) = .ok h1 ∧
        Valid h1 (dv.add c.offset) (L.TOTAL_LOCALES * L.ptrSize) := by
      cases isNew with
      | false => exact ⟨c.heap, by simp, hv⟩
      | true =>
        obtain ⟨h1, hh1⟩ := fillNullStr_returns L.TOTAL_LOCALES hv
        exact ⟨h1, by simp [hh1], hv.frame (fillNullStr_frame _ hh1).1⟩
    obtain ⟨h1, hh1, hv1⟩ := hfill
    have hmul : (L.LOCALE_enUS + 1) * L.ptrSize ≤ L.TOTAL_LOCALES * L.ptrSize :=
      Nat.mul_le_mul_right _ hen
    rw [Nat.succ_mul] at hmul
    obtain ⟨r, hr⟩ := AddString_returns (L := L) cell.GetStringView
      (hv1.sub (L.LOCALE_enUS * L.ptrSize) L.ptrSize hmul)
    simp only [hh1, hcolumn, hr]
    exact ⟨_, rfl⟩
  | FT_STRING_NOT_LOCALIZED =>
    rw [hT] at hv
    simp only [width] at hv
    obtain ⟨r, hr⟩ := AddString_returns (L := L) cell.GetStringView hv
    obtain ⟨str, h1⟩ := r
    simp only [hcolumn, hr]
    cases str with
    | some s => exact ⟨_, rfl⟩
    | none =>
      simp only
      have hfr := (AddString_effect hr).1
      obtain ⟨h2, hh2⟩ := store_returns (ptrBytes L.ptrSize nullStr)
        (by rw [ptrBytes_length]; exact hv.frame hfr)
      rw [hh2]
      exact ⟨_, rfl⟩
  | other x => exact absurd hT (hknown x)

/-- The element loop runs without a fault when all its columns exist with known
types, the row has the cells and the elements lie inside a live allocation. -/
theorem packArray_returns {L : Layout} (li : DB2LoadInfo) (isNew : Bool) (dv : Addr)
    (fields : List Field) (hen : L.LOCALE_enUS < L.TOTAL_LOCALES) (n : Nat) {c : Cursor}
    (hcols : ∀ k, k < n → c.f + k < li.Fields.length ∧
      ∀ x, typeAt li (c.f + k) ≠ DBCFormer.other x)
    (hcells : c.f + n ≤ fields.length)
    (hnw : c.offset + sumWidths L li c.f n < 2 ^ 32)
    (hv : Valid c.heap (dv.add c.offset) (sumWidths L li c.f n)) :
    ∃ c', packArray L li isNew dv fields n c = .ok c' := by
  induction n generalizing c with
  | zero => exact ⟨c, rfl⟩
  | succ n ih =>
    simp only [sumWidths] at hnw hv
    have h0 := hcols 0 (by omega)
    simp only [Nat.add_zero] at h0
    obtain ⟨c1, hc1⟩ := packElement_returns isNew dv fields hen h0.1 h0.2
      (by omega) (hv.shrink _ (by omega))
    obtain ⟨hf1, ho1, _, _, hfr1, _⟩ := packElement_frame hc1 hen
    rw [Nat.mod_eq_of_lt (by omega)] at ho1
    have hv1 : Valid c1.heap (dv.add c1.offset) (sumWidths L li c1.f n) := by
      have := (hv.frame hfr1).sub (width L (typeAt li c.f)) (sumWidths L li (c.f + 1) n)
        (Nat.le_refl _)
      rw [Addr.add_add] at this
      rw [hf1, ho1]
      exact this
    obtain ⟨c2, hc2⟩ := ih (c := c1)
      (fun k hk => by
        have := hcols (k + 1) (by omega)
        rw [hf1]
        have e : c.f + 1 + k = c.f + (k + 1) := by omega
        rw [e]
        exact this)
      (by rw [hf1]; omega) (by rw [hf1, ho1]; omega) hv1
    simp only [packArray, hc1]
    exact ⟨c2, hc2⟩

/-- One row is loaded without a fault when the schema is consistent, the row fits
it, and the record that the row is written to is a live region. -/
theorem loadRow_returns {L : Layout} {li : DB2LoadInfo} {tbl : List (Option Addr)}
    (temp : Addr) {fields : List Field} {p : Pass}
    (hs : SchemaOk L li) (hrow : RowOk li tbl fields)
    (hv : Valid p.heap (targetOf li tbl temp p fields) li.Meta.GetRecordSize) :
    ∃ p1, loadRow L li tbl temp fields p = .ok p1 := by
  obtain ⟨hen, hsize, h32, hcols⟩ := hs
  obtain ⟨hidx, hcells, hid⟩ := hrow
  have hidc : fields[li.Meta.GetDbIndexField]? = some fields[li.Meta.GetDbIndexField] :=
    List.getElem?_eq_getElem hidx
  have hrid : rowId li fields = fields[li.Meta.GetDbIndexField].GetUInt32 := by
    simp only [rowId, hidc]
  have hentry : tbl[rowId li fields]? = some tbl[rowId li fields] :=
    List.getElem?_eq_getElem hid
  have hdv : targetOf li tbl temp p fields
      = (tbl[rowId li fields]).getD (temp.add (p.newRecords * li.Meta.GetRecordSize)) := by
    unfold targetOf
    rw [hentry]
    cases tbl[rowId li fields] <;> rfl
  rw [hdv] at hv
  unfold loadRow
  simp only [hidc]
  rw [← hrid]
  simp only [hentry]
  generalize (tbl[rowId li fields]).getD (temp.add (p.newRecords * li.Meta.GetRecordSize)) = dv
    at hv
  generalize (tbl[rowId li fields]).isNone = isNew
  have hstep : ∃ c1, (if li.Meta.HasIndexFieldInData = true
      then Except.ok { f := 0, offset := 0, heap := p.heap, stringPool := p.stringPool }
      else storeValue dv { f := 0, offset := 0, heap := p.heap, stringPool := p.stringPool } 4
        (leBytes 4 (rowId li fields))) = Except.ok c1 ∧
      c1.f = firstColumn li ∧ c1.offset = idWidth li ∧
      Valid c1.heap dv li.Meta.GetRecordSize := by
    by_cases hemb : li.Meta.HasIndexFieldInData = true
    · exact ⟨_, by rw [if_pos hemb], by simp [firstColumn, hemb], by simp [idWidth, hemb], hv⟩
    · have h4 : 4 ≤ li.Meta.GetRecordSize := by
        rw [← hsize]
        simp [packedSize, idWidth, hemb]
      obtain ⟨c1, hc1⟩ := storeValue_returns dv
        { f := 0, offset := 0, heap := p.heap, stringPool := p.stringPool } 4
        (leBytes 4 (rowId li fields))
        (by rw [leBytes_length]; exact hv.sub 0 4 (by omega))
      obtain ⟨hf, ho, hfr, _⟩ := storeValue_effect hc1 (leBytes_length _ _)
      exact ⟨c1, by rw [if_neg hemb]; exact hc1, by simp [hf, firstColumn, hemb],
        by simp [ho, idWidth, hemb], hv.frame hfr⟩
  obtain ⟨c1, hc1, hf1, ho1, hv1⟩ := hstep
  have hnw : c1.offset + sumWidths L li c1.f (totalElems li.Meta.Fields) < 2 ^ 32 := by
    rw [hf1, ho1]
    have : packedSize L li = idWidth li
        + sumWidths L li (firstColumn li) (totalElems li.Meta.Fields) := rfl
    omega
  obtain ⟨c2, hc2⟩ := packArray_returns li isNew dv fields hen
    (totalElems li.Meta.Fields) (c := c1)
    (fun k hk => by rw [hf1]; exact hcols k hk)
    (by rw [hf1]; exact hcells) hnw
    (by
      rw [hf1, ho1]
      refine hv1.sub _ _ ?_
      rw [← hsize]
      exact Nat.le_refl _)
  obtain ⟨_, ho2, _, _⟩ := packArray_frame hen _ hc2 hnw
  have hoff : c2.offset = li.Meta.GetRecordSize := by
    rw [ho2, hf1, ho1, ← hsize]
    rfl
  rw [hc1]
  simp only [packFields_eq_packArray, hc2, hoff, if_true]
  exact ⟨_, rfl⟩

/-- The row loop runs without a fault when the schema is consistent, the rows fit
it, the records of the table are live regions and the provisional buffer has room
for the rows that are left. -/
theorem loadRows_returns {L : Layout} {li : DB2LoadInfo} {tbl : List (Option Addr)}
    {temp : Addr} (hs : SchemaOk L li) (rows : List (List Field)) {p : Pass}
    (hrows : ∀ fields ∈ rows, RowOk li tbl fields)
    (hrec : RecordsValid li tbl p.heap)
    (htemp : Valid p.heap temp ((p.newRecords + rows.length) * li.Meta.GetRecordSize)) :
    ∃ p1, loadRows L li tbl temp rows p = .ok p1 := by
  induction rows generalizing p with
  | nil => exact ⟨p, rfl⟩
  | cons fields rest ih =>
    have hfit : packedSize L li < 2 ^ 32 := by rw [hs.2.1]; exact hs.2.2.1
    have hv : Valid p.heap (targetOf li tbl temp p fields) li.Meta.GetRecordSize := by
      unfold targetOf
      cases he : tbl[rowId li fields]? with
      | none =>
        refine htemp.sub _ _ ?_
        rw [← Nat.succ_mul]
        exact Nat.mul_le_mul_right _ (by simp only [List.length_cons]; omega)
      | some entry =>
        cases entry with
        | none =>
          refine htemp.sub _ _ ?_
          rw [← Nat.succ_mul]
          exact Nat.mul_le_mul_right _ (by simp only [List.length_cons]; omega)
        | some a => exact hrec _ a he
    obtain ⟨p1, hp1⟩ := loadRow_returns temp (p := p) hs
      (hrows fields (List.mem_cons_self _ _)) hv
    obtain ⟨_, hfr, _⟩ := loadRow_frame hs.1 hfit hp1
    obtain ⟨_, hni⟩ := loadRow_newIndexes hp1
    have hcount : p1.newRecords ≤ p.newRecords + 1 := by
      simp only [Pass.newRecords, hni, List.length_append, newIds_single]
      split <;> simp
    obtain ⟨p2, hp2⟩ := ih (p := p1)
      (fun f hf => hrows f (List.mem_cons_of_mem _ hf))
      (fun id a ha => (hrec id a ha).frame hfr)
      ((htemp.frame hfr).shrink _
        (Nat.mul_le_mul_right _ (by simp only [List.length_cons]; omega)))
    simp only [loadRows, hp1]
    exact ⟨p2, hp2⟩

/-- `Load` returns under its precondition: no abort and no out-of-bounds access. -/
theorem Load_returns {L : Layout} {li : DB2LoadInfo} {rs : PreparedResultSet}
    {hint : Option Field} {st : Storage} (hpre : LoadPre L li rs hint st) :
    ∃ buf st', Load L li (some rs) hint st = .ok (buf, st') := by
  obtain ⟨hs, hrecs, hvalid, hrows⟩ := hpre
  by_cases hc : li.Meta.GetDbFieldCount = rs.GetFieldCount
  swap
  · exact ⟨none, st, Load_mismatch L li rs hint st hc⟩
  have hfit : packedSize L li < 2 ^ 32 := by rw [hs.2.1]; exact hs.2.2.1
  have hres : resizeIndexTable st.records (targetSize st.records hint) st.indexTable
      = .ok (resized st hint) := by
    unfold resizeIndexTable resized
    by_cases hg : targetSize st.records hint > st.records
    · simp [hg, hrecs]
    · simp [hg]
  have hrv : RecordsValid li (resized st hint) (startPass li rs st).heap := by
    intro id a ha
    have hold : ∃ id0 : Nat, st.indexTable[id0]? = some (some a) := by
      unfold resized at ha
      split at ha
      · by_cases hlt : id < (st.indexTable.take st.records).length
        · rw [List.getElem?_append_left hlt, List.getElem?_take] at ha
          split at ha
          · exact ⟨id, ha⟩
          · cases ha
        · rw [List.getElem?_append_right (by omega)] at ha
          rw [List.getElem?_replicate] at ha
          split at ha <;> cases ha
      · exact ⟨id, ha⟩
    obtain ⟨id0, h0⟩ := hold
    exact (hvalid id0 a h0).frame (Frame.append (fun _ _ => False) _ _)
  have htemp : Valid (startPass li rs st).heap ⟨st.heap.length, 0⟩
      (((startPass li rs st).newRecords + rs.rows.length) * li.Meta.GetRecordSize) := by
    refine ⟨List.replicate (rs.GetRowCount * li.Meta.GetRecordSize) (MemVal.byte 0), ?_, ?_⟩
    · simp [startPass]
    · simp [startPass, Pass.newRecords, PreparedResultSet.rows,
        PreparedResultSet.GetRowCount]
  obtain ⟨p, hp⟩ := loadRows_returns hs rs.rows hrows hrv htemp
  obtain ⟨hfr, _⟩ := loadRows_frame hs.1 hfit rs.rows hp
  obtain ⟨temp, htb, _⟩ := htemp.frame hfr
  have hp0 : loadRows L li (resized st hint) ⟨st.heap.length, 0⟩ rs.rows
      { heap := st.heap ++ [some (List.replicate (rs.GetRowCount * li.Meta.GetRecordSize)
          (MemVal.byte 0))], stringPool := st.stringPool, newIndexes := [] } = .ok p := hp
  unfold Load
  simp only [ne_eq, hc, not_true_eq_false, if_false, hres, bind, Except.bind, hp0]
  by_cases hn : p.newRecords = 0
  · rw [if_pos hn]
    exact ⟨_, _, rfl⟩
  · rw [if_neg hn]
    simp only at htb
    simp only [htb]
    exact ⟨_, _, rfl⟩

/-! ### Whether a buffer is returned -/

theorem typeAt_known {li : DB2LoadInfo} {f : Nat} {ty : DBCFormer} (h : typeAt li f = ty)
    (hk : ∀ x, ty ≠ DBCFormer.other x) : ∃ fm, li.Fields[f]? = some fm ∧ fm.Type_ = ty := by
  unfold typeAt at h
  cases hF : li.Fields[f]? with
  | none =>
    rw [hF] at h
    exact absurd h.symm (hk 0)
  | some fm =>
    rw [hF] at h
    exact ⟨fm, rfl, h⟩

theorem column_fault {fields : List Field} {f : Nat} {e : Fault}
    (h : column fields f = .error e) : e = .outOfBounds := by
  unfold column at h
  split at h
  · cases h
  · cases h; rfl

theorem store_fault {h : Heap} {a : Addr} {vals : List MemVal} {e : Fault}
    (hs : store h a vals = .error e) : e = .outOfBounds := by
  unfold store at hs
  split at hs
  · split at hs
    · cases hs
    · cases hs; rfl
  · cases hs; rfl

theorem storeValue_fault {dv : Addr} {c : Cursor} {w : Nat} {bytes : List MemVal} {e : Fault}
    (h : storeValue dv c w bytes = .error e) : e = .outOfBounds := by
  unfold storeValue at h
  cases hs : store c.heap (dv.add c.offset) bytes with
  | ok h1 => rw [hs] at h; cases h
  | error e1 =>
    rw [hs] at h
    cases h
    exact store_fault hs

theorem fillNullStr_fault {L : Layout} {slot : Addr} (n : Nat) {h : Heap} {e : Fault}
    (hs : fillNullStr L slot n h = .error e) : e = .outOfBounds := by
  induction n with
  | zero => simp only [fillNullStr] at hs; cases hs
  | succ n ih =>
    simp only [fillNullStr] at hs
    cases h1 : fillNullStr L slot n h with
    | error e1 =>
      rw [h1] at hs
      cases hs
      exact ih h1
    | ok h2 =>
      rw [h1] at hs
      exact store_fault hs

theorem AddString_fault {L : Layout} {h : Heap} {holder : Addr} {value : List Nat} {e : Fault}
    (hs : AddString L h holder value = .error e) : e = .outOfBounds := by
  unfold AddString at hs
  split at hs
  · simp only at hs
    cases h1 : store (h ++ [some (value.map MemVal.byte ++ [MemVal.byte 0])]) holder
        (ptrBytes L.ptrSize (CStr.heap ⟨h.length, 0⟩)) with
    | error e1 =>
      rw [h1] at hs
      cases hs
      exact store_fault h1
    | ok h2 => rw [h1] at hs; cases hs
  · cases hs

/-- The switch of `Load` aborts only in its default case. -/
theorem packElement_abort {L : Layout} {li : DB2LoadInfo} {isNew : Bool} {dv : Addr}
    {fields : List Field} {c : Cursor}
    (h : packElement L li isNew dv fields c = .error .abort) :
    ∃ x, typeAt li c.f = DBCFormer.other x := by
  unfold packElement at h
  cases hfm : li.Fields[c.f]? with
  | none => rw [hfm] at h; cases h
  | some fm =>
    rw [hfm] at h
    have hty := typeAt_eq hfm
    simp only at h
    cases hT : fm.Type_ with
    | FT_FLOAT | FT_INT | FT_BYTE | FT_SHORT | FT_LONG =>
      rw [hT] at h
      simp only at h
      cases hcell : column fields c.f with
      | error e => rw [hcell] at h; cases column_fault hcell; cases h
      | ok cell =>
        rw [hcell] at h
        cases storeValue_fault h
    | FT_STRING =>
      rw [hT] at h
      simp only at h
      generalize hfill : (if isNew = true then fillNullStr L (dv.add c.offset) L.TOTAL_LOCALES c.heap
        else Except.ok c.heap) = r1 at h
      cases r1 with
      | error e =>
        have he : e = .outOfBounds := by
          cases isNew with
          | false => simp at hfill
          | true =>
            simp only [if_true] at hfill
            exact fillNullStr_fault _ hfill
        subst he
        cases h
      | ok h1 =>
        simp only at h
        cases hcell : column fields c.f with
        | error e => rw [hcell] at h; cases column_fault hcell; cases h
        | ok cell =>
          rw [hcell] at h
          simp only at h
          cases hadd : AddString L h1 ((dv.add c.offset).add (L.LOCALE_enUS * L.ptrSize))
              cell.GetStringView with
          | error e => rw [hadd] at h; cases AddString_fault hadd; cases h
          | ok r =>
            obtain ⟨str, h2⟩ := r
            rw [hadd] at h
            cases h
    | FT_STRING_NOT_LOCALIZED =>
      rw [hT] at h
      simp only at h
      cases hcell : column fields c.f with
      | error e => rw [hcell] at h; cases column_fault hcell; cases h
      | ok cell =>
        rw [hcell] at h
        simp only at h
        cases hadd : AddString L c.heap (dv.add c.offset) cell.GetStringView with
        | error e => rw [hadd] at h; cases AddString_fault hadd; cases h
        | ok r =>
          obtain ⟨str, h1⟩ := r
          rw [hadd] at h
          cases str with
          | some s => cases h
          | none =>
            simp only at h
            cases hst : store h1 (dv.add c.offset) (ptrBytes L.ptrSize nullStr) with
            | error e => rw [hst] at h; cases store_fault hst; cases h
            | ok h2 => rw [hst] at h; cases h
    | other x => exact ⟨x, by rw [hty, hT]⟩

/-- A step of the switch that returns had a known type, moved to the next column
and advanced the `uint32` offset by the width of the type. -/
theorem packElement_next {L : Layout} {li : DB2LoadInfo} {isNew : Bool} {dv : Addr}
    {fields : List Field} {c c' : Cursor}
    (h : packElement L li isNew dv fields c = .ok c') :
    c'.f = c.f + 1 ∧ c'.offset = (c.offset + width L (typeAt li c.f)) % 2 ^ 32 ∧
    ∀ x, typeAt li c.f ≠ DBCFormer.other x := by
  unfold packElement at h
  cases hfm : li.Fields[c.f]? with
  | none => rw [hfm] at h; cases h
  | some fm =>
    rw [hfm] at h
    have hty := typeAt_eq hfm
    simp only at h
    cases hT : fm.Type_ with
    | FT_FLOAT | FT_INT | FT_BYTE | FT_SHORT | FT_LONG =>
      rw [hT] at h hty
      simp only at h
      cases hcell : column fields c.f with
      | error e => rw [hcell] at h; cases h
      | ok cell =>
        rw [hcell] at h
        obtain ⟨_, h1, h2, _⟩ := storeValue_ok h
        rw [hty]
        exact ⟨h1, h2, fun x hx => by cases hx⟩
    | FT_STRING =>
      rw [hT] at h hty
      simp only at h
      generalize (if isNew = true then fillNullStr L (dv.add c.offset) L.TOTAL_LOCALES c.heap
        else Except.ok c.heap) = r1 at h
      cases r1 with
      | error e => cases h
      | ok h1 =>
        simp only at h
        cases hcell : column fields c.f with
        | error e => rw [hcell] at h; cases h
        | ok cell =>
          rw [hcell] at h
          simp only at h
          cases hadd : AddString L h1 ((dv.add c.offset).add (L.LOCALE_enUS * L.ptrSize))
              cell.GetStringView with
          | error e => rw [hadd] at h; cases h
          | ok r =>
            obtain ⟨str, h2⟩ := r
            rw [hadd] at h
            cases h
            rw [hty]
            exact ⟨rfl, rfl, fun x hx => by cases hx⟩
    | FT_STRING_NOT_LOCALIZED =>
      rw [hT] at h hty
      simp only at h
      cases hcell : column fields c.f with
      | error e => rw [hcell] at h; cases h
      | ok cell =>
        rw [hcell] at h
        simp only at h
        cases hadd : AddString L c.heap (dv.add c.offset) cell.GetStringView with
        | error e => rw [hadd] at h; cases h
        | ok r =>
          obtain ⟨str, h1⟩ := r
          rw [hadd] at h
          rw [hty]
          cases str with
          | some s =>
            cases h
            exact ⟨rfl, rfl, fun x hx => by cases hx⟩
          | none =>
            simp only at h
            cases hst : store h1 (dv.add c.offset) (ptrBytes L.ptrSize nullStr) with
            | error e => rw [hst] at h; cases h
            | ok h2 =>
              rw [hst] at h
              cases h
              exact ⟨rfl, rfl, fun x hx => by cases hx⟩
    | other x =>
      rw [hT] at h
      cases h

/-- The element loop that returns went over known types only; its column counter
advanced by the number of elements and its `uint32` offset by their widths. -/
theorem packArray_next {L : Layout} {li : DB2LoadInfo} {isNew : Bool} {dv : Addr}
    {fields : List Field} (n : Nat) {c c' : Cursor}
    (h : packArray L li isNew dv fields n c = .ok c') (hc : c.offset < 2 ^ 32) :
    c'.f = c.f + n ∧ c'.offset = (c.offset + sumWidths L li c.f n) % 2 ^ 32 ∧
    ∀ k, k < n → ∀ x, typeAt li (c.f + k) ≠ DBCFormer.other x := by
  induction n generalizing c with
  | zero =>
    simp only [packArray] at h
    cases h
    exact ⟨rfl, by simp only [sumWidths, Nat.add_zero]; exact (Nat.mod_eq_of_lt hc).symm,
      fun k hk => by omega⟩
  | succ n ih =>
    simp only [packArray] at h
    cases h1 : packElement L li isNew dv fields c with
    | error e => rw [h1] at h; cases h
    | ok c1 =>
      rw [h1] at h
      obtain ⟨hf1, ho1, hk1⟩ := packElement_next h1
      obtain ⟨hf2, ho2, hk2⟩ := ih h (by rw [ho1]; exact Nat.mod_lt _ (by decide))
      refine ⟨by rw [hf2, hf1]; omega, ?_, ?_⟩
      · rw [ho2, ho1, hf1]
        simp only [sumWidths]
        rw [Nat.mod_add_mod, Nat.add_assoc]
      · intro k hk
        cases k with
        | zero => exact hk1
        | succ k =>
          have := hk2 k (by omega)
          rw [hf1] at this
          have e : c.f + 1 + k = c.f + (k + 1) := by omega
          rw [e] at this
          exact this

/-- The element loop aborts only at an element of unknown type. -/
theorem packArray_abort {L : Layout} {li : DB2LoadInfo} {isNew : Bool} {dv : Addr}
    {fields : List Field} (n : Nat) {c : Cursor}
    (h : packArray L li isNew dv fields n c = .error .abort) :
    ∃ k, k < n ∧ ∃ x, typeAt li (c.f + k) = DBCFormer.other x := by
  induction n generalizing c with
  | zero => simp only [packArray] at h; cases h
  | succ n ih =>
    simp only [packArray] at h
    cases h1 : packElement L li isNew dv fields c with
    | error e =>
      rw [h1] at h
      cases h
      exact ⟨0, by omega, packElement_abort h1⟩
    | ok c1 =>
      rw [h1] at h
      obtain ⟨k, hk, x, hx⟩ := ih h
      rw [(packElement_next h1).1] at hx
      refine ⟨k + 1, by omega, x, ?_⟩
      have e : c.f + 1 + k = c.f + (k + 1) := by omega
      rw [← e]
      exact hx

theorem idWidth_lt (li : DB2LoadInfo) : idWidth li < 2 ^ 32 := by
  unfold idWidth
  split <;> decide

/-- A row that is loaded without a fault went over known types only, and the
`uint32` offset after its last element, the packed size modulo `2 ^ 32`, passed
the final assertion. -/
theorem loadRow_ok_schema {L : Layout} {li : DB2LoadInfo} {tbl : List (Option Addr)}
    {temp : Addr} {fields : List Field} {p p1 : Pass}
    (h : loadRow L li tbl temp fields p = .ok p1) :
    (∀ k, k < totalElems li.Meta.Fields →
      ∀ x, typeAt li (firstColumn li + k) ≠ DBCFormer.other x) ∧
    packedSize L li % 2 ^ 32 = li.Meta.GetRecordSize := by
  obtain ⟨c1, c2, hf1, ho1, _, _, hpack, hoff, _⟩ := loadRow_cursor h
  obtain ⟨_, ho2, hk⟩ := packArray_next _ hpack (by rw [ho1]; exact idWidth_lt li)
  rw [hf1] at hk ho2
  rw [ho1] at ho2
  exact ⟨hk, by rw [← hoff, ho2]; rfl⟩

/-- A row aborts only at an element of unknown type or at the final assertion. -/
theorem loadRow_abort {L : Layout} {li : DB2LoadInfo} {tbl : List (Option Addr)}
    {temp : Addr} {fields : List Field} {p : Pass}
    (h : loadRow L li tbl temp fields p = .error .abort) :
    (∃ k, k < totalElems li.Meta.Fields ∧
      ∃ x, typeAt li (firstColumn li + k) = DBCFormer.other x) ∨
    packedSize L li % 2 ^ 32 ≠ li.Meta.GetRecordSize := by
  unfold loadRow at h
  cases hid : fields[li.Meta.GetDbIndexField]? with
  | none => rw [hid] at h; cases h
  | some idCell =>
    rw [hid] at h
    simp only at h
    cases hentry : tbl[idCell.GetUInt32]? with
    | none => rw [hentry] at h; cases h
    | some entry =>
      rw [hentry] at h
      simp only at h
      generalize entry.getD (temp.add (p.newRecords * li.Meta.GetRecordSize)) = dv at h
      generalize entry.isNone = isNew at h
      have hstep : ∀ r, (if li.Meta.HasIndexFieldInData = true
          then Except.ok { f := 0, offset := 0, heap := p.heap, stringPool := p.stringPool }
          else storeValue dv { f := 0, offset := 0, heap := p.heap, stringPool := p.stringPool }
            4 (leBytes 4 idCell.GetUInt32)) = r →
          (r = .error .outOfBounds) ∨
          ∃ c1, r = .ok c1 ∧ c1.f = firstColumn li ∧ c1.offset = idWidth li := by
        intro r hr
        cases hI : li.Meta.HasIndexFieldInData with
        | true =>
          rw [hI] at hr
          simp only [if_true] at hr
          subst hr
          exact Or.inr ⟨_, rfl, by simp [firstColumn, hI], by simp [idWidth, hI]⟩
        | false =>
          rw [hI] at hr
          simp only [Bool.false_eq_true, if_false] at hr
          cases r with
          | error e =>
            cases storeValue_fault hr
            exact Or.inl rfl
          | ok c1 =>
            obtain ⟨_, hf, ho, _⟩ := storeValue_ok hr
            exact Or.inr ⟨c1, rfl, by simp [hf, firstColumn, hI], by simp [ho, idWidth, hI]⟩
      rcases hstep _ rfl with he | ⟨c1, hc1, hf1, ho1⟩
      · rw [he] at h
        cases h
      · rw [hc1] at h
        simp only [packFields_eq_packArray] at h
        cases hpack : packArray L li isNew dv fields (totalElems li.Meta.Fields) c1 with
        | error e =>
          rw [hpack] at h
          cases h
          obtain ⟨k, hk, x, hx⟩ := packArray_abort _ hpack
          rw [hf1] at hx
          exact Or.inl ⟨k, hk, x, hx⟩
        | ok c2 =>
          rw [hpack] at h
          simp only at h
          obtain ⟨_, ho2, _⟩ := packArray_next _ hpack (by rw [ho1]; exact idWidth_lt li)
          rw [hf1, ho1] at ho2
          right
          intro heq
          have : c2.offset = li.Meta.GetRecordSize := by rw [ho2, ← heq]; rfl
          rw [if_pos this] at h
          cases h

theorem loadRows_abort {L : Layout} {li : DB2LoadInfo} {tbl : List (Option Addr)}
    {temp : Addr} (rows : List (List Field)) {p : Pass}
    (h : loadRows L li tbl temp rows p = .error .abort) :
    (∃ k, k < totalElems li.Meta.Fields ∧
      ∃ x, typeAt li (firstColumn li + k) = DBCFormer.other x) ∨
    packedSize L li % 2 ^ 32 ≠ li.Meta.GetRecordSize := by
  induction rows generalizing p with
  | nil => simp only [loadRows] at h; cases h
  | cons fields rest ih =>
    simp only [loadRows] at h
    cases h1 : loadRow L li tbl temp fields p with
    | error e =>
      rw [h1] at h
      cases h
      exact loadRow_abort h1
    | ok p1 =>
      rw [h1] at h
      exact ih h

/-- A `Load` that runs its row loop aborts only at an element of unknown type or
at the final assertion of a row. -/
theorem Load_abort_cause {L : Layout} {li : DB2LoadInfo} {rs : PreparedResultSet}
    {hint : Option Field} {st : Storage}
    (h : Load L li (some rs) hint st = .error .abort) :
    (∃ k, k < totalElems li.Meta.Fields ∧
      ∃ x, typeAt li (firstColumn li + k) = DBCFormer.other x) ∨
    packedSize L li % 2 ^ 32 ≠ li.Meta.GetRecordSize := by
  by_cases hc : li.Meta.GetDbFieldCount = rs.GetFieldCount
  swap
  · rw [Load_mismatch L li rs hint st hc] at h
    cases h
  simp only [Load, hc, ne_eq, not_true_eq_false, ite_false, bind, Except.bind] at h
  split at h
  · rename_i e he
    cases h
    unfold resizeIndexTable at he
    split at he
    · split at he <;> cases he
    · cases he
  · rename_i tbl htbl
    split at h
    · rename_i e he
      cases h
      exact loadRows_abort _ he
    · rename_i p hp
      split at h
      · cases h
      · split at h <;> cases h

/-- A `Load` that runs its row loop and returns went over known types only, and
the packed size modulo `2 ^ 32` is the record size. -/
theorem Load_ok_schema {L : Layout} {li : DB2LoadInfo} {rs : PreparedResultSet}
    {hint : Option Field} {st : Storage} {buf : Option Addr} {st' : Storage}
    (hc : li.Meta.GetDbFieldCount = rs.GetFieldCount)
    (h : Load L li (some rs) hint st = .ok (buf, st')) :
    (∀ k, k < totalElems li.Meta.Fields →
      ∀ x, typeAt li (firstColumn li + k) ≠ DBCFormer.other x) ∧
    packedSize L li % 2 ^ 32 = li.Meta.GetRecordSize := by
  obtain ⟨p, _, hp, _⟩ := Load_ok_cases hc h
  have hrows : rs.rows = rs.row :: rs.more := rfl
  rw [hrows] at hp
  simp only [loadRows] at hp
  cases h1 : loadRow L li (resized st hint) ⟨st.heap.length, 0⟩ rs.row (startPass li rs st) with
  | error e => rw [h1] at hp; cases hp
  | ok p1 => exact loadRow_ok_schema h1

/-- Claim C12, amended. For a schema of recognised field types and a result with
the right number of columns, `Load` aborts only if the `uint32` offset after packing all
fields of a row, the packed size with the 4 bytes of a non-embedded ID, differs
from the record size; if it differs, `Load` does not return, and it aborts unless
an access outside an allocation stops it first. When the two are equal no row
aborts, and under the precondition of `Load` the call returns. -/
theorem Load_aborts_iff_size_mismatch (L : Layout) (li : DB2LoadInfo)
    (rs : PreparedResultSet) (hint : Option Field) (st : Storage)
    (hc : li.Meta.GetDbFieldCount = rs.GetFieldCount)
    (hknown : ∀ k, k < totalElems li.Meta.Fields →
      ∀ x, typeAt li (firstColumn li + k) ≠ DBCFormer.other x) :
    (Load L li (some rs) hint st = .error .abort →
      packedSize L li % 2 ^ 32 ≠ li.Meta.GetRecordSize) ∧
    (packedSize L li % 2 ^ 32 ≠ li.Meta.GetRecordSize →
      ∃ e, Load L li (some rs) hint st = .error e) ∧
    (Load L li (some rs) hint st ≠ .error .outOfBounds →
      (Load L li (some rs) hint st = .error .abort ↔
        packedSize L li % 2 ^ 32 ≠ li.Meta.GetRecordSize)) ∧
    (LoadPre L li rs hint st → ∃ buf st', Load L li (some rs) hint st = .ok (buf, st')) := by
  have habort : Load L li (some rs) hint st = .error .abort →
      packedSize L li % 2 ^ 32 ≠ li.Meta.GetRecordSize := by
    intro h
    rcases Load_abort_cause h with ⟨k, hk, x, hx⟩ | hne
    · exact absurd hx (hknown k hk x)
    · exact hne
  have hfault : packedSize L li % 2 ^ 32 ≠ li.Meta.GetRecordSize →
      ∃ e, Load L li (some rs) hint st = .error e := by
    intro hne
    cases hr : Load L li (some rs) hint st with
    | error e => exact ⟨e, rfl⟩
    | ok r =>
      obtain ⟨buf, st'⟩ := r
      exact absurd (Load_ok_schema hc hr).2 hne
  refine ⟨habort, hfault, fun hdef => ⟨habort, fun hne => ?_⟩, fun hpre => Load_returns hpre⟩
  obtain ⟨e, he⟩ := hfault hne
  cases e with
  | abort => exact he
  | outOfBounds => exact absurd he hdef

theorem exampleKnown (k : Nat) (hk : k < 2) (x : Nat) :
    typeAt exampleSchema (1 + k) ≠ DBCFormer.other x := by
  have hk01 : k = 0 ∨ k = 1 := by omega
  rcases hk01 with rfl | rfl
  · show DBCFormer.FT_INT ≠ DBCFormer.other x
    exact fun hcon => DBCFormer.noConfusion hcon
  · show DBCFormer.FT_STRING_NOT_LOCALIZED ≠ DBCFormer.other x
    exact fun hcon => DBCFormer.noConfusion hcon

/-- The example row with a declared record size of 20 instead of 16: the fields
are packed inside the 20 bytes and the final assertion aborts. With the record
size 16 the same load returns. -/
theorem Load_aborts_iff_size_mismatch_witness :
    mismatchLoad = .error .abort ∧
    packedSize layout64 mismatchSchema = 16 ∧ mismatchSchema.Meta.GetRecordSize = 20 ∧
    returns exampleLoad = true ∧
    packedSize layout64 exampleSchema = exampleSchema.Meta.GetRecordSize ∧
    (Load layout64 mismatchSchema (some exampleRows) (some (.int 8))
        (emptyStorage 4294967295) = .error .abort ↔
      packedSize layout64 mismatchSchema % 2 ^ 32 ≠ mismatchSchema.Meta.GetRecordSize) :=
  ⟨by decide!, by decide, by decide, by decide!, by decide,
    (Load_aborts_iff_size_mismatch layout64 mismatchSchema exampleRows (some (.int 8))
      (emptyStorage 4294967295) (by decide) (fun k hk x => exampleKnown k hk x)).2.2.1
      (by
        have h : mismatchLoad = .error .abort := by decide!
        intro hcon
        rw [show Load layout64 mismatchSchema (some exampleRows) (some (.int 8))
          (emptyStorage 4294967295) = mismatchLoad from rfl, h] at hcon
        cases hcon)⟩

/-! ### The field loops of `LoadStrings` -/

/-- A step of the switch of `LoadStrings` that returns had a known type, moved to
the next column and advanced the `uint32` offset by the width of the type. Only a
localized string element touches the heap, through `AddString` on the slot of the
locale with the next text column of the row. -/
theorem patchElement_ok {L : Layout} {li : DB2LoadInfo} {locale : Nat} {dv : Addr}
    {fields : List Field} {c c' : StringsCursor}
    (h : patchElement L li locale dv fields c = .ok c') :
    c'.fieldIndex = c.fieldIndex + 1 ∧
    c'.offset = (c.offset + width L (typeAt li c.fieldIndex)) % 2 ^ 32 ∧
    (∀ x, typeAt li c.fieldIndex ≠ DBCFormer.other x) ∧
    (typeAt li c.fieldIndex ≠ DBCFormer.FT_STRING →
      c'.heap = c.heap ∧ c'.stringPool = c.stringPool ∧
      c'.stringFieldNumInRecord = c.stringFieldNumInRecord) ∧
    (typeAt li c.fieldIndex = DBCFormer.FT_STRING →
      c'.stringFieldNumInRecord = c.stringFieldNumInRecord + 1 ∧
      ∃ cell str, column fields (1 + c.stringFieldNumInRecord) = .ok cell ∧
        AddString L c.heap ((dv.add c.offset).add (locale * L.ptrSize)) cell.GetStringView
          = .ok (str, c'.heap) ∧
        c'.stringPool = (match str with
          | some s => c.stringPool ++ [s]
          | none => c.stringPool)) := by
  unfold patchElement at h
  cases hfm : li.Fields[c.fieldIndex]? with
  | none => rw [hfm] at h; cases h
  | some fm =>
    rw [hfm] at h
    have hty := typeAt_eq hfm
    simp only at h
    cases hT : fm.Type_ with
    | FT_FLOAT | FT_INT | FT_BYTE | FT_SHORT | FT_LONG | FT_STRING_NOT_LOCALIZED =>
      rw [hT] at h hty
      simp only at h
      cases h
      rw [hty]
      exact ⟨rfl, rfl, fun x hx => (by cases hx), fun _ => ⟨rfl, rfl, rfl⟩,
        fun hcon => (by cases hcon)⟩
    | FT_STRING =>
      rw [hT] at h hty
      simp only at h
      cases hcell : column fields (1 + c.stringFieldNumInRecord) with
      | error e => rw [hcell] at h; cases h
      | ok cell =>
        rw [hcell] at h
        simp only at h
        cases hadd : AddString L c.heap ((dv.add c.offset).add (locale * L.ptrSize))
            cell.GetStringView with
        | error e => rw [hadd] at h; cases h
        | ok r =>
          obtain ⟨str, h1⟩ := r
          rw [hadd] at h
          cases h
          rw [hty]
          exact ⟨rfl, rfl, fun x hx => (by cases hx), fun hcon => absurd rfl hcon,
            fun _ => ⟨rfl, cell, str, rfl, hadd, rfl⟩⟩
    | other x =>
      rw [hT] at h
      cases h

/-- What one step of the switch of `LoadStrings` does to the heap and the pool. -/
theorem patchElement_frame {L : Layout} {li : DB2LoadInfo} {locale : Nat} {dv : Addr}
    {fields : List Field} {c c' : StringsCursor}
    (h : patchElement L li locale dv fields c = .ok c') :
    Frame (fun b j => typeAt li c.fieldIndex = DBCFormer.FT_STRING ∧
        Region dv.block (dv.off + c.offset + locale * L.ptrSize)
          (dv.off + c.offset + locale * L.ptrSize + L.ptrSize) b j) c.heap c'.heap ∧
    ∃ new, c'.stringPool = c.stringPool ++ new := by
  obtain ⟨_, _, _, hother, hstring⟩ := patchElement_ok h
  by_cases hty : typeAt li c.fieldIndex = DBCFormer.FT_STRING
  · obtain ⟨_, cell, str, _, hadd, hpool⟩ := hstring hty
    obtain ⟨hfr, _⟩ := AddString_effect hadd
    simp only [Addr.add_block, Addr.add_off] at hfr
    refine ⟨hfr.mono (fun b j hr => ⟨hty, hr⟩), ?_⟩
    cases str with
    | none => exact ⟨[], by simp [hpool]⟩
    | some s => exact ⟨[s], hpool⟩
  · obtain ⟨hh, hp, _⟩ := hother hty
    rw [hh, hp]
    exact ⟨Frame.refl _ _, [], by simp⟩

/-- The element loop of `LoadStrings` that returns went over known types only;
its column counter advanced by the number of elements and its `uint32` offset by
their widths. -/
theorem patchArray_next {L : Layout} {li : DB2LoadInfo} {locale : Nat} {dv : Addr}
    {fields : List Field} (n : Nat) {c c' : StringsCursor}
    (h : patchArray L li locale dv fields n c = .ok c') (hc : c.offset < 2 ^ 32) :
    c'.fieldIndex = c.fieldIndex + n ∧
    c'.offset = (c.offset + sumWidths L li c.fieldIndex n) % 2 ^ 32 ∧
    ∀ k, k < n → ∀ x, typeAt li (c.fieldIndex + k) ≠ DBCFormer.other x := by
  induction n generalizing c with
  | zero =>
    simp only [patchArray] at h
    cases h
    exact ⟨rfl, by simp only [sumWidths, Nat.add_zero]; exact (Nat.mod_eq_of_lt hc).symm,
      fun k hk => by omega⟩
  | succ n ih =>
    simp only [patchArray] at h
    cases h1 : patchElement L li locale dv fields c with
    | error e => rw [h1] at h; cases h
    | ok c1 =>
      rw [h1] at h
      obtain ⟨hf1, ho1, hk1, _, _⟩ := patchElement_ok h1
      obtain ⟨hf2, ho2, hk2⟩ := ih h (by rw [ho1]; exact Nat.mod_lt _ (by decide))
      refine ⟨by rw [hf2, hf1]; omega, ?_, ?_⟩
      · rw [ho2, ho1, hf1]
        simp only [sumWidths]
        rw [Nat.mod_add_mod, Nat.add_assoc]
      · intro k hk
        cases k with
        | zero => exact hk1
        | succ k =>
          have := hk2 k (by omega)
          rw [hf1] at this
          have e : c.fieldIndex + 1 + k = c.fieldIndex + (k + 1) := by omega
          rw [e] at this
          exact this

theorem patchArray_add (L : Layout) (li : DB2LoadInfo) (locale : Nat) (dv : Addr)
    (fields : List Field) (m n : Nat) (c : StringsCursor) :
    patchArray L li locale dv fields (m + n) c =
      match patchArray L li locale dv fields m c with
      | .ok c1 => patchArray L li locale dv fields n c1
      | .error e => .error e := by
  induction m generalizing c with
  | zero => simp [patchArray]
  | succ m ih =>
    rw [Nat.succ_add]
    simp only [patchArray]
    cases patchElement L li locale dv fields c with
    | error e => rfl
    | ok c1 => exact ih c1

/-- The two nested loops of `LoadStrings` are one loop over all elements. -/
theorem patchFields_eq_patchArray (L : Layout) (li : DB2LoadInfo) (locale : Nat) (dv : Addr)
    (fields : List Field) (ms : List DB2MetaField) (c : StringsCursor) :
    patchFields L li locale dv fields ms c
      = patchArray L li locale dv fields (totalElems ms) c := by
  induction ms generalizing c with
  | nil => rfl
  | cons m ms ih =>
    have : totalElems (m :: ms) = m.ArraySize + totalElems ms := by simp [totalElems]
    rw [this, patchArray_add]
    simp only [patchFields]
    cases patchArray L li locale dv fields m.ArraySize c with
    | error e => rfl
    | ok c1 => exact ih c1

/-- The element loop of `LoadStrings` writes only the `locale` slots of the
localized string elements it walks over, and only appends to the pool. -/
theorem patchArray_frame {L : Layout} {li : DB2LoadInfo} {locale : Nat} {dv : Addr}
    {fields : List Field} (n : Nat) {c c' : StringsCursor}
    (h : patchArray L li locale dv fields n c = .ok c')
    (hnw : c.offset + sumWidths L li c.fieldIndex n < 2 ^ 32) :
    Frame (SlotsFrom L li locale dv c.fieldIndex c.offset n) c.heap c'.heap ∧
    ∃ new, c'.stringPool = c.stringPool ++ new := by
  induction n generalizing c with
  | zero =>
    simp only [patchArray] at h
    cases h
    exact ⟨Frame.refl _ _, [], by simp⟩
  | succ n ih =>
    simp only [patchArray] at h
    cases h1 : patchElement L li locale dv fields c with
    | error e => rw [h1] at h; cases h
    | ok c1 =>
      rw [h1] at h
      simp only [sumWidths] at hnw
      obtain ⟨hf1, ho1, _, _, _⟩ := patchElement_ok h1
      rw [Nat.mod_eq_of_lt (by omega)] at ho1
      obtain ⟨hfr1, new1, hp1⟩ := patchElement_frame h1
      obtain ⟨hfr2, new2, hp2⟩ := ih h (by rw [hf1, ho1]; omega)
      refine ⟨Frame.trans (hfr1.mono ?_) (hfr2.mono ?_), new1 ++ new2, by
        rw [hp2, hp1, List.append_assoc]⟩
      · rintro b j ⟨hty, hr⟩
        exact ⟨0, by omega, by simpa using hty, by simpa [sumWidths] using hr⟩
      · rintro b j ⟨k, hk, hty, hr⟩
        refine ⟨k + 1, by omega, ?_, ?_⟩
        · rw [hf1] at hty
          have e : c.fieldIndex + 1 + k = c.fieldIndex + (k + 1) := by omega
          rw [← e]
          exact hty
        · rw [hf1, ho1] at hr
          simp only [sumWidths]
          have e : c.offset + width L (typeAt li c.fieldIndex)
              + sumWidths L li (c.fieldIndex + 1) k
              = c.offset + (width L (typeAt li c.fieldIndex)
                + sumWidths L li (c.fieldIndex + 1) k) := by omega
          rw [← e]
          exact hr

/-! ### The rows of `LoadStrings` -/

theorem startCursor_eq (li : DB2LoadInfo) (s : StringsPass) :
    (if li.Meta.HasIndexFieldInData = true then
      ({ fieldIndex := 0, offset := 0, stringFieldNumInRecord := 0,
         heap := s.heap, stringPool := s.stringPool } : StringsCursor)
    else
      { fieldIndex := 1, offset := 4, stringFieldNumInRecord := 0,
        heap := s.heap, stringPool := s.stringPool }) = startCursor li s := by
  unfold startCursor firstColumn idWidth
  cases li.Meta.HasIndexFieldInData <;> rfl

/-- The body of the row loop of `LoadStrings` for a row whose ID is present. -/
theorem loadStringsRow_present {L : Layout} {li : DB2LoadInfo} {locale records : Nat}
    {tbl : List (Option Addr)} {fields : List Field} (s : StringsPass) {a : Addr}
    (h0 : 0 < fields.length) (hlt : localeRowId fields < records)
    (ha : tbl[localeRowId fields]? = some (some a)) :
    loadStringsRow L li locale records tbl fields s =
      match patchArray L li locale a fields (totalElems li.Meta.Fields) (startCursor li s) with
      | .error e => .error e
      | .ok c =>
        if c.offset = li.Meta.GetRecordSize then
          .ok { heap := c.heap, stringPool := c.stringPool, errors := s.errors }
        else .error .abort := by
  have hid : fields[0]? = some fields[0] := List.getElem?_eq_getElem h0
  have hrid : localeRowId fields = fields[0].GetUInt32 := by simp only [localeRowId, hid]
  unfold loadStringsRow
  simp only [hid]
  rw [← hrid, if_neg (by omega)]
  simp only [ha, startCursor_eq, patchFields_eq_patchArray]

/-- A locale row whose ID is at or beyond the reported table size is skipped. -/
theorem loadStringsRow_beyond {L : Layout} {li : DB2LoadInfo} {locale records : Nat}
    {tbl : List (Option Addr)} {fields : List Field} (s : StringsPass)
    (h0 : 0 < fields.length) (hge : records ≤ localeRowId fields) :
    loadStringsRow L li locale records tbl fields s = .ok s := by
  have hid : fields[0]? = some fields[0] := List.getElem?_eq_getElem h0
  have hrid : localeRowId fields = fields[0].GetUInt32 := by simp only [localeRowId, hid]
  unfold loadStringsRow
  simp only [hid]
  rw [← hrid, if_pos hge]

/-- A locale row whose ID has a null entry is logged and skipped. -/
theorem loadStringsRow_null {L : Layout} {li : DB2LoadInfo} {locale records : Nat}
    {tbl : List (Option Addr)} {fields : List Field} (s : StringsPass)
    (h0 : 0 < fields.length) (hlt : localeRowId fields < records)
    (ha : tbl[localeRowId fields]? = some none) :
    loadStringsRow L li locale records tbl fields s
      = .ok { s with errors := s.errors ++ [localeRowId fields] } := by
  have hid : fields[0]? = some fields[0] := List.getElem?_eq_getElem h0
  have hrid : localeRowId fields = fields[0].GetUInt32 := by simp only [localeRowId, hid]
  unfold loadStringsRow
  simp only [hid]
  rw [← hrid, if_neg (by omega)]
  simp only [ha]

/-- A locale row that is processed without a fault was skipped, or logged and
skipped, or its record was walked by the field loops up to the final assertion. -/
theorem loadStringsRow_ok_cases {L : Layout} {li : DB2LoadInfo} {locale records : Nat}
    {tbl : List (Option Addr)} {fields : List Field} {s s' : StringsPass}
    (h : loadStringsRow L li locale records tbl fields s = .ok s') :
    0 < fields.length ∧
    ((records ≤ localeRowId fields ∧ s' = s) ∨
     (localeRowId fields < records ∧ tbl[localeRowId fields]? = some none ∧
        s' = { s with errors := s.errors ++ [localeRowId fields] }) ∨
     (localeRowId fields < records ∧ ∃ a c, tbl[localeRowId fields]? = some (some a) ∧
        patchArray L li locale a fields (totalElems li.Meta.Fields) (startCursor li s)
          = .ok c ∧
        c.offset = li.Meta.GetRecordSize ∧
        s' = { heap := c.heap, stringPool := c.stringPool, errors := s.errors })) := by
  have h0 : 0 < fields.length := by
    by_contra hcon
    unfold loadStringsRow at h
    rw [List.getElem?_eq_none (by omega)] at h
    cases h
  refine ⟨h0, ?_⟩
  by_cases hge : records ≤ localeRowId fields
  · rw [loadStringsRow_beyond s h0 hge] at h
    exact Or.inl ⟨hge, (Except.ok.inj h).symm⟩
  · have hlt : localeRowId fields < records := by omega
    cases hent : tbl[localeRowId fields]? with
    | none =>
      have hid : fields[0]? = some fields[0] := List.getElem?_eq_getElem h0
      have hrid : localeRowId fields = fields[0].GetUInt32 := by simp only [localeRowId, hid]
      unfold loadStringsRow at h
      simp only [hid] at h
      rw [← hrid, if_neg (by omega)] at h
      simp only [hent] at h
      cases h
    | some entry =>
      cases entry with
      | none =>
        rw [loadStringsRow_null s h0 hlt hent] at h
        exact Or.inr (Or.inl ⟨hlt, rfl, (Except.ok.inj h).symm⟩)
      | some a =>
        rw [loadStringsRow_present s h0 hlt hent] at h
        cases hp : patchArray L li locale a fields (totalElems li.Meta.Fields)
            (startCursor li s) with
        | error e => rw [hp] at h; cases h
        | ok c =>
          rw [hp] at h
          simp only at h
          by_cases hoff : c.offset = li.Meta.GetRecordSize
          · rw [if_pos hoff] at h
            exact Or.inr (Or.inr ⟨hlt, a, c, rfl, hp, hoff, (Except.ok.inj h).symm⟩)
          · rw [if_neg hoff] at h
            cases h

/-- A locale row whose record is walked without a fault went over known types
only, and the packed size modulo `2 ^ 32` is the record size. -/
theorem loadStringsRow_ok_schema {L : Layout} {li : DB2LoadInfo} {locale records : Nat}
    {tbl : List (Option Addr)} {fields : List Field} {s s' : StringsPass} {a : Addr}
    (hlt : localeRowId fields < records) (ha : tbl[localeRowId fields]? = some (some a))
    (h : loadStringsRow L li locale records tbl fields s = .ok s') :
    (∀ k, k < totalElems li.Meta.Fields →
      ∀ x, typeAt li (firstColumn li + k) ≠ DBCFormer.other x) ∧
    packedSize L li % 2 ^ 32 = li.Meta.GetRecordSize := by
  obtain ⟨_, hcase⟩ := loadStringsRow_ok_cases h
  rcases hcase with ⟨hge, _⟩ | ⟨_, hnull, _⟩ | ⟨_, a', c, _, hp, hoff, _⟩
  · omega
  · rw [ha] at hnull
    cases hnull
  · obtain ⟨_, ho, hk⟩ := patchArray_next _ hp (idWidth_lt li)
    exact ⟨hk, by rw [← hoff, ho]; rfl⟩

/-- What one locale row does to the heap and the pool. -/
theorem loadStringsRow_frame {L : Layout} {li : DB2LoadInfo} {locale records : Nat}
    {tbl : List (Option Addr)} {fields : List Field} {s s' : StringsPass}
    (hfit : packedSize L li < 2 ^ 32)
    (h : loadStringsRow L li locale records tbl fields s = .ok s') :
    Frame (Patched L li locale records tbl [fields]) s.heap s'.heap ∧
    ∃ new, s'.stringPool = s.stringPool ++ new := by
  obtain ⟨_, hcase⟩ := loadStringsRow_ok_cases h
  rcases hcase with ⟨_, rfl⟩ | ⟨_, _, rfl⟩ | ⟨hlt, a, c, ha, hp, _, rfl⟩
  · exact ⟨Frame.refl _ _, [], by simp⟩
  · exact ⟨Frame.refl _ _, [], by simp⟩
  · obtain ⟨hfr, hpool⟩ := patchArray_frame _ hp hfit
    exact ⟨hfr.mono (fun b j hw => ⟨fields, List.mem_singleton.mpr rfl, a, hlt, ha, hw⟩), hpool⟩

theorem Patched.mono_rows {L : Layout} {li : DB2LoadInfo} {locale records : Nat}
    {tbl : List (Option Addr)} {rows rows' : List (List Field)}
    (hsub : ∀ r ∈ rows, r ∈ rows') (b j : Nat)
    (h : Patched L li locale records tbl rows b j) :
    Patched L li locale records tbl rows' b j := by
  obtain ⟨fields, hf, rest⟩ := h
  exact ⟨fields, hsub fields hf, rest⟩

/-- What the row loop of `LoadStrings` does to the heap and the pool. -/
theorem loadStringsRows_frame {L : Layout} {li : DB2LoadInfo} {locale records : Nat}
    {tbl : List (Option Addr)} (hfit : packedSize L li < 2 ^ 32)
    (rows : List (List Field)) {s s' : StringsPass}
    (h : loadStringsRows L li locale records tbl rows s = .ok s') :
    Frame (Patched L li locale records tbl rows) s.heap s'.heap ∧
    ∃ new, s'.stringPool = s.stringPool ++ new := by
  induction rows generalizing s with
  | nil =>
    simp only [loadStringsRows] at h
    cases h
    exact ⟨Frame.refl _ _, [], by simp⟩
  | cons fields rest ih =>
    simp only [loadStringsRows] at h
    cases h1 : loadStringsRow L li locale records tbl fields s with
    | error e => rw [h1] at h; cases h
    | ok s1 =>
      rw [h1] at h
      obtain ⟨hfr1, new1, hp1⟩ := loadStringsRow_frame hfit h1
      obtain ⟨hfr2, new2, hp2⟩ := ih h
      refine ⟨Frame.trans (hfr1.mono ?_) (hfr2.mono ?_), new1 ++ new2, by
        rw [hp2, hp1, List.append_assoc]⟩
      · exact Patched.mono_rows (fun r hr => by
          rw [List.mem_singleton.mp hr]; exact List.mem_cons_self _ _)
      · exact Patched.mono_rows (fun r hr => List.mem_cons_of_mem _ hr)

/-- If the row loop of `LoadStrings` returns and some row has a present ID, the
schema has known types only and its packed size modulo `2 ^ 32` is the record
size. -/
theorem loadStringsRows_ok_schema {L : Layout} {li : DB2LoadInfo} {locale records : Nat}
    {tbl : List (Option Addr)} (rows : List (List Field)) {s s' : StringsPass}
    {fields : List Field} {a : Addr} (hf : fields ∈ rows)
    (hlt : localeRowId fields < records) (ha : tbl[localeRowId fields]? = some (some a))
    (h : loadStringsRows L li locale records tbl rows s = .ok s') :
    (∀ k, k < totalElems li.Meta.Fields →
      ∀ x, typeAt li (firstColumn li + k) ≠ DBCFormer.other x) ∧
    packedSize L li % 2 ^ 32 = li.Meta.GetRecordSize := by
  induction rows generalizing s with
  | nil => cases hf
  | cons r rest ih =>
    simp only [loadStringsRows] at h
    cases h1 : loadStringsRow L li locale records tbl r s with
    | error e => rw [h1] at h; cases h
    | ok s1 =>
      rw [h1] at h
      rcases List.mem_cons.mp hf with rfl | hmem
      · exact loadStringsRow_ok_schema hlt ha h1
      · exact ih hmem h

/-- A `LoadStrings` that returns on a result with the right number of columns ran
its row loop. -/
theorem LoadStrings_ok_cases {L : Layout} {li : DB2LoadInfo} {stringFields locale : Nat}
    {ls : PreparedResultSet} {st st' : Storage} {log : List Nat}
    (hc : ls.GetFieldCount = stringFields + 1)
    (h : LoadStrings L li stringFields locale (some ls) st = .ok (st', log)) :
    ∃ s, loadStringsRows L li locale st.records st.indexTable ls.rows
        { heap := st.heap, stringPool := st.stringPool, errors := [] } = .ok s ∧
      st' = { st with heap := s.heap, stringPool := s.stringPool } ∧ log = s.errors := by
  simp only [LoadStrings, hc, ne_eq, not_true_eq_false, ite_false] at h
  split at h
  · cases h
  · rename_i s hs
    have h2 := Except.ok.inj h
    simp only [Prod.mk.injEq] at h2
    exact ⟨s, hs, h2.1.symm, h2.2.symm⟩

/-- Claim C13, amended. If the schema has a packed element whose type is none of the
seven known types, `Load` on a result with the right number of columns never
returns, and it aborts unless an access outside an allocation stops it first; and
`LoadStrings` on a result with the right number of columns that has a row whose
ID is below the reported size and present in the index table never returns, and
aborts unless an access outside an allocation stops it first. -/
theorem unsupported_field_type_is_fatal (L : Layout) (li : DB2LoadInfo) (k x : Nat)
    (hk : k < totalElems li.Meta.Fields)
    (hty : li.Fields[firstColumn li + k]? = some { Type_ := DBCFormer.other x }) :
    (∀ (rs : PreparedResultSet) (hint : Option Field) (st : Storage),
      li.Meta.GetDbFieldCount = rs.GetFieldCount →
      (∃ e, Load L li (some rs) hint st = .error e) ∧
      (Load L li (some rs) hint st ≠ .error .outOfBounds →
        Load L li (some rs) hint st = .error .abort)) ∧
    (∀ (stringFields locale : Nat) (ls : PreparedResultSet) (st : Storage)
      (fields : List Field) (a : Addr),
      ls.GetFieldCount = stringFields + 1 → fields ∈ ls.rows →
      localeRowId fields < st.records →
      st.indexTable[localeRowId fields]? = some (some a) →
      (∃ e, LoadStrings L li stringFields locale (some ls) st = .error e) ∧
      (LoadStrings L li stringFields locale (some ls) st ≠ .error .outOfBounds →
        LoadStrings L li stringFields locale (some ls) st = .error .abort)) := by
  have hunknown : typeAt li (firstColumn li + k) = DBCFormer.other x := typeAt_eq hty
  constructor
  · intro rs hint st hc
    have hfault : ∃ e, Load L li (some rs) hint st = .error e := by
      cases hr : Load L li (some rs) hint st with
      | error e => exact ⟨e, rfl⟩
      | ok r =>
        obtain ⟨buf, st'⟩ := r
        exact absurd hunknown ((Load_ok_schema hc hr).1 k hk x)
    refine ⟨hfault, fun hdef => ?_⟩
    obtain ⟨e, he⟩ := hfault
    cases e with
    | abort => exact he
    | outOfBounds => exact absurd he hdef
  · intro stringFields locale ls st fields a hc hf hlt ha
    have hfault : ∃ e, LoadStrings L li stringFields locale (some ls) st = .error e := by
      cases hr : LoadStrings L li stringFields locale (some ls) st with
      | error e => exact ⟨e, rfl⟩
      | ok r =>
        obtain ⟨st', log⟩ := r
        obtain ⟨s, hs, _, _⟩ := LoadStrings_ok_cases hc hr
        exact absurd hunknown ((loadStringsRows_ok_schema _ hf hlt ha hs).1 k hk x)
    refine ⟨hfault, fun hdef => ?_⟩
    obtain ⟨e, he⟩ := hfault
    cases e with
    | abort => exact he
    | outOfBounds => exact absurd he hdef

/-- With the format character 'x' in place of the plain string, loading the
example row aborts, and so does a locale pass over a table in which the row's ID
7 is present. -/
theorem unsupported_field_type_is_fatal_witness :
    unknownLoad = .error .abort ∧ unknownPatch = .error .abort ∧
    (∃ e, Load layout64 unknownSchema (some exampleRows) (some (.int 8))
      (emptyStorage 4294967295) = .error e) ∧
    (∃ e, LoadStrings layout64 unknownSchema 0 2 (some idOnlyRows) exampleStorage
      = .error e) :=
  ⟨by decide!, by decide!,
    ((unsupported_field_type_is_fatal layout64 unknownSchema 1 120 (by decide)
      (by decide)).1 exampleRows (some (.int 8)) (emptyStorage 4294967295) (by decide)).1,
    ((unsupported_field_type_is_fatal layout64 unknownSchema 1 120 (by decide)
      (by decide)).2 0 2 idOnlyRows exampleStorage [.int 7] ⟨2, 0⟩ (by decide) (by decide)
      (by decide!) (by decide!)).1⟩

/-! ### The target size of the index table -/

theorem nodup_length_le (l : List Nat) (n : Nat) (hnd : l.Nodup) (hlt : ∀ x ∈ l, x < n) :
    l.length ≤ n := by
  have hsub : l.toFinset ⊆ Finset.range n := by
    intro x hx
    rw [List.mem_toFinset] at hx
    exact Finset.mem_range.mpr (hlt x hx)
  have hcard := Finset.card_le_card hsub
  rw [List.toFinset_card_of_nodup hnd, Finset.card_range] at hcard
  exact hcard

theorem Load_table_length {L : Layout} {li : DB2LoadInfo} {rs : PreparedResultSet}
    {hint : Option Field} {st : Storage} {buf : Option Addr} {st' : Storage}
    (hc : li.Meta.GetDbFieldCount = rs.GetFieldCount)
    (h : Load L li (some rs) hint st = .ok (buf, st')) :
    st'.indexTable.length = (resized st hint).length ∧
    (buf ≠ none → st'.records = targetSize st.records hint) ∧
    (buf = none → st'.records = st.records) := by
  obtain ⟨p, _, _, hcase⟩ := Load_ok_cases hc h
  rcases hcase with ⟨_, hbuf, hst⟩ | ⟨_, temp, _, hbuf, hst⟩
  · subst hst
    exact ⟨rfl, fun hne => absurd hbuf hne, fun _ => rfl⟩
  · subst hst
    exact ⟨insertNew_length _ _ _ _ _ _, fun _ => rfl, fun hn => by rw [hbuf] at hn; cases hn⟩

/-- The table size chosen by the resize step disregards the row count: three rows
with the IDs 0, 1, 1 and the max-ID hint 2 are loaded into a table of size 2. A
hint of `2 ^ 32 + 5` is truncated to 5. -/
theorem Load_table_smaller_than_row_count :
    returns crowdedLoad = true ∧
    targetSize (emptyStorage 4294967295).records (some (.int 2)) = 2 ∧
    (resized (emptyStorage 4294967295) (some (.int 2))).length = 2 ∧
    (okValue (none, emptyStorage 0) crowdedLoad).2.records = 2 ∧
    (okValue (none, emptyStorage 0) crowdedLoad).2.indexTable.length = 2 ∧
    crowdedRows.GetRowCount = 3 ∧
    ¬ (crowdedRows.GetRowCount
      ≤ targetSize (emptyStorage 4294967295).records (some (.int 2))) ∧
    targetSize 0 (some (.int (2 ^ 32 + 5))) = 5 ∧
    (Field.int (2 ^ 32 + 5)).GetUInt64 = 2 ^ 32 + 5 := by
  refine ⟨by decide!, by decide, by decide, by decide!, by decide!, by decide, by decide,
    by decide, by decide⟩

/-- Claim C14, amended. The table size that the resize step of `Load` determines is
the larger of the reported size and the max-ID hint truncated to 32 bits, and the
reported size when there is no hint; the table that the row loop consults has at
least that length, it is the length of the table after the call, and the size is
reported when a buffer is returned. The number of rows is not taken into account:
it is at most the table length when the row IDs are pairwise distinct. -/
theorem Load_target_size (L : Layout) (li : DB2LoadInfo) (rs : PreparedResultSet)
    (hint : Option Field) (st : Storage) (buf : Option Addr) (st' : Storage)
    (hc : li.Meta.GetDbFieldCount = rs.GetFieldCount)
    (hle : st.records ≤ st.indexTable.length)
    (h : Load L li (some rs) hint st = .ok (buf, st')) :
    targetSize st.records hint = (match hint with
      | some cell => max st.records (cell.GetUInt64 % 2 ^ 32)
      | none => st.records) ∧
    targetSize st.records hint ≤ (resized st hint).length ∧
    (targetSize st.records hint > st.records →
      (resized st hint).length = targetSize st.records hint) ∧
    st'.indexTable.length = (resized st hint).length ∧
    (buf ≠ none → st'.records = targetSize st.records hint) ∧
    ((rs.rows.map (rowId li)).Nodup → rs.GetRowCount ≤ (resized st hint).length) := by
  obtain ⟨hlen, hrec, _⟩ := Load_table_length hc h
  refine ⟨?_, resized_length_ge hint hle, ?_, hlen, hrec, ?_⟩
  · unfold targetSize
    cases hint with
    | none => rfl
    | some cell =>
      simp only
      split
      · rw [Nat.max_eq_right (by omega)]
      · rw [Nat.max_eq_left (by omega)]
  · intro hg
    unfold resized
    rw [if_pos hg, List.length_append, List.length_take, List.length_replicate,
      Nat.min_eq_left hle]
    omega
  · intro hnd
    obtain ⟨p, _, hp, _⟩ := Load_ok_cases hc h
    have hlt := (loadRows_newIndexes rs.rows hp).1
    have := nodup_length_le _ _ hnd (fun x hx => by
      obtain ⟨fields, hf, rfl⟩ := List.mem_map.mp hx
      exact hlt fields hf)
    rw [List.length_map] at this
    exact this

/-- The three rows with the IDs 50, 3 and 9999 and the hint 10000: the size is
10000, which is the length of the table and the reported size after the call. -/
theorem Load_target_size_witness :
    targetSize (emptyStorage 4294967295).records (some (.int 10000)) = 10000 ∧
    (okValue (none, emptyStorage 0) minIdLoad).2.records = 10000 ∧
    (okValue (none, emptyStorage 0) minIdLoad).2.indexTable.length
      = (resized (emptyStorage 4294967295) (some (.int 10000))).length :=
  ⟨by decide,
    (Load_target_size layout64 minIdSchema minIdRows (some (.int 10000))
      (emptyStorage 4294967295) (okValue (none, emptyStorage 0) minIdLoad).1
      (okValue (none, emptyStorage 0) minIdLoad).2 (by decide) (by decide)
      (okValue_of_returns (none, emptyStorage 0) minIdLoad (by decide!))).2.2.2.2.1
      (by decide!),
    (Load_target_size layout64 minIdSchema minIdRows (some (.int 10000))
      (emptyStorage 4294967295) (okValue (none, emptyStorage 0) minIdLoad).1
      (okValue (none, emptyStorage 0) minIdLoad).2 (by decide) (by decide)
      (okValue_of_returns (none, emptyStorage 0) minIdLoad (by decide!))).2.2.2.1⟩

/-- Claim C15. When the resize step of `Load` grows the index table from the
reported size `records` to a larger size, it succeeds, and the table it leaves has
the larger size, holds at every position below `records` the entry that the old
table held there, and holds null at every position from `records` on. -/
theorem Load_growth_keeps_entries (st : Storage) (hint : Option Field)
    (hgrow : targetSize st.records hint > st.records)
    (hle : st.records ≤ st.indexTable.length) :
    resizeIndexTable st.records (targetSize st.records hint) st.indexTable
      = .ok (resized st hint) ∧
    (resized st hint).length = targetSize st.records hint ∧
    (∀ i, i < st.records → (resized st hint)[i]? = st.indexTable[i]?) ∧
    (∀ i, st.records ≤ i → i < targetSize st.records hint →
      (resized st hint)[i]? = some none) := by
  have hres : resized st hint = st.indexTable.take st.records ++
      List.replicate (targetSize st.records hint - st.records) none := by
    unfold resized
    rw [if_pos hgrow]
  have hlen : (st.indexTable.take st.records).length = st.records := by
    rw [List.length_take, Nat.min_eq_left hle]
  refine ⟨?_, ?_, ?_, ?_⟩
  · unfold resizeIndexTable
    rw [if_pos hgrow, if_pos hle, hres]
  · rw [hres, List.length_append, hlen, List.length_replicate]
    omega
  · intro i hi
    rw [hres, List.getElem?_append_left (by rw [hlen]; exact hi),
      List.getElem?_take_of_lt hi]
  · intro i hlo hhi
    rw [hres, List.getElem?_append_right (by rw [hlen]; exact hlo), hlen,
      List.getElem?_replicate, if_pos (by omega)]

/-- The table of the packing example, of size 8 with the ID 7 populated, grown to
the hint 10: the entry of 7 is kept and the positions 8 and 9 are null. -/
theorem Load_growth_keeps_entries_witness :
    exampleStorage.records = 8 ∧ targetSize exampleStorage.records (some (.int 10)) = 10 ∧
    (resized exampleStorage (some (.int 10)))[7]? = some (some ⟨2, 0⟩) ∧
    (resized exampleStorage (some (.int 10))).length
      = targetSize exampleStorage.records (some (.int 10)) ∧
    (∀ i, exampleStorage.records ≤ i → i < targetSize exampleStorage.records (some (.int 10)) →
      (resized exampleStorage (some (.int 10)))[i]? = some none) :=
  ⟨by decide!, by decide!, by decide!,
    (Load_growth_keeps_entries exampleStorage (some (.int 10)) (by decide!) (by decide!)).2.1,
    (Load_growth_keeps_entries exampleStorage (some (.int 10)) (by decide!) (by decide!)).2.2.2⟩

/-! ### The returned buffer -/

/-- The provisional buffer keeps its size during the row loop. -/
theorem loadRows_temp_length {L : Layout} {li : DB2LoadInfo} {rs : PreparedResultSet}
    {hint : Option Field} {st : Storage} {p : Pass} {temp : List MemVal}
    (hen : L.LOCALE_enUS < L.TOTAL_LOCALES) (hfit : packedSize L li < 2 ^ 32)
    (hp : loadRows L li (resized st hint) ⟨st.heap.length, 0⟩ rs.rows (startPass li rs st)
      = .ok p)
    (htemp : p.heap[st.heap.length]? = some (some temp)) :
    temp.length = rs.GetRowCount * li.Meta.GetRecordSize := by
  obtain ⟨hfr, _⟩ := loadRows_frame hen hfit rs.rows hp
  have h0 : (startPass li rs st).heap[st.heap.length]?
      = some (some (List.replicate (rs.GetRowCount * li.Meta.GetRecordSize)
        (MemVal.byte 0))) := by
    simp [startPass]
  obtain ⟨d, hd, hl, _⟩ := hfr.2 _ _ h0
  rw [htemp] at hd
  cases hd
  rw [hl, List.length_replicate]

theorem newRows_length_le (li : DB2LoadInfo) (tbl : List (Option Addr))
    (rows : List (List Field)) : (newRows li tbl rows).length ≤ rows.length :=
  List.length_filter_le _ _

/-- Claim C16. When `Load` returns a buffer, the buffer is a new allocation whose
length is exactly the number of rows that were new in this pass times the record
size, its `i`-th record holds the `i`-th new row in row order, and the provisional
buffer, which has room for every row of the result, is freed. -/
theorem Load_buffer_is_compact (L : Layout) (li : DB2LoadInfo) (rs : PreparedResultSet)
    (hint : Option Field) (st : Storage) (dt : Addr) (st' : Storage)
    (hen : L.LOCALE_enUS < L.TOTAL_LOCALES)
    (hsize : packedSize L li = li.Meta.GetRecordSize) (h32 : li.Meta.GetRecordSize < 2 ^ 32)
    (hc : li.Meta.GetDbFieldCount = rs.GetFieldCount)
    (hbelow : EntriesBelow st.indexTable st.heap.length)
    (h : Load L li (some rs) hint st = .ok (some dt, st')) :
    dt.off = 0 ∧ st.heap.length < dt.block ∧
    newRows li (resized st hint) rs.rows ≠ [] ∧
    (∃ data, st'.heap[dt.block]? = some (some data) ∧
      data.length = (newRows li (resized st hint) rs.rows).length * li.Meta.GetRecordSize) ∧
    st'.heap[st.heap.length]? = some none ∧
    ∃ new, st'.stringPool = st.stringPool ++ new ∧
      ∀ i fields, (newRows li (resized st hint) rs.rows)[i]? = some fields →
        RowPacked L li new (st.heap.length + 1) st'.heap fields
          (dt.add (i * li.Meta.GetRecordSize)) := by
  have hfit : packedSize L li < 2 ^ 32 := by rw [hsize]; exact h32
  obtain ⟨new, hpool, hall⟩ := Load_new_rows_packed hen hfit hc hbelow h
  obtain ⟨p, _, hp, hcase⟩ := Load_ok_cases hc h
  have hnew := (loadRows_newIndexes rs.rows hp).2
  simp only [startPass, List.nil_append] at hnew
  have hlenEq : p.newIndexes.length = (newRows li (resized st hint) rs.rows).length := by
    rw [hnew, newIds_eq_map, List.length_map]
  have hlen := loadRows_heap_length hen hfit rs.rows hp
  have hlen0 : st.heap.length < p.heap.length := by
    have : (startPass li rs st).heap.length = st.heap.length + 1 := by simp [startPass]
    omega
  rcases hcase with ⟨_, hbuf, _⟩ | ⟨hne, temp, htemp, hbuf, hst⟩
  · cases hbuf
  · have hdt : dt = ⟨p.heap.length, 0⟩ := Option.some.inj hbuf
    subst hdt
    have htl := loadRows_temp_length hen hfit hp htemp
    refine ⟨rfl, hlen0, ?_, ?_, ?_, new, hpool, fun i fields hi => ?_⟩
    · intro hnil
      rw [hnil] at hlenEq
      exact hne (List.length_eq_zero.mp hlenEq)
    · refine ⟨temp.take (p.newRecords * li.Meta.GetRecordSize), ?_, ?_⟩
      · rw [hst]
        simp only
        rw [List.getElem?_set_ne (by omega), List.getElem?_append_right (Nat.le_refl _)]
        simp
      · rw [List.length_take, htl, Pass.newRecords, hlenEq]
        have hle : (newRows li (resized st hint) rs.rows).length ≤ rs.GetRowCount := by
          have := newRows_length_le li (resized st hint) rs.rows
          simpa [PreparedResultSet.rows, PreparedResultSet.GetRowCount] using this
        exact Nat.min_eq_left (Nat.mul_le_mul_right _ hle)
    · rw [hst]
      simp only
      rw [List.getElem?_set_self (by rw [List.length_append]; omega)]
    · obtain ⟨dt', hdt', _, _, hrow⟩ := hall i fields hi
      cases hdt'
      exact hrow

/-- The storage after the example load satisfies the storage invariant. -/
theorem exampleStorage_inv : StoreInv exampleSchema exampleStorage :=
  Load_preserves_StoreInv (L := layout64) (by decide) (by decide) (by decide)
    (StoreInv_empty exampleSchema 4294967295)
    (okValue_of_returns (none, emptyStorage 0) exampleLoad (by decide!))

/-- The rows (7, 43, "hello") and (5, 1, "") loaded after the example load: only the
row with the ID 5 is new. The provisional buffer, block 3, is freed, and the
returned buffer, block 5, has the 16 bytes of one record, which decode to the
second row. -/
theorem Load_buffer_is_compact_witness :
    (okValue (none, emptyStorage 0) mixedLoad).1 = some ⟨5, 0⟩ ∧
    mixedRows.GetRowCount = 2 ∧
    (newRows exampleSchema (resized exampleStorage (some (.int 8))) mixedRows.rows).length = 1 ∧
    decodeRecord layout64 exampleSchema readCStr
      (okValue (none, emptyStorage 0) mixedLoad).2.heap ⟨5, 0⟩
      = some [Value.int 5, Value.int 1, Value.text true []] ∧
    (okValue (none, emptyStorage 0) mixedLoad).2.heap[exampleStorage.heap.length]?
      = some none ∧
    ∃ data, (okValue (none, emptyStorage 0) mixedLoad).2.heap[(Addr.mk 5 0).block]?
        = some (some data) ∧
      data.length
        = (newRows exampleSchema (resized exampleStorage (some (.int 8))) mixedRows.rows).length
          * exampleSchema.Meta.GetRecordSize :=
  have hbuf : (okValue (none, emptyStorage 0) mixedLoad).1 = some ⟨5, 0⟩ := by decide!
  have hok : Load layout64 exampleSchema (some mixedRows) (some (.int 8)) exampleStorage
      = .ok (some ⟨5, 0⟩, (okValue (none, emptyStorage 0) mixedLoad).2) :=
    hbuf ▸ okValue_of_returns (none, emptyStorage 0) mixedLoad (by decide!)
  have hcompact := Load_buffer_is_compact layout64 exampleSchema mixedRows (some (.int 8))
    exampleStorage ⟨5, 0⟩ (okValue (none, emptyStorage 0) mixedLoad).2
    (by decide) (by decide) (by decide) (by decide) exampleStorage_inv.1 hok
  ⟨hbuf, by decide, by decide!, by decide!, hcompact.2.2.2.2.1, hcompact.2.2.2.1⟩

/-! ### The entries of the new records -/

/-- The insertion loop points the `k`-th of pairwise distinct new IDs to the
`k`-th record of the buffer. -/
theorem insertNew_nodup (recordSize : Nat) (dataTable : Addr) (ids : List Nat) (i : Nat)
    (tbl : List (Option Addr)) (minId : Nat) (hnd : ids.Nodup) (k j : Nat)
    (hk : ids[k]? = some j) (hj : j < tbl.length) :
    (insertNew recordSize dataTable ids i (tbl, minId)).1[j]?
      = some (some (dataTable.add ((i + k) * recordSize))) := by
  induction ids generalizing i tbl minId k with
  | nil => simp at hk
  | cons newId rest ih =>
    simp only [insertNew]
    obtain ⟨hnot, hrest⟩ := List.nodup_cons.mp hnd
    cases k with
    | zero =>
      simp only [List.getElem?_cons_zero, Option.some.injEq] at hk
      subst hk
      rw [insertNew_other _ _ _ _ _ _ _ hnot, List.getElem?_set_self hj]
      rfl
    | succ k =>
      simp only [List.getElem?_cons_succ] at hk
      have := ih (i + 1) (tbl.set newId (some (dataTable.add (i * recordSize))))
        (min minId newId) hrest k hk (by rw [List.length_set]; exact hj)
      rw [this]
      have e : i + 1 + k = i + (k + 1) := by omega
      rw [e]

/-- Claim C17. After a `Load` whose new rows have pairwise distinct IDs, the index
table entry of the ID of the `i`-th new row is the address of the `i`-th record
of the returned buffer, at byte offset `i` times the record size, and the record
there decodes to the values of that row. -/
theorem Load_index_insertion (L : Layout) (li : DB2LoadInfo) (rs : PreparedResultSet)
    (hint : Option Field) (st : Storage) (buf : Option Addr) (st' : Storage)
    (i : Nat) (fields : List Field)
    (hptr : 0 < L.ptrSize) (hen : L.LOCALE_enUS < L.TOTAL_LOCALES)
    (hsize : packedSize L li = li.Meta.GetRecordSize) (h32 : li.Meta.GetRecordSize < 2 ^ 32)
    (hc : li.Meta.GetDbFieldCount = rs.GetFieldCount)
    (hbelow : EntriesBelow st.indexTable st.heap.length)
    (h : Load L li (some rs) hint st = .ok (buf, st'))
    (hnd : (newIds li (resized st hint) rs.rows).Nodup)
    (hi : (newRows li (resized st hint) rs.rows)[i]? = some fields) :
    ∃ dt values, buf = some dt ∧ dt.off = 0 ∧
      st'.indexTable[rowId li fields]? = some (some (dt.add (i * li.Meta.GetRecordSize))) ∧
      expectedRecord li fields = some values ∧
      decodeRecord L li pooledText st'.heap (dt.add (i * li.Meta.GetRecordSize)) = some values ∧
      (NulFree fields →
        decodeRecord L li readCStr st'.heap (dt.add (i * li.Meta.GetRecordSize))
          = some values) := by
  obtain ⟨new, _, hall⟩ :=
    Load_new_rows_packed hen (by rw [hsize]; exact h32) hc hbelow h
  obtain ⟨dt, hbuf, hoff, _, hrow⟩ := hall i fields hi
  obtain ⟨hdec, hsome⟩ := hrow.decode_row pooledText hptr hen
    (fun f => pooledText_reads _)
  obtain ⟨values, hvalues⟩ := Option.isSome_iff_exists.mp hsome
  refine ⟨dt, values, hbuf, hoff, ?_, hvalues, by rw [hdec, hvalues], fun hnul => ?_⟩
  · obtain ⟨p, _, hp, hcase⟩ := Load_ok_cases hc h
    obtain ⟨hlt, hnew⟩ := loadRows_newIndexes rs.rows hp
    simp only [startPass, List.nil_append] at hnew
    have hmem : fields ∈ rs.rows := by
      have := List.getElem?_mem hi
      unfold newRows at this
      exact (List.mem_filter.mp this).1
    have hidx : (newIds li (resized st hint) rs.rows)[i]? = some (rowId li fields) := by
      rw [newIds_eq_map, List.getElem?_map, hi]
      rfl
    rcases hcase with ⟨_, hnone, _⟩ | ⟨_, temp, _, hbuf', hst⟩
    · rw [hnone] at hbuf
      cases hbuf
    · rw [hbuf'] at hbuf
      cases hbuf
      rw [hst]
      simp only
      rw [hnew, insertNew_nodup _ _ _ _ _ _ hnd i _ hidx (hlt fields hmem), Nat.zero_add]
  · rw [(hrow.decode_row readCStr hptr hen
      (fun f => readCStr_reads _ (cellAt_nulFree hnul f))).1, hvalues]

/-- The rows with the IDs 5 and 3 loaded after the example load: the entry of the
ID 3, the second new row, is the address at offset 16 of the returned buffer, and
the record there decodes to 3, 2 and "hello". -/
theorem Load_index_insertion_witness :
    (okValue (none, emptyStorage 0) twoLoad).1 = some ⟨5, 0⟩ ∧
    (okValue (none, emptyStorage 0) twoLoad).2.indexTable[3]? = some (some ⟨5, 16⟩) ∧
    decodeRecord layout64 exampleSchema readCStr
      (okValue (none, emptyStorage 0) twoLoad).2.heap ⟨5, 16⟩
      = some [Value.int 3, Value.int 2, Value.text false hello] ∧
    ∃ dt values, (okValue (none, emptyStorage 0) twoLoad).1 = some dt ∧ dt.off = 0 ∧
      (okValue (none, emptyStorage 0) twoLoad).2.indexTable[
          rowId exampleSchema [.int 3, .int 2, .string hello]]?
        = some (some (dt.add (1 * exampleSchema.Meta.GetRecordSize))) ∧
      expectedRecord exampleSchema [.int 3, .int 2, .string hello] = some values ∧
      decodeRecord layout64 exampleSchema pooledText
        (okValue (none, emptyStorage 0) twoLoad).2.heap
        (dt.add (1 * exampleSchema.Meta.GetRecordSize)) = some values ∧
      (NulFree [.int 3, .int 2, .string hello] →
        decodeRecord layout64 exampleSchema readCStr
          (okValue (none, emptyStorage 0) twoLoad).2.heap
          (dt.add (1 * exampleSchema.Meta.GetRecordSize)) = some values) :=
  ⟨by decide!, by decide!, by decide!,
    Load_index_insertion layout64 exampleSchema twoRows (some (.int 8))
      exampleStorage (okValue (none, emptyStorage 0) twoLoad).1
      (okValue (none, emptyStorage 0) twoLoad).2 1 [.int 3, .int 2, .string hello]
      (by decide) (by decide) (by decide) (by decide) (by decide)
      exampleStorage_inv.1
      (okValue_of_returns (none, emptyStorage 0) twoLoad (by decide!))
      (by decide!) (by decide!)⟩

/-! ### Stability of the index table -/

/-- A `LoadStrings` that returns changed only the heap and the string pool. -/
theorem LoadStrings_storage {L : Layout} {li : DB2LoadInfo} {stringFields locale : Nat}
    {result : Option PreparedResultSet} {st st' : Storage} {log : List Nat}
    (h : LoadStrings L li stringFields locale result st = .ok (st', log)) :
    st'.indexTable = st.indexTable ∧ st'.records = st.records ∧ st'.minId = st.minId := by
  unfold LoadStrings at h
  split at h
  · cases h
    exact ⟨rfl, rfl, rfl⟩
  · split at h
    · cases h
      exact ⟨rfl, rfl, rfl⟩
    · split at h
      · cases h
      · cases h
        exact ⟨rfl, rfl, rfl⟩

/-- Claim C18, amended. Every index table entry that is populated, below the
reported size, before a call of `Load` is the same record address after the call
and is below the reported size again, also when the call grows the table; and
`LoadStrings` changes no index table entry, nor the reported size. -/
theorem index_entries_are_stable (L : Layout) (li : DB2LoadInfo)
    (result : Option PreparedResultSet) (hint : Option Field) (st : Storage)
    (buf : Option Addr) (st' : Storage) (id : Nat) (a : Addr)
    (h : Load L li result hint st = .ok (buf, st'))
    (hlt : id < st.records) (hpres : st.indexTable[id]? = some (some a)) :
    (id < st'.records ∧ st'.indexTable[id]? = some (some a)) ∧
    ∀ (stringFields locale : Nat) (ls : Option PreparedResultSet) (s s' : Storage)
      (log : List Nat), LoadStrings L li stringFields locale ls s = .ok (s', log) →
      s'.indexTable = s.indexTable ∧ s'.records = s.records := by
  refine ⟨⟨Nat.lt_of_lt_of_le hlt (Load_records_le h), ?_⟩,
    fun stringFields locale ls s s' log hs =>
      ⟨(LoadStrings_storage hs).1, (LoadStrings_storage hs).2.1⟩⟩
  cases result with
  | none =>
    rw [Load_none] at h
    cases h
    exact hpres
  | some rs =>
    by_cases hc : li.Meta.GetDbFieldCount = rs.GetFieldCount
    swap
    · rw [Load_mismatch L li rs hint st hc] at h
      cases h
      exact hpres
    obtain ⟨p, hres, hp, hcase⟩ := Load_ok_cases hc h
    have hkeep : (resized st hint)[id]? = some (some a) := by
      rw [resized_keeps hint hlt (fun hgt => resizeIndexTable_bound hres hgt)]
      exact hpres
    rcases hcase with ⟨_, _, hst⟩ | ⟨_, temp, _, _, hst⟩
    · rw [hst]; exact hkeep
    · have hnew := (loadRows_newIndexes rs.rows hp).2
      simp only [startPass, List.nil_append] at hnew
      rw [hst]
      simp only
      rw [hnew]
      exact insertNew_keeps _ _ _ _ hkeep

/-- After the example load, a load with the hint 10 grows the table to 10 entries
and inserts the ID 5; the entry of the ID 7 is still the address in block 2. -/
theorem index_entries_are_stable_witness :
    exampleStorage.indexTable.length = 8 ∧
    (okValue (none, emptyStorage 0) grownLoad).2.indexTable.length = 10 ∧
    (okValue (none, emptyStorage 0) grownLoad).2.indexTable[5]? = some (some ⟨4, 0⟩) ∧
    (7 < (okValue (none, emptyStorage 0) grownLoad).2.records ∧
      (okValue (none, emptyStorage 0) grownLoad).2.indexTable[7]? = some (some ⟨2, 0⟩)) :=
  ⟨by decide!, by decide!, by decide!,
    (index_entries_are_stable layout64 exampleSchema (some otherRows) (some (.int 10))
      exampleStorage (okValue (none, emptyStorage 0) grownLoad).1
      (okValue (none, emptyStorage 0) grownLoad).2 7 ⟨2, 0⟩
      (okValue_of_returns (none, emptyStorage 0) grownLoad (by decide!))
      (by decide!) (by decide!)).1⟩

/-! ### Frame of a locale pass -/

theorem elemOffset_succ (L : Layout) (li : DB2LoadInfo) (k : Nat) :
    elemOffset L li (k + 1)
      = elemOffset L li k + width L (typeAt li (firstColumn li + k)) := by
  unfold elemOffset
  rw [sumWidths_succ]
  omega

theorem elemOffset_mono (L : Layout) (li : DB2LoadInfo) (k k' : Nat) (h : k ≤ k') :
    elemOffset L li k ≤ elemOffset L li k' := by
  unfold elemOffset
  have := sumWidths_le L li (firstColumn li) k k' h
  omega

theorem idWidth_le_elemOffset (L : Layout) (li : DB2LoadInfo) (k : Nat) :
    idWidth li ≤ elemOffset L li k := by
  unfold elemOffset
  omega

theorem elemOffset_le_packedSize (L : Layout) (li : DB2LoadInfo) {k : Nat}
    (h : k ≤ totalElems li.Meta.Fields) : elemOffset L li k ≤ packedSize L li :=
  elemOffset_mono L li _ _ h

/-- A cell of a `locale` slot lies inside its localized string element. -/
theorem LocaleSlots.bounds {L : Layout} {li : DB2LoadInfo} {locale : Nat} {a : Addr}
    {b j : Nat} (hloc : locale < L.TOTAL_LOCALES) (h : LocaleSlots L li locale a b j) :
    b = a.block ∧ ∃ k, k < totalElems li.Meta.Fields ∧
      typeAt li (firstColumn li + k) = DBCFormer.FT_STRING ∧
      a.off + elemOffset L li k + locale * L.ptrSize ≤ j ∧
      j < a.off + elemOffset L li k + locale * L.ptrSize + L.ptrSize ∧
      j < a.off + elemOffset L li (k + 1) := by
  obtain ⟨k, hk, hty, hb, hlo, hhi⟩ := h
  refine ⟨hb, k, hk, hty, hlo, hhi, ?_⟩
  rw [elemOffset_succ, hty]
  simp only [width, Layout.sizeofLocalizedString]
  have hmul : (locale + 1) * L.ptrSize ≤ L.TOTAL_LOCALES * L.ptrSize :=
    Nat.mul_le_mul_right _ hloc
  rw [Nat.succ_mul] at hmul
  have e : a.off + (idWidth li + sumWidths L li (firstColumn li) k)
      = a.off + elemOffset L li k := rfl
  omega

/-- A cell of a record that is in no `locale` slot of this record is not written
by a locale pass, when the records of different IDs do not overlap. -/
theorem not_patched {L : Layout} {li : DB2LoadInfo} {locale records : Nat}
    {tbl : List (Option Addr)} {rows : List (List Field)}
    (hdis : RecordsDisjoint li.Meta.GetRecordSize tbl)
    (hsize : packedSize L li = li.Meta.GetRecordSize) (hloc : locale < L.TOTAL_LOCALES)
    {id : Nat} {a : Addr} (ha : tbl[id]? = some (some a)) {j : Nat}
    (hlo : a.off ≤ j) (hhi : j < a.off + li.Meta.GetRecordSize)
    (hns : ¬ LocaleSlots L li locale a a.block j) :
    ¬ Patched L li locale records tbl rows a.block j := by
  rintro ⟨fields, _, a', _, ha', hslot⟩
  by_cases hid : localeRowId fields = id
  · rw [hid, ha] at ha'
    cases ha'
    exact hns hslot
  · obtain ⟨hb, k, hk, _, hlo', _, hhi'⟩ := LocaleSlots.bounds hloc hslot
    have hin := elemOffset_le_packedSize L li (k := k + 1) (by omega)
    rw [hsize] at hin
    rcases hdis _ _ _ _ hid ha' ha with h1 | h2 | h3
    · exact h1 hb.symm
    · omega
    · omega

/-- The prepended ID is in no `locale` slot. -/
theorem id_not_slot {L : Layout} {li : DB2LoadInfo} {locale : Nat} {a : Addr} {j : Nat}
    (hhi : j < a.off + idWidth li) : ¬ LocaleSlots L li locale a a.block j := by
  rintro ⟨k, _, _, _, hlo, _⟩
  have := idWidth_le_elemOffset L li k
  have e : a.off + (idWidth li + sumWidths L li (firstColumn li) k)
      = a.off + elemOffset L li k := rfl
  omega

/-- An element that is not a localized string is in no `locale` slot. -/
theorem elem_not_slot {L : Layout} {li : DB2LoadInfo} {locale : Nat} {a : Addr} {k j : Nat}
    (hloc : locale < L.TOTAL_LOCALES)
    (hty : typeAt li (firstColumn li + k) ≠ DBCFormer.FT_STRING)
    (hlo : a.off + elemOffset L li k ≤ j) (hhi : j < a.off + elemOffset L li (k + 1)) :
    ¬ LocaleSlots L li locale a a.block j := by
  intro hslot
  obtain ⟨_, k', _, hty', hlo', _, hhi'⟩ := LocaleSlots.bounds hloc hslot
  rcases Nat.lt_trichotomy k' k with hlt | heq | hgt
  · have := elemOffset_mono L li (k' + 1) k (by omega)
    omega
  · subst heq
    exact hty hty'
  · have := elemOffset_mono L li (k + 1) k' (by omega)
    omega

/-- The slot of another locale is in no `locale` slot. -/
theorem other_slot_not_slot {L : Layout} {li : DB2LoadInfo} {locale : Nat} {a : Addr}
    {k m j : Nat} (hloc : locale < L.TOTAL_LOCALES) (hm : m < L.TOTAL_LOCALES)
    (hne : m ≠ locale) (hty : typeAt li (firstColumn li + k) = DBCFormer.FT_STRING)
    (hlo : a.off + elemOffset L li k + m * L.ptrSize ≤ j)
    (hhi : j < a.off + elemOffset L li k + m * L.ptrSize + L.ptrSize) :
    ¬ LocaleSlots L li locale a a.block j := by
  intro hslot
  obtain ⟨_, k', _, hty', hlo', hhi', hend'⟩ := LocaleSlots.bounds hloc hslot
  have hend : j < a.off + elemOffset L li (k + 1) := by
    rw [elemOffset_succ, hty]
    simp only [width, Layout.sizeofLocalizedString]
    have hmul : (m + 1) * L.ptrSize ≤ L.TOTAL_LOCALES * L.ptrSize :=
      Nat.mul_le_mul_right _ hm
    rw [Nat.succ_mul] at hmul
    omega
  rcases Nat.lt_trichotomy k' k with hlt | heq | hgt
  · have := elemOffset_mono L li (k' + 1) k (by omega)
    omega
  · subst heq
    rcases Nat.lt_or_gt_of_ne hne with h1 | h1
    · have hmul : (m + 1) * L.ptrSize ≤ locale * L.ptrSize := Nat.mul_le_mul_right _ h1
      rw [Nat.succ_mul] at hmul
      omega
    · have hmul : (locale + 1) * L.ptrSize ≤ m * L.ptrSize := Nat.mul_le_mul_right _ h1
      rw [Nat.succ_mul] at hmul
      omega
  · have := elemOffset_mono L li (k + 1) k' (by omega)
    omega

/-- A `LoadStrings` that returns wrote only `locale` slots of localized string
elements of records whose IDs occur in the locale rows, and only appended to the
pool. -/
theorem LoadStrings_frame {L : Layout} {li : DB2LoadInfo} {stringFields locale : Nat}
    {ls : PreparedResultSet} {st st' : Storage} {log : List Nat}
    (hfit : packedSize L li < 2 ^ 32)
    (h : LoadStrings L li stringFields locale (some ls) st = .ok (st', log)) :
    Frame (Patched L li locale st.records st.indexTable ls.rows) st.heap st'.heap ∧
    ∃ new, st'.stringPool = st.stringPool ++ new := by
  by_cases hc : ls.GetFieldCount = stringFields + 1
  · obtain ⟨s, hs, hst, _⟩ := LoadStrings_ok_cases hc h
    obtain ⟨hfr, hpool⟩ := loadStringsRows_frame hfit ls.rows hs
    rw [hst]
    exact ⟨hfr, hpool⟩
  · simp only [LoadStrings, ne_eq, hc, not_false_eq_true, if_true] at h
    cases h
    exact ⟨Frame.refl _ _, [], by simp⟩

/-- Claim C19. A `LoadStrings` pass for a locale that returns changes no cell of
the heap other than the slots of that locale in the localized string elements of
the records whose IDs occur in the locale rows. In every record of the table the
prepended ID, every element that is not a localized string and, in every
localized string element, the slot of every other locale, the base locale
included when the pass is for another locale, read as before; a record whose ID
does not occur in the locale rows is unchanged as a whole. -/
theorem LoadStrings_changes_only_locale_slots (L : Layout) (li : DB2LoadInfo)
    (stringFields locale : Nat) (ls : PreparedResultSet) (st st' : Storage)
    (log : List Nat)
    (hsize : packedSize L li = li.Meta.GetRecordSize) (h32 : li.Meta.GetRecordSize < 2 ^ 32)
    (hloc : locale < L.TOTAL_LOCALES)
    (hdis : RecordsDisjoint li.Meta.GetRecordSize st.indexTable)
    (h : LoadStrings L li stringFields locale (some ls) st = .ok (st', log)) :
    Frame (Patched L li locale st.records st.indexTable ls.rows) st.heap st'.heap ∧
    ∀ (id : Nat) (a : Addr), st.indexTable[id]? = some (some a) →
      (∀ v, fetch st.heap a (idWidth li) = some v → fetch st'.heap a (idWidth li) = some v) ∧
      (∀ k, k < totalElems li.Meta.Fields →
        typeAt li (firstColumn li + k) ≠ DBCFormer.FT_STRING →
        ∀ v, fetch st.heap (a.add (elemOffset L li k))
            (width L (typeAt li (firstColumn li + k))) = some v →
          fetch st'.heap (a.add (elemOffset L li k))
            (width L (typeAt li (firstColumn li + k))) = some v) ∧
      (∀ k, k < totalElems li.Meta.Fields →
        typeAt li (firstColumn li + k) = DBCFormer.FT_STRING →
        ∀ m, m < L.TOTAL_LOCALES → m ≠ locale →
        ∀ v, fetch st.heap ((a.add (elemOffset L li k)).add (m * L.ptrSize)) L.ptrSize
            = some v →
          fetch st'.heap ((a.add (elemOffset L li k)).add (m * L.ptrSize)) L.ptrSize
            = some v) ∧
      ((∀ fields ∈ ls.rows, localeRowId fields ≠ id) →
        ∀ v, fetch st.heap a li.Meta.GetRecordSize = some v →
          fetch st'.heap a li.Meta.GetRecordSize = some v) := by
  obtain ⟨hfr, _⟩ := LoadStrings_frame (by rw [hsize]; exact h32) h
  refine ⟨hfr, fun id a ha => ⟨fun v hv => ?_, fun k hk hty v hv => ?_,
    fun k hk hty m hm hne v hv => ?_, fun hnot v hv => ?_⟩⟩
  · refine hfr.fetch_eq hv (fun j hlo hhi => ?_)
    have hle : idWidth li ≤ packedSize L li := by unfold packedSize; omega
    exact not_patched hdis hsize hloc ha hlo (by omega) (id_not_slot hhi)
  · refine hfr.fetch_eq hv (fun j hlo hhi => ?_)
    simp only [Addr.add_block, Addr.add_off] at hlo hhi ⊢
    have hsucc := elemOffset_succ L li k
    have hin := elemOffset_le_packedSize L li (k := k + 1) (by omega)
    exact not_patched hdis hsize hloc ha (by omega) (by omega)
      (elem_not_slot hloc hty hlo (by omega))
  · refine hfr.fetch_eq hv (fun j hlo hhi => ?_)
    simp only [Addr.add_block, Addr.add_off] at hlo hhi ⊢
    have hsucc := elemOffset_succ L li k
    rw [hty] at hsucc
    simp only [width, Layout.sizeofLocalizedString] at hsucc
    have hmul : (m + 1) * L.ptrSize ≤ L.TOTAL_LOCALES * L.ptrSize :=
      Nat.mul_le_mul_right _ hm
    rw [Nat.succ_mul] at hmul
    have hin := elemOffset_le_packedSize L li (k := k + 1) (by omega)
    exact not_patched hdis hsize hloc ha (by omega) (by omega)
      (other_slot_not_slot hloc hm hne hty hlo hhi)
  · refine hfr.fetch_eq hv (fun j hlo hhi => ?_)
    rintro ⟨fields, hf, a', _, ha', hslot⟩
    obtain ⟨hb, k, hk, _, hlo', _, hhi'⟩ := LocaleSlots.bounds hloc hslot
    have hin := elemOffset_le_packedSize L li (k := k + 1) (by omega)
    rw [hsize] at hin
    rcases hdis _ _ _ _ (hnot fields hf) ha' ha with h1 | h2 | h3
    · exact h1 hb.symm
    · omega
    · omega

/-- The storage after the localized example load satisfies the storage invariant. -/
theorem localizedStorage_inv : StoreInv localizedSchema localizedStorage :=
  Load_preserves_StoreInv (L := layout64) (by decide) (by decide) (by decide)
    (StoreInv_empty localizedSchema 4294967295)
    (okValue_of_returns (none, emptyStorage 0) localizedLoad (by decide!))

/-- The locale row (7, "bonjour") for frFR after the localized example load: the
frFR slot, at offset 20 of the record in block 2, points to the new string
"bonjour" in block 3, and the enUS slot, at offset 4, still points to "hello" in
block 1. -/
theorem LoadStrings_changes_only_locale_slots_witness :
    fetch localizedStorage.heap ⟨2, 20⟩ 8 = some (ptrBytes 8 nullStr) ∧
    fetch (okValue (emptyStorage 0, []) patchLoad).1.heap ⟨2, 20⟩ 8
      = some (ptrBytes 8 (CStr.heap ⟨3, 0⟩)) ∧
    readCStr (okValue (emptyStorage 0, []) patchLoad).1.heap (CStr.heap ⟨3, 0⟩)
      = some bonjour ∧
    fetch (okValue (emptyStorage 0, []) patchLoad).1.heap ⟨2, 4⟩ 8
      = some (ptrBytes 8 (CStr.heap ⟨1, 0⟩)) ∧
    readCStr (okValue (emptyStorage 0, []) patchLoad).1.heap (CStr.heap ⟨1, 0⟩)
      = some hello ∧
    (∀ v, fetch localizedStorage.heap
        (((Addr.mk 2 0).add (elemOffset layout64 localizedSchema 0)).add
          (layout64.LOCALE_enUS * layout64.ptrSize)) layout64.ptrSize = some v →
      fetch (okValue (emptyStorage 0, []) patchLoad).1.heap
        (((Addr.mk 2 0).add (elemOffset layout64 localizedSchema 0)).add
          (layout64.LOCALE_enUS * layout64.ptrSize)) layout64.ptrSize = some v) :=
  ⟨by decide!, by decide!, by decide!, by decide!, by decide!,
    ((LoadStrings_changes_only_locale_slots layout64 localizedSchema 1 LOCALE_frFR
      patchRows localizedStorage (okValue (emptyStorage 0, []) patchLoad).1
      (okValue (emptyStorage 0, []) patchLoad).2 (by decide) (by decide) (by decide)
      localizedStorage_inv.2
      (okValue_of_returns (emptyStorage 0, []) patchLoad (by decide!))).2 7 ⟨2, 0⟩
      (by decide!)).2.2.1 0 (by decide) (by decide) layout64.LOCALE_enUS (by decide)
      (by decide)⟩

/-! ### Dangling locale rows -/

/-- A row loop of `LoadStrings` over dangling rows only changes nothing but the
log. -/
theorem loadStringsRows_all_dangling (L : Layout) (li : DB2LoadInfo) (locale records : Nat)
    (tbl : List (Option Addr)) (rows : List (List Field)) (s : StringsPass)
    (h : ∀ fields ∈ rows, 0 < fields.length ∧
      (records ≤ localeRowId fields ∨ tbl[localeRowId fields]? = some none)) :
    ∃ s1, loadStringsRows L li locale records tbl rows s = .ok s1 ∧
      s1.heap = s.heap ∧ s1.stringPool = s.stringPool := by
  induction rows generalizing s with
  | nil => exact ⟨s, rfl, rfl, rfl⟩
  | cons fields rest ih =>
    obtain ⟨h0, hd⟩ := h fields (List.mem_cons_self _ _)
    have hrest := fun f hf => h f (List.mem_cons_of_mem _ hf)
    simp only [loadStringsRows]
    by_cases hge : records ≤ localeRowId fields
    · rw [loadStringsRow_beyond s h0 hge]
      exact ih s hrest
    · rcases hd with hd | hd
      · exact absurd hd hge
      · rw [loadStringsRow_null s h0 (by omega) hd]
        obtain ⟨s1, hs1, hh, hp⟩ := ih { s with errors := s.errors ++ [localeRowId fields] } hrest
        exact ⟨s1, hs1, hh, hp⟩

/-- Claim C20. A locale row whose ID is at or beyond the reported table size, or
whose index entry is null, is skipped by `LoadStrings`: the body of the row loop
returns with the heap and the string pool as they were, having logged the ID when
it is inside the table, and the loop goes on with the remaining rows from that
state. A pass in which every row is dangling returns the storage unchanged. -/
theorem LoadStrings_skips_dangling_row (L : Layout) (li : DB2LoadInfo) (locale : Nat)
    (st : Storage) (fields : List Field) (rest : List (List Field)) (s : StringsPass)
    (h0 : 0 < fields.length)
    (hdang : st.records ≤ localeRowId fields ∨
      st.indexTable[localeRowId fields]? = some none) :
    (∃ s1, loadStringsRow L li locale st.records st.indexTable fields s = .ok s1 ∧
      s1.heap = s.heap ∧ s1.stringPool = s.stringPool ∧
      s1.errors = (if localeRowId fields < st.records
        then s.errors ++ [localeRowId fields] else s.errors) ∧
      loadStringsRows L li locale st.records st.indexTable (fields :: rest) s
        = loadStringsRows L li locale st.records st.indexTable rest s1) ∧
    ∀ (stringFields : Nat) (ls : PreparedResultSet),
      (∀ row ∈ ls.rows, 0 < row.length ∧
        (st.records ≤ localeRowId row ∨ st.indexTable[localeRowId row]? = some none)) →
      ∃ log, LoadStrings L li stringFields locale (some ls) st = .ok (st, log) := by
  constructor
  · by_cases hge : st.records ≤ localeRowId fields
    · refine ⟨s, loadStringsRow_beyond s h0 hge, rfl, rfl, by rw [if_neg (by omega)], ?_⟩
      simp only [loadStringsRows, loadStringsRow_beyond s h0 hge]
    · have hlt : localeRowId fields < st.records := by omega
      rcases hdang with hd | hd
      · exact absurd hd hge
      · refine ⟨_, loadStringsRow_null s h0 hlt hd, rfl, rfl, by rw [if_pos hlt], ?_⟩
        simp only [loadStringsRows, loadStringsRow_null s h0 hlt hd]
  · intro stringFields ls hall
    by_cases hc : ls.GetFieldCount = stringFields + 1
    · obtain ⟨s1, hs1, hh, hp⟩ := loadStringsRows_all_dangling L li locale st.records
        st.indexTable ls.rows
        { heap := st.heap, stringPool := st.stringPool, errors := [] } hall
      refine ⟨s1.errors, ?_⟩
      simp only [LoadStrings, hc, ne_eq, not_true_eq_false, ite_false, hs1, hh, hp]
    · exact ⟨[], by simp only [LoadStrings, ne_eq, hc, not_false_eq_true, if_true]⟩

/-- A locale row for the ID 12345 after the localized example load, whose table
has 8 entries: the pass returns the storage unchanged and logs nothing. A row for
the ID 3, whose entry is null, is logged, and the row for the ID 7 after it is
processed as if it were the only row. -/
theorem LoadStrings_skips_dangling_row_witness :
    danglingLoad = .ok (localizedStorage, []) ∧
    (okValue (emptyStorage 0, []) nullEntryLoad).2 = [3] ∧
    (okValue (emptyStorage 0, []) nullEntryLoad).1
      = (okValue (emptyStorage 0, []) patchLoad).1 ∧
    ∃ log, LoadStrings layout64 localizedSchema 1 LOCALE_frFR (some danglingRows)
      localizedStorage = .ok (localizedStorage, log) :=
  ⟨by decide!, by decide!, by decide!,
    (LoadStrings_skips_dangling_row layout64 localizedSchema LOCALE_frFR localizedStorage
      [.int 12345, .string bonjour] []
      { heap := localizedStorage.heap, stringPool := localizedStorage.stringPool,
        errors := [] }
      (by decide) (Or.inl (by decide!))).2 1 danglingRows
      (fun row hrow => by
        have : row = [.int 12345, .string bonjour] := by
          simpa [danglingRows, PreparedResultSet.rows] using hrow
        subst this
        exact ⟨by decide, Or.inl (by decide!)⟩)⟩

/-! ### The string pool -/

/-- A step of the switch of `Load` only appends to the pool. -/
theorem packElement_pool {L : Layout} {li : DB2LoadInfo} {isNew : Bool} {dv : Addr}
    {fields : List Field} {c c' : Cursor}
    (h : packElement L li isNew dv fields c = .ok c') :
    ∃ new, c'.stringPool = c.stringPool ++ new := by
  unfold packElement at h
  cases hfm : li.Fields[c.f]? with
  | none => rw [hfm] at h; cases h
  | some fm =>
    rw [hfm] at h
    simp only at h
    cases hT : fm.Type_ with
    | FT_FLOAT | FT_INT | FT_BYTE | FT_SHORT | FT_LONG =>
      rw [hT] at h
      simp only at h
      cases hcell : column fields c.f with
      | error e => rw [hcell] at h; cases h
      | ok cell =>
        rw [hcell] at h
        obtain ⟨_, _, _, hp⟩ := storeValue_ok h
        exact ⟨[], by simp [hp]⟩
    | FT_STRING =>
      rw [hT] at h
      simp only at h
      generalize (if isNew = true then fillNullStr L (dv.add c.offset) L.TOTAL_LOCALES c.heap
        else Except.ok c.heap) = r1 at h
      cases r1 with
      | error e => cases h
      | ok h1 =>
        simp only at h
        cases hcell : column fields c.f with
        | error e => rw [hcell] at h; cases h
        | ok cell =>
          rw [hcell] at h
          simp only at h
          cases hadd : AddString L h1 ((dv.add c.offset).add (L.LOCALE_enUS * L.ptrSize))
              cell.GetStringView with
          | error e => rw [hadd] at h; cases h
          | ok r =>
            obtain ⟨str, h2⟩ := r
            rw [hadd] at h
            cases h
            cases str with
            | none => exact ⟨[], by simp⟩
            | some s => exact ⟨[s], rfl⟩
    | FT_STRING_NOT_LOCALIZED =>
      rw [hT] at h
      simp only at h
      cases hcell : column fields c.f with
      | error e => rw [hcell] at h; cases h
      | ok cell =>
        rw [hcell] at h
        simp only at h
        cases hadd : AddString L c.heap (dv.add c.offset) cell.GetStringView with
        | error e => rw [hadd] at h; cases h
        | ok r =>
          obtain ⟨str, h1⟩ := r
          rw [hadd] at h
          cases str with
          | some s =>
            cases h
            exact ⟨[s], rfl⟩
          | none =>
            simp only at h
            cases hst : store h1 (dv.add c.offset) (ptrBytes L.ptrSize nullStr) with
            | error e => rw [hst] at h; cases h
            | ok h2 =>
              rw [hst] at h
              cases h
              exact ⟨[], by simp⟩
    | other x =>
      rw [hT] at h
      cases h

theorem packArray_pool {L : Layout} {li : DB2LoadInfo} {isNew : Bool} {dv : Addr}
    {fields : List Field} (n : Nat) {c c' : Cursor}
    (h : packArray L li isNew dv fields n c = .ok c') :
    ∃ new, c'.stringPool = c.stringPool ++ new := by
  induction n generalizing c with
  | zero =>
    simp only [packArray] at h
    cases h
    exact ⟨[], by simp⟩
  | succ n ih =>
    simp only [packArray] at h
    cases h1 : packElement L li isNew dv fields c with
    | error e => rw [h1] at h; cases h
    | ok c1 =>
      rw [h1] at h
      obtain ⟨new1, hp1⟩ := packElement_pool h1
      obtain ⟨new2, hp2⟩ := ih h
      exact ⟨new1 ++ new2, by rw [hp2, hp1, List.append_assoc]⟩

theorem loadRow_pool {L : Layout} {li : DB2LoadInfo} {tbl : List (Option Addr)}
    {temp : Addr} {fields : List Field} {p p1 : Pass}
    (h : loadRow L li tbl temp fields p = .ok p1) :
    ∃ new, p1.stringPool = p.stringPool ++ new := by
  obtain ⟨idCell, entry, c1, c2, _, _, _, hc1, hc2, _, hp1⟩ := loadRow_ok_cases h
  rw [packFields_eq_packArray] at hc2
  obtain ⟨new, hnew⟩ := packArray_pool _ hc2
  have h1 : c1.stringPool = p.stringPool := by
    cases hI : li.Meta.HasIndexFieldInData with
    | true => rw [hI] at hc1; simp only [if_true] at hc1; cases hc1; rfl
    | false =>
      rw [hI] at hc1
      simp only [Bool.false_eq_true, if_false] at hc1
      exact (storeValue_ok hc1).2.2.2
  exact ⟨new, by rw [hp1, hnew, h1]⟩

theorem loadRows_pool {L : Layout} {li : DB2LoadInfo} {tbl : List (Option Addr)}
    {temp : Addr} (rows : List (List Field)) {p p1 : Pass}
    (h : loadRows L li tbl temp rows p = .ok p1) :
    ∃ new, p1.stringPool = p.stringPool ++ new := by
  induction rows generalizing p with
  | nil =>
    simp only [loadRows] at h
    cases h
    exact ⟨[], by simp⟩
  | cons fields rest ih =>
    simp only [loadRows] at h
    cases h1 : loadRow L li tbl temp fields p with
    | error e => rw [h1] at h; cases h
    | ok p2 =>
      rw [h1] at h
      obtain ⟨new1, hp1⟩ := loadRow_pool h1
      obtain ⟨new2, hp2⟩ := ih h
      exact ⟨new1 ++ new2, by rw [hp2, hp1, List.append_assoc]⟩

/-- A `Load` that returns only appended to the pool. -/
theorem Load_pool {L : Layout} {li : DB2LoadInfo} {result : Option PreparedResultSet}
    {hint : Option Field} {st : Storage} {buf : Option Addr} {st' : Storage}
    (h : Load L li result hint st = .ok (buf, st')) :
    ∃ new, st'.stringPool = st.stringPool ++ new := by
  cases result with
  | none =>
    rw [Load_none] at h
    cases h
    exact ⟨[], by simp⟩
  | some rs =>
    by_cases hc : li.Meta.GetDbFieldCount = rs.GetFieldCount
    swap
    · rw [Load_mismatch L li rs hint st hc] at h
      cases h
      exact ⟨[], by simp⟩
    obtain ⟨p, _, hp, hcase⟩ := Load_ok_cases hc h
    obtain ⟨new, hnew⟩ := loadRows_pool _ hp
    refine ⟨new, ?_⟩
    rcases hcase with ⟨_, _, hst⟩ | ⟨_, _, _, _, hst⟩ <;> rw [hst] <;> exact hnew

theorem patchArray_pool {L : Layout} {li : DB2LoadInfo} {locale : Nat} {dv : Addr}
    {fields : List Field} (n : Nat) {c c' : StringsCursor}
    (h : patchArray L li locale dv fields n c = .ok c') :
    ∃ new, c'.stringPool = c.stringPool ++ new := by
  induction n generalizing c with
  | zero =>
    simp only [patchArray] at h
    cases h
    exact ⟨[], by simp⟩
  | succ n ih =>
    simp only [patchArray] at h
    cases h1 : patchElement L li locale dv fields c with
    | error e => rw [h1] at h; cases h
    | ok c1 =>
      rw [h1] at h
      obtain ⟨_, new1, hp1⟩ := patchElement_frame h1
      obtain ⟨new2, hp2⟩ := ih h
      exact ⟨new1 ++ new2, by rw [hp2, hp1, List.append_assoc]⟩

theorem loadStringsRows_pool {L : Layout} {li : DB2LoadInfo} {locale records : Nat}
    {tbl : List (Option Addr)} (rows : List (List Field)) {s s' : StringsPass}
    (h : loadStringsRows L li locale records tbl rows s = .ok s') :
    ∃ new, s'.stringPool = s.stringPool ++ new := by
  induction rows generalizing s with
  | nil =>
    simp only [loadStringsRows] at h
    cases h
    exact ⟨[], by simp⟩
  | cons fields rest ih =>
    simp only [loadStringsRows] at h
    cases h1 : loadStringsRow L li locale records tbl fields s with
    | error e => rw [h1] at h; cases h
    | ok s1 =>
      rw [h1] at h
      obtain ⟨new2, hp2⟩ := ih h
      obtain ⟨_, hcase⟩ := loadStringsRow_ok_cases h1
      rcases hcase with ⟨_, rfl⟩ | ⟨_, _, rfl⟩ | ⟨_, a, c, _, hp, _, rfl⟩
      · exact ⟨new2, hp2⟩
      · exact ⟨new2, hp2⟩
      · obtain ⟨new1, hp1⟩ := patchArray_pool _ hp
        exact ⟨new1 ++ new2, by
          rw [hp2]
          show c.stringPool ++ new2 = s.stringPool ++ (new1 ++ new2)
          rw [hp1, List.append_assoc]
          rfl⟩

/-- A `LoadStrings` that returns only appended to the pool. -/
theorem LoadStrings_pool {L : Layout} {li : DB2LoadInfo} {stringFields locale : Nat}
    {result : Option PreparedResultSet} {st st' : Storage} {log : List Nat}
    (h : LoadStrings L li stringFields locale result st = .ok (st', log)) :
    ∃ new, st'.stringPool = st.stringPool ++ new := by
  cases result with
  | none =>
    simp only [LoadStrings] at h
    cases h
    exact ⟨[], by simp⟩
  | some ls =>
    by_cases hc : ls.GetFieldCount = stringFields + 1
    · obtain ⟨s, hs, hst, _⟩ := LoadStrings_ok_cases hc h
      obtain ⟨new, hnew⟩ := loadStringsRows_pool _ hs
      exact ⟨new, by rw [hst]; exact hnew⟩
    · simp only [LoadStrings, ne_eq, hc, not_false_eq_true, if_true] at h
      cases h
      exact ⟨[], by simp⟩

/-- Claim C24. The string pool is append-only: after every call of `Load` and of
`LoadStrings` that returns, the sequence of pool entries before the call is an
initial segment of the sequence after the call. -/
theorem string_pool_is_append_only (L : Layout) (li : DB2LoadInfo) :
    (∀ (result : Option PreparedResultSet) (hint : Option Field) (st : Storage)
      (buf : Option Addr) (st' : Storage),
      Load L li result hint st = .ok (buf, st') → st.stringPool <+: st'.stringPool) ∧
    (∀ (stringFields locale : Nat) (result : Option PreparedResultSet) (st st' : Storage)
      (log : List Nat),
      LoadStrings L li stringFields locale result st = .ok (st', log) →
      st.stringPool <+: st'.stringPool) := by
  constructor
  · intro result hint st buf st' h
    obtain ⟨new, hnew⟩ := Load_pool h
    exact ⟨new, hnew.symm⟩
  · intro stringFields locale result st st' log h
    obtain ⟨new, hnew⟩ := LoadStrings_pool h
    exact ⟨new, hnew.symm⟩

/-- The mixed load appends the string of its first row to the pool of the example,
and the locale pass appends "bonjour" to the pool of the localized example. -/
theorem string_pool_is_append_only_witness :
    exampleStorage.stringPool = [⟨1, 0⟩] ∧
    (okValue (none, emptyStorage 0) mixedLoad).2.stringPool = [⟨1, 0⟩, ⟨4, 0⟩] ∧
    (okValue (emptyStorage 0, []) patchLoad).1.stringPool = [⟨1, 0⟩, ⟨3, 0⟩] ∧
    exampleStorage.stringPool <+: (okValue (none, emptyStorage 0) mixedLoad).2.stringPool ∧
    localizedStorage.stringPool <+: (okValue (emptyStorage 0, []) patchLoad).1.stringPool :=
  ⟨by decide!, by decide!, by decide!,
    (string_pool_is_append_only layout64 exampleSchema).1 (some mixedRows) (some (.int 8))
      exampleStorage (okValue (none, emptyStorage 0) mixedLoad).1
      (okValue (none, emptyStorage 0) mixedLoad).2
      (okValue_of_returns (none, emptyStorage 0) mixedLoad (by decide!)),
    (string_pool_is_append_only layout64 localizedSchema).2 1 LOCALE_frFR (some patchRows)
      localizedStorage (okValue (emptyStorage 0, []) patchLoad).1
      (okValue (emptyStorage 0, []) patchLoad).2
      (okValue_of_returns (emptyStorage 0, []) patchLoad (by decide!))⟩

/-! ### Duplicate IDs in one pass -/

/-- The insertion loop leaves, for an ID that occurs several times among the new
IDs, the record of its last occurrence. -/
theorem insertNew_last (recordSize : Nat) (dataTable : Addr) (ids : List Nat) (i : Nat)
    (tbl : List (Option Addr)) (minId : Nat) (k j : Nat)
    (hk : ids[k]? = some j) (hlast : ∀ k', k < k' → ids[k']? ≠ some j)
    (hj : j < tbl.length) :
    (insertNew recordSize dataTable ids i (tbl, minId)).1[j]?
      = some (some (dataTable.add ((i + k) * recordSize))) := by
  induction ids generalizing i tbl minId k with
  | nil => simp at hk
  | cons newId rest ih =>
    simp only [insertNew]
    cases k with
    | zero =>
      simp only [List.getElem?_cons_zero, Option.some.injEq] at hk
      subst hk
      have hnot : newId ∉ rest := by
        intro hmem
        obtain ⟨n, hn, hget⟩ := List.getElem_of_mem hmem
        have := hlast (n + 1) (by omega)
        rw [List.getElem?_cons_succ, List.getElem?_eq_getElem hn, hget] at this
        exact this rfl
      rw [insertNew_other _ _ _ _ _ _ _ hnot, List.getElem?_set_self hj]
      rfl
    | succ k =>
      simp only [List.getElem?_cons_succ] at hk
      have := ih (i + 1) (tbl.set newId (some (dataTable.add (i * recordSize))))
        (min minId newId) k hk
        (fun k' hk' => by
          have := hlast (k' + 1) (by omega)
          rw [List.getElem?_cons_succ] at this
          exact this)
        (by rw [List.length_set]; exact hj)
      rw [this]
      have e : i + 1 + k = i + (k + 1) := by omega
      rw [e]

/-- Claim C28. Every row whose ID has a null entry in the table that the row loop
consults is a new row, also when several rows carry the same ID, because the
table is only updated after the loop; the returned buffer has one record for
each new row; and the index entry of an ID ends up as the address of the record
of the last new row with that ID. -/
theorem Load_duplicate_new_ids (L : Layout) (li : DB2LoadInfo) (rs : PreparedResultSet)
    (hint : Option Field) (st : Storage) (buf : Option Addr) (st' : Storage)
    (i : Nat) (fields : List Field)
    (hen : L.LOCALE_enUS < L.TOTAL_LOCALES)
    (hsize : packedSize L li = li.Meta.GetRecordSize) (h32 : li.Meta.GetRecordSize < 2 ^ 32)
    (hc : li.Meta.GetDbFieldCount = rs.GetFieldCount)
    (hbelow : EntriesBelow st.indexTable st.heap.length)
    (h : Load L li (some rs) hint st = .ok (buf, st'))
    (hi : (newRows li (resized st hint) rs.rows)[i]? = some fields)
    (hlast : ∀ i' row, i < i' → (newRows li (resized st hint) rs.rows)[i']? = some row →
      rowId li row ≠ rowId li fields) :
    (∀ row ∈ rs.rows, (resized st hint)[rowId li row]? = some none →
      row ∈ newRows li (resized st hint) rs.rows) ∧
    ∃ dt data new, buf = some dt ∧ st'.heap[dt.block]? = some (some data) ∧
      data.length = (newRows li (resized st hint) rs.rows).length * li.Meta.GetRecordSize ∧
      (∀ i' row, (newRows li (resized st hint) rs.rows)[i']? = some row →
        RowPacked L li new (st.heap.length + 1) st'.heap row
          (dt.add (i' * li.Meta.GetRecordSize))) ∧
      st'.indexTable[rowId li fields]? = some (some (dt.add (i * li.Meta.GetRecordSize))) := by
  have hfit : packedSize L li < 2 ^ 32 := by rw [hsize]; exact h32
  constructor
  · intro row hrow hnull
    unfold newRows
    exact List.mem_filter.mpr ⟨hrow, by simp [isNewId, hnull]⟩
  obtain ⟨new, hpool, hall⟩ := Load_new_rows_packed hen hfit hc hbelow h
  obtain ⟨dt, hbuf, _, _, _⟩ := hall i fields hi
  obtain ⟨p, _, hp, hcase⟩ := Load_ok_cases hc h
  obtain ⟨hlt, hnew⟩ := loadRows_newIndexes rs.rows hp
  simp only [startPass, List.nil_append] at hnew
  have hlenEq : p.newIndexes.length = (newRows li (resized st hint) rs.rows).length := by
    rw [hnew, newIds_eq_map, List.length_map]
  have hlen := loadRows_heap_length hen hfit rs.rows hp
  have hlen0 : st.heap.length < p.heap.length := by
    have : (startPass li rs st).heap.length = st.heap.length + 1 := by simp [startPass]
    omega
  have hmem : fields ∈ rs.rows := by
    have := List.getElem?_mem hi
    unfold newRows at this
    exact (List.mem_filter.mp this).1
  have hidx : (newIds li (resized st hint) rs.rows)[i]? = some (rowId li fields) := by
    rw [newIds_eq_map, List.getElem?_map, hi]
    rfl
  have hlastIds : ∀ k', i < k' →
      (newIds li (resized st hint) rs.rows)[k']? ≠ some (rowId li fields) := by
    intro k' hk' hcon
    rw [newIds_eq_map, List.getElem?_map] at hcon
    cases hrow : (newRows li (resized st hint) rs.rows)[k']? with
    | none => rw [hrow] at hcon; cases hcon
    | some row =>
      rw [hrow] at hcon
      simp only [Option.map_some', Option.some.injEq] at hcon
      exact hlast k' row hk' hrow hcon
  rcases hcase with ⟨_, hnone, _⟩ | ⟨_, temp, htemp, hbuf', hst⟩
  · rw [hnone] at hbuf
    cases hbuf
  · rw [hbuf'] at hbuf
    cases hbuf
    have htl := loadRows_temp_length hen hfit hp htemp
    refine ⟨⟨p.heap.length, 0⟩, temp.take (p.newRecords * li.Meta.GetRecordSize), new, hbuf',
      ?_, ?_, fun i' row hrow => ?_, ?_⟩
    · rw [hst]
      simp only
      rw [List.getElem?_set_ne (by omega), List.getElem?_append_right (Nat.le_refl _)]
      simp
    · rw [List.length_take, htl, Pass.newRecords, hlenEq]
      have hle : (newRows li (resized st hint) rs.rows).length ≤ rs.GetRowCount := by
        have := newRows_length_le li (resized st hint) rs.rows
        simpa [PreparedResultSet.rows, PreparedResultSet.GetRowCount] using this
      exact Nat.min_eq_left (Nat.mul_le_mul_right _ hle)
    · obtain ⟨dt', hdt', _, _, hrow'⟩ := hall i' row hrow
      rw [hbuf'] at hdt'
      cases hdt'
      exact hrow'
    · rw [hst]
      simp only
      rw [hnew, insertNew_last _ _ _ _ _ _ i _ hidx hlastIds (hlt fields hmem), Nat.zero_add]

/-- The rows (5, 1, "") and (5, 2, "hello") loaded after the example load: both
are new, the buffer has two records, and the entry of the ID 5 is the address of
the second record, which decodes to 5, 2 and "hello". -/
theorem Load_duplicate_new_ids_witness :
    (newRows exampleSchema (resized exampleStorage (some (.int 8))) dupRows.rows).length = 2 ∧
    (okValue (none, emptyStorage 0) dupLoad).1 = some ⟨5, 0⟩ ∧
    (okValue (none, emptyStorage 0) dupLoad).2.indexTable[5]? = some (some ⟨5, 16⟩) ∧
    decodeRecord layout64 exampleSchema readCStr
      (okValue (none, emptyStorage 0) dupLoad).2.heap ⟨5, 16⟩
      = some [Value.int 5, Value.int 2, Value.text false hello] ∧
    decodeRecord layout64 exampleSchema readCStr
      (okValue (none, emptyStorage 0) dupLoad).2.heap ⟨5, 0⟩
      = some [Value.int 5, Value.int 1, Value.text true []] ∧
    ∃ dt data new, (okValue (none, emptyStorage 0) dupLoad).1 = some dt ∧
      (okValue (none, emptyStorage 0) dupLoad).2.heap[dt.block]? = some (some data) ∧
      data.length
        = (newRows exampleSchema (resized exampleStorage (some (.int 8))) dupRows.rows).length
          * exampleSchema.Meta.GetRecordSize ∧
      (∀ i' row,
        (newRows exampleSchema (resized exampleStorage (some (.int 8))) dupRows.rows)[i']?
          = some row →
        RowPacked layout64 exampleSchema new (exampleStorage.heap.length + 1)
          (okValue (none, emptyStorage 0) dupLoad).2.heap row
          (dt.add (i' * exampleSchema.Meta.GetRecordSize))) ∧
      (okValue (none, emptyStorage 0) dupLoad).2.indexTable[
          rowId exampleSchema [.int 5, .int 2, .string hello]]?
        = some (some (dt.add (1 * exampleSchema.Meta.GetRecordSize))) :=
  ⟨by decide!, by decide!, by decide!, by decide!, by decide!,
    (Load_duplicate_new_ids layout64 exampleSchema dupRows (some (.int 8)) exampleStorage
      (okValue (none, emptyStorage 0) dupLoad).1 (okValue (none, emptyStorage 0) dupLoad).2
      1 [.int 5, .int 2, .string hello]
      (by decide) (by decide) (by decide) (by decide) exampleStorage_inv.1
      (okValue_of_returns (none, emptyStorage 0) dupLoad (by decide!))
      (by decide!)
      (fun i' row hlt hrow => by
        have hlen : (newRows exampleSchema (resized exampleStorage (some (.int 8)))
            dupRows.rows).length = 2 := by decide!
        have : i' < 2 := by
          by_contra hge
          rw [List.getElem?_eq_none (by omega)] at hrow
          cases hrow
        omega)).2⟩

/-! ### Bounds safety -/

theorem resized_length_grown {st : Storage} {hint : Option Field}
    (hg : targetSize st.records hint > st.records) (hle : st.records ≤ st.indexTable.length) :
    (resized st hint).length = targetSize st.records hint := by
  unfold resized
  rw [if_pos hg, List.length_append, List.length_take, List.length_replicate,
    Nat.min_eq_left hle]
  omega

theorem resized_not_grown {st : Storage} {hint : Option Field}
    (hg : ¬ targetSize st.records hint > st.records) : resized st hint = st.indexTable := by
  unfold resized
  rw [if_neg hg]

/-- A `Load` can return a buffer and report a size below the allocated length:
after a load that grew the table of the example from 8 to 10 entries without a new
row, which leaves the reported size at 8, a load without a max-ID hint of a row
with the new ID 5 returns a buffer and reports 8, while the table has 10
entries. -/
theorem Load_reported_size_below_length :
    (okValue (none, emptyStorage 0) grownNoNewLoad).1 = none ∧
    returns grownNoNewLoad = true ∧
    grownStorage.records = 8 ∧ grownStorage.indexTable.length = 10 ∧
    (okValue (none, emptyStorage 0) lateLoad).1 = some ⟨6, 0⟩ ∧
    returns lateLoad = true ∧
    (okValue (none, emptyStorage 0) lateLoad).2.records = 8 ∧
    (okValue (none, emptyStorage 0) lateLoad).2.indexTable.length = 10 ∧
    (okValue (none, emptyStorage 0) lateLoad).2.records
      ≠ (okValue (none, emptyStorage 0) lateLoad).2.indexTable.length := by
  refine ⟨by decide!, by decide!, by decide!, by decide!, by decide!, by decide!, by decide!,
    by decide!, by decide!⟩

/-- Claim C30, amended. After a `Load` on a storage whose reported size is at most
the allocated length of the index table, the reported size is at most the
allocated length. When a buffer is returned the two are equal if the call grew the
table or they were equal before the call. A call that returns no buffer leaves
the reported size as it was, so a call that grew the table to the max-ID hint but
found no new row leaves the reported size below the new length. -/
theorem Load_reported_size_le_length (L : Layout) (li : DB2LoadInfo)
    (result : Option PreparedResultSet) (hint : Option Field) (st : Storage)
    (buf : Option Addr) (st' : Storage)
    (hle : st.records ≤ st.indexTable.length)
    (h : Load L li result hint st = .ok (buf, st')) :
    st'.records ≤ st'.indexTable.length ∧
    (buf ≠ none →
      (targetSize st.records hint > st.records ∨ st.records = st.indexTable.length) →
      st'.records = st'.indexTable.length) ∧
    (buf = none → st'.records = st.records) ∧
    (∀ rs, result = some rs → li.Meta.GetDbFieldCount = rs.GetFieldCount →
      targetSize st.records hint > st.records → buf = none →
      st'.indexTable.length = targetSize st.records hint ∧
      st'.records < st'.indexTable.length) := by
  cases result with
  | none =>
    rw [Load_none] at h
    cases h
    exact ⟨hle, fun hne => absurd rfl hne, fun _ => rfl, fun rs hrs => by cases hrs⟩
  | some rs =>
    by_cases hc : li.Meta.GetDbFieldCount = rs.GetFieldCount
    swap
    · rw [Load_mismatch L li rs hint st hc] at h
      cases h
      exact ⟨hle, fun hne => absurd rfl hne, fun _ => rfl,
        fun rs' hrs hc' => by cases hrs; exact absurd hc' hc⟩
    obtain ⟨hlen, hsome, hnone⟩ := Load_table_length hc h
    have hres := resized_length_ge hint hle
    have hge := targetSize_ge st.records hint
    refine ⟨?_, ?_, hnone, ?_⟩
    · rw [hlen]
      cases hb : buf with
      | none => rw [hnone hb]; omega
      | some dt => rw [hsome (by rw [hb]; exact fun hcon => by cases hcon)]; exact hres
    · intro hne hcase
      rw [hlen, hsome hne]
      by_cases hg : targetSize st.records hint > st.records
      · exact (resized_length_grown hg hle).symm
      · rcases hcase with hg' | heq
        · exact absurd hg' hg
        · rw [resized_not_grown hg]
          omega
    · intro rs' hrs _ hg hb
      rw [hlen, hnone hb, resized_length_grown hg hle]
      exact ⟨rfl, hg⟩

/-- The load of a row with a present ID and the hint 10 returns no buffer, keeps
the reported size 8 and leaves a table of 10 entries; the example load, which
returns a buffer, reports the length of its table. -/
theorem Load_reported_size_le_length_witness :
    (okValue (none, emptyStorage 0) grownNoNewLoad).1 = none ∧
    (okValue (none, emptyStorage 0) grownNoNewLoad).2.indexTable.length
      = targetSize exampleStorage.records (some (.int 10)) ∧
    (okValue (none, emptyStorage 0) grownNoNewLoad).2.records
      < (okValue (none, emptyStorage 0) grownNoNewLoad).2.indexTable.length ∧
    (okValue (none, emptyStorage 0) exampleLoad).2.records
      = (okValue (none, emptyStorage 0) exampleLoad).2.indexTable.length :=
  have hgrown := (Load_reported_size_le_length layout64 exampleSchema (some overwriteRows)
    (some (.int 10)) exampleStorage (okValue (none, emptyStorage 0) grownNoNewLoad).1
    (okValue (none, emptyStorage 0) grownNoNewLoad).2 (by decide!)
    (okValue_of_returns (none, emptyStorage 0) grownNoNewLoad (by decide!))).2.2.2
    overwriteRows rfl (by decide) (by decide!) (by decide!)
  ⟨by decide!, hgrown.1, hgrown.2,
    (Load_reported_size_le_length layout64 exampleSchema (some exampleRows)
      (some (.int 8)) (emptyStorage 4294967295) (okValue (none, emptyStorage 0) exampleLoad).1
      (okValue (none, emptyStorage 0) exampleLoad).2 (by decide)
      (okValue_of_returns (none, emptyStorage 0) exampleLoad (by decide!))).2.1
      (by decide!) (Or.inl (by decide))⟩

/-! ### The slots that a locale row writes -/

theorem sumWidths_add (L : Layout) (li : DB2LoadInfo) (f m i : Nat) :
    sumWidths L li f (m + i) = sumWidths L li f m + sumWidths L li (f + m) i := by
  induction m generalizing f with
  | zero => simp [sumWidths]
  | succ m ih =>
    rw [Nat.succ_add]
    simp only [sumWidths]
    rw [ih (f + 1)]
    have e : f + 1 + m = f + (m + 1) := by omega
    rw [e]
    omega

theorem elemOffset_add (L : Layout) (li : DB2LoadInfo) (k i : Nat) :
    elemOffset L li (k + i) = elemOffset L li k + sumWidths L li (firstColumn li + k) i := by
  unfold elemOffset
  rw [sumWidths_add]
  omega

/-- The counter `stringFieldNumInRecord` after the element loop of `LoadStrings`. -/
theorem patchArray_count {L : Layout} {li : DB2LoadInfo} {locale : Nat} {dv : Addr}
    {fields : List Field} (n : Nat) {c c' : StringsCursor}
    (h : patchArray L li locale dv fields n c = .ok c') :
    c'.stringFieldNumInRecord = c.stringFieldNumInRecord + countStrings li c.fieldIndex n := by
  induction n generalizing c with
  | zero =>
    simp only [patchArray] at h
    cases h
    rfl
  | succ n ih =>
    simp only [patchArray] at h
    cases h1 : patchElement L li locale dv fields c with
    | error e => rw [h1] at h; cases h
    | ok c1 =>
      rw [h1] at h
      obtain ⟨hf1, _, _, hother, hstring⟩ := patchElement_ok h1
      rw [ih h, hf1]
      simp only [countStrings]
      by_cases hty : typeAt li c.fieldIndex = DBCFormer.FT_STRING
      · rw [(hstring hty).1, if_pos hty]
        omega
      · rw [(hother hty).2.2, if_neg hty]
        omega

theorem patchArray_split {L : Layout} {li : DB2LoadInfo} {locale : Nat} {dv : Addr}
    {fields : List Field} {n : Nat} {c c' : StringsCursor}
    (h : patchArray L li locale dv fields n c = .ok c') (k : Nat) (hk : k < n) :
    ∃ ck ck', patchArray L li locale dv fields k c = .ok ck ∧
      patchElement L li locale dv fields ck = .ok ck' ∧
      patchArray L li locale dv fields (n - k - 1) ck' = .ok c' := by
  have hn : n = k + (1 + (n - k - 1)) := by omega
  rw [hn, patchArray_add] at h
  cases hk1 : patchArray L li locale dv fields k c with
  | error e => rw [hk1] at h; cases h
  | ok ck =>
    rw [hk1] at h
    simp only at h
    rw [patchArray_add] at h
    simp only [patchArray] at h
    cases hk2 : patchElement L li locale dv fields ck with
    | error e => rw [hk2] at h; cases h
    | ok ck' =>
      rw [hk2] at h
      exact ⟨ck, ck', rfl, hk2, h⟩

/-- The walk of `LoadStrings` over a record, split at the `k`-th element: the
cursor reaches the element at the column and offset at which `Load` packs it,
with `stringFieldNumInRecord` the number of localized strings before it; the
elements before and after it do not touch its bytes, and the steps after it leave
every block that did not exist before the walk as it is. -/
theorem patchArray_at {L : Layout} {li : DB2LoadInfo} {locale : Nat} {a : Addr}
    {fields : List Field} {s : StringsPass} {c : StringsCursor}
    (hfit : packedSize L li < 2 ^ 32) (hloc : locale < L.TOTAL_LOCALES)
    (h : patchArray L li locale a fields (totalElems li.Meta.Fields) (startCursor li s) = .ok c)
    (k : Nat) (hk : k < totalElems li.Meta.Fields) :
    ∃ ck ck', patchArray L li locale a fields k (startCursor li s) = .ok ck ∧
      patchElement L li locale a fields ck = .ok ck' ∧
      ck.fieldIndex = firstColumn li + k ∧ ck.offset = elemOffset L li k ∧
      ck.stringFieldNumInRecord = countStrings li (firstColumn li) k ∧
      s.heap.length ≤ ck.heap.length ∧
      (∀ off n v, elemOffset L li k ≤ off → off + n ≤ elemOffset L li (k + 1) →
        fetch s.heap (a.add off) n = some v → fetch ck.heap (a.add off) n = some v) ∧
      (∀ off n v, elemOffset L li k ≤ off → off + n ≤ elemOffset L li (k + 1) →
        fetch ck'.heap (a.add off) n = some v → fetch c.heap (a.add off) n = some v) ∧
      (∀ b d, b ≠ a.block → ck'.heap[b]? = some (some d) → c.heap[b]? = some (some d)) ∧
      (∃ new1, ck.stringPool = s.stringPool ++ new1) ∧
      (∃ new3, c.stringPool = ck'.stringPool ++ new3) := by
  obtain ⟨ck, ck', hk1, hk2, hk3⟩ := patchArray_split h k hk
  have hstart : (startCursor li s).offset = idWidth li := rfl
  have hstartf : (startCursor li s).fieldIndex = firstColumn li := rfl
  have hle := elemOffset_le_packedSize L li (k := k + 1) (by omega)
  have hmono := elemOffset_mono L li k (k + 1) (by omega)
  obtain ⟨hf, ho, _⟩ := patchArray_next _ hk1 (idWidth_lt li)
  rw [hstart, hstartf] at ho
  rw [hstartf] at hf
  have hoff : ck.offset = elemOffset L li k := by
    rw [ho]
    refine Nat.mod_eq_of_lt ?_
    have h1 := hmono
    have h2 := hle
    unfold elemOffset at h1 h2
    omega
  have hcount := patchArray_count _ hk1
  simp only [startCursor, Nat.zero_add] at hcount
  obtain ⟨hf', ho', _, _, _⟩ := patchElement_ok hk2
  have hoff' : ck'.offset = elemOffset L li (k + 1) := by
    rw [ho', hoff, hf, ← elemOffset_succ]
    exact Nat.mod_eq_of_lt (by omega)
  obtain ⟨hfr1, _⟩ := patchArray_frame (L := L) k hk1 (by
    rw [hstart, hstartf]
    have h1 := hmono
    have h2 := hle
    unfold elemOffset at h1 h2
    omega)
  have hrest : elemOffset L li (k + 1)
      + sumWidths L li (firstColumn li + (k + 1)) (totalElems li.Meta.Fields - k - 1)
      = packedSize L li := by
    rw [← elemOffset_add]
    have e : k + 1 + (totalElems li.Meta.Fields - k - 1) = totalElems li.Meta.Fields := by
      omega
    rw [e]
    rfl
  obtain ⟨hfr3, _⟩ := patchArray_frame (L := L) (totalElems li.Meta.Fields - k - 1) hk3 (by
    rw [hoff', hf', hf]
    have e : firstColumn li + k + 1 = firstColumn li + (k + 1) := by omega
    rw [e, hrest]
    exact hfit)
  refine ⟨ck, ck', hk1, hk2, hf, hoff, hcount, hfr1.1, ?_, ?_, ?_, patchArray_pool _ hk1,
    patchArray_pool _ hk3⟩
  · intro off n v hlo hhi hv
    refine hfr1.fetch_eq hv (fun j hj1 hj2 => ?_)
    rintro ⟨k', hk', hty', _, hlo', hhi'⟩
    simp only [Addr.add_block, Addr.add_off] at hj1 hj2
    rw [hstartf] at hty'
    rw [hstart, hstartf] at hlo' hhi'
    have hs := elemOffset_succ L li k'
    rw [hty'] at hs
    simp only [width, Layout.sizeofLocalizedString] at hs
    have hm := elemOffset_mono L li (k' + 1) k (by omega)
    have hmul : (locale + 1) * L.ptrSize ≤ L.TOTAL_LOCALES * L.ptrSize :=
      Nat.mul_le_mul_right _ hloc
    rw [Nat.succ_mul] at hmul
    have e : idWidth li + sumWidths L li (firstColumn li) k' = elemOffset L li k' := rfl
    omega
  · intro off n v hlo hhi hv
    refine hfr3.fetch_eq hv (fun j hj1 hj2 => ?_)
    rintro ⟨i, hi, hty', _, hlo', hhi'⟩
    simp only [Addr.add_block, Addr.add_off] at hj1 hj2
    rw [hoff', hf', hf] at hlo'
    have e : firstColumn li + k + 1 = firstColumn li + (k + 1) := by omega
    rw [e, ← elemOffset_add] at hlo'
    have hm := elemOffset_mono L li (k + 1) (k + 1 + i) (by omega)
    omega
  · intro b d hb hd
    exact hfr3.block_eq hd (fun j hw => by
      obtain ⟨_, _, _, hb', _, _⟩ := hw
      exact hb hb')

theorem localeSlot_eq (L : Layout) (li : DB2LoadInfo) (locale : Nat) (a : Addr) (k : Nat) :
    localeSlot L li locale a k = a.add (elemOffset L li k + locale * L.ptrSize) := by
  unfold localeSlot
  rw [Addr.add_add]

/-- What a locale row does to the slot of its locale in a localized string element
of the record of its ID: an empty text leaves the slot as it was, a non-empty text
is copied into a new allocation that is appended to the pool and whose address is
stored in the slot. The text comes from the column `textColumn`. -/
theorem loadStringsRow_slot {L : Layout} {li : DB2LoadInfo} {locale records : Nat}
    {tbl : List (Option Addr)} {fields : List Field} {s s' : StringsPass} {a : Addr}
    (hfit : packedSize L li < 2 ^ 32) (hloc : locale < L.TOTAL_LOCALES)
    (hlive : a.block < s.heap.length)
    (hlt : localeRowId fields < records) (ha : tbl[localeRowId fields]? = some (some a))
    (h : loadStringsRow L li locale records tbl fields s = .ok s')
    (k : Nat) (hk : k < totalElems li.Meta.Fields)
    (hty : typeAt li (firstColumn li + k) = DBCFormer.FT_STRING) :
    ∃ new, s'.stringPool = s.stringPool ++ new ∧
      ((cellAt fields (textColumn li k)).GetStringView = [] →
        ∀ v, fetch s.heap (localeSlot L li locale a k) L.ptrSize = some v →
          fetch s'.heap (localeSlot L li locale a k) L.ptrSize = some v) ∧
      ((cellAt fields (textColumn li k)).GetStringView ≠ [] →
        ∃ b, fetch s'.heap (localeSlot L li locale a k) L.ptrSize
            = some (ptrBytes L.ptrSize (CStr.heap ⟨b, 0⟩)) ∧
          s.heap.length ≤ b ∧ (⟨b, 0⟩ : Addr) ∈ new ∧
          s'.heap[b]? = some (some
            ((cellAt fields (textColumn li k)).GetStringView.map MemVal.byte
              ++ [MemVal.byte 0]))) := by
  obtain ⟨_, hcase⟩ := loadStringsRow_ok_cases h
  rcases hcase with ⟨hge, _⟩ | ⟨_, hnull, _⟩ | ⟨_, a', c, ha', hp, _, hs'⟩
  · omega
  · rw [ha] at hnull
    cases hnull
  rw [ha] at ha'
  cases ha'
  subst hs'
  obtain ⟨ck, ck', hk1, hk2, hf, hoff, hcount, hlen, hbefore, hafter, hblocks,
    ⟨new1, hp1⟩, ⟨new3, hp3⟩⟩ := patchArray_at hfit hloc hp k hk
  obtain ⟨_, _, _, _, hstring⟩ := patchElement_ok hk2
  rw [hf] at hstring
  obtain ⟨_, cell, str, hcol, hadd, hpool⟩ := hstring hty
  have hcell : cellAt fields (textColumn li k) = cell := by
    unfold textColumn
    rw [← hcount]
    exact (column_eq_ok hcol).1
  have hslot : (a.add ck.offset).add (locale * L.ptrSize) = localeSlot L li locale a k := by
    rw [hoff]
    rfl
  rw [hslot] at hadd
  have hsucc := elemOffset_succ L li k
  rw [hty] at hsucc
  simp only [width, Layout.sizeofLocalizedString] at hsucc
  have hmul : (locale + 1) * L.ptrSize ≤ L.TOTAL_LOCALES * L.ptrSize :=
    Nat.mul_le_mul_right _ hloc
  rw [Nat.succ_mul] at hmul
  obtain ⟨_, hcases⟩ := AddString_effect hadd
  rw [hcell]
  refine ⟨new1 ++ (match str with | some x => [x] | none => []) ++ new3, ?_, ?_, ?_⟩
  · show c.stringPool = _
    have hcat : c.stringPool = s.stringPool ++ new1
        ++ (match str with | some x => [x] | none => []) ++ new3 := by
      cases str with
      | none => simp only [hp3, hpool, hp1, List.append_nil]
      | some x => simp only [hp3, hpool, hp1]
    rw [hcat]
    simp only [List.append_assoc]
  · intro htext v hv
    rcases hcases with ⟨_, _, hheap⟩ | ⟨hne, _⟩
    · show fetch c.heap _ _ = _
      rw [localeSlot_eq] at hv ⊢
      refine hafter _ _ _ (by omega) (by omega) ?_
      rw [hheap]
      exact hbefore _ _ _ (by omega) (by omega) hv
    · exact absurd htext hne
  · intro htext
    rcases hcases with ⟨he, _⟩ | ⟨_, hstr, _, hfetch, hblk⟩
    · exact absurd he htext
    · refine ⟨ck.heap.length, ?_, hlen, ?_, ?_⟩
      · show fetch c.heap _ _ = _
        rw [localeSlot_eq] at hfetch ⊢
        exact hafter _ _ _ (by omega) (by omega) hfetch
      · subst hstr
        simp
      · show c.heap[ck.heap.length]? = _
        refine hblocks _ _ (by omega) (hblk ?_)
        rw [localeSlot_eq]
        simp only [Addr.add_block]
        omega

theorem okValue_eq_of_returns {α : Type} (d : α) (r : Except Fault α)
    (h : returns r = true) : r = .ok (okValue d r) := by
  cases r with
  | ok a => rfl
  | error e => cases h

theorem incomingTexts_cons (li : DB2LoadInfo) (id k : Nat) (r : List Field)
    (rest : List (List Field)) :
    incomingTexts li id k (r :: rest)
      = (if localeRowId r = id ∧ (cellAt r (textColumn li k)).GetStringView ≠ [] then
          [(cellAt r (textColumn li k)).GetStringView] else [])
        ++ incomingTexts li id k rest := by
  unfold incomingTexts
  by_cases hid : localeRowId r = id
  · by_cases ht : (cellAt r (textColumn li k)).GetStringView = []
    · simp [hid, ht]
    · simp [hid, ht]
  · simp [hid]

theorem EntriesBelow.mono_below {tbl : List (Option Addr)} {n m : Nat}
    (h : EntriesBelow tbl n) (hle : n ≤ m) : EntriesBelow tbl m :=
  fun id a ha => Nat.lt_of_lt_of_le (h id a ha) hle

/-- A locale row whose ID is not `id` writes no cell of the record of `id`. -/
theorem not_patched_other {L : Layout} {li : DB2LoadInfo} {locale records : Nat}
    {tbl : List (Option Addr)} {rows : List (List Field)}
    (hdis : RecordsDisjoint li.Meta.GetRecordSize tbl)
    (hsize : packedSize L li = li.Meta.GetRecordSize) (hloc : locale < L.TOTAL_LOCALES)
    {id : Nat} {a : Addr} (ha : tbl[id]? = some (some a))
    (hrows : ∀ r ∈ rows, localeRowId r ≠ id) {j : Nat}
    (hlo : a.off ≤ j) (hhi : j < a.off + li.Meta.GetRecordSize) :
    ¬ Patched L li locale records tbl rows a.block j := by
  rintro ⟨fields, hf, a', _, ha', hslot⟩
  obtain ⟨hb, k, hk, _, hlo', _, hhi'⟩ := LocaleSlots.bounds hloc hslot
  have hin := elemOffset_le_packedSize L li (k := k + 1) (by omega)
  rw [hsize] at hin
  rcases hdis _ _ _ _ (hrows fields hf) ha' ha with h1 | h2 | h3
  · exact h1 hb.symm
  · omega
  · omega

/-- No locale pass writes a block that no entry of the table points to. -/
theorem not_patched_block {L : Layout} {li : DB2LoadInfo} {locale records : Nat}
    {tbl : List (Option Addr)} {rows : List (List Field)} {n b : Nat}
    (hbelow : EntriesBelow tbl n) (hloc : locale < L.TOTAL_LOCALES) (hb : n ≤ b) (j : Nat) :
    ¬ Patched L li locale records tbl rows b j := by
  rintro ⟨fields, _, a', _, ha', hslot⟩
  obtain ⟨hb', _⟩ := LocaleSlots.bounds hloc hslot
  have := hbelow _ _ ha'
  omega

/-- The slot of the locale in a localized string element of the record of `id`
after the row loop of `LoadStrings`: when no row with the ID carries a non-empty
text for the element the slot reads as before the loop, and otherwise it holds the
address of a new allocation, appended to the pool, with the last such text. -/
theorem loadStringsRows_slot {L : Layout} {li : DB2LoadInfo} {locale records : Nat}
    {tbl : List (Option Addr)} (hfit : packedSize L li < 2 ^ 32)
    (hloc : locale < L.TOTAL_LOCALES)
    (hsize : packedSize L li = li.Meta.GetRecordSize)
    (hdis : RecordsDisjoint li.Meta.GetRecordSize tbl)
    {id : Nat} {a : Addr} (hlt : id < records) (ha : tbl[id]? = some (some a))
    {k : Nat} (hk : k < totalElems li.Meta.Fields)
    (hty : typeAt li (firstColumn li + k) = DBCFormer.FT_STRING) :
    ∀ (rows : List (List Field)) (s s' : StringsPass), EntriesBelow tbl s.heap.length →
      loadStringsRows L li locale records tbl rows s = .ok s' →
      ∃ new, s'.stringPool = s.stringPool ++ new ∧
        (incomingTexts li id k rows = [] →
          ∀ v, fetch s.heap (localeSlot L li locale a k) L.ptrSize = some v →
            fetch s'.heap (localeSlot L li locale a k) L.ptrSize = some v) ∧
        (∀ t, (incomingTexts li id k rows).getLast? = some t →
          ∃ b, fetch s'.heap (localeSlot L li locale a k) L.ptrSize
              = some (ptrBytes L.ptrSize (CStr.heap ⟨b, 0⟩)) ∧
            s.heap.length ≤ b ∧ (⟨b, 0⟩ : Addr) ∈ new ∧
            s'.heap[b]? = some (some (t.map MemVal.byte ++ [MemVal.byte 0]))) := by
  intro rows
  induction rows with
  | nil =>
    intro s s' _ h
    simp only [loadStringsRows] at h
    cases h
    refine ⟨[], by simp, fun _ v hv => hv, fun t ht => ?_⟩
    simp [incomingTexts] at ht
  | cons r rest ih =>
    intro s s' hbelow h
    simp only [loadStringsRows] at h
    cases h1 : loadStringsRow L li locale records tbl r s with
    | error e => rw [h1] at h; cases h
    | ok s1 =>
      rw [h1] at h
      obtain ⟨hfr1, new1, hp1⟩ := loadStringsRow_frame hfit h1
      have hbelow1 : EntriesBelow tbl s1.heap.length := hbelow.mono_below hfr1.1
      obtain ⟨new2, hp2, hE2, hL2⟩ := ih s1 s' hbelow1 h
      obtain ⟨hfr2, _⟩ := loadStringsRows_frame hfit rest h
      have hsucc := elemOffset_succ L li k
      rw [hty] at hsucc
      simp only [width, Layout.sizeofLocalizedString] at hsucc
      have hmul : (locale + 1) * L.ptrSize ≤ L.TOTAL_LOCALES * L.ptrSize :=
        Nat.mul_le_mul_right _ hloc
      rw [Nat.succ_mul] at hmul
      have hin := elemOffset_le_packedSize L li (k := k + 1) (by omega)
      rw [hsize] at hin
      have hlater : ∀ t, (incomingTexts li id k rest).getLast? = some t →
          ∃ b, fetch s'.heap (localeSlot L li locale a k) L.ptrSize
              = some (ptrBytes L.ptrSize (CStr.heap ⟨b, 0⟩)) ∧
            s.heap.length ≤ b ∧ (⟨b, 0⟩ : Addr) ∈ new1 ++ new2 ∧
            s'.heap[b]? = some (some (t.map MemVal.byte ++ [MemVal.byte 0])) := by
        intro t ht
        obtain ⟨b, hb1, hb2, hb3, hb4⟩ := hL2 t ht
        exact ⟨b, hb1, Nat.le_trans hfr1.1 hb2, List.mem_append_right _ hb3, hb4⟩
      refine ⟨new1 ++ new2, by rw [hp2, hp1, List.append_assoc], ?_, ?_⟩
      · intro hnil v hv
        rw [incomingTexts_cons] at hnil
        obtain ⟨hhead, hrest⟩ := List.append_eq_nil.mp hnil
        refine hE2 hrest v ?_
        by_cases hid : localeRowId r = id
        · have htext : (cellAt r (textColumn li k)).GetStringView = [] := by
            by_contra hne
            rw [if_pos ⟨hid, hne⟩] at hhead
            cases hhead
          obtain ⟨_, _, hempty, _⟩ := loadStringsRow_slot hfit hloc (hbelow _ _ ha)
            (by rw [hid]; exact hlt) (by rw [hid]; exact ha) h1 k hk hty
          exact hempty htext v hv
        · refine hfr1.fetch_eq hv (fun j hj1 hj2 => ?_)
          rw [localeSlot_eq] at hj1 hj2 ⊢
          simp only [Addr.add_block, Addr.add_off] at hj1 hj2 ⊢
          refine not_patched_other hdis hsize hloc ha (fun r' hr' => ?_) (by omega) (by omega)
          rw [List.mem_singleton.mp hr']
          exact hid
      · intro t ht
        rw [incomingTexts_cons] at ht
        by_cases hrest : incomingTexts li id k rest = []
        · rw [hrest, List.append_nil] at ht
          by_cases hcond : localeRowId r = id ∧ (cellAt r (textColumn li k)).GetStringView ≠ []
          · rw [if_pos hcond] at ht
            simp only [List.getLast?_singleton, Option.some.injEq] at ht
            subst ht
            obtain ⟨hid, hne⟩ := hcond
            obtain ⟨new1', hp1', _, hnonempty⟩ := loadStringsRow_slot hfit hloc (hbelow _ _ ha)
              (by rw [hid]; exact hlt) (by rw [hid]; exact ha) h1 k hk hty
            have hnew : new1' = new1 := by
              have e : s.stringPool ++ new1' = s.stringPool ++ new1 := by rw [← hp1', hp1]
              exact List.append_cancel_left e
            obtain ⟨b, hb1, hb2, hb3, hb4⟩ := hnonempty hne
            refine ⟨b, hE2 hrest _ hb1, hb2, ?_, ?_⟩
            · rw [← hnew]
              exact List.mem_append_left _ hb3
            · exact hfr2.block_eq hb4
                (fun j => not_patched_block hbelow hloc hb2 j)
          · rw [if_neg hcond] at ht
            simp at ht
        · have hlast : ((if localeRowId r = id ∧
              (cellAt r (textColumn li k)).GetStringView ≠ [] then
              [(cellAt r (textColumn li k)).GetStringView] else [])
              ++ incomingTexts li id k rest).getLast?
              = (incomingTexts li id k rest).getLast? := by
            rw [List.getLast?_append_of_ne_nil _ hrest]
          rw [hlast] at ht
          exact hlater t ht

/-- The walk of `LoadStrings` over a record and the packing of a row by
`Load` with the same schema agree: before the `k`-th packed element both have the
same column counter and the same `uint32` offset, the offset `elemOffset` of the
element, and both end with the same offset, the record size. In `LoadStrings` the
counter `stringFieldNumInRecord` is then the number of localized string elements
before the element, so that a localized string element is patched, at that
offset, from the locale-row column one more than that number. -/
theorem walks_agree (L : Layout) (li : DB2LoadInfo) :
    ∀ (tbl : List (Option Addr)) (temp : Addr) (fields : List Field) (p p1 : Pass),
    loadRow L li tbl temp fields p = .ok p1 →
    ∀ (locale records : Nat) (tbl' : List (Option Addr)) (row : List Field)
      (s s' : StringsPass) (a : Addr),
    localeRowId row < records → tbl'[localeRowId row]? = some (some a) →
    loadStringsRow L li locale records tbl' row s = .ok s' →
    (∀ k, k < totalElems li.Meta.Fields →
      ∃ c1 ck dk, c1.f = firstColumn li ∧ c1.offset = idWidth li ∧
        packArray L li (isNewId tbl (rowId li fields)) (targetOf li tbl temp p fields) fields
          k c1 = .ok ck ∧
        patchArray L li locale a row k (startCursor li s) = .ok dk ∧
        ck.f = dk.fieldIndex ∧ ck.offset = dk.offset ∧
        dk.fieldIndex = firstColumn li + k ∧ dk.offset = elemOffset L li k % 2 ^ 32 ∧
        dk.stringFieldNumInRecord = countStrings li (firstColumn li) k ∧
        (typeAt li (firstColumn li + k) = DBCFormer.FT_STRING →
          ∃ dk' cell str, patchElement L li locale a row dk = .ok dk' ∧
            column row (textColumn li k) = .ok cell ∧
            AddString L dk.heap ((a.add dk.offset).add (locale * L.ptrSize))
              cell.GetStringView = .ok (str, dk'.heap))) ∧
    ∃ c1 c2 d, c1.f = firstColumn li ∧ c1.offset = idWidth li ∧
      packArray L li (isNewId tbl (rowId li fields)) (targetOf li tbl temp p fields) fields
        (totalElems li.Meta.Fields) c1 = .ok c2 ∧
      patchArray L li locale a row (totalElems li.Meta.Fields) (startCursor li s) = .ok d ∧
      c2.offset = d.offset ∧ d.offset = li.Meta.GetRecordSize ∧
      d.offset = packedSize L li % 2 ^ 32 := by
  intro tbl temp fields p p1 hload locale records tbl' row s s' a hlt ha hstr
  obtain ⟨c1, c2, hf1, ho1, _, _, hpack, hoff2, _⟩ := loadRow_cursor hload
  obtain ⟨_, hcase⟩ := loadStringsRow_ok_cases hstr
  rcases hcase with ⟨hge, _⟩ | ⟨_, hnull, _⟩ | ⟨_, a', d, ha', hpatch, hoffd, _⟩
  · omega
  · rw [ha] at hnull
    cases hnull
  rw [ha] at ha'
  cases ha'
  have hstart : (startCursor li s).offset = idWidth li := rfl
  have hstartf : (startCursor li s).fieldIndex = firstColumn li := rfl
  constructor
  · intro k hk
    obtain ⟨ck, ck', hk1, _, _⟩ := packArray_split hpack k hk
    obtain ⟨dk, dk', hd1, hd2, _⟩ := patchArray_split hpatch k hk
    obtain ⟨hckf, hcko, _⟩ := packArray_next _ hk1 (by rw [ho1]; exact idWidth_lt li)
    obtain ⟨hdkf, hdko, _⟩ := patchArray_next _ hd1 (idWidth_lt li)
    have hcount := patchArray_count _ hd1
    simp only [startCursor, Nat.zero_add] at hcount
    rw [hf1, ho1] at hcko
    rw [hf1] at hckf
    rw [hstart, hstartf] at hdko
    rw [hstartf] at hdkf
    refine ⟨c1, ck, dk, hf1, ho1, hk1, hd1, by rw [hckf, hdkf], by rw [hcko, hdko], hdkf,
      hdko, hcount, fun hty => ?_⟩
    obtain ⟨_, _, _, _, hstring⟩ := patchElement_ok hd2
    rw [hdkf] at hstring
    obtain ⟨_, cell, str, hcol, hadd, _⟩ := hstring hty
    refine ⟨dk', cell, str, hd2, ?_, hadd⟩
    unfold textColumn
    rw [← hcount]
    exact hcol
  · obtain ⟨_, hdo, _⟩ := patchArray_next _ hpatch (idWidth_lt li)
    rw [hstart, hstartf] at hdo
    exact ⟨c1, c2, d, hf1, ho1, hpack, hpatch, by rw [hoff2, hoffd], hoffd, hdo⟩

/-- Claim C22. In a `Load` that returns, every element `k` of the record of every
new row is written at the offset `elemOffset` of the record, and in a
`LoadStrings` pass that returns, with the same schema, the slot that is patched
for a localized string element `k` of a record lies at the same offset
`elemOffset` of the record, followed by the slots of the earlier locales, and is
patched from the locale-row column `textColumn`, one more than the number of
localized string elements before `k`. Both calls ran the final assertion, so the
`uint32` offset at which both walks end is the record size. For the loop
bodies, before the `k`-th packed element both walks have the same column counter
and the same `uint32` offset, and both end with the same offset. -/
theorem offsets_agree_between_passes (L : Layout) (li : DB2LoadInfo)
    (rs : PreparedResultSet) (hint : Option Field) (st0 : Storage) (buf : Option Addr)
    (st1 : Storage) (stringFields locale : Nat) (ls : PreparedResultSet) (st st' : Storage)
    (log : List Nat) (row : List Field) (a : Addr)
    (hen : L.LOCALE_enUS < L.TOTAL_LOCALES) (hfit : packedSize L li < 2 ^ 32)
    (hloc : locale < L.TOTAL_LOCALES)
    (hc : li.Meta.GetDbFieldCount = rs.GetFieldCount)
    (hbelow : EntriesBelow st0.indexTable st0.heap.length)
    (hload : Load L li (some rs) hint st0 = .ok (buf, st1))
    (hinv : StoreInv li st) (hcs : ls.GetFieldCount = stringFields + 1)
    (hf : row ∈ ls.rows) (hlt : localeRowId row < st.records)
    (ha : st.indexTable[localeRowId row]? = some (some a))
    (hstr : LoadStrings L li stringFields locale (some ls) st = .ok (st', log)) :
    (∃ new, st1.stringPool = st0.stringPool ++ new ∧
      ∀ i fields, (newRows li (resized st0 hint) rs.rows)[i]? = some fields →
        ∃ dt, buf = some dt ∧
          ∀ k, k < totalElems li.Meta.Fields →
            ElemPacked L new (st0.heap.length + 1) st1.heap (typeAt li (firstColumn li + k))
              (cellAt fields (firstColumn li + k))
              ((dt.add (i * li.Meta.GetRecordSize)).add (elemOffset L li k))) ∧
    (∀ k, k < totalElems li.Meta.Fields →
      typeAt li (firstColumn li + k) = DBCFormer.FT_STRING →
      ∃ new, st'.stringPool = st.stringPool ++ new ∧
        (∀ t, (incomingTexts li (localeRowId row) k ls.rows).getLast? = some t →
          ∃ b, fetch st'.heap ((a.add (elemOffset L li k)).add (locale * L.ptrSize)) L.ptrSize
              = some (ptrBytes L.ptrSize (CStr.heap ⟨b, 0⟩)) ∧
            st.heap.length ≤ b ∧ (⟨b, 0⟩ : Addr) ∈ new ∧
            st'.heap[b]? = some (some (t.map MemVal.byte ++ [MemVal.byte 0]))) ∧
        (incomingTexts li (localeRowId row) k ls.rows = [] →
          ∀ v, fetch st.heap ((a.add (elemOffset L li k)).add (locale * L.ptrSize)) L.ptrSize
              = some v →
            fetch st'.heap ((a.add (elemOffset L li k)).add (locale * L.ptrSize)) L.ptrSize
              = some v)) ∧
    (∀ k, textColumn li k = 1 + countStrings li (firstColumn li) k) ∧
    packedSize L li % 2 ^ 32 = li.Meta.GetRecordSize ∧
    (∀ (tbl : List (Option Addr)) (temp : Addr) (fields : List Field) (p p1 : Pass),
      loadRow L li tbl temp fields p = .ok p1 →
      ∀ (records : Nat) (tbl' : List (Option Addr)) (r : List Field)
        (s s' : StringsPass) (a' : Addr),
      localeRowId r < records → tbl'[localeRowId r]? = some (some a') →
      loadStringsRow L li locale records tbl' r s = .ok s' →
      (∀ k, k < totalElems li.Meta.Fields →
        ∃ c1 ck dk, c1.f = firstColumn li ∧ c1.offset = idWidth li ∧
          packArray L li (isNewId tbl (rowId li fields)) (targetOf li tbl temp p fields) fields
            k c1 = .ok ck ∧
          patchArray L li locale a' r k (startCursor li s) = .ok dk ∧
          ck.f = dk.fieldIndex ∧ ck.offset = dk.offset ∧
          dk.fieldIndex = firstColumn li + k ∧ dk.offset = elemOffset L li k % 2 ^ 32 ∧
          dk.stringFieldNumInRecord = countStrings li (firstColumn li) k ∧
          (typeAt li (firstColumn li + k) = DBCFormer.FT_STRING →
            ∃ dk' cell str, patchElement L li locale a' r dk = .ok dk' ∧
              column r (textColumn li k) = .ok cell ∧
              AddString L dk.heap ((a'.add dk.offset).add (locale * L.ptrSize))
                cell.GetStringView = .ok (str, dk'.heap))) ∧
      ∃ c1 c2 d, c1.f = firstColumn li ∧ c1.offset = idWidth li ∧
        packArray L li (isNewId tbl (rowId li fields)) (targetOf li tbl temp p fields) fields
          (totalElems li.Meta.Fields) c1 = .ok c2 ∧
        patchArray L li locale a' r (totalElems li.Meta.Fields) (startCursor li s) = .ok d ∧
        c2.offset = d.offset ∧ d.offset = li.Meta.GetRecordSize ∧
        d.offset = packedSize L li % 2 ^ 32) := by
  obtain ⟨new, hpool, hall⟩ := Load_new_rows_packed hen hfit hc hbelow hload
  obtain ⟨s, hs, hst, _⟩ := LoadStrings_ok_cases hcs hstr
  have hmod := (loadStringsRows_ok_schema _ hf hlt ha hs).2
  have hsize : packedSize L li = li.Meta.GetRecordSize := by
    rwa [Nat.mod_eq_of_lt hfit] at hmod
  have hheap : st'.heap = s.heap := by rw [hst]
  have hpool' : st'.stringPool = s.stringPool := by rw [hst]
  refine ⟨⟨new, hpool, fun i fields hi => ?_⟩, fun k hk hty => ?_, fun k => rfl, hmod,
    fun tbl temp fields p p1 hrow records tbl' r s s' a' hlt' ha' hrow' =>
      walks_agree L li tbl temp fields p p1 hrow locale records tbl' r s s' a' hlt' ha' hrow'⟩
  · obtain ⟨dt, hbuf, _, _, hrow⟩ := hall i fields hi
    exact ⟨dt, hbuf, fun k hk => hrow.2.nth _ _ _ k hk⟩
  · obtain ⟨new', hp, hE, hL⟩ := loadStringsRows_slot hfit hloc hsize hinv.2 hlt ha hk hty
      ls.rows _ s hinv.1 hs
    rw [hheap, hpool']
    exact ⟨new', hp, hL, hE⟩

/-- The localized example: `Load` packs the row (7, "hello") into the new record at
block 2, with the localized string element at offset 4, and the `LoadStrings` pass
with the row (7, "bonjour") for frFR patches the record of the ID 7, the same
record, at offset 4 and two pointers further, from column 1. -/
theorem offsets_agree_between_passes_witness :
    elemOffset layout64 localizedSchema 0 = 4 ∧ textColumn localizedSchema 0 = 1 ∧
    typeAt localizedSchema (firstColumn localizedSchema + 0) = DBCFormer.FT_STRING ∧
    (okValue (none, emptyStorage 0) localizedLoad).1 = some ⟨2, 0⟩ ∧
    localizedStorage.indexTable[7]? = some (some ⟨2, 0⟩) ∧
    packedSize layout64 localizedSchema % 2 ^ 32 = localizedSchema.Meta.GetRecordSize ∧
    (∃ new dt,
      (okValue (none, emptyStorage 0) localizedLoad).1 = some dt ∧
      ElemPacked layout64 new ((emptyStorage 4294967295).heap.length + 1)
        (okValue (none, emptyStorage 0) localizedLoad).2.heap
        (typeAt localizedSchema (firstColumn localizedSchema + 0))
        (cellAt localizedRows.row (firstColumn localizedSchema + 0))
        ((dt.add (0 * localizedSchema.Meta.GetRecordSize)).add
          (elemOffset layout64 localizedSchema 0))) ∧
    ∃ b, fetch (okValue (emptyStorage 0, []) patchLoad).1.heap
        (((Addr.mk 2 0).add (elemOffset layout64 localizedSchema 0)).add
          (LOCALE_frFR * layout64.ptrSize)) layout64.ptrSize
        = some (ptrBytes layout64.ptrSize (CStr.heap ⟨b, 0⟩)) ∧
      (okValue (emptyStorage 0, []) patchLoad).1.heap[b]?
        = some (some (bonjour.map MemVal.byte ++ [MemVal.byte 0])) := by
  have t := offsets_agree_between_passes layout64 localizedSchema localizedRows
    (some (.int 8)) (emptyStorage 4294967295) (okValue (none, emptyStorage 0) localizedLoad).1
    (okValue (none, emptyStorage 0) localizedLoad).2 1 LOCALE_frFR patchRows localizedStorage
    (okValue (emptyStorage 0, []) patchLoad).1 (okValue (emptyStorage 0, []) patchLoad).2
    [.int 7, .string bonjour] ⟨2, 0⟩ (by decide) (by decide) (by decide) (by decide)
    (StoreInv_empty localizedSchema 4294967295).1
    (okValue_of_returns (none, emptyStorage 0) localizedLoad (by decide!))
    localizedStorage_inv (by decide) (by decide) (by decide!) (by decide!)
    (okValue_of_returns (emptyStorage 0, []) patchLoad (by decide!))
  obtain ⟨⟨new, _, hnew⟩, hslots, _, hsize, _⟩ := t
  obtain ⟨dt, hdt, hel⟩ := hnew 0 localizedRows.row (by decide!)
  obtain ⟨new', _, hL, _⟩ := hslots 0 (by decide) (by decide)
  obtain ⟨b, hb1, _, _, hb4⟩ := hL bonjour (by decide)
  exact ⟨by decide, by decide, by decide, by decide!, by decide!, hsize,
    ⟨new, dt, hdt, hel 0 (by decide)⟩, b, hb1, hb4⟩

/-! ### Size mismatch and filled slots in the locale pass -/

theorem ptrBytes_inj {n : Nat} (hn : 0 < n) {p q : CStr} (h : ptrBytes n p = ptrBytes n q) :
    p = q := by
  have hp := ptrValue_ptrBytes hn p
  rw [h, ptrValue_ptrBytes hn q] at hp
  exact (Option.some.inj hp).symm

/-- Claim C27 fails on the code. A locale slot that already refers to a non-empty
string is overwritten by a non-empty incoming text: after the locale pass that
set the frFR slot of the record of the ID 7 to "bonjour", a pass with the row
(7, "salut") sets the slot to a new string "salut". -/
theorem LoadStrings_overwrites_filled_slot :
    fetch patchedStorage.heap ⟨2, 20⟩ 8 = some (ptrBytes 8 (CStr.heap ⟨3, 0⟩)) ∧
    readCStr patchedStorage.heap (CStr.heap ⟨3, 0⟩) = some bonjour ∧
    returns repatchLoad = true ∧
    fetch (okValue (emptyStorage 0, []) repatchLoad).1.heap ⟨2, 20⟩ 8
      = some (ptrBytes 8 (CStr.heap ⟨4, 0⟩)) ∧
    readCStr (okValue (emptyStorage 0, []) repatchLoad).1.heap (CStr.heap ⟨4, 0⟩)
      = some salut ∧
    fetch (okValue (emptyStorage 0, []) repatchLoad).1.heap ⟨2, 20⟩ 8
      ≠ fetch patchedStorage.heap ⟨2, 20⟩ 8 := by
  refine ⟨by decide!, by decide!, by decide!, by decide!, by decide!, by decide!⟩

/-- For a locale row with a present ID, a slot of the locale that already refers
to a string is left unchanged by the row exactly when the incoming text for its
element is empty; a non-empty incoming text replaces the reference by the address
of a new allocation that holds the incoming text. -/
theorem LoadStrings_keeps_slot_iff_text_empty (L : Layout) (li : DB2LoadInfo)
    (locale records : Nat) (tbl : List (Option Addr)) (fields : List Field)
    (s s' : StringsPass) (a : Addr) (k : Nat) (q : Addr)
    (hptr : 0 < L.ptrSize)
    (hfit : packedSize L li < 2 ^ 32) (hloc : locale < L.TOTAL_LOCALES)
    (hlive : a.block < s.heap.length)
    (hlt : localeRowId fields < records) (ha : tbl[localeRowId fields]? = some (some a))
    (h : loadStringsRow L li locale records tbl fields s = .ok s')
    (hk : k < totalElems li.Meta.Fields)
    (hty : typeAt li (firstColumn li + k) = DBCFormer.FT_STRING)
    (hold : fetch s.heap (localeSlot L li locale a k) L.ptrSize
      = some (ptrBytes L.ptrSize (CStr.heap q)))
    (hq : q.block < s.heap.length) :
    (fetch s'.heap (localeSlot L li locale a k) L.ptrSize
        = fetch s.heap (localeSlot L li locale a k) L.ptrSize ↔
      (cellAt fields (textColumn li k)).GetStringView = []) ∧
    ((cellAt fields (textColumn li k)).GetStringView ≠ [] →
      ∃ b, q.block < b ∧
        fetch s'.heap (localeSlot L li locale a k) L.ptrSize
          = some (ptrBytes L.ptrSize (CStr.heap ⟨b, 0⟩)) ∧
        s'.heap[b]? = some (some
          ((cellAt fields (textColumn li k)).GetStringView.map MemVal.byte
            ++ [MemVal.byte 0]))) := by
  obtain ⟨new, _, hempty, hnonempty⟩ := loadStringsRow_slot hfit hloc hlive hlt ha h k hk hty
  have hnew : (cellAt fields (textColumn li k)).GetStringView ≠ [] →
      ∃ b, q.block < b ∧
        fetch s'.heap (localeSlot L li locale a k) L.ptrSize
          = some (ptrBytes L.ptrSize (CStr.heap ⟨b, 0⟩)) ∧
        s'.heap[b]? = some (some
          ((cellAt fields (textColumn li k)).GetStringView.map MemVal.byte
            ++ [MemVal.byte 0])) := by
    intro hne
    obtain ⟨b, hfetch, hb, _, hblk⟩ := hnonempty hne
    exact ⟨b, by omega, hfetch, hblk⟩
  refine ⟨⟨fun heq => ?_, fun he => ?_⟩, hnew⟩
  · by_contra hne
    obtain ⟨b, hb, hfetch, _⟩ := hnew hne
    rw [hfetch, hold] at heq
    have := ptrBytes_inj hptr (Option.some.inj heq)
    cases this
    simp only at hb
    omega
  · rw [hold]
    exact hempty he _ hold

/-- The row (7, "salut") on the storage whose frFR slot refers to "bonjour" in
block 3: the text is not empty and the slot receives the address of block 4. -/
theorem LoadStrings_keeps_slot_iff_text_empty_witness :
    returns repatchRowStep = true ∧
    ∃ b, (Addr.mk 3 0).block < b ∧
      fetch (okValue (startStrings (emptyStorage 0)) repatchRowStep).heap
        (localeSlot layout64 localizedSchema LOCALE_frFR ⟨2, 0⟩ 0) layout64.ptrSize
        = some (ptrBytes layout64.ptrSize (CStr.heap ⟨b, 0⟩)) ∧
      (okValue (startStrings (emptyStorage 0)) repatchRowStep).heap[b]? = some (some
        ((cellAt [.int 7, .string salut] (textColumn localizedSchema 0)).GetStringView.map
          MemVal.byte ++ [MemVal.byte 0])) :=
  ⟨by decide!,
    (LoadStrings_keeps_slot_iff_text_empty layout64 localizedSchema LOCALE_frFR
      patchedStorage.records patchedStorage.indexTable [.int 7, .string salut]
      (startStrings patchedStorage) (okValue (startStrings (emptyStorage 0)) repatchRowStep)
      ⟨2, 0⟩ 0 ⟨3, 0⟩ (by decide) (by decide) (by decide) (by decide!) (by decide!)
      (by decide!)
      (okValue_eq_of_returns (startStrings (emptyStorage 0)) repatchRowStep (by decide!))
      (by decide) (by decide) (by decide!) (by decide!)).2 (by decide)⟩

/-! ### Rows whose ID already has a record -/

/-- Only the localized string case of the switch of `Load` looks at whether the
record is new. -/
theorem packElement_isNew {L : Layout} {li : DB2LoadInfo} {dv : Addr} {fields : List Field}
    {c : Cursor} (b : Bool) (hty : typeAt li c.f ≠ DBCFormer.FT_STRING) :
    packElement L li b dv fields c = packElement L li true dv fields c := by
  unfold packElement
  cases hfm : li.Fields[c.f]? with
  | none => rfl
  | some fm =>
    have hty' := typeAt_eq hfm
    simp only
    cases hT : fm.Type_ with
    | FT_STRING => rw [hT] at hty'; exact absurd hty' hty
    | _ => rfl

/-- The localized string case of the switch of `Load` for an existing record: the
only access is the `AddString` on the slot of the base locale. -/
theorem packElement_localized_old {L : Layout} {li : DB2LoadInfo} {dv : Addr}
    {fields : List Field} {c c' : Cursor}
    (hty : typeAt li c.f = DBCFormer.FT_STRING)
    (h : packElement L li false dv fields c = .ok c') :
    ∃ str, AddString L c.heap ((dv.add c.offset).add (L.LOCALE_enUS * L.ptrSize))
        (cellAt fields c.f).GetStringView = .ok (str, c'.heap) ∧
      c'.stringPool = c.stringPool ++ str.toList := by
  obtain ⟨fm, hF, hT⟩ := typeAt_known hty (fun x hx => by cases hx)
  unfold packElement at h
  rw [hF] at h
  simp only [hT] at h
  cases hcol : column fields c.f with
  | error e => rw [hcol] at h; simp at h
  | ok cell =>
    rw [hcol] at h
    simp only [Bool.false_eq_true, if_false] at h
    rw [(column_eq_ok hcol).1]
    cases hA : AddString L c.heap ((dv.add c.offset).add (L.LOCALE_enUS * L.ptrSize))
        cell.GetStringView with
    | error e => rw [hA] at h; cases h
    | ok r =>
      obtain ⟨str, h1⟩ := r
      rw [hA] at h
      simp only at h
      cases h
      refine ⟨str, rfl, ?_⟩
      cases str <;> simp

/-- The element loop of `Load` over a record, split at the `k`-th element: the
cursor reaches the element at its column and offset; the elements before it write
only before its offset and the elements after it only from its end on. -/
theorem packArray_at {L : Layout} {li : DB2LoadInfo} {isNew : Bool} {a : Addr}
    {fields : List Field} {c1 c2 : Cursor}
    (hen : L.LOCALE_enUS < L.TOTAL_LOCALES) (hfit : packedSize L li < 2 ^ 32)
    (hf1 : c1.f = firstColumn li) (ho1 : c1.offset = idWidth li)
    (h : packArray L li isNew a fields (totalElems li.Meta.Fields) c1 = .ok c2)
    (k : Nat) (hk : k < totalElems li.Meta.Fields) :
    ∃ ck ck', packArray L li isNew a fields k c1 = .ok ck ∧
      packElement L li isNew a fields ck = .ok ck' ∧
      ck.f = firstColumn li + k ∧ ck.offset = elemOffset L li k ∧
      Frame (Region a.block (a.off + idWidth li) (a.off + elemOffset L li k)) c1.heap ck.heap ∧
      Frame (Region a.block (a.off + elemOffset L li (k + 1)) (a.off + packedSize L li))
        ck'.heap c2.heap ∧
      (∃ new1, ck.stringPool = c1.stringPool ++ new1) ∧
      (∃ new3, c2.stringPool = ck'.stringPool ++ new3) := by
  obtain ⟨ck, ck', hk1, hk2, hk3⟩ := packArray_split h k hk
  have hle := elemOffset_le_packedSize L li (k := k + 1) (by omega)
  have hmono := elemOffset_mono L li k (k + 1) (by omega)
  have hbound : idWidth li + sumWidths L li (firstColumn li) k < 2 ^ 32 := by
    have h1 := hmono
    have h2 := hle
    unfold elemOffset at h1 h2
    omega
  obtain ⟨hf, ho, hfr1, _⟩ := packArray_frame hen k hk1 (by rw [ho1, hf1]; exact hbound)
  rw [ho1, hf1] at ho hfr1
  rw [hf1] at hf
  have hoff : ck.offset = elemOffset L li k := ho
  obtain ⟨hf', ho', _⟩ := packElement_next hk2
  have hoff' : ck'.offset = elemOffset L li (k + 1) := by
    rw [ho', hoff, hf, ← elemOffset_succ]
    exact Nat.mod_eq_of_lt (by omega)
  have hrest : elemOffset L li (k + 1)
      + sumWidths L li (firstColumn li + (k + 1)) (totalElems li.Meta.Fields - k - 1)
      = packedSize L li := by
    rw [← elemOffset_add]
    have e : k + 1 + (totalElems li.Meta.Fields - k - 1) = totalElems li.Meta.Fields := by
      omega
    rw [e]
    rfl
  have e : firstColumn li + k + 1 = firstColumn li + (k + 1) := by omega
  obtain ⟨_, _, hfr3, _⟩ := packArray_frame hen (totalElems li.Meta.Fields - k - 1) hk3 (by
    rw [hoff', hf', hf, e, hrest]
    exact hfit)
  rw [hoff', hf', hf, e] at hfr3
  refine ⟨ck, ck', hk1, hk2, hf, hoff, ?_, ?_, packArray_pool _ hk1, packArray_pool _ hk3⟩
  · refine hfr1.mono (fun b j hw => ?_)
    obtain ⟨hb, hlo, hhi⟩ := hw
    refine ⟨hb, hlo, ?_⟩
    unfold elemOffset
    omega
  · refine hfr3.mono (fun b j hw => ?_)
    obtain ⟨hb, hlo, hhi⟩ := hw
    exact ⟨hb, hlo, by omega⟩

/-- The body of the row loop of `Load` for a row whose ID has the record `a`: no
new index is recorded, the ID prefix and the elements are written through `a`,
and the element loop runs with `isNew = false`. -/
theorem loadRow_present {L : Layout} {li : DB2LoadInfo} {tbl : List (Option Addr)}
    {temp : Addr} {fields : List Field} {p p1 : Pass} {a : Addr}
    (ha : tbl[rowId li fields]? = some (some a))
    (h : loadRow L li tbl temp fields p = .ok p1) :
    ∃ c1 c2, c1.f = firstColumn li ∧ c1.offset = idWidth li ∧
      c1.stringPool = p.stringPool ∧
      (li.Meta.HasIndexFieldInData = false →
        fetch c1.heap a 4 = some (leBytes 4 (rowId li fields))) ∧
      Frame (Region a.block a.off (a.off + idWidth li)) p.heap c1.heap ∧
      packArray L li false a fields (totalElems li.Meta.Fields) c1 = .ok c2 ∧
      c2.offset = li.Meta.GetRecordSize ∧ p1.heap = c2.heap ∧
      p1.stringPool = c2.stringPool ∧ p1.newIndexes = p.newIndexes := by
  obtain ⟨idCell, entry, c1, c2, _, _, hentry, hc1, hc2, hoff, hp1⟩ := loadRow_ok_cases h
  rw [ha] at hentry
  cases hentry
  rw [packFields_eq_packArray] at hc2
  simp only [Option.getD_some, Option.isNone_some] at hc1 hc2 hp1
  subst hp1
  refine ⟨c1, c2, ?_, ?_, ?_, ?_, ?_, hc2, hoff, rfl, rfl, by simp⟩
  · unfold firstColumn
    cases hI : li.Meta.HasIndexFieldInData with
    | true => rw [hI] at hc1; simp only [if_true] at hc1 ⊢; cases hc1; rfl
    | false =>
      rw [hI] at hc1
      simp only [Bool.false_eq_true, if_false] at hc1 ⊢
      exact (storeValue_ok hc1).2.1
  · unfold idWidth
    cases hI : li.Meta.HasIndexFieldInData with
    | true => rw [hI] at hc1; simp only [if_true] at hc1 ⊢; cases hc1; rfl
    | false =>
      rw [hI] at hc1
      simp only [Bool.false_eq_true, if_false] at hc1 ⊢
      exact (storeValue_ok hc1).2.2.1
  · cases hI : li.Meta.HasIndexFieldInData with
    | true => rw [hI] at hc1; simp only [if_true] at hc1; cases hc1; rfl
    | false =>
      rw [hI] at hc1
      simp only [Bool.false_eq_true, if_false] at hc1
      exact (storeValue_ok hc1).2.2.2
  · intro hI
    rw [hI] at hc1
    simp only [Bool.false_eq_true, if_false] at hc1
    obtain ⟨_, _, _, _, _, hft⟩ := storeValue_effect hc1 (leBytes_length _ _)
    have e : a.add 0 = a := rfl
    simp only [e] at hft
    exact hft
  · unfold idWidth
    cases hI : li.Meta.HasIndexFieldInData with
    | true =>
      rw [hI] at hc1
      simp only [if_true] at hc1 ⊢
      cases hc1
      exact Frame.refl _ _
    | false =>
      rw [hI] at hc1
      simp only [Bool.false_eq_true, if_false] at hc1 ⊢
      obtain ⟨_, _, hfr, _⟩ := storeValue_effect hc1 (leBytes_length _ _)
      exact hfr

/-- What the body of the row loop of `Load` does for a row whose ID already has
the record `a`: no index is recorded, nothing outside the bytes of the record
changes apart from new allocations, and every element of the record is written
in place. -/
theorem loadRow_in_place (L : Layout) (li : DB2LoadInfo) (tbl : List (Option Addr))
    (temp : Addr) (fields : List Field) (p p1 : Pass) (a : Addr)
    (hen : L.LOCALE_enUS < L.TOTAL_LOCALES) (hfit : packedSize L li < 2 ^ 32)
    (hlive : a.block < p.heap.length)
    (ha : tbl[rowId li fields]? = some (some a))
    (h : loadRow L li tbl temp fields p = .ok p1) :
    p1.newIndexes = p.newIndexes ∧
    Frame (Region a.block a.off (a.off + packedSize L li)) p.heap p1.heap ∧
    (li.Meta.HasIndexFieldInData = false →
      fetch p1.heap a 4 = some (leBytes 4 (rowId li fields))) ∧
    ∃ new, p1.stringPool = p.stringPool ++ new ∧
      ∀ k, k < totalElems li.Meta.Fields →
        (typeAt li (firstColumn li + k) ≠ DBCFormer.FT_STRING →
          ElemPacked L new p.heap.length p1.heap (typeAt li (firstColumn li + k))
            (cellAt fields (firstColumn li + k)) (a.add (elemOffset L li k))) ∧
        (typeAt li (firstColumn li + k) = DBCFormer.FT_STRING →
          ((cellAt fields (firstColumn li + k)).GetStringView ≠ [] →
            ∃ b, fetch p1.heap (localeSlot L li L.LOCALE_enUS a k) L.ptrSize
                = some (ptrBytes L.ptrSize (CStr.heap ⟨b, 0⟩)) ∧
              p.heap.length ≤ b ∧ (⟨b, 0⟩ : Addr) ∈ new ∧
              p1.heap[b]? = some (some
                ((cellAt fields (firstColumn li + k)).GetStringView.map MemVal.byte
                  ++ [MemVal.byte 0]))) ∧
          ((cellAt fields (firstColumn li + k)).GetStringView = [] →
            ∀ v, fetch p.heap (localeSlot L li L.LOCALE_enUS a k) L.ptrSize = some v →
              fetch p1.heap (localeSlot L li L.LOCALE_enUS a k) L.ptrSize = some v) ∧
          ∀ i, i < L.TOTAL_LOCALES → i ≠ L.LOCALE_enUS →
            ∀ v, fetch p.heap (localeSlot L li i a k) L.ptrSize = some v →
              fetch p1.heap (localeSlot L li i a k) L.ptrSize = some v) := by
  obtain ⟨c1, c2, hf1, ho1, hpool1, hid, hfr0, hpack, _, hheap, hpool2, hnew⟩ :=
    loadRow_present ha h
  obtain ⟨new, hpnew⟩ := loadRow_pool h
  have htotal : idWidth li + sumWidths L li (firstColumn li) (totalElems li.Meta.Fields)
      = packedSize L li := rfl
  obtain ⟨_, _, hfrAll, _⟩ := packArray_frame hen _ hpack (by rw [ho1, hf1, htotal]; exact hfit)
  rw [ho1, hf1] at hfrAll
  have hidle : idWidth li ≤ packedSize L li := by
    rw [← htotal]
    omega
  refine ⟨hnew, ?_, ?_, new, hpnew, ?_⟩
  · rw [hheap]
    refine Frame.trans (hfr0.mono ?_) (hfrAll.mono ?_)
    · rintro b j ⟨hb, hlo, hhi⟩
      exact ⟨hb, hlo, by omega⟩
    · rintro b j ⟨hb, hlo, hhi⟩
      exact ⟨hb, by omega, by omega⟩
  · intro hI
    rw [hheap]
    refine hfrAll.fetch_eq (hid hI) (fun j hj1 hj2 => ?_)
    rintro ⟨_, hlo, _⟩
    have : idWidth li = 4 := by simp [idWidth, hI]
    omega
  intro k hk
  obtain ⟨ck, ck', hk1, hk2, hf, hoff, hfr1, hfr3, ⟨new1, hp1⟩, ⟨new3, hp3⟩⟩ :=
    packArray_at hen hfit hf1 ho1 hpack k hk
  have hsucc := elemOffset_succ L li k
  have hle := elemOffset_le_packedSize L li (k := k + 1) (by omega)
  have hge := idWidth_le_elemOffset L li k
  have hlen1 : p.heap.length ≤ ck.heap.length := Nat.le_trans hfr0.1 hfr1.1
  rw [← hf]
  constructor
  · intro hty
    rw [packElement_isNew false hty] at hk2
    obtain ⟨new2, hp2, hpk⟩ := packElement_packed hk2 (by omega)
    have hcat : new = new1 ++ new2 ++ new3 := by
      have e : p.stringPool ++ new = p.stringPool ++ (new1 ++ new2 ++ new3) := by
        rw [← hpnew, hpool2, hp3, hp2, hp1, hpool1]
        simp only [List.append_assoc]
      exact List.append_cancel_left e
    rw [hheap, ← hoff]
    refine (hpk.transfer_elem ?_ ?_ ?_).mono_lo hlen1
    · refine hfr3.sameBytes _ _ (fun j hj1 hj2 => ?_)
      rintro ⟨_, hlo, _⟩
      simp only [Addr.add_block, Addr.add_off] at hj1 hj2
      rw [hf] at hj2
      omega
    · refine hfr3.keepsBlocks _ (fun b j hw => ?_)
      obtain ⟨hb, _, _⟩ := hw
      omega
    · intro x hx
      rw [hcat]
      simp only [List.mem_append]
      exact Or.inl (Or.inr hx)
  · intro hty
    rw [hf] at hty
    rw [hty] at hsucc
    simp only [width, Layout.sizeofLocalizedString] at hsucc
    rw [← hf] at hty
    obtain ⟨str, hadd, hp2⟩ := packElement_localized_old hty hk2
    have hcat : new = new1 ++ str.toList ++ new3 := by
      have e : p.stringPool ++ new
          = p.stringPool ++ (new1 ++ str.toList ++ new3) := by
        rw [← hpnew, hpool2, hp3, hp2, hp1, hpool1]
        simp only [List.append_assoc]
      exact List.append_cancel_left e
    have hslot : ∀ i, (a.add ck.offset).add (i * L.ptrSize) = localeSlot L li i a k := by
      intro i
      rw [hoff]
      rfl
    rw [hslot] at hadd
    obtain ⟨hfr2, hcases⟩ := AddString_effect hadd
    have hmulE : (L.LOCALE_enUS + 1) * L.ptrSize ≤ L.TOTAL_LOCALES * L.ptrSize :=
      Nat.mul_le_mul_right _ hen
    rw [Nat.succ_mul] at hmulE
    have hkeep : ∀ i, i < L.TOTAL_LOCALES → ∀ v,
        fetch p.heap (localeSlot L li i a k) L.ptrSize = some v →
        fetch ck.heap (localeSlot L li i a k) L.ptrSize = some v := by
      intro i hi v hv
      have hmul : (i + 1) * L.ptrSize ≤ L.TOTAL_LOCALES * L.ptrSize :=
        Nat.mul_le_mul_right _ hi
      rw [Nat.succ_mul] at hmul
      rw [localeSlot_eq] at hv ⊢
      refine hfr1.fetch_eq (hfr0.fetch_eq hv (fun j hj1 hj2 => ?_)) (fun j hj1 hj2 => ?_)
      · rintro ⟨_, _, hhi⟩
        simp only [Addr.add_block, Addr.add_off] at hj1 hj2
        omega
      · rintro ⟨_, _, hhi⟩
        simp only [Addr.add_block, Addr.add_off] at hj1 hj2
        omega
    have hlater : ∀ i, i < L.TOTAL_LOCALES → ∀ v,
        fetch ck'.heap (localeSlot L li i a k) L.ptrSize = some v →
        fetch p1.heap (localeSlot L li i a k) L.ptrSize = some v := by
      intro i hi v hv
      have hmul : (i + 1) * L.ptrSize ≤ L.TOTAL_LOCALES * L.ptrSize :=
        Nat.mul_le_mul_right _ hi
      rw [Nat.succ_mul] at hmul
      rw [hheap]
      rw [localeSlot_eq] at hv ⊢
      refine hfr3.fetch_eq hv (fun j hj1 hj2 => ?_)
      rintro ⟨_, hlo, _⟩
      simp only [Addr.add_block, Addr.add_off] at hj1 hj2
      omega
    refine ⟨fun htext => ?_, fun htext v hv => ?_, fun i hi hne v hv => ?_⟩
    · rcases hcases with ⟨he, _⟩ | ⟨_, hstr, _, hfetch, hblk⟩
      · exact absurd he htext
      · refine ⟨ck.heap.length, hlater _ hen _ hfetch, hlen1, ?_, ?_⟩
        · rw [hcat]
          subst hstr
          simp
        · rw [hheap]
          refine hfr3.block_eq (hblk ?_) (fun j hw => ?_)
          · rw [localeSlot_eq]
            simp only [Addr.add_block]
            omega
          · obtain ⟨hb, _, _⟩ := hw
            omega
    · rcases hcases with ⟨_, _, hh⟩ | ⟨hne, _⟩
      · refine hlater _ hen _ ?_
        rw [hh]
        exact hkeep _ hen _ hv
      · exact absurd htext hne
    · refine hlater _ hi _ (hfr2.fetch_eq (hkeep _ hi _ hv) (fun j hj1 hj2 => ?_))
      rintro ⟨_, hlo, hhi⟩
      rw [localeSlot_eq] at hj1 hj2 hlo hhi
      simp only [Addr.add_block, Addr.add_off] at hj1 hj2 hlo hhi
      rcases Nat.lt_or_gt_of_ne hne with hlt | hgt
      · have hm : (i + 1) * L.ptrSize ≤ L.LOCALE_enUS * L.ptrSize :=
          Nat.mul_le_mul_right _ hlt
        rw [Nat.succ_mul] at hm
        omega
      · have hm : (L.LOCALE_enUS + 1) * L.ptrSize ≤ i * L.ptrSize :=
          Nat.mul_le_mul_right _ hgt
        rw [Nat.succ_mul] at hm
        omega

/-! ### String ownership -/

theorem SlotOwned.carry {L : Layout} {pool pool' : List Addr} {h h' : Heap} {slot slot' : Addr}
    (ho : SlotOwned L pool h slot)
    (hs : ∀ v, fetch h slot L.ptrSize = some v → fetch h' slot' L.ptrSize = some v)
    (hp : ∀ x ∈ pool, x ∈ pool') : SlotOwned L pool' h' slot' := by
  obtain ⟨q, hq, hcase⟩ := ho
  refine ⟨q, hs _ hq, ?_⟩
  rcases hcase with hn | ⟨s, hs1, hs2⟩
  · exact Or.inl hn
  · exact Or.inr ⟨s, hp _ hs1, hs2⟩

theorem StrRef.owned_str {pool : List Addr} {lo : Nat} {h : Heap} {q : CStr} {text : List Nat}
    (hr : StrRef pool lo h q text) : q = nullStr ∨ ∃ s ∈ pool, q = CStr.heap s := by
  rcases hr with ⟨_, hq⟩ | ⟨_, b, hq, _, hmem, _⟩
  · exact Or.inl hq
  · exact Or.inr ⟨_, hmem, hq⟩

/-- A string slot of a record lies inside the packed record. -/
theorem slot_in_record (L : Layout) (li : DB2LoadInfo) {k : Nat}
    (hk : k < totalElems li.Meta.Fields) :
    (typeAt li (firstColumn li + k) = DBCFormer.FT_STRING_NOT_LOCALIZED →
      elemOffset L li k + L.ptrSize = elemOffset L li (k + 1) ∧
      elemOffset L li (k + 1) ≤ packedSize L li) ∧
    (typeAt li (firstColumn li + k) = DBCFormer.FT_STRING →
      elemOffset L li k + L.TOTAL_LOCALES * L.ptrSize = elemOffset L li (k + 1) ∧
      elemOffset L li (k + 1) ≤ packedSize L li ∧
      ∀ i, i < L.TOTAL_LOCALES → i * L.ptrSize + L.ptrSize ≤ L.TOTAL_LOCALES * L.ptrSize) := by
  have hle := elemOffset_le_packedSize L li (k := k + 1) (by omega)
  have hsucc := elemOffset_succ L li k
  constructor
  · intro hty
    rw [hty] at hsucc
    simp only [width] at hsucc
    exact ⟨hsucc.symm, hle⟩
  · intro hty
    rw [hty] at hsucc
    simp only [width, Layout.sizeofLocalizedString] at hsucc
    refine ⟨hsucc.symm, hle, fun i hi => ?_⟩
    have hmul : (i + 1) * L.ptrSize ≤ L.TOTAL_LOCALES * L.ptrSize :=
      Nat.mul_le_mul_right _ hi
    rw [Nat.succ_mul] at hmul
    exact hmul

/-- An owned record stays owned when its bytes are carried over to another address
and heap and the pool keeps its entries. -/
theorem RecordOwned.transfer {L : Layout} {li : DB2LoadInfo} {pool pool' : List Addr}
    {h h' : Heap} {a a' : Addr} (ho : RecordOwned L li pool h a)
    (hs : SameBytes h a h' a' (packedSize L li)) (hp : ∀ x ∈ pool, x ∈ pool') :
    RecordOwned L li pool' h' a' := by
  intro k hk
  obtain ⟨hplain, hloc⟩ := ho k hk
  obtain ⟨hin1, hin2⟩ := slot_in_record L li hk
  constructor
  · intro hty
    obtain ⟨h1, h2⟩ := hin1 hty
    exact (hplain hty).carry (fun v hv => hs _ _ _ (by omega) hv) hp
  · intro hty i hi
    obtain ⟨h1, h2, h3⟩ := hin2 hty
    have h4 := h3 i hi
    refine (hloc hty i hi).carry (fun v hv => ?_) hp
    rw [localeSlot_eq] at hv ⊢
    exact hs _ _ _ (by omega) hv

/-- A record that `Load` packed for a new row is owned. -/
theorem RowPacked.owned_row {L : Layout} {li : DB2LoadInfo} {new pool : List Addr} {lo : Nat}
    {h : Heap} {fields : List Field} {dv : Addr}
    (hr : RowPacked L li new lo h fields dv) (hp : ∀ x ∈ new, x ∈ pool) :
    RecordOwned L li pool h dv := by
  intro k hk
  have he := ElemsPacked.nth _ _ _ hr.2 k hk
  have e : dv.add (idWidth li + sumWidths L li (firstColumn li) k)
      = dv.add (elemOffset L li k) := rfl
  rw [e] at he
  constructor
  · intro hty
    rw [hty] at he
    obtain ⟨q, hq, hstr⟩ := he
    refine ⟨q, hq, ?_⟩
    rcases hstr.owned_str with hn | ⟨s, hs1, hs2⟩
    · exact Or.inl hn
    · exact Or.inr ⟨s, hp _ hs1, hs2⟩
  · intro hty i hi
    rw [hty] at he
    obtain ⟨q, hq, hstr⟩ := he i hi
    refine ⟨q, hq, ?_⟩
    by_cases hie : i = L.LOCALE_enUS
    · rw [if_pos hie] at hstr
      rcases hstr.owned_str with hn | ⟨s, hs1, hs2⟩
      · exact Or.inl hn
      · exact Or.inr ⟨s, hp _ hs1, hs2⟩
    · rw [if_neg hie] at hstr
      exact Or.inl hstr

/-- A row of `Load` keeps every record of the index table owned. -/
theorem loadRow_owned {L : Layout} {li : DB2LoadInfo} {tbl : List (Option Addr)}
    {temp : Addr} {fields : List Field} {p p1 : Pass}
    (hen : L.LOCALE_enUS < L.TOTAL_LOCALES) (hfit : packedSize L li < 2 ^ 32)
    (hdis : RecordsDisjoint li.Meta.GetRecordSize tbl)
    (hbelow : EntriesBelow tbl temp.block) (htemp : temp.block < p.heap.length)
    (ho : Owned L li tbl p.stringPool p.heap)
    (h : loadRow L li tbl temp fields p = .ok p1) :
    Owned L li tbl p1.stringPool p1.heap := by
  obtain ⟨hsize, hfr, new, hnew⟩ := loadRow_frame hen hfit h
  have hsub : ∀ x ∈ p.stringPool, x ∈ p1.stringPool := by
    intro x hx
    rw [hnew]
    exact List.mem_append_left _ hx
  intro id a hent
  have hablock := hbelow id a hent
  by_cases hsame : tbl[rowId li fields]? = some (some a)
  · obtain ⟨_, _, _, new', hnew', hk⟩ :=
      loadRow_in_place L li tbl temp fields p p1 a hen hfit (by omega) hsame h
    have hsub' : ∀ x ∈ new', x ∈ p1.stringPool := by
      intro x hx
      rw [hnew']
      exact List.mem_append_right _ hx
    intro k hk'
    obtain ⟨hnum, hstr⟩ := hk k hk'
    obtain ⟨hplain, hloc⟩ := ho id a hent k hk'
    constructor
    · intro hty
      have he := hnum (by rw [hty]; exact fun hcon => DBCFormer.noConfusion hcon)
      rw [hty] at he
      obtain ⟨q, hq, hstr'⟩ := he
      refine ⟨q, hq, ?_⟩
      rcases hstr'.owned_str with hn | ⟨s, hs1, hs2⟩
      · exact Or.inl hn
      · exact Or.inr ⟨s, hsub' _ hs1, hs2⟩
    · intro hty i hi
      obtain ⟨hnonempty, hempty, hothers⟩ := hstr hty
      by_cases hie : i = L.LOCALE_enUS
      · subst hie
        by_cases htext : (cellAt fields (firstColumn li + k)).GetStringView = []
        · exact (hloc hty _ hi).carry (hempty htext) hsub
        · obtain ⟨b, hb1, _, hb3, _⟩ := hnonempty htext
          exact ⟨_, hb1, Or.inr ⟨_, hsub' _ hb3, rfl⟩⟩
      · exact (hloc hty i hi).carry (hothers i hi hie) hsub
  · refine (ho id a hent).transfer (hfr.sameBytes _ _ (fun j hj1 hj2 => ?_)) hsub
    rintro ⟨hb, hlo, hhi⟩
    unfold targetOf at hb hlo hhi
    cases hrow : tbl[rowId li fields]? with
    | none =>
      rw [hrow] at hb
      simp only [Addr.add_block] at hb
      omega
    | some entry =>
      cases entry with
      | none =>
        rw [hrow] at hb
        simp only [Addr.add_block] at hb
        omega
      | some a0 =>
        rw [hrow] at hb hlo hhi
        simp only at hb hlo hhi
        have hne : id ≠ rowId li fields := by
          intro hcon
          rw [hcon] at hent
          exact hsame hent
        rcases hdis id (rowId li fields) a a0 hne hent hrow with hd | hd | hd
        · exact hd hb
        · omega
        · omega

/-- The row loop of `Load` keeps every record of the index table owned. -/
theorem loadRows_owned {L : Layout} {li : DB2LoadInfo} {tbl : List (Option Addr)}
    (temp : Addr) (hen : L.LOCALE_enUS < L.TOTAL_LOCALES) (hfit : packedSize L li < 2 ^ 32)
    (hdis : RecordsDisjoint li.Meta.GetRecordSize tbl)
    (hbelow : EntriesBelow tbl temp.block) (rows : List (List Field)) {p p1 : Pass}
    (htemp : temp.block < p.heap.length)
    (ho : Owned L li tbl p.stringPool p.heap)
    (h : loadRows L li tbl temp rows p = .ok p1) :
    Owned L li tbl p1.stringPool p1.heap := by
  induction rows generalizing p with
  | nil =>
    simp only [loadRows] at h
    cases h
    exact ho
  | cons fields rest ih =>
    simp only [loadRows] at h
    cases h1 : loadRow L li tbl temp fields p with
    | error e => rw [h1] at h; cases h
    | ok p2 =>
      rw [h1] at h
      have hlen := (loadRow_frame hen hfit h1).2.1.1
      exact ih (by omega) (loadRow_owned hen hfit hdis hbelow htemp ho h1) h

theorem fetch_set_other {h : Heap} {b : Nat} {x : Option (List MemVal)} {a : Addr} {n : Nat}
    (hb : b ≠ a.block) : fetch (h.set b x) a n = fetch h a n := by
  unfold fetch
  rw [List.getElem?_set_ne hb]

/-- The bytes of a record in an older block are the same after the provisional
buffer is freed. -/
theorem sameBytes_set_none {h : Heap} {a : Addr} {t n : Nat} (ht : a.block < t) :
    SameBytes h a (h.set t none) a n := by
  intro off len v _ hv
  rw [fetch_set_other (by simp only [Addr.add_block]; omega)]
  exact hv

theorem Owned.of_resized {L : Layout} {li : DB2LoadInfo} {st : Storage} (hint : Option Field)
    {pool : List Addr} {h : Heap} (ho : Owned L li st.indexTable pool h) :
    Owned L li (resized st hint) pool h :=
  fun id a hent => ho id a (resized_entry hent).1

theorem RecordsDisjoint.sub_resized {recordSize : Nat} {st : Storage} (hint : Option Field)
    (hd : RecordsDisjoint recordSize st.indexTable) :
    RecordsDisjoint recordSize (resized st hint) :=
  fun id1 id2 a1 a2 hne h1 h2 => hd id1 id2 a1 a2 hne (resized_entry h1).1 (resized_entry h2).1

/-- `Load` keeps the string ownership invariant. -/
theorem Load_owned {L : Layout} {li : DB2LoadInfo} {result : Option PreparedResultSet}
    {hint : Option Field} {st : Storage} {buf : Option Addr} {st' : Storage}
    (hen : L.LOCALE_enUS < L.TOTAL_LOCALES) (hfit : packedSize L li < 2 ^ 32)
    (hinv : StoreInv li st) (ho : Owned L li st.indexTable st.stringPool st.heap)
    (h : Load L li result hint st = .ok (buf, st')) :
    Owned L li st'.indexTable st'.stringPool st'.heap := by
  cases result with
  | none =>
    rw [Load_none] at h
    cases h
    exact ho
  | some rs =>
    by_cases hc : li.Meta.GetDbFieldCount = rs.GetFieldCount
    swap
    · rw [Load_mismatch L li rs hint st hc] at h
      cases h
      exact ho
    obtain ⟨p, _, hp, hcase⟩ := Load_ok_cases hc h
    have hbelow := EntriesBelow.resized hint hinv.1
    have ho0 : Owned L li (resized st hint) (startPass li rs st).stringPool
        (startPass li rs st).heap := by
      intro id a hent
      exact (ho.of_resized hint id a hent).transfer
        ((Frame.append (fun _ _ => False) _ _).sameBytes _ _ (fun _ _ _ hf => hf))
        (fun x hx => hx)
    have ho1 := loadRows_owned ⟨st.heap.length, 0⟩ hen hfit (hinv.2.sub_resized hint)
      hbelow rs.rows (by simp [startPass]) ho0 hp
    rcases hcase with ⟨_, _, hst⟩ | ⟨_, temp, _, hbuf, hst⟩
    · rw [hst]
      intro id a hent
      exact (ho1 id a hent).transfer (sameBytes_set_none (hbelow id a hent)) (fun x hx => hx)
    · obtain ⟨new, hnew, hrows⟩ := Load_new_rows_packed hen hfit hc hinv.1 h
      have hids : p.newIndexes = newIds li (resized st hint) rs.rows := by
        have := (loadRows_newIndexes rs.rows hp).2
        simpa [startPass] using this
      intro id a hent
      have hent' : (insertNew li.Meta.GetRecordSize ⟨p.heap.length, 0⟩ p.newIndexes 0
          (resized st hint, st.minId)).1[id]? = some (some a) := by
        rw [hst] at hent
        exact hent
      rcases insertNew_entry _ _ _ _ _ _ _ _ hent' with ⟨_, hold⟩ | ⟨k, hk, hidk, ha⟩
      · have hpool : st'.stringPool = p.stringPool := by rw [hst]
        have hheap : st'.heap = (p.heap ++
            [some (temp.take (p.newRecords * li.Meta.GetRecordSize))]).set st.heap.length
              none := by rw [hst]
        rw [hpool, hheap]
        refine ((ho1 id a hold).transfer
          ((Frame.append (fun _ _ => False) _ _).sameBytes _ _ (fun _ _ _ hf => hf))
          (fun x hx => hx)).transfer (sameBytes_set_none (hbelow id a hold)) (fun x hx => hx)
      · rw [hids, newIds_eq_map] at hk hidk
        rw [List.length_map] at hk
        have hrow : (newRows li (resized st hint) rs.rows)[k]?
            = some ((newRows li (resized st hint) rs.rows)[k]) := List.getElem?_eq_getElem hk
        obtain ⟨dt, hdt, _, _, hpacked⟩ := hrows k _ hrow
        rw [hbuf] at hdt
        cases hdt
        rw [ha, Nat.zero_add]
        exact hpacked.owned_row (fun x hx => by rw [hnew]; exact List.mem_append_right _ hx)

/-- A row of `LoadStrings` keeps every record of the index table owned. -/
theorem loadStringsRow_owned {L : Layout} {li : DB2LoadInfo} {locale records : Nat}
    {tbl : List (Option Addr)} {fields : List Field} {s s' : StringsPass}
    (hfit : packedSize L li < 2 ^ 32) (hloc : locale < L.TOTAL_LOCALES)
    (hdis : RecordsDisjoint li.Meta.GetRecordSize tbl)
    (hbelow : EntriesBelow tbl s.heap.length)
    (ho : Owned L li tbl s.stringPool s.heap)
    (h : loadStringsRow L li locale records tbl fields s = .ok s') :
    Owned L li tbl s'.stringPool s'.heap := by
  obtain ⟨_, hcase⟩ := loadStringsRow_ok_cases h
  rcases hcase with ⟨_, hs'⟩ | ⟨_, _, hs'⟩ | ⟨hlt, a0, c, ha0, _, _, _⟩
  · rw [hs']
    exact ho
  · rw [hs']
    exact ho
  have hsize : packedSize L li = li.Meta.GetRecordSize := by
    have := (loadStringsRow_ok_schema hlt ha0 h).2
    rw [Nat.mod_eq_of_lt hfit] at this
    exact this
  obtain ⟨hfr, new, hnew⟩ := loadStringsRow_frame hfit h
  have hsub : ∀ x ∈ s.stringPool, x ∈ s'.stringPool := by
    intro x hx
    rw [hnew]
    exact List.mem_append_left _ hx
  intro id a hent k hk
  obtain ⟨hplain, hlocs⟩ := ho id a hent k hk
  obtain ⟨hin1, hin2⟩ := slot_in_record L li hk
  rw [hsize] at hin1 hin2
  have hge := idWidth_le_elemOffset L li k
  constructor
  · intro hty
    obtain ⟨h1, h2⟩ := hin1 hty
    refine (hplain hty).carry (fun v hv => hfr.fetch_eq hv (fun j hj1 hj2 => ?_)) hsub
    simp only [Addr.add_block, Addr.add_off] at hj1 hj2 ⊢
    exact not_patched hdis hsize hloc hent (by omega) (by omega)
      (elem_not_slot hloc (by rw [hty]; exact fun hcon => DBCFormer.noConfusion hcon)
        (by omega) (by omega))
  · intro hty i hi
    obtain ⟨h1, h2, h3⟩ := hin2 hty
    have h4 := h3 i hi
    by_cases hie : i = locale
    · subst hie
      by_cases hsame : tbl[localeRowId fields]? = some (some a)
      · obtain ⟨new', hnew', hempty, hnonempty⟩ :=
          loadStringsRow_slot hfit hi (hbelow id a hent) hlt hsame h k hk hty
        by_cases htext : (cellAt fields (textColumn li k)).GetStringView = []
        · exact (hlocs hty _ hi).carry (hempty htext) hsub
        · obtain ⟨b, hb1, _, hb3, _⟩ := hnonempty htext
          refine ⟨_, hb1, Or.inr ⟨_, ?_, rfl⟩⟩
          rw [hnew']
          exact List.mem_append_right _ hb3
      · refine (hlocs hty _ hi).carry (fun v hv => hfr.fetch_eq hv (fun j hj1 hj2 => ?_)) hsub
        rw [localeSlot_eq] at hj1 hj2 ⊢
        simp only [Addr.add_block, Addr.add_off] at hj1 hj2 ⊢
        rintro ⟨fields', hmem, a', _, ha', hslot⟩
        rw [List.mem_singleton] at hmem
        subst hmem
        have hid : localeRowId fields' ≠ id := by
          intro hcon
          rw [hcon] at hsame
          exact hsame hent
        obtain ⟨hb, k', hk', _, hlo', _, hhi'⟩ := LocaleSlots.bounds hi hslot
        have hin := elemOffset_le_packedSize L li (k := k' + 1) (by omega)
        rw [hsize] at hin
        rcases hdis _ _ _ _ hid ha' hent with hd | hd | hd
        · exact hd hb.symm
        · omega
        · omega
    · refine (hlocs hty i hi).carry (fun v hv => hfr.fetch_eq hv (fun j hj1 hj2 => ?_)) hsub
      rw [localeSlot_eq] at hj1 hj2 ⊢
      simp only [Addr.add_block, Addr.add_off] at hj1 hj2 ⊢
      exact not_patched hdis hsize hloc hent (by omega) (by omega)
        (other_slot_not_slot hloc hi hie hty (by omega) (by omega))

/-- The row loop of `LoadStrings` keeps every record of the index table owned. -/
theorem loadStringsRows_owned {L : Layout} {li : DB2LoadInfo} {locale records : Nat}
    {tbl : List (Option Addr)} (hfit : packedSize L li < 2 ^ 32)
    (hloc : locale < L.TOTAL_LOCALES)
    (hdis : RecordsDisjoint li.Meta.GetRecordSize tbl)
    (rows : List (List Field)) {s s' : StringsPass}
    (hbelow : EntriesBelow tbl s.heap.length)
    (ho : Owned L li tbl s.stringPool s.heap)
    (h : loadStringsRows L li locale records tbl rows s = .ok s') :
    Owned L li tbl s'.stringPool s'.heap := by
  induction rows generalizing s with
  | nil =>
    simp only [loadStringsRows] at h
    cases h
    exact ho
  | cons fields rest ih =>
    simp only [loadStringsRows] at h
    cases h1 : loadStringsRow L li locale records tbl fields s with
    | error e => rw [h1] at h; cases h
    | ok s1 =>
      rw [h1] at h
      have hlen := (loadStringsRow_frame hfit h1).1.1
      refine ih (fun id a hent => ?_) (loadStringsRow_owned hfit hloc hdis hbelow ho h1) h
      have := hbelow id a hent
      omega

/-- `LoadStrings` keeps the storage invariant and the string ownership
invariant. -/
theorem LoadStrings_owned {L : Layout} {li : DB2LoadInfo} {stringFields locale : Nat}
    {result : Option PreparedResultSet} {st st' : Storage} {log : List Nat}
    (hfit : packedSize L li < 2 ^ 32) (hloc : locale < L.TOTAL_LOCALES)
    (hinv : StoreInv li st) (ho : Owned L li st.indexTable st.stringPool st.heap)
    (h : LoadStrings L li stringFields locale result st = .ok (st', log)) :
    StoreInv li st' ∧ Owned L li st'.indexTable st'.stringPool st'.heap := by
  cases result with
  | none =>
    simp only [LoadStrings] at h
    cases h
    exact ⟨hinv, ho⟩
  | some ls =>
    by_cases hc : ls.GetFieldCount = stringFields + 1
    · obtain ⟨s, hs, hst, _⟩ := LoadStrings_ok_cases hc h
      have hlen := (loadStringsRows_frame hfit ls.rows hs).1.1
      have ho' := loadStringsRows_owned hfit hloc hinv.2 ls.rows hinv.1 ho hs
      rw [hst]
      refine ⟨⟨fun id a hent => ?_, hinv.2⟩, ho'⟩
      have := hinv.1 id a hent
      simp only at hlen ⊢
      omega
    · simp only [LoadStrings, ne_eq, hc, not_false_eq_true, if_true] at h
      cases h
      exact ⟨hinv, ho⟩

/-- Every call of a sequence keeps the storage invariant and the string ownership
invariant. -/
theorem runCalls_owned {L : Layout} {li : DB2LoadInfo}
    (hen : L.LOCALE_enUS < L.TOTAL_LOCALES) (hfit : packedSize L li < 2 ^ 32)
    (calls : List Call) {st0 st : Storage}
    (hloc : ∀ c ∈ calls, Call.localeOk L c = true)
    (hinv : StoreInv li st0) (ho : Owned L li st0.indexTable st0.stringPool st0.heap)
    (h : runCalls L li calls st0 = .ok st) :
    StoreInv li st ∧ Owned L li st.indexTable st.stringPool st.heap := by
  induction calls generalizing st0 with
  | nil =>
    simp only [runCalls] at h
    cases h
    exact ⟨hinv, ho⟩
  | cons c rest ih =>
    have hrest : ∀ c' ∈ rest, Call.localeOk L c' = true :=
      fun c' hc' => hloc c' (List.mem_cons_of_mem _ hc')
    cases c with
    | load result hint =>
      simp only [runCalls] at h
      cases h1 : Load L li result hint st0 with
      | error e => rw [h1] at h; cases h
      | ok r =>
        obtain ⟨buf, st1⟩ := r
        rw [h1] at h
        have hinv1 : StoreInv li st1 := by
          cases result with
          | none =>
            rw [Load_none] at h1
            cases h1
            exact hinv
          | some rs =>
            by_cases hc : li.Meta.GetDbFieldCount = rs.GetFieldCount
            · exact Load_preserves_StoreInv hen hfit hc hinv h1
            · rw [Load_mismatch L li rs hint st0 hc] at h1
              cases h1
              exact hinv
        exact ih hrest hinv1 (Load_owned hen hfit hinv ho h1) h
    | loadStrings stringFields locale result =>
      simp only [runCalls] at h
      cases h1 : LoadStrings L li stringFields locale result st0 with
      | error e => rw [h1] at h; cases h
      | ok r =>
        obtain ⟨st1, log⟩ := r
        rw [h1] at h
        have hl : locale < L.TOTAL_LOCALES := by
          have := hloc _ (List.mem_cons_self _ _)
          simpa [Call.localeOk] using this
        obtain ⟨hinv1, ho1⟩ := LoadStrings_owned hfit hl hinv ho h1
        exact ih hrest hinv1 ho1 h

/-- Claim C25. Starting from a storage with an empty index table, and so from the
empty table and pool in particular, after any sequence of `Load` and `LoadStrings` calls of one loader
that all return, every string slot of every record that an entry of the index
table points to holds the sentinel `nullStr` or the address of an entry of the
string pool: the slot of each `FT_STRING_NOT_LOCALIZED` element and each of the
`TOTAL_LOCALES` slots of each `FT_STRING` element. The packed record size fits
`uint32` and every locale passed to `LoadStrings` is below `TOTAL_LOCALES`. -/
theorem string_ownership_invariant (L : Layout) (li : DB2LoadInfo) (calls : List Call)
    (st0 st : Storage)
    (hen : L.LOCALE_enUS < L.TOTAL_LOCALES) (hfit : packedSize L li < 2 ^ 32)
    (hloc : ∀ c ∈ calls, Call.localeOk L c = true)
    (htable : st0.indexTable = [])
    (h : runCalls L li calls st0 = .ok st) :
    ∀ (id : Nat) (a : Addr), st.indexTable[id]? = some (some a) →
      ∀ k, k < totalElems li.Meta.Fields →
        (typeAt li (firstColumn li + k) = DBCFormer.FT_STRING_NOT_LOCALIZED →
          SlotOwned L st.stringPool st.heap (a.add (elemOffset L li k))) ∧
        (typeAt li (firstColumn li + k) = DBCFormer.FT_STRING →
          ∀ i, i < L.TOTAL_LOCALES →
            SlotOwned L st.stringPool st.heap (localeSlot L li i a k)) := by
  have hinv : StoreInv li st0 :=
    ⟨fun id a hent => by rw [htable] at hent; simp at hent,
      fun id1 id2 a1 a2 _ hent => by rw [htable] at hent; simp at hent⟩
  have ho : Owned L li st0.indexTable st0.stringPool st0.heap :=
    fun id a hent => by rw [htable] at hent; simp at hent
  exact (runCalls_owned hen hfit calls hloc hinv ho h).2

/-- The calls of the examples on an empty storage: a load, a frFR locale pass, a
load that overwrites the record of the ID 7 and a second frFR locale pass. After
them the frFR slot of the record of the ID 7 is owned; it refers to the pool
entry in block 6. -/
theorem string_ownership_invariant_witness :
    returns exampleRun = true ∧
    (okValue (emptyStorage 0) exampleRun).indexTable[7]? = some (some ⟨2, 0⟩) ∧
    (okValue (emptyStorage 0) exampleRun).stringPool = [⟨1, 0⟩, ⟨3, 0⟩, ⟨5, 0⟩, ⟨6, 0⟩] ∧
    fetch (okValue (emptyStorage 0) exampleRun).heap ⟨2, 20⟩ 8
      = some (ptrBytes 8 (CStr.heap ⟨6, 0⟩)) ∧
    SlotOwned layout64 (okValue (emptyStorage 0) exampleRun).stringPool
      (okValue (emptyStorage 0) exampleRun).heap
      (localeSlot layout64 localizedSchema LOCALE_frFR ⟨2, 0⟩ 0) :=
  ⟨by decide!, by decide!, by decide!, by decide!,
    (string_ownership_invariant layout64 localizedSchema exampleCalls
      (emptyStorage 4294967295) (okValue (emptyStorage 0) exampleRun)
      (by decide) (by decide) (by decide) rfl
      (okValue_eq_of_returns _ _ (by decide!)) 7 ⟨2, 0⟩ (by decide!) 0 (by decide)).2
      (by decide) LOCALE_frFR (by decide)⟩

/-! ### The frame of `Load` -/

/-- When the resize step grows the table, every position from the reported size on
is null in the table it leaves. -/
theorem resized_null_beyond {st : Storage} {hint : Option Field}
    (hgrow : targetSize st.records hint > st.records)
    (hle : st.records ≤ st.indexTable.length) {i : Nat}
    (hlo : st.records ≤ i) (hhi : i < targetSize st.records hint) :
    (resized st hint)[i]? = some none := by
  have hlen : (st.indexTable.take st.records).length = st.records := by
    rw [List.length_take, Nat.min_eq_left hle]
  unfold resized
  rw [if_pos hgrow, List.getElem?_append_right (by rw [hlen]; exact hlo), hlen,
    List.getElem?_replicate, if_pos (by omega)]

/-- Claim C31, amended. A call of `Load` that returns, on a storage whose index
entries point into live blocks and whose records do not overlap, leaves every
record of the table whose ID does not occur among the rows byte for byte as it
was, and leaves every index table entry below the reported size whose ID is not
new in this pass, that is, not the ID of a row whose entry was null, as it was;
when the rows are processed, an entry of an ID that is not new is the entry that
the resize step left, and that entry is null from the reported size on when the
table is grown. -/
theorem Load_frame_for_untouched_ids (L : Layout) (li : DB2LoadInfo)
    (result : Option PreparedResultSet) (hint : Option Field) (st : Storage)
    (buf : Option Addr) (st' : Storage)
    (hen : L.LOCALE_enUS < L.TOTAL_LOCALES) (hfit : packedSize L li < 2 ^ 32)
    (hinv : StoreInv li st)
    (h : Load L li result hint st = .ok (buf, st')) :
    (∀ (id : Nat) (a : Addr), st.indexTable[id]? = some (some a) →
      (∀ rs, result = some rs → ∀ fields ∈ rs.rows, rowId li fields ≠ id) →
      SameBytes st.heap a st'.heap a li.Meta.GetRecordSize) ∧
    (∀ (id : Nat), id < st.records →
      (∀ rs, result = some rs → id ∉ newIds li (resized st hint) rs.rows) →
      st'.indexTable[id]? = st.indexTable[id]?) ∧
    (∀ rs, result = some rs → li.Meta.GetDbFieldCount = rs.GetFieldCount →
      ∀ (id : Nat), id ∉ newIds li (resized st hint) rs.rows →
        st'.indexTable[id]? = (resized st hint)[id]?) ∧
    (∀ rs, result = some rs → li.Meta.GetDbFieldCount = rs.GetFieldCount →
      targetSize st.records hint > st.records →
      ∀ (id : Nat), st.records ≤ id → id < targetSize st.records hint →
        id ∉ newIds li (resized st hint) rs.rows → st'.indexTable[id]? = some none) := by
  cases result with
  | none =>
    rw [Load_none] at h
    cases h
    exact ⟨fun id a _ _ off n v _ hv => hv, fun id _ _ => rfl,
      fun rs hrs => (by cases hrs), fun rs hrs => (by cases hrs)⟩
  | some rs =>
    by_cases hc : li.Meta.GetDbFieldCount = rs.GetFieldCount
    swap
    · rw [Load_mismatch L li rs hint st hc] at h
      cases h
      exact ⟨fun id a _ _ off n v _ hv => hv, fun id _ _ => rfl,
        fun rs' hrs hc' => (by cases hrs; exact absurd hc' hc),
        fun rs' hrs hc' => (by cases hrs; exact absurd hc' hc)⟩
    obtain ⟨p, hres, hp, hcase⟩ := Load_ok_cases hc h
    have hnew := (loadRows_newIndexes rs.rows hp).2
    simp only [startPass, List.nil_append] at hnew
    have htable : ∀ (id : Nat), id ∉ newIds li (resized st hint) rs.rows →
        st'.indexTable[id]? = (resized st hint)[id]? := by
      intro id hid
      rcases hcase with ⟨_, _, hst⟩ | ⟨_, temp, _, _, hst⟩
      · rw [hst]
      · rw [hst]
        simp only
        rw [hnew]
        exact insertNew_other _ _ _ _ _ _ _ hid
    refine ⟨fun id a hent hnot => ?_, fun id hlt hid => ?_,
      fun rs' hrs _ id hid => (by cases hrs; exact htable id hid),
      fun rs' hrs _ hgrow id hlo hhi hid => by
        cases hrs
        rw [htable id hid]
        exact resized_null_beyond hgrow (resizeIndexTable_bound hres hgrow) hlo hhi⟩
    · refine (Load_frame hen hfit hc h).sameBytes _ _ (fun j hlo hhi => ?_)
      rintro ⟨fields, hf, a', ha', hb, hlo', hhi'⟩
      have hne := hnot rs rfl fields hf
      have hd := hinv.2 _ _ _ _ hne (resized_entry ha').1 hent
      omega
    · rw [htable id (hid rs rfl)]
      exact resized_keeps hint hlt (fun hgt => resizeIndexTable_bound hres hgt)

/-- After the example load, the load of two rows with the new ID 5 leaves the 16
bytes of the record of the ID 7, in block 2, and the entry of the ID 7 as they
were. -/
theorem Load_frame_for_untouched_ids_witness :
    returns dupLoad = true ∧
    fetch exampleStorage.heap ⟨2, 0⟩ 16
      = some (leBytes 4 7 ++ leBytes 4 42 ++ ptrBytes 8 (CStr.heap ⟨1, 0⟩)) ∧
    fetch (okValue (none, emptyStorage 0) dupLoad).2.heap ((Addr.mk 2 0).add 0) 16
      = some (leBytes 4 7 ++ leBytes 4 42 ++ ptrBytes 8 (CStr.heap ⟨1, 0⟩)) ∧
    (okValue (none, emptyStorage 0) dupLoad).2.indexTable[7]? = exampleStorage.indexTable[7]? :=
  have t := Load_frame_for_untouched_ids layout64 exampleSchema (some dupRows)
    (some (.int 8)) exampleStorage (okValue (none, emptyStorage 0) dupLoad).1
    (okValue (none, emptyStorage 0) dupLoad).2 (by decide) (by decide) exampleStorage_inv
    (okValue_of_returns (none, emptyStorage 0) dupLoad (by decide!))
  ⟨by decide!, by decide!,
    t.1 7 ⟨2, 0⟩ (by decide!)
      (fun rs hrs fields hf => by
        cases hrs
        have hrows : dupRows.rows
            = [[.int 5, .int 1, .string []], [.int 5, .int 2, .string hello]] := by decide
        rw [hrows] at hf
        simp only [List.mem_cons, List.mem_singleton, List.not_mem_nil, or_false] at hf
        rcases hf with rfl | rfl <;> decide)
      0 16 _ (by decide) (by decide!),
    t.2.1 7 (by decide!)
      (fun rs hrs => by
        cases hrs
        decide!)⟩

/-! ### The record of a present ID after a whole load -/

theorem rowsOf_cons (li : DB2LoadInfo) (id : Nat) (r : List Field) (rest : List (List Field)) :
    rowsOf li id (r :: rest)
      = (if rowId li r = id then [r] else []) ++ rowsOf li id rest := by
  unfold rowsOf
  by_cases hid : rowId li r = id
  · simp [hid]
  · simp [hid]

theorem packedTexts_cons (li : DB2LoadInfo) (id f : Nat) (r : List Field)
    (rest : List (List Field)) :
    packedTexts li id f (r :: rest)
      = (if rowId li r = id ∧ (cellAt r f).GetStringView ≠ [] then
          [(cellAt r f).GetStringView] else [])
        ++ packedTexts li id f rest := by
  unfold packedTexts
  rw [rowsOf_cons]
  by_cases hid : rowId li r = id
  · by_cases ht : (cellAt r f).GetStringView = []
    · simp [hid, ht]
    · simp [hid, ht]
  · simp [hid]

theorem SameBytes.trans_bytes {h1 h2 h3 : Heap} {a : Addr} {n : Nat}
    (h12 : SameBytes h1 a h2 a n) (h23 : SameBytes h2 a h3 a n) : SameBytes h1 a h3 a n :=
  fun off len v hle hv => h23 off len v hle (h12 off len v hle hv)

/-- A row of `Load` with another ID leaves the record of `id` as it is. -/
theorem loadRow_other {L : Layout} {li : DB2LoadInfo} {tbl : List (Option Addr)}
    {temp : Addr} {fields : List Field} {p p1 : Pass}
    (hen : L.LOCALE_enUS < L.TOTAL_LOCALES) (hfit : packedSize L li < 2 ^ 32)
    (hdis : RecordsDisjoint li.Meta.GetRecordSize tbl) (hbelow : EntriesBelow tbl temp.block)
    {id : Nat} {a : Addr} (ha : tbl[id]? = some (some a)) (hid : rowId li fields ≠ id)
    (h : loadRow L li tbl temp fields p = .ok p1) :
    SameBytes p.heap a p1.heap a li.Meta.GetRecordSize := by
  obtain ⟨_, hfr, _⟩ := loadRow_frame hen hfit h
  refine hfr.sameBytes _ _ (fun j hlo hhi => ?_)
  rintro ⟨hb, hlo', hhi'⟩
  rcases loadRow_entry h with hnew | ⟨a', hold⟩
  · rw [targetOf_new hnew] at hb
    have := hbelow _ _ ha
    simp only [Addr.add_block] at hb
    omega
  · rw [targetOf_old hold] at hb hlo' hhi'
    rcases hdis _ _ _ _ hid hold ha with h1 | h2 | h3
    · exact h1 hb.symm
    · omega
    · omega

/-- The rows of `Load` leave every block that is newer than the provisional
buffer as it is. -/
theorem loadRows_keepsBlocks {L : Layout} {li : DB2LoadInfo} {tbl : List (Option Addr)}
    {temp : Addr} (hen : L.LOCALE_enUS < L.TOTAL_LOCALES) (hfit : packedSize L li < 2 ^ 32)
    (hbelow : EntriesBelow tbl temp.block) (rows : List (List Field)) {p p1 : Pass} {lo : Nat}
    (hlo : temp.block < lo) (h : loadRows L li tbl temp rows p = .ok p1) :
    KeepsBlocks lo p.heap p1.heap := by
  obtain ⟨hfr, _⟩ := loadRows_frame hen hfit rows h
  refine hfr.keepsBlocks lo (fun b j hw => ?_)
  rcases hw with hb | ⟨fields, _, a', ha', hb, _, _⟩
  · omega
  · have := hbelow _ _ ha'
    omega

theorem OverwrittenBy.nil (L : Layout) (li : DB2LoadInfo) (id : Nat) (lo : Nat) (h : Heap)
    (a : Addr) : OverwrittenBy L li id [] [] lo h h a := by
  refine ⟨fun fields hf => ?_, fun k _ _ => ⟨fun t ht => ?_, fun _ v hv => hv,
    fun i _ _ v hv => hv⟩⟩
  · simp [rowsOf] at hf
  · simp [packedTexts, rowsOf] at ht

/-- The record of a present ID after the row loop of `Load`: it is unchanged when
no row has the ID, and otherwise it holds what the rows with the ID wrote, in row
order. -/
theorem loadRows_in_place {L : Layout} {li : DB2LoadInfo} {tbl : List (Option Addr)}
    {temp : Addr} (hen : L.LOCALE_enUS < L.TOTAL_LOCALES) (hfit : packedSize L li < 2 ^ 32)
    (hdis : RecordsDisjoint li.Meta.GetRecordSize tbl) (hbelow : EntriesBelow tbl temp.block)
    {id : Nat} {a : Addr} (ha : tbl[id]? = some (some a)) :
    ∀ (rows : List (List Field)) (p p1 : Pass), temp.block < p.heap.length →
      loadRows L li tbl temp rows p = .ok p1 →
      ∃ new, p1.stringPool = p.stringPool ++ new ∧
        (rowsOf li id rows = [] → SameBytes p.heap a p1.heap a li.Meta.GetRecordSize) ∧
        OverwrittenBy L li id rows new p.heap.length p.heap p1.heap a := by
  intro rows
  induction rows with
  | nil =>
    intro p p1 _ h
    simp only [loadRows] at h
    cases h
    exact ⟨[], by simp, fun _ off len v _ hv => hv, OverwrittenBy.nil L li id _ _ a⟩
  | cons r rest ih =>
    intro p p1 htemp h
    simp only [loadRows] at h
    cases h1 : loadRow L li tbl temp r p with
    | error e => rw [h1] at h; cases h
    | ok p2 =>
      rw [h1] at h
      obtain ⟨hsize, hfr1, new1, hp1⟩ := loadRow_frame hen hfit h1
      have hlen1 : p.heap.length ≤ p2.heap.length := hfr1.1
      obtain ⟨new2, hp2, hnone2, hov2⟩ := ih p2 p1 (by omega) h
      obtain ⟨hlast2, hstr2⟩ := hov2
      have hkeep : KeepsBlocks p.heap.length p2.heap p1.heap :=
        loadRows_keepsBlocks hen hfit hbelow rest htemp h
      have hlive : a.block < p.heap.length := by
        have := hbelow _ _ ha
        omega
      have hlater : ∀ {ty : DBCFormer} {cell : Field} {x : Addr},
          ElemPacked L new2 p2.heap.length p1.heap ty cell x →
          ElemPacked L (new1 ++ new2) p.heap.length p1.heap ty cell x :=
        fun hpk => (hpk.mono_lo hlen1).transfer_elem (fun off len v _ hv => hv)
          (fun b d _ hd => hd) (fun x hx => List.mem_append_right _ hx)
      refine ⟨new1 ++ new2, by rw [hp2, hp1, List.append_assoc], ?_, ?_⟩
      · intro hnil
        rw [rowsOf_cons] at hnil
        obtain ⟨hhead, hrest⟩ := List.append_eq_nil.mp hnil
        have hid : rowId li r ≠ id := by
          intro hcon
          rw [if_pos hcon] at hhead
          cases hhead
        exact (loadRow_other hen hfit hdis hbelow ha hid h1).trans_bytes (hnone2 hrest)
      · unfold OverwrittenBy
        by_cases hid : rowId li r = id
        · have har : tbl[rowId li r]? = some (some a) := by rw [hid]; exact ha
          obtain ⟨_, _, hidp, new1', hp1', helems⟩ :=
            loadRow_in_place L li tbl temp r p p2 a hen hfit hlive har h1
          have hnew : new1' = new1 := by
            have e : p.stringPool ++ new1' = p.stringPool ++ new1 := by rw [← hp1', hp1]
            exact List.append_cancel_left e
          rw [hnew] at helems
          constructor
          · intro fields hlast
            rw [rowsOf_cons, if_pos hid] at hlast
            by_cases hrest : rowsOf li id rest = []
            · rw [hrest] at hlast
              simp only [List.append_nil, List.getLast?_singleton, Option.some.injEq] at hlast
              subst hlast
              have hsame := hnone2 hrest
              refine ⟨fun hI => ?_, fun k hk hty => ?_⟩
              · have h4 := hidp hI
                rw [hid] at h4
                have hw : idWidth li = 4 := by simp [idWidth, hI]
                have hle : idWidth li ≤ packedSize L li := by unfold packedSize; omega
                exact hsame.fetch (by omega) h4
              · have hpk := (helems k hk).1 hty
                have hsucc := elemOffset_succ L li k
                have hin := elemOffset_le_packedSize L li (k := k + 1) (by omega)
                exact hpk.transfer_elem (hsame.shift _ _ (by omega)) hkeep
                  (fun x hx => List.mem_append_left _ hx)
            · rw [List.getLast?_append_of_ne_nil _ hrest] at hlast
              obtain ⟨hidp2, hel2⟩ := hlast2 fields hlast
              exact ⟨hidp2, fun k hk hty => hlater (hel2 k hk hty)⟩
          · intro k hk hty
            obtain ⟨hne1, he1, ho1⟩ := (helems k hk).2 hty
            obtain ⟨hL2, hE2, hO2⟩ := hstr2 k hk hty
            refine ⟨fun t ht => ?_, fun hnil v hv => ?_,
              fun i hi hne v hv => hO2 i hi hne v (ho1 i hi hne v hv)⟩
            · rw [packedTexts_cons] at ht
              by_cases hrest : packedTexts li id (firstColumn li + k) rest = []
              · rw [hrest, List.append_nil] at ht
                by_cases hcond : rowId li r = id ∧
                    (cellAt r (firstColumn li + k)).GetStringView ≠ []
                · rw [if_pos hcond] at ht
                  simp only [List.getLast?_singleton, Option.some.injEq] at ht
                  subst ht
                  obtain ⟨b, hb1, hb2, hb3, hb4⟩ := hne1 hcond.2
                  exact ⟨b, hE2 hrest _ hb1, hb2, List.mem_append_left _ hb3,
                    hkeep b _ hb2 hb4⟩
                · rw [if_neg hcond] at ht
                  simp at ht
              · rw [List.getLast?_append_of_ne_nil _ hrest] at ht
                obtain ⟨b, hb1, hb2, hb3, hb4⟩ := hL2 t ht
                exact ⟨b, hb1, Nat.le_trans hlen1 hb2, List.mem_append_right _ hb3, hb4⟩
            · rw [packedTexts_cons] at hnil
              obtain ⟨hhead, hrest⟩ := List.append_eq_nil.mp hnil
              have htext : (cellAt r (firstColumn li + k)).GetStringView = [] := by
                by_contra hne
                rw [if_pos ⟨hid, hne⟩] at hhead
                cases hhead
              exact hE2 hrest v (he1 htext v hv)
        · have hsame := loadRow_other hen hfit hdis hbelow ha hid h1
          constructor
          · intro fields hlast
            rw [rowsOf_cons, if_neg hid, List.nil_append] at hlast
            obtain ⟨hidp2, hel2⟩ := hlast2 fields hlast
            exact ⟨hidp2, fun k hk hty => hlater (hel2 k hk hty)⟩
          · intro k hk hty
            obtain ⟨hL2, hE2, hO2⟩ := hstr2 k hk hty
            have hsucc := elemOffset_succ L li k
            rw [hty] at hsucc
            simp only [width, Layout.sizeofLocalizedString] at hsucc
            have hin := elemOffset_le_packedSize L li (k := k + 1) (by omega)
            have hslot : ∀ i, i < L.TOTAL_LOCALES → ∀ v,
                fetch p.heap (localeSlot L li i a k) L.ptrSize = some v →
                fetch p2.heap (localeSlot L li i a k) L.ptrSize = some v := by
              intro i hi v hv
              have hmul : (i + 1) * L.ptrSize ≤ L.TOTAL_LOCALES * L.ptrSize :=
                Nat.mul_le_mul_right _ hi
              rw [Nat.succ_mul] at hmul
              rw [localeSlot_eq] at hv ⊢
              exact hsame _ _ _ (by omega) hv
            have hpt : packedTexts li id (firstColumn li + k) (r :: rest)
                = packedTexts li id (firstColumn li + k) rest := by
              rw [packedTexts_cons, if_neg (fun hc => hid hc.1), List.nil_append]
            rw [hpt]
            refine ⟨fun t ht => ?_, fun hnil v hv => hE2 hnil v (hslot _ hen v hv),
              fun i hi hne v hv => hO2 i hi hne v (hslot i hi v hv)⟩
            obtain ⟨b, hb1, hb2, hb3, hb4⟩ := hL2 t ht
            exact ⟨b, hb1, Nat.le_trans hlen1 hb2, List.mem_append_right _ hb3, hb4⟩

theorem OverwrittenBy.carry_over {L : Layout} {li : DB2LoadInfo} {id : Nat}
    {rows : List (List Field)} {new : List Addr} {lo lo' : Nat} {h0 h1 h2 h3 : Heap} {a : Addr}
    (ho : OverwrittenBy L li id rows new lo h1 h2 a) (hlo : lo' ≤ lo)
    (hbefore : ∀ x n v, fetch h0 x n = some v → fetch h1 x n = some v)
    (hafter : ∀ x n v, x.block = a.block → fetch h2 x n = some v → fetch h3 x n = some v)
    (hkeep : KeepsBlocks lo h2 h3) :
    OverwrittenBy L li id rows new lo' h0 h3 a := by
  obtain ⟨hlast, hstr⟩ := ho
  unfold OverwrittenBy
  constructor
  · intro fields hf
    obtain ⟨hid, hel⟩ := hlast fields hf
    refine ⟨fun hI => hafter _ _ _ rfl (hid hI), fun k hk hty => ?_⟩
    exact ((hel k hk hty).transfer_elem
      (fun off len v _ hv => hafter ((a.add (elemOffset L li k)).add off) len v rfl hv)
      hkeep (fun x hx => hx)).mono_lo hlo
  · intro k hk hty
    obtain ⟨hL, hE, hO⟩ := hstr k hk hty
    refine ⟨fun t ht => ?_, fun hnil v hv => hafter _ _ _ rfl (hE hnil v (hbefore _ _ _ hv)),
      fun i hi hne v hv => hafter _ _ _ rfl (hO i hi hne v (hbefore _ _ _ hv))⟩
    obtain ⟨b, hb1, hb2, hb3, hb4⟩ := hL t ht
    exact ⟨b, hafter _ _ _ rfl hb1, Nat.le_trans hlo hb2, hb3, hkeep b _ hb2 hb4⟩

theorem rowsOf_append (li : DB2LoadInfo) (id : Nat) (xs ys : List (List Field)) :
    rowsOf li id (xs ++ ys) = rowsOf li id xs ++ rowsOf li id ys := by
  unfold rowsOf
  rw [List.filter_append]

theorem rowsOf_none (li : DB2LoadInfo) (id : Nat) (rows : List (List Field))
    (h : ∀ r ∈ rows, rowId li r ≠ id) : rowsOf li id rows = [] := by
  unfold rowsOf
  rw [List.filter_eq_nil_iff]
  intro r hr
  simpa using h r hr

theorem packedTexts_append (li : DB2LoadInfo) (id f : Nat) (xs ys : List (List Field)) :
    packedTexts li id f (xs ++ ys) = packedTexts li id f xs ++ packedTexts li id f ys := by
  unfold packedTexts
  rw [rowsOf_append, List.map_append, List.filter_append]

theorem packedTexts_none (li : DB2LoadInfo) (id f : Nat) (rows : List (List Field))
    (h : ∀ r ∈ rows, rowId li r ≠ id) : packedTexts li id f rows = [] := by
  unfold packedTexts
  rw [rowsOf_none li id rows h]
  rfl

/-- What a `Load` that returns does with an ID that has the record `a` in the index
table that the row loop consults: the ID is not new, its entry is kept, the record
is unchanged when no row has the ID, and otherwise the rows with the ID are
written into the record in place, in row order. -/
theorem Load_in_place (L : Layout) (li : DB2LoadInfo) (rs : PreparedResultSet)
    (hint : Option Field) (st : Storage) (buf : Option Addr) (st' : Storage)
    (id : Nat) (a : Addr)
    (hen : L.LOCALE_enUS < L.TOTAL_LOCALES) (hfit : packedSize L li < 2 ^ 32)
    (hinv : StoreInv li st) (hc : li.Meta.GetDbFieldCount = rs.GetFieldCount)
    (ha : (resized st hint)[id]? = some (some a))
    (h : Load L li (some rs) hint st = .ok (buf, st')) :
    id ∉ newIds li (resized st hint) rs.rows ∧
    st'.indexTable[id]? = some (some a) ∧
    (rowsOf li id rs.rows = [] → SameBytes st.heap a st'.heap a li.Meta.GetRecordSize) ∧
    (∃ new, st'.stringPool = st.stringPool ++ new ∧
      OverwrittenBy L li id rs.rows new st.heap.length st.heap st'.heap a) ∧
    (∀ pre fields post, rs.rows = pre ++ fields :: post → rowId li fields = id →
      (∀ r ∈ post, rowId li r ≠ id) →
      (rowsOf li id rs.rows).getLast? = some fields ∧
      (∀ f, (cellAt fields f).GetStringView ≠ [] →
        (packedTexts li id f rs.rows).getLast? = some (cellAt fields f).GetStringView) ∧
      ((∀ r ∈ pre, rowId li r ≠ id) →
        ∀ f, (cellAt fields f).GetStringView = [] → packedTexts li id f rs.rows = [])) := by
  obtain ⟨p, hres, hp, hcase⟩ := Load_ok_cases hc h
  have hnotnew : id ∉ newIds li (resized st hint) rs.rows := by
    unfold newIds
    rw [List.mem_filter]
    rintro ⟨_, hnew⟩
    unfold isNewId at hnew
    rw [ha] at hnew
    simp at hnew
  have hdis : RecordsDisjoint li.Meta.GetRecordSize (resized st hint) :=
    RecordsDisjoint.sub_resized hint hinv.2
  have hbelow : EntriesBelow (resized st hint) (Addr.mk st.heap.length 0).block :=
    fun id' a' ha' => hinv.1 id' a' (resized_entry ha').1
  have hstart : (Addr.mk st.heap.length 0).block < (startPass li rs st).heap.length := by
    simp [startPass]
  obtain ⟨new, hpool, hnone, hov⟩ :=
    loadRows_in_place hen hfit hdis hbelow ha rs.rows _ p hstart hp
  have hlive : a.block < st.heap.length := hinv.1 id a (resized_entry ha).1
  have hlo' : (startPass li rs st).heap.length = st.heap.length + 1 := by
    simp [startPass]
  have hlo : st.heap.length ≤ (startPass li rs st).heap.length := by omega
  have hlen : (startPass li rs st).heap.length ≤ p.heap.length :=
    loadRows_heap_length hen hfit rs.rows hp
  have hbefore : ∀ x n v, fetch st.heap x n = some v →
      fetch (startPass li rs st).heap x n = some v := by
    intro x n v hv
    exact (Frame.append (fun _ _ => False) st.heap _).fetch_eq hv (fun j _ _ hw => hw)
  have hnew := (loadRows_newIndexes rs.rows hp).2
  simp only [startPass, List.nil_append] at hnew
  have hlists : ∀ pre fields post, rs.rows = pre ++ fields :: post → rowId li fields = id →
      (∀ r ∈ post, rowId li r ≠ id) →
      (rowsOf li id rs.rows).getLast? = some fields ∧
      (∀ f, (cellAt fields f).GetStringView ≠ [] →
        (packedTexts li id f rs.rows).getLast? = some (cellAt fields f).GetStringView) ∧
      ((∀ r ∈ pre, rowId li r ≠ id) →
        ∀ f, (cellAt fields f).GetStringView = [] → packedTexts li id f rs.rows = []) := by
    intro pre fields post hrows hid hpost
    refine ⟨?_, fun f hne => ?_, fun hpre f he => ?_⟩
    · rw [hrows, rowsOf_append, rowsOf_cons, if_pos hid, rowsOf_none li id post hpost,
        List.append_nil, List.getLast?_append_of_ne_nil _ (List.cons_ne_nil _ _)]
      rfl
    · rw [hrows, packedTexts_append, packedTexts_cons, if_pos ⟨hid, hne⟩,
        packedTexts_none li id f post hpost, List.append_nil,
        List.getLast?_append_of_ne_nil _ (List.cons_ne_nil _ _)]
      rfl
    · rw [hrows, packedTexts_append, packedTexts_cons, if_neg (fun hcon => hcon.2 he),
        packedTexts_none li id f pre hpre, packedTexts_none li id f post hpost]
      rfl
  rcases hcase with ⟨_, _, hst⟩ | ⟨_, temp, _, _, hst⟩
  · have hheap : st'.heap = p.heap.set st.heap.length none := by rw [hst]
    have hpool' : st'.stringPool = p.stringPool := by rw [hst]
    have hafter : ∀ x n v, x.block = a.block → fetch p.heap x n = some v →
        fetch st'.heap x n = some v := by
      intro x n v hx hv
      rw [hheap, fetch_set_other (by omega)]
      exact hv
    have hkeep : KeepsBlocks (startPass li rs st).heap.length p.heap st'.heap := by
      intro b d hb hd
      have hb' : st.heap.length ≠ b := by omega
      rw [hheap, List.getElem?_set_ne hb']
      exact hd
    refine ⟨hnotnew, by rw [hst]; exact ha, fun hnil off len v hle hv => ?_,
      ⟨new, by rw [hpool', hpool]; rfl, hov.carry_over hlo hbefore hafter hkeep⟩, hlists⟩
    exact hafter _ _ _ rfl (hnone hnil off len v hle (hbefore _ _ _ hv))
  · have hheap : st'.heap = (p.heap ++ [some (temp.take (p.newRecords *
        li.Meta.GetRecordSize))]).set st.heap.length none := by rw [hst]
    have hpool' : st'.stringPool = p.stringPool := by rw [hst]
    have hafter : ∀ x n v, x.block = a.block → fetch p.heap x n = some v →
        fetch st'.heap x n = some v := by
      intro x n v hx hv
      rw [hheap, fetch_set_other (by omega)]
      exact (Frame.append (fun _ _ => False) p.heap _).fetch_eq hv (fun j _ _ hw => hw)
    have hkeep : KeepsBlocks (startPass li rs st).heap.length p.heap st'.heap := by
      intro b d hb hd
      have hb' : st.heap.length ≠ b := by omega
      rw [hheap, List.getElem?_set_ne hb']
      exact (Frame.append (fun _ _ => False) p.heap _).block_eq hd (fun j hw => hw)
    refine ⟨hnotnew, ?_, fun hnil off len v hle hv => ?_,
      ⟨new, by rw [hpool', hpool]; rfl, hov.carry_over hlo hbefore hafter hkeep⟩, hlists⟩
    · rw [hst]
      simp only
      rw [hnew]
      exact insertNew_keeps _ _ _ _ ha
    · exact hafter _ _ _ rfl (hnone hnil off len v hle (hbefore _ _ _ hv))

/-- Claim C2, as amended. After a load L1 and a second load L2 on a storage that
satisfies the storage invariant, every ID below the size reported after L1 that
is present after L1 is still present after L2, below the reported size and with
the same record address. When the ID does not occur among the rows of L2 its
record is byte for byte what it was after L1; the rows of L2 with the ID are not
discarded but written into the record in place, in row order. -/
theorem Load_keeps_records_of_other_ids (L : Layout) (li : DB2LoadInfo)
    (rs1 rs2 : PreparedResultSet) (hint1 hint2 : Option Field) (st0 st1 st2 : Storage)
    (buf1 buf2 : Option Addr) (id : Nat) (a : Addr)
    (hen : L.LOCALE_enUS < L.TOTAL_LOCALES) (hfit : packedSize L li < 2 ^ 32)
    (hinv : StoreInv li st0)
    (hc1 : li.Meta.GetDbFieldCount = rs1.GetFieldCount)
    (hc2 : li.Meta.GetDbFieldCount = rs2.GetFieldCount)
    (h1 : Load L li (some rs1) hint1 st0 = .ok (buf1, st1))
    (h2 : Load L li (some rs2) hint2 st1 = .ok (buf2, st2))
    (hlt : id < st1.records) (hpres : st1.indexTable[id]? = some (some a)) :
    (id < st2.records ∧ st2.indexTable[id]? = some (some a)) ∧
    ((∀ fields ∈ rs2.rows, rowId li fields ≠ id) →
      ∀ v, fetch st1.heap a li.Meta.GetRecordSize = some v →
        fetch st2.heap a li.Meta.GetRecordSize = some v) ∧
    (∃ new, st2.stringPool = st1.stringPool ++ new ∧
      OverwrittenBy L li id rs2.rows new st1.heap.length st1.heap st2.heap a) := by
  have hinv1 := Load_preserves_StoreInv hen hfit hc1 hinv h1
  have hrec := Load_records_le h2
  obtain ⟨p, hres, _, _⟩ := Load_ok_cases hc2 h2
  have hkeep : (resized st1 hint2)[id]? = some (some a) := by
    rw [resized_keeps hint2 hlt (fun hgt => resizeIndexTable_bound hres hgt)]
    exact hpres
  obtain ⟨_, hentry, hnone, hover, _⟩ :=
    Load_in_place L li rs2 hint2 st1 buf2 st2 id a hen hfit hinv1 hc2 hkeep h2
  refine ⟨⟨by omega, hentry⟩, fun hnot v hv => ?_, hover⟩
  have hsame := hnone (rowsOf_none li id rs2.rows hnot)
  exact hsame.fetch (Nat.le_refl _) hv

/-- After the example load of ID 7, a load of a row with ID 5 leaves the record
of ID 7 at block 2 as it was. -/
theorem Load_keeps_records_of_other_ids_witness :
    exampleStorage.indexTable[7]? = some (some ⟨2, 0⟩) ∧
    (okValue (none, emptyStorage 0) otherLoad).2.indexTable[5]? = some (some ⟨4, 0⟩) ∧
    (7 < (okValue (none, emptyStorage 0) otherLoad).2.records ∧
      (okValue (none, emptyStorage 0) otherLoad).2.indexTable[7]? = some (some ⟨2, 0⟩)) ∧
    (∀ v, fetch exampleStorage.heap ⟨2, 0⟩ exampleSchema.Meta.GetRecordSize = some v →
      fetch (okValue (none, emptyStorage 0) otherLoad).2.heap ⟨2, 0⟩
        exampleSchema.Meta.GetRecordSize = some v) :=
  have t := Load_keeps_records_of_other_ids layout64 exampleSchema exampleRows otherRows
    (some (.int 8)) (some (.int 8)) (emptyStorage 4294967295) exampleStorage
    (okValue (none, emptyStorage 0) otherLoad).2
    (okValue (none, emptyStorage 0) exampleLoad).1
    (okValue (none, emptyStorage 0) otherLoad).1 7 ⟨2, 0⟩
    (by decide) (by decide) (StoreInv_empty _ _) (by decide) (by decide)
    (okValue_of_returns (none, emptyStorage 0) exampleLoad (by decide!))
    (okValue_of_returns (none, emptyStorage 0) otherLoad (by decide!))
    (by decide!) (by decide!)
  ⟨by decide!, by decide!, t.1, t.2.1 (by decide)⟩

/-! ### Entries beyond the reported size -/

/-- Claim C18 fails as stated. After the load that grew the table of the example to
10 entries without a new row, the reported size is still 8; a load without a
max-ID hint of a row with the ID 9 then populates the entry 9, inside the table
and not below the reported size. A following load with the max-ID hint 12 grows
the table: the growth step copies the first 8 entries only, and the entry 9,
populated before the call, is null after it, while the entry 7 is kept. -/
theorem Load_drops_entry_beyond_reported_size :
    returns grownNoNewLoad = true ∧ returns beyondLoad = true ∧
    beyondStorage.records = 8 ∧ beyondStorage.indexTable.length = 10 ∧
    beyondStorage.indexTable[9]? = some (some ⟨6, 0⟩) ∧
    beyondStorage.indexTable[7]? = some (some ⟨2, 0⟩) ∧
    returns regrownLoad = true ∧
    (okValue (none, emptyStorage 0) regrownLoad).2.indexTable.length = 12 ∧
    (okValue (none, emptyStorage 0) regrownLoad).2.indexTable[9]? = some none ∧
    (okValue (none, emptyStorage 0) regrownLoad).2.indexTable[7]? = some (some ⟨2, 0⟩) := by
  refine ⟨by decide!, by decide!, by decide!, by decide!, by decide!, by decide!, by decide!,
    by decide!, by decide!, by decide!⟩

/-- Claim C31 fails as stated. In the storage whose entry 9 is populated while the
reported size is 8, a load with the max-ID hint 12 of a row with the present ID 7
has no row with the ID 9 and no new ID at all; it returns no buffer, and the
entry of the ID 9 is null after the call: the growth step copied the first 8
entries only. -/
theorem Load_resets_entry_of_absent_id :
    beyondStorage.records = 8 ∧
    beyondStorage.indexTable[9]? = some (some ⟨6, 0⟩) ∧
    (∀ fields ∈ overwriteRows.rows, rowId exampleSchema fields ≠ 9) ∧
    newIds exampleSchema (resized beyondStorage (some (.int 12))) overwriteRows.rows = [] ∧
    returns regrownNoNewLoad = true ∧
    (okValue (some ⟨0, 0⟩, emptyStorage 0) regrownNoNewLoad).1 = none ∧
    (okValue (none, emptyStorage 0) regrownNoNewLoad).2.indexTable[9]? = some none ∧
    (okValue (none, emptyStorage 0) regrownNoNewLoad).2.indexTable[9]?
      ≠ beyondStorage.indexTable[9]? := by
  refine ⟨by decide!, by decide!, by decide!, by decide!, by decide!, by decide!, by decide!,
    by decide!⟩

/-! ### The column-count check comes before the fatal checks -/

/-- Claim C12 fails as stated. With the schema whose packed size, 16, differs from
its record size, 20, a result of one row with two columns, one less than the
schema has, makes `Load` return null with the storage unchanged: the column-count
check returns before any row is packed, and nothing aborts. -/
theorem Load_mismatch_returns_on_column_count :
    packedSize layout64 mismatchSchema = 16 ∧ mismatchSchema.Meta.GetRecordSize = 20 ∧
    mismatchSchema.Meta.GetDbFieldCount = 3 ∧ shortRows.GetFieldCount = 2 ∧
    shortRows.GetRowCount = 1 ∧
    shortMismatchLoad = .ok (none, emptyStorage 4294967295) := by
  refine ⟨by decide, by decide, by decide, by decide, by decide, by decide!⟩

/-- Claim C13 fails as stated. With the schema whose third column has the unknown
format character 'x', `Load` on a result of one row with two columns returns null
and leaves the storage unchanged; `LoadStrings` on a result of two columns, where
the schema has no localized string, returns without a change although its row
has the present ID 7; and `LoadStrings` on a result with the right number of
columns skips the row of the ID 9, whose entry is populated at a position that is
not below the reported size 8. None of the three calls aborts. -/
theorem unknown_type_returns_on_column_count :
    typeAt unknownSchema 2 = DBCFormer.other 120 ∧
    unknownSchema.Meta.GetDbFieldCount = 3 ∧ shortRows.GetFieldCount = 2 ∧
    shortUnknownLoad = .ok (none, emptyStorage 4294967295) ∧
    exampleStorage.indexTable[7]? = some (some ⟨2, 0⟩) ∧ exampleStorage.records = 8 ∧
    wideUnknownPatch = .ok (exampleStorage, []) ∧
    beyondStorage.indexTable[9]? = some (some ⟨6, 0⟩) ∧ beyondStorage.records = 8 ∧
    beyondUnknownPatch = .ok (beyondStorage, []) := by
  refine ⟨by decide, by decide, by decide, by decide!, by decide!, by decide!, by decide!,
    by decide!, by decide!, by decide!⟩

end DB2DatabaseLoader

namespace Util

/-! ## Theorems about `Util.cpp` -/

/-! ### `Tokenize` -/

theorem findFrom_none {sep : Char} {rest : List Char} {pos : Nat}
    (h : findFrom sep rest pos = none) : sep ∉ rest := by
  induction rest generalizing pos with
  | nil => simp
  | cons c rest ih =>
    simp only [findFrom] at h
    split at h
    · cases h
    · rename_i hne
      simp only [List.mem_cons, not_or]
      exact ⟨fun hcon => hne hcon.symm, ih h⟩

theorem findFrom_some {sep : Char} {rest : List Char} {pos e : Nat}
    (h : findFrom sep rest pos = some e) :
    ∃ pre post, rest = pre ++ sep :: post ∧ sep ∉ pre ∧ e = pos + pre.length := by
  induction rest generalizing pos with
  | nil => simp [findFrom] at h
  | cons c rest ih =>
    simp only [findFrom] at h
    split at h
    · rename_i heq
      cases h
      exact ⟨[], rest, by rw [heq]; rfl, by simp, rfl⟩
    · rename_i hne
      obtain ⟨pre, post, hrest, hpre, he⟩ := ih h
      refine ⟨c :: pre, post, by rw [hrest]; rfl, ?_, by rw [he, List.length_cons]; omega⟩
      simp only [List.mem_cons, not_or]
      exact ⟨fun hcon => hne hcon.symm, hpre⟩

theorem intercalate_cons_cons (sep x y : List Char) (rest : List (List Char)) :
    List.intercalate sep (x :: y :: rest) = x ++ sep ++ List.intercalate sep (y :: rest) := by
  simp [List.intercalate, List.intersperse]

/-- What the loop of `Tokenize` returns from the position `start` on, with enough
steps left: the tokens of the rest of the string, which are one more than the
separators in it, contain no separator and give back the rest when joined with
the separator; without `keepEmpty` the empty ones among them are left out. -/
theorem tokenizeLoop_spec (str : List Char) (sep : Char) :
    ∀ (n start : Nat), start ≤ str.length → (str.drop start).count sep = n →
    ∃ new : List (List Char), new.length = n + 1 ∧
      (∀ t ∈ new, sep ∉ t) ∧ List.intercalate [sep] new = str.drop start ∧
      ∀ fuel, n < fuel →
        (∀ tokens, tokenizeLoop str sep true fuel start tokens = .ok (tokens ++ new)) ∧
        (∀ tokens, tokenizeLoop str sep false fuel start tokens
          = .ok (tokens ++ new.filter (fun t => decide (t ≠ [])))) := by
  intro n
  induction n with
  | zero =>
    intro start hstart hcount
    have hnot : sep ∉ str.drop start := List.count_eq_zero.mp hcount
    have hfind : find str sep start = none := by
      cases hf : find str sep start with
      | none => rfl
      | some e =>
        obtain ⟨pre, post, hrest, _, _⟩ := findFrom_some hf
        rw [hrest] at hnot
        simp at hnot
    refine ⟨[str.drop start], rfl, ?_, by simp [List.intercalate], fun fuel hfuel => ?_⟩
    · intro t ht
      rw [List.mem_singleton] at ht
      rw [ht]
      exact hnot
    obtain ⟨fuel, rfl⟩ : ∃ k, fuel = k + 1 := ⟨fuel - 1, by omega⟩
    constructor
    · intro tokens
      simp only [tokenizeLoop, hfind, Bool.true_or, if_true]
    · intro tokens
      simp only [tokenizeLoop, hfind, Bool.false_or]
      by_cases hlt : start < str.length
      · have hne : str.drop start ≠ [] := by
          intro hcon
          have := congrArg List.length hcon
          rw [List.length_drop] at this
          simp only [List.length_nil] at this
          omega
        simp [hlt, hne]
      · have he : str.drop start = [] := List.drop_eq_nil_of_le (by omega)
        simp [hlt, he]
  | succ n ih =>
    intro start hstart hcount
    cases hfind : find str sep start with
    | none =>
      have hnot : sep ∉ str.drop start := findFrom_none hfind
      rw [List.count_eq_zero_of_not_mem hnot] at hcount
      omega
    | some e =>
      obtain ⟨pre, post, hrest, hpre, he⟩ := findFrom_some hfind
      have hlen : (str.drop start).length = pre.length + (post.length + 1) := by
        rw [hrest, List.length_append, List.length_cons]
      rw [List.length_drop] at hlen
      have hsub : substr str start (e - start) = pre := by
        unfold substr
        rw [hrest, he, Nat.add_sub_cancel_left, List.take_left]
      have hpost : str.drop (e + 1) = post := by
        have e1 : e + 1 = start + (pre.length + 1) := by omega
        rw [e1, ← List.drop_drop, hrest]
        have e2 : pre ++ sep :: post = (pre ++ [sep]) ++ post := by simp
        rw [e2]
        have e3 : pre.length + 1 = (pre ++ [sep]).length := by simp
        rw [e3, List.drop_left]
      have hcount' : post.count sep = n := by
        rw [hrest, List.count_append, List.count_cons_self,
          List.count_eq_zero_of_not_mem hpre] at hcount
        omega
      obtain ⟨new, hn1, hn2, hn3, hn4⟩ := ih (e + 1) (by omega) (by rw [hpost]; exact hcount')
      rw [hpost] at hn3
      have hnew : new ≠ [] := by
        intro hcon
        rw [hcon] at hn1
        simp at hn1
      obtain ⟨y, ys, hys⟩ := List.exists_cons_of_ne_nil hnew
      have hlt : start < e ↔ pre ≠ [] := by
        rw [he]
        constructor
        · intro h hcon
          rw [hcon] at h
          simp at h
        · intro h
          have := List.length_pos.mpr h
          omega
      refine ⟨pre :: new, by rw [List.length_cons, hn1], ?_, ?_, fun fuel hfuel => ?_⟩
      · intro t ht
        rw [List.mem_cons] at ht
        rcases ht with rfl | ht
        · exact hpre
        · exact hn2 t ht
      · rw [hys, intercalate_cons_cons, ← hys, hn3, hrest]
        simp
      obtain ⟨fuel, rfl⟩ : ∃ k, fuel = k + 1 := ⟨fuel - 1, by omega⟩
      obtain ⟨hn4t, hn4f⟩ := hn4 fuel (by omega)
      constructor
      · intro tokens
        simp only [tokenizeLoop, hfind, Bool.true_or, if_true, hsub]
        rw [hn4t]
        simp
      · intro tokens
        simp only [tokenizeLoop, hfind, Bool.false_or, hsub]
        rw [hn4f]
        by_cases hp : pre = []
        · have hnlt : ¬ start < e := fun h => (hlt.mp h) hp
          simp [hnlt, hp]
        · have hl : start < e := hlt.mpr hp
          simp [hl, hp]

/-- Claim C34. For every string and separator, `Tokenize` with `keepEmpty` returns
one token more than the string has occurrences of the separator; no token contains
the separator, and the tokens joined with the separator are the string. Without
`keepEmpty` it returns exactly that list without its empty tokens, in the same
order. Both results are those of the loop on any larger count of steps. -/
theorem Tokenize_splits_losslessly (str : List Char) (sep : Char) :
    ∃ tokens : List (List Char),
      Tokenize str sep true = .ok tokens ∧
      tokens.length = str.count sep + 1 ∧
      (∀ t ∈ tokens, sep ∉ t) ∧
      List.intercalate [sep] tokens = str ∧
      Tokenize str sep false = .ok (tokens.filter (fun t => decide (t ≠ []))) ∧
      ∀ (keepEmpty : Bool) (fuel : Nat), str.length + 1 ≤ fuel →
        tokenizeLoop str sep keepEmpty fuel 0 [] = Tokenize str sep keepEmpty := by
  have hcount : str.count sep < str.length + 1 := by
    have := List.count_le_length sep str
    omega
  obtain ⟨new, h1, h2, h3, h4⟩ := tokenizeLoop_spec str sep (str.count sep) 0
    (Nat.zero_le _) (by rw [List.drop_zero])
  simp only [List.drop_zero] at h3
  obtain ⟨h4t, h4f⟩ := h4 (str.length + 1) hcount
  refine ⟨new, by unfold Tokenize; rw [h4t]; simp, h1, h2, h3,
    by unfold Tokenize; rw [h4f]; simp, fun keepEmpty fuel hfuel => ?_⟩
  obtain ⟨g4t, g4f⟩ := h4 fuel (by omega)
  unfold Tokenize
  cases keepEmpty with
  | true => rw [g4t, h4t]
  | false => rw [g4f, h4f]

/-- The string "a  b" has two spaces: three tokens, of which the second is
empty. -/
theorem Tokenize_splits_losslessly_witness :
    Tokenize "a  b".toList ' ' true = .ok ["a".toList, [], "b".toList] ∧
    Tokenize "a  b".toList ' ' false = .ok ["a".toList, "b".toList] ∧
    ∃ tokens : List (List Char),
      Tokenize "a  b".toList ' ' true = .ok tokens ∧
      tokens.length = ("a  b".toList).count ' ' + 1 ∧
      (∀ t ∈ tokens, ' ' ∉ t) ∧
      List.intercalate [' '] tokens = "a  b".toList ∧
      Tokenize "a  b".toList ' ' false = .ok (tokens.filter (fun t => decide (t ≠ []))) ∧
      ∀ (keepEmpty : Bool) (fuel : Nat), ("a  b".toList).length + 1 ≤ fuel →
        tokenizeLoop "a  b".toList ' ' keepEmpty fuel 0 []
          = Tokenize "a  b".toList ' ' keepEmpty :=
  ⟨by decide, by decide, Tokenize_splits_losslessly "a  b".toList ' '⟩

/-! ### Time strings -/

theorem digitChar_isDigit (k : Nat) (hk : k < 10) :
    (Nat.digitChar k).isDigit = true ∧ (Nat.digitChar k).toNat - '0'.toNat = k := by
  interval_cases k <;> decide

/-- The loop of `TimeStringToSecs` over one more decimal digit. -/
theorem timeLoop_digit (k : Nat) (hk : k < 10) (rest : List Char) (secs b multiplier : Nat) :
    timeLoop (Nat.digitChar k :: rest) secs (b % 2 ^ 32) multiplier
      = timeLoop rest secs ((b * 10 + k) % 2 ^ 32) multiplier := by
  obtain ⟨h1, h2⟩ := digitChar_isDigit k hk
  simp only [timeLoop, h1, if_true, h2]
  congr 1
  omega

/-- The loop of `TimeStringToSecs` over the decimal numeral of `n`, as
`Nat.toDigitsCore` builds it: the buffer receives the digits of `n`. -/
theorem timeLoop_toDigitsCore :
    ∀ (fuel n : Nat) (acc : List Char), n < fuel →
    ∃ ds, Nat.toDigitsCore 10 fuel n acc = ds ++ acc ∧ ds ≠ [] ∧
      ∀ (rest : List Char) (secs b multiplier : Nat),
        timeLoop (ds ++ rest) secs (b % 2 ^ 32) multiplier
          = timeLoop rest secs ((b * 10 ^ ds.length + n) % 2 ^ 32) multiplier := by
  intro fuel
  induction fuel with
  | zero => intro n acc h; omega
  | succ fuel ih =>
    intro n acc hn
    simp only [Nat.toDigitsCore]
    by_cases hq : n / 10 = 0
    · rw [if_pos hq]
      refine ⟨[Nat.digitChar (n % 10)], rfl, by simp, fun rest secs b multiplier => ?_⟩
      have hmod : n % 10 = n := by omega
      simp only [List.singleton_append, List.length_singleton, pow_one]
      rw [timeLoop_digit _ (Nat.mod_lt _ (by decide)), hmod]
    · rw [if_neg hq]
      obtain ⟨ds, hds, _, hloop⟩ := ih (n / 10) (Nat.digitChar (n % 10) :: acc) (by omega)
      refine ⟨ds ++ [Nat.digitChar (n % 10)], by rw [hds]; simp, by simp,
        fun rest secs b multiplier => ?_⟩
      have e : (b * 10 ^ ds.length + n / 10) * 10 + n % 10
          = b * 10 ^ (ds.length + 1) + n := by
        rw [Nat.pow_succ, ← Nat.mul_assoc]
        omega
      rw [List.append_assoc, hloop, List.singleton_append,
        timeLoop_digit _ (Nat.mod_lt _ (by decide)), List.length_append,
        List.length_singleton, e]

/-- The loop of `TimeStringToSecs` over a decimal numeral followed by a unit
character: the value times the multiplier of the unit is added to `secs`. -/
theorem timeLoop_piece (v m : Nat) (u : Char) (hu : timeUnit u = some m)
    (hnd : u.isDigit = false) (rest : List Char) (secs multiplier : Nat) :
    timeLoop (fmtDecimal v ++ u :: rest) secs 0 multiplier
      = timeLoop rest ((secs + v % 2 ^ 32 * m % 2 ^ 32) % 2 ^ 32) 0 m := by
  obtain ⟨ds, hds, _, hloop⟩ := timeLoop_toDigitsCore (v + 1) v [] (Nat.lt_succ_self v)
  have hfmt : fmtDecimal v = ds := by
    unfold fmtDecimal Nat.toDigits
    rw [hds, List.append_nil]
  have h0 : (0 : Nat) = 0 % 2 ^ 32 := rfl
  rw [hfmt]
  conv_lhs => rw [h0]
  rw [hloop]
  simp only [timeLoop, hnd, hu, Nat.zero_mul, Nat.zero_add]
  rfl

theorem fmtDecimal_ne_nil (v : Nat) : fmtDecimal v ≠ [] := by
  obtain ⟨ds, hds, hne, _⟩ := timeLoop_toDigitsCore (v + 1) v [] (Nat.lt_succ_self v)
  unfold fmtDecimal Nat.toDigits
  rw [hds, List.append_nil]
  exact hne

/-- The result of `TimeStringToSecs` does not depend on the initial value of
`multiplier`, which is assigned before it is used. -/
theorem timeLoop_multiplier (rest : List Char) (secs buffer m1 m2 : Nat) :
    timeLoop rest secs buffer m1 = timeLoop rest secs buffer m2 := by
  induction rest generalizing secs buffer m1 m2 with
  | nil => rfl
  | cons c rest ih =>
    simp only [timeLoop]
    split
    · exact ih _ _ _ _
    · rfl

/-- The loop of `TimeStringToSecs` over a part that `secsToTimeString` writes only
for a value that is not 0: in both cases the value times the multiplier of the
unit is added to `secs`. -/
theorem timeLoop_optional (v m : Nat) (u : Char) (hu : timeUnit u = some m)
    (hnd : u.isDigit = false) (rest : List Char) (secs : Nat) (hs : secs < 2 ^ 32) :
    timeLoop ((if v ≠ 0 then fmtDecimal v ++ [u] else []) ++ rest) secs 0 0
      = timeLoop rest ((secs + v % 2 ^ 32 * m % 2 ^ 32) % 2 ^ 32) 0 0 := by
  by_cases hv : v = 0
  · subst hv
    simp only [ne_eq, not_true_eq_false, if_false, List.nil_append, Nat.zero_mod, Nat.zero_mul,
      Nat.add_zero]
    rw [Nat.mod_eq_of_lt hs]
  · rw [if_pos hv, List.append_assoc, List.singleton_append, timeLoop_piece v m u hu hnd]
    exact timeLoop_multiplier _ _ _ _ _

/-- The short text of `secsToTimeString` without `hoursOnly`: the parts for the
days, hours and minutes that are not 0, and then the part for the seconds, which
is left out only when the seconds are 0. -/
theorem shortText_shape (t : Nat) :
    ∃ X, (X = fmtDecimal (t % MINUTE) ++ ['s'] ∨ (X = [] ∧ t % MINUTE = 0)) ∧
      secsToTimeString t TimeFormat.ShortText false =
        (if t / DAY ≠ 0 then fmtDecimal (t / DAY) ++ ['d'] else []) ++
        ((if t % DAY / HOUR ≠ 0 then fmtDecimal (t % DAY / HOUR) ++ ['h'] else []) ++
        ((if t % HOUR / MINUTE ≠ 0 then fmtDecimal (t % HOUR / MINUTE) ++ ['m'] else [])
          ++ X)) := by
  refine ⟨if t % MINUTE ≠ 0 ∨ (t / DAY = 0 ∧ t % DAY / HOUR = 0 ∧ t % HOUR / MINUTE = 0) then
    fmtDecimal (t % MINUTE) ++ ['s'] else [], ?_, ?_⟩
  · by_cases hs : t % MINUTE = 0
    · rcases ite_eq_or_eq
        (t % MINUTE ≠ 0 ∨ (t / DAY = 0 ∧ t % DAY / HOUR = 0 ∧ t % HOUR / MINUTE = 0))
        (fmtDecimal (t % MINUTE) ++ ['s']) ([] : List Char) with h | h
      · exact Or.inl h
      · exact Or.inr ⟨h, hs⟩
    · exact Or.inl (if_pos (Or.inl hs))
  · unfold secsToTimeString
    by_cases h1 : t / DAY = 0 <;> by_cases h2 : t % DAY / HOUR = 0 <;>
      by_cases h3 : t % HOUR / MINUTE = 0 <;> by_cases h4 : t % MINUTE = 0 <;>
      simp [h1, h2, h3, h4, fmtDecimal_ne_nil]

/-- Claim C32. For every number of seconds `t` below `2 ^ 32`, `TimeStringToSecs`
applied to the short text that `secsToTimeString` writes for `t`, with
`hoursOnly = false`, is `t`. -/
theorem time_string_round_trip (t : Nat) (ht : t < 2 ^ 32) :
    TimeStringToSecs (secsToTimeString t TimeFormat.ShortText false) = t := by
  have hD : DAY = 86400 := by decide
  have hH : HOUR = 3600 := by decide
  have hM : MINUTE = 60 := by decide
  have hsum : t / 86400 * 86400 + t % 86400 / 3600 * 3600 + t % 3600 / 60 * 60 + t % 60 = t := by
    omega
  have hb1 : t % 86400 / 3600 < 24 := by omega
  have hb2 : t % 3600 / 60 < 60 := by omega
  have hb3 : t % 60 < 60 := by omega
  have hvalue : ((((0 + t / 86400 % 2 ^ 32 * 86400 % 2 ^ 32) % 2 ^ 32
      + t % 86400 / 3600 % 2 ^ 32 * 3600 % 2 ^ 32) % 2 ^ 32
      + t % 3600 / 60 % 2 ^ 32 * 60 % 2 ^ 32) % 2 ^ 32
      + t % 60 % 2 ^ 32 * 1 % 2 ^ 32) % 2 ^ 32 = t := by
    generalize t / 86400 = d at hsum
    generalize t % 86400 / 3600 = h at hsum hb1
    generalize t % 3600 / 60 = m at hsum hb2
    generalize t % 60 = s at hsum hb3
    omega
  obtain ⟨X, hX, hshape⟩ := shortText_shape t
  unfold TimeStringToSecs
  rw [hshape, timeLoop_optional _ DAY 'd' (by decide) (by decide) _ _ (by decide),
    timeLoop_optional _ HOUR 'h' (by decide) (by decide) _ _ (Nat.mod_lt _ (by decide)),
    timeLoop_optional _ MINUTE 'm' (by decide) (by decide) _ _ (Nat.mod_lt _ (by decide))]
  rw [hD, hH, hM] at *
  rcases hX with rfl | ⟨rfl, hzero⟩
  · rw [timeLoop_piece (t % 60) 1 's' (by decide) (by decide) []]
    simp only [timeLoop]
    exact hvalue
  · simp only [timeLoop]
    rw [hzero, Nat.zero_mod, Nat.zero_mul, Nat.zero_mod, Nat.add_zero, Nat.mod_mod] at hvalue
    exact hvalue

/-- The short text of 3661 seconds is "1h1m1s", which is read back as 3661. -/
theorem time_string_round_trip_witness :
    secsToTimeString 3661 TimeFormat.ShortText false = "1h1m1s".toList ∧
    (3661 : Nat) < 2 ^ 32 ∧
    TimeStringToSecs (secsToTimeString 3661 TimeFormat.ShortText false) = 3661 :=
  ⟨by decide, by decide, time_string_round_trip 3661 (by decide)⟩

/-- The loop of `TimeStringToSecs` returns 0 when a character that is neither a
digit nor a unit is still to come, whatever the variables hold. -/
theorem timeLoop_bad_format (c : Char) (hd : c.isDigit = false) (hu : timeUnit c = none) :
    ∀ (rest : List Char) (secs buffer multiplier : Nat), c ∈ rest →
      timeLoop rest secs buffer multiplier = 0 := by
  intro rest
  induction rest with
  | nil => intro _ _ _ h; cases h
  | cons x rest ih =>
    intro secs buffer multiplier hmem
    rw [List.mem_cons] at hmem
    simp only [timeLoop]
    by_cases hx : x.isDigit = true
    · rw [if_pos hx]
      rcases hmem with rfl | hmem
      · rw [hd] at hx
        cases hx
      · exact ih _ _ _ hmem
    · rw [if_neg hx]
      cases hxu : timeUnit x with
      | none => rfl
      | some m =>
        rcases hmem with rfl | hmem
        · rw [hu] at hxu
          cases hxu
        · exact ih _ _ _ hmem

/-- Claim C36. For every string that contains a character which is neither a
decimal digit nor one of `d`, `h`, `m`, `s`, `TimeStringToSecs` returns 0, whatever
stands before that character. -/
theorem TimeStringToSecs_rejects_bad_format (timestring : List Char) (c : Char)
    (hc : c ∈ timestring) (hdigit : c.isDigit = false)
    (hd : c ≠ 'd') (hh : c ≠ 'h') (hm : c ≠ 'm') (hs : c ≠ 's') :
    TimeStringToSecs timestring = 0 := by
  have hu : timeUnit c = none := by
    unfold timeUnit
    rw [if_neg hd, if_neg hh, if_neg hm, if_neg hs]
  exact timeLoop_bad_format c hdigit hu timestring 0 0 0 hc

/-- The string "1h1x1s" has the valid unit "1h" before the character `x`; the
result is 0, while "1h" alone gives 3600. -/
theorem TimeStringToSecs_rejects_bad_format_witness :
    TimeStringToSecs "1h".toList = 3600 ∧ 'x' ∈ "1h1x1s".toList ∧
    TimeStringToSecs "1h1x1s".toList = 0 :=
  ⟨by decide, by decide,
    TimeStringToSecs_rejects_bad_format "1h1x1s".toList 'x' (by decide) (by decide)
      (by decide) (by decide) (by decide) (by decide)⟩

/-! ### Hexadecimal strings -/

/-- The format `{:02X}` of a byte has two characters, which are upper-case
hexadecimal digits. -/
theorem fmtHex02_byte : ∀ b, b < 256 →
    (fmtHex02 b).length = 2 ∧ ∀ c ∈ fmtHex02 b, c ∈ "0123456789ABCDEF".toList := by
  decide!

/-- The example implementation of `StringTo` reads back the two digits that
`{:02X}` writes for a byte. -/
theorem parseUnsigned_fmtHex02 : ∀ b, b < 256 → parseUnsigned 8 16 (fmtHex02 b) = some b := by
  decide!

theorem flatMap_length_two {f : Nat → List Char} (l : List Nat)
    (hf : ∀ x ∈ l, (f x).length = 2) : (l.flatMap f).length = 2 * l.length := by
  induction l with
  | nil => rfl
  | cons x l ih =>
    rw [List.flatMap_cons, List.length_append, hf x (List.mem_cons_self _ _),
      ih (fun y hy => hf y (List.mem_cons_of_mem _ hy)), List.length_cons]
    omega

theorem flatMap_drop_two {f : Nat → List Char} (l : List Nat)
    (hf : ∀ x ∈ l, (f x).length = 2) (k : Nat) :
    (l.flatMap f).drop (2 * k) = (l.drop k).flatMap f := by
  induction l generalizing k with
  | nil => simp
  | cons x l ih =>
    cases k with
    | zero => rfl
    | succ k =>
      have hx := hf x (List.mem_cons_self _ _)
      have e : 2 * (k + 1) = (f x).length + 2 * k := by omega
      rw [List.flatMap_cons, e, List.drop_append, List.drop_succ_cons]
      exact ih (fun y hy => hf y (List.mem_cons_of_mem _ hy)) k

/-- The two characters at the position `2 * k` of a string of digit pairs are the
pair of the `k`-th byte. -/
theorem substr_flatMap_two {f : Nat → List Char} (l : List Nat)
    (hf : ∀ x ∈ l, (f x).length = 2) (k : Nat) (hk : k < l.length) :
    substr (l.flatMap f) (2 * k) 2 = f l[k] := by
  unfold substr
  rw [flatMap_drop_two l hf k, List.drop_eq_getElem_cons hk, List.flatMap_cons]
  exact List.take_left' (hf _ (List.getElem_mem _))

/-- A value in the range of `int32` is converted to itself. -/
theorem toInt32_small (x : Int) (h0 : -2 ^ 31 ≤ x) (h1 : x < 2 ^ 31) : toInt32 x = x := by
  unfold toInt32 Int.bmod
  simp only [Nat.cast_pow, Nat.cast_ofNat]
  split <;> omega

theorem sizeSub_small (a b : Nat) (hb : b ≤ a) (ha : a < 2 ^ 64) : sizeSub a b = a - b := by
  unfold sizeSub
  omega

/-- The loop of `ByteArrayToHexStr` without `reverse`, from the byte `k` on. -/
theorem hexStrLoop_forward (bytes : List Nat) (hlen : bytes.length < 2 ^ 31) :
    ∀ (fuel k : Nat) (acc : List Char), k ≤ bytes.length → bytes.length - k < fuel →
      hexStrLoop bytes bytes.length 1 fuel k acc
        = .ok (acc ++ (bytes.drop k).flatMap (fun b => fmtHex02 (b % 2 ^ 8))) := by
  intro fuel
  induction fuel with
  | zero =>
    intro k acc _ hk
    omega
  | succ fuel ih =>
    intro k acc hle hk
    by_cases hkn : k = bytes.length
    · subst hkn
      simp only [hexStrLoop, if_true, List.drop_length, List.flatMap_nil, List.append_nil]
    have hlt : k < bytes.length := by omega
    have hne : ¬ ((k : Int) = (bytes.length : Int)) := by omega
    have hnn : ¬ ((k : Int) < 0) := by omega
    have hget : bytes[k]? = some bytes[k] := List.getElem?_eq_getElem hlt
    have hdrop : bytes.drop k = bytes[k] :: bytes.drop (k + 1) := List.drop_eq_getElem_cons hlt
    have hov : ¬ ((k : Int) + 1 < -2 ^ 31 ∨ 2 ^ 31 ≤ (k : Int) + 1) := by omega
    simp only [hexStrLoop, if_neg hne, if_neg hnn, Int.toNat_ofNat, hget, if_neg hov]
    have hnext : (k : Int) + 1 = ((k + 1 : Nat) : Int) := by omega
    rw [hnext, ih (k + 1) _ (by omega) (by omega), hdrop]
    simp only [List.flatMap_cons, List.append_assoc]

/-- The loop of `ByteArrayToHexStr` with `reverse`, with `n` bytes left. -/
theorem hexStrLoop_backward (bytes : List Nat) (hlen : bytes.length < 2 ^ 31) :
    ∀ (fuel n : Nat) (acc : List Char), n ≤ bytes.length → n < fuel →
      hexStrLoop bytes (-1) (-1) fuel ((n : Int) - 1) acc
        = .ok (acc ++ ((bytes.take n).reverse).flatMap (fun b => fmtHex02 (b % 2 ^ 8))) := by
  intro fuel
  induction fuel with
  | zero =>
    intro n acc _ hk
    omega
  | succ fuel ih =>
    intro n acc hle hk
    cases n with
    | zero =>
      have e : ((0 : Nat) : Int) - 1 = -1 := rfl
      rw [e]
      simp only [hexStrLoop, if_true, List.take_zero, List.reverse_nil, List.flatMap_nil,
        List.append_nil]
    | succ n =>
      have hlt : n < bytes.length := by omega
      have hi : ((n + 1 : Nat) : Int) - 1 = (n : Int) := by omega
      have hne : ¬ ((n : Int) = -1) := by omega
      have hnn : ¬ ((n : Int) < 0) := by omega
      have hget : bytes[n]? = some bytes[n] := List.getElem?_eq_getElem hlt
      have htake : bytes.take (n + 1) = bytes.take n ++ [bytes[n]] := by
        rw [List.take_succ, hget]
        rfl
      rw [hi]
      have hov : ¬ ((n : Int) + -1 < -2 ^ 31 ∨ 2 ^ 31 ≤ (n : Int) + -1) := by omega
      simp only [hexStrLoop, if_neg hne, if_neg hnn, Int.toNat_ofNat, hget, if_neg hov]
      have hnext : (n : Int) + -1 = (n : Int) - 1 := by omega
      rw [hnext, ih n _ (by omega) (by omega), htake]
      simp only [List.reverse_append, List.reverse_singleton, List.singleton_append,
        List.flatMap_cons, List.append_assoc]

theorem flatMap_byte {f : Nat → List Char} (l : List Nat) (hl : ∀ x ∈ l, x < 256) :
    l.flatMap (fun b => f (b % 2 ^ 8)) = l.flatMap f := by
  induction l with
  | nil => rfl
  | cons x l ih =>
    have hx : x % 2 ^ 8 = x := Nat.mod_eq_of_lt (hl x (List.mem_cons_self _ _))
    rw [List.flatMap_cons, List.flatMap_cons, ih (fun y hy => hl y (List.mem_cons_of_mem _ hy))]
    simp only [hx]

/-- `ByteArrayToHexStr` on an array of fewer than `2 ^ 31` bytes writes the two
digits of every byte, in the order of the array or, with `reverse`, in the
opposite order. -/
theorem ByteArrayToHexStr_eq (bytes : List Nat) (reverse : Bool)
    (hlen : bytes.length < 2 ^ 31) (hbytes : ∀ x ∈ bytes, x < 256) :
    ByteArrayToHexStr bytes reverse
      = .ok ((if reverse then bytes.reverse else bytes).flatMap fmtHex02) := by
  have hrev : ∀ x ∈ bytes.reverse, x < 256 := fun x hx => hbytes x (List.mem_reverse.mp hx)
  have hf : ∀ x ∈ bytes, (fmtHex02 x).length = 2 := fun x hx => (fmtHex02_byte x (hbytes x hx)).1
  have hfr : ∀ x ∈ bytes.reverse, (fmtHex02 x).length = 2 :=
    fun x hx => (fmtHex02_byte x (hrev x hx)).1
  unfold ByteArrayToHexStr
  cases reverse with
  | false =>
    have h := hexStrLoop_forward bytes hlen (bytes.length + 1) 0 [] (by omega) (by omega)
    have hend : toInt32 (bytes.length : Int) = (bytes.length : Int) :=
      toInt32_small _ (by omega) (by omega)
    simp only [Bool.false_eq_true, if_false, hend]
    rw [show ((0 : Nat) : Int) = 0 from rfl] at h
    rw [h]
    simp only [List.drop_zero, List.nil_append, flatMap_byte bytes hbytes,
      flatMap_length_two bytes hf]
    have e : bytes.length * 2 % 2 ^ 64 - 2 * bytes.length = 0 := by omega
    rw [e]
    simp
  | true =>
    have h := hexStrLoop_backward bytes hlen (bytes.length + 1) bytes.length [] (Nat.le_refl _)
      (by omega)
    have hinit : toInt32 ((sizeSub bytes.length 1 : Nat) : Int) = (bytes.length : Int) - 1 := by
      by_cases h0 : bytes.length = 0
      · rw [h0]
        decide
      · rw [sizeSub_small _ _ (by omega) (by omega), toInt32_small _ (by omega) (by omega)]
        omega
    simp only [if_true, hinit]
    rw [h]
    simp only [List.take_length, List.nil_append, flatMap_byte bytes.reverse hrev,
      flatMap_length_two bytes.reverse hfr, List.length_reverse]
    have e : bytes.length * 2 % 2 ^ 64 - 2 * bytes.length = 0 := by omega
    rw [e]
    simp

theorem take_succ_set (out : List Nat) (k x : Nat) (hk : k < out.length) :
    (out.set k x).take (k + 1) = out.take k ++ [x] := by
  induction out generalizing k with
  | nil => simp at hk
  | cons y ys ih =>
    cases k with
    | zero => simp
    | succ k =>
      have hk' : k < ys.length := by simpa using hk
      simp only [List.set_cons_succ, List.take_succ_cons, ih k hk', List.cons_append]

/-- The loop of `HexStrToByteArray` without `reverse` on the digit pairs of `l`,
from the pair `k` on. -/
theorem byteArrayLoop_forward (StringTo : List Char → Option Nat) (l : List Nat)
    (hl : ∀ x ∈ l, x < 256) (hsize : l.length < 2 ^ 30)
    (hparse : ∀ x, x < 256 → StringTo (fmtHex02 x) = some x) :
    ∀ (fuel k : Nat) (out : List Nat), k ≤ l.length → l.length - k < fuel →
      out.length = l.length →
      byteArrayLoop StringTo (l.flatMap fmtHex02) ((l.flatMap fmtHex02).length : Int) 1 fuel
          ((2 * k : Nat) : Int) k out
        = .ok (out.take k ++ l.drop k) := by
  have hf : ∀ x ∈ l, (fmtHex02 x).length = 2 := fun x hx => (fmtHex02_byte x (hl x hx)).1
  have hlen := flatMap_length_two l hf
  intro fuel
  induction fuel with
  | zero =>
    intro k out _ hk
    omega
  | succ fuel ih =>
    intro k out hle hk hout
    by_cases hkn : k = l.length
    · subst hkn
      have e : (((2 * l.length : Nat) : Int) = ((l.flatMap fmtHex02).length : Int)) := by
        rw [hlen]
      rw [show List.take l.length out = out from List.take_of_length_le (by omega),
        List.drop_length, List.append_nil]
      simp only [byteArrayLoop, if_pos e]
    have hlt : k < l.length := by omega
    have hne : ¬ (((2 * k : Nat) : Int) = ((l.flatMap fmtHex02).length : Int)) := by
      rw [hlen]
      omega
    have hin : ¬ ((((2 * k : Nat) : Int) < 0) ∨ (l.flatMap fmtHex02).length < 2 * k) := by
      rw [hlen]
      omega
    have hroom : ¬ (out.length ≤ k) := by omega
    have hov : ¬ (((2 * k : Nat) : Int) + 2 * 1 < -2 ^ 31 ∨
        2 ^ 31 ≤ ((2 * k : Nat) : Int) + 2 * 1) := by omega
    have hnext : ((2 * k : Nat) : Int) + 2 * 1 = ((2 * (k + 1) : Nat) : Int) := by omega
    have hj : (k + 1) % 2 ^ 32 = k + 1 := Nat.mod_eq_of_lt (by omega)
    have hv : l[k] % 2 ^ 8 = l[k] := Nat.mod_eq_of_lt (hl _ (List.getElem_mem _))
    simp only [byteArrayLoop, if_neg hne, Int.toNat_ofNat, if_neg hin, if_neg hroom, if_neg hov]
    rw [hnext, hj, ih (k + 1) _ (by omega) (by omega) (by rw [List.length_set]; exact hout),
      substr_flatMap_two l hf k hlt, hparse _ (hl _ (List.getElem_mem _)),
      Option.getD_some, hv, take_succ_set out k _ (by omega), List.drop_eq_getElem_cons hlt]
    simp only [List.append_assoc, List.singleton_append]

/-- The loop of `HexStrToByteArray` with `reverse` on the digit pairs of `l`, with
`n` pairs left. -/
theorem byteArrayLoop_backward (StringTo : List Char → Option Nat) (l : List Nat)
    (hl : ∀ x ∈ l, x < 256) (hsize : l.length < 2 ^ 30)
    (hparse : ∀ x, x < 256 → StringTo (fmtHex02 x) = some x) :
    ∀ (fuel n : Nat) (out : List Nat), n ≤ l.length → n < fuel → out.length = l.length →
      byteArrayLoop StringTo (l.flatMap fmtHex02) (-2) (-1) fuel
          (((2 * n : Nat) : Int) - 2) (l.length - n) out
        = .ok (out.take (l.length - n) ++ (l.take n).reverse) := by
  have hf : ∀ x ∈ l, (fmtHex02 x).length = 2 := fun x hx => (fmtHex02_byte x (hl x hx)).1
  have hlen := flatMap_length_two l hf
  intro fuel
  induction fuel with
  | zero =>
    intro n out _ hk
    omega
  | succ fuel ih =>
    intro n out hle hk hout
    cases n with
    | zero =>
      have e : ((2 * 0 : Nat) : Int) - 2 = -2 := rfl
      rw [e]
      rw [Nat.sub_zero, show List.take l.length out = out from
        List.take_of_length_le (by omega), List.take_zero, List.reverse_nil, List.append_nil]
      simp only [byteArrayLoop, if_true]
    | succ n =>
      have hlt : n < l.length := by omega
      have hi : ((2 * (n + 1) : Nat) : Int) - 2 = ((2 * n : Nat) : Int) := by omega
      have hne : ¬ (((2 * n : Nat) : Int) = -2) := by omega
      have hin : ¬ ((((2 * n : Nat) : Int) < 0) ∨ (l.flatMap fmtHex02).length < 2 * n) := by
        rw [hlen]
        omega
      have hroom : ¬ (out.length ≤ l.length - (n + 1)) := by omega
      have hov : ¬ (((2 * n : Nat) : Int) + 2 * -1 < -2 ^ 31 ∨
          2 ^ 31 ≤ ((2 * n : Nat) : Int) + 2 * -1) := by omega
      have hnext : ((2 * n : Nat) : Int) + 2 * -1 = ((2 * n : Nat) : Int) - 2 := by omega
      have hj : (l.length - (n + 1) + 1) % 2 ^ 32 = l.length - n := by
        rw [Nat.mod_eq_of_lt (by omega)]
        omega
      have hj' : l.length - n = l.length - (n + 1) + 1 := by omega
      have hv : l[n] % 2 ^ 8 = l[n] := Nat.mod_eq_of_lt (hl _ (List.getElem_mem _))
      have hget : l[n]? = some l[n] := List.getElem?_eq_getElem hlt
      have htake : l.take (n + 1) = l.take n ++ [l[n]] := by
        rw [List.take_succ, hget]
        rfl
      rw [hi]
      simp only [byteArrayLoop, if_neg hne, Int.toNat_ofNat, if_neg hin, if_neg hroom,
        if_neg hov]
      rw [hnext, hj, ih n _ (by omega) (by omega) (by rw [List.length_set]; exact hout),
        substr_flatMap_two l hf n hlt, hparse _ (hl _ (List.getElem_mem _)),
        Option.getD_some, hv, hj', take_succ_set out _ _ (by omega), htake]
      simp only [List.reverse_append, List.reverse_singleton, List.singleton_append,
        List.append_assoc]

/-- `HexStrToByteArray` on the digit pairs of fewer than `2 ^ 30` bytes `l`: the
bytes of `l`, or, with `reverse`, the bytes of `l` in the opposite order, whatever
the array held before. -/
theorem HexStrToByteArray_pairs (StringTo : List Char → Option Nat) (l : List Nat)
    (hl : ∀ x ∈ l, x < 256) (hsize : l.length < 2 ^ 30)
    (hparse : ∀ x, x < 256 → StringTo (fmtHex02 x) = some x) (out : List Nat)
    (hout : out.length = l.length) (reverse : Bool) :
    HexStrToByteArray StringTo (l.flatMap fmtHex02) out reverse
      = .ok (if reverse then l.reverse else l) := by
  have hf : ∀ x ∈ l, (fmtHex02 x).length = 2 := fun x hx => (fmtHex02_byte x (hl x hx)).1
  have hlen := flatMap_length_two l hf
  unfold HexStrToByteArray
  rw [if_neg (by rw [hlen, hout]; omega)]
  cases reverse with
  | false =>
    have h := byteArrayLoop_forward StringTo l hl hsize hparse (out.length + 1) 0 out
      (by omega) (by omega) hout
    have hend : toInt32 ((l.flatMap fmtHex02).length : Int)
        = ((l.flatMap fmtHex02).length : Int) :=
      toInt32_small _ (by omega) (by omega)
    simp only [Bool.false_eq_true, if_false, hend]
    rw [show ((2 * 0 : Nat) : Int) = 0 from rfl] at h
    rw [h]
    simp only [List.take_zero, List.nil_append, List.drop_zero]
  | true =>
    have h := byteArrayLoop_backward StringTo l hl hsize hparse (out.length + 1) l.length out
      (Nat.le_refl _) (by omega) hout
    have hinit : toInt32 ((sizeSub (l.flatMap fmtHex02).length 2 : Nat) : Int)
        = ((2 * l.length : Nat) : Int) - 2 := by
      rw [hlen]
      by_cases h0 : l.length = 0
      · rw [h0]
        decide
      · rw [sizeSub_small _ _ (by omega) (by omega), toInt32_small _ (by omega) (by omega)]
        omega
    simp only [if_true, hinit]
    rw [Nat.sub_self] at h
    rw [h]
    simp only [List.take_zero, List.nil_append, List.take_length]

/-- Claim C33, amended. For every array of fewer than `2 ^ 30` bytes and either
value of the `reverse` flag, `ByteArrayToHexStr` returns a string of twice as many
characters as the array has bytes, all of them upper-case hexadecimal digits;
`HexStrToByteArray` with the same flag gives back the array from it, and with the
opposite flag the array in the opposite order, whatever the output array held
before. `StringTo` is assumed to read back the two digits that `{:02X}` writes for
a byte. -/
theorem hex_round_trip (StringTo : List Char → Option Nat) (bytes : List Nat)
    (reverse : Bool) (hsize : bytes.length < 2 ^ 30) (hbytes : ∀ x ∈ bytes, x < 256)
    (hparse : ∀ x, x < 256 → StringTo (fmtHex02 x) = some x) :
    ∃ str, ByteArrayToHexStr bytes reverse = .ok str ∧
      str.length = 2 * bytes.length ∧
      (∀ c ∈ str, c ∈ "0123456789ABCDEF".toList) ∧
      ∀ out : List Nat, out.length = bytes.length →
        HexStrToByteArray StringTo str out reverse = .ok bytes ∧
        HexStrToByteArray StringTo str out (!reverse) = .ok bytes.reverse := by
  have hrev : ∀ x ∈ bytes.reverse, x < 256 := fun x hx => hbytes x (List.mem_reverse.mp hx)
  refine ⟨_, ByteArrayToHexStr_eq bytes reverse (by omega) hbytes, ?_, ?_, fun out hout => ⟨?_, ?_⟩⟩
  · cases reverse with
    | false =>
      exact flatMap_length_two bytes (fun x hx => (fmtHex02_byte x (hbytes x hx)).1)
    | true =>
      have := flatMap_length_two bytes.reverse
        (fun x hx => (fmtHex02_byte x (hrev x hx)).1)
      rw [List.length_reverse] at this
      exact this
  · intro c hc
    rw [List.mem_flatMap] at hc
    obtain ⟨x, hx, hcx⟩ := hc
    have hx' : x < 256 := by
      cases reverse with
      | false => exact hbytes x hx
      | true => exact hrev x hx
    exact (fmtHex02_byte x hx').2 c hcx
  · cases reverse with
    | false => exact HexStrToByteArray_pairs StringTo bytes hbytes hsize hparse out hout false
    | true =>
      have := HexStrToByteArray_pairs StringTo bytes.reverse hrev
        (by rw [List.length_reverse]; exact hsize) hparse out
        (by rw [List.length_reverse]; exact hout) true
      simpa using this
  · cases reverse with
    | false => exact HexStrToByteArray_pairs StringTo bytes hbytes hsize hparse out hout true
    | true =>
      have := HexStrToByteArray_pairs StringTo bytes.reverse hrev
        (by rw [List.length_reverse]; exact hsize) hparse out
        (by rw [List.length_reverse]; exact hout) false
      simpa using this

/-- The bytes 00 AB FF 10 with the example implementation of `StringTo`: the string
is "00ABFF10", and with `reverse` it is "10FFAB00". -/
theorem hex_round_trip_witness :
    ByteArrayToHexStr [0, 171, 255, 16] false = .ok "00ABFF10".toList ∧
    ByteArrayToHexStr [0, 171, 255, 16] true = .ok "10FFAB00".toList ∧
    HexStrToByteArray (parseUnsigned 8 16) "00ABFF10".toList [0, 0, 0, 0] true
      = .ok [16, 255, 171, 0] ∧
    ∃ str, ByteArrayToHexStr [0, 171, 255, 16] true = .ok str ∧
      str.length = 2 * [0, 171, 255, 16].length ∧
      (∀ c ∈ str, c ∈ "0123456789ABCDEF".toList) ∧
      ∀ out : List Nat, out.length = [0, 171, 255, 16].length →
        HexStrToByteArray (parseUnsigned 8 16) str out true = .ok [0, 171, 255, 16] ∧
        HexStrToByteArray (parseUnsigned 8 16) str out (!true)
          = .ok [0, 171, 255, 16].reverse :=
  ⟨by decide, by decide, by decide,
    hex_round_trip (parseUnsigned 8 16) [0, 171, 255, 16] true (by decide) (by decide)
      parseUnsigned_fmtHex02⟩

/-- With `reverse`, `HexStrToByteArray` on a string of `2 ^ 31 + 2` characters
stops in the first round: the length less 2 is `2 ^ 31`, which the conversion to
`int32` makes `-2 ^ 31`, a position before the string. -/
theorem HexStrToByteArray_reverse_beyond (StringTo : List Char → Option Nat)
    (str : List Char) (out : List Nat) (hs : str.length = 2 ^ 31 + 2)
    (ho : out.length = 2 ^ 30 + 1) :
    HexStrToByteArray StringTo str out true = .error .outOfBounds := by
  unfold HexStrToByteArray
  rw [if_neg (by rw [hs, ho]; omega)]
  have hinit : toInt32 ((sizeSub str.length 2 : Nat) : Int) = -2147483648 := by
    rw [hs]
    decide
  have hne : ¬ ((-2147483648 : Int) = -2) := by decide
  have hneg : (-2147483648 : Int) < 0 ∨ str.length < (-2147483648 : Int).toNat :=
    Or.inl (by decide)
  simp only [if_true, hinit, byteArrayLoop, if_neg hne, if_pos hneg]

theorem replicate_lt (n : Nat) : ∀ x ∈ List.replicate n 0, x < 256 := by
  intro x hx
  rw [List.eq_of_mem_replicate hx]
  omega

/-- Claim C33 fails as stated. For the array of `2 ^ 30 + 1` zero bytes and
`reverse`, `ByteArrayToHexStr` returns a string of `2 ^ 31 + 2` digits, and
`HexStrToByteArray` with the same flag does not give back the array: it stops in
its first round at a position before the string. -/
theorem hex_round_trip_fails_on_large_array :
    ∃ str, ByteArrayToHexStr (List.replicate (2 ^ 30 + 1) 0) true = .ok str ∧
      str.length = 2 ^ 31 + 2 ∧
      HexStrToByteArray (parseUnsigned 8 16) str (List.replicate (2 ^ 30 + 1) 0) true
        = .error .outOfBounds := by
  have hlen : ((List.replicate (2 ^ 30 + 1) 0).reverse.flatMap fmtHex02).length
      = 2 ^ 31 + 2 := by
    rw [flatMap_length_two _ (fun x hx =>
      (fmtHex02_byte x (replicate_lt _ x (List.mem_reverse.mp hx))).1), List.length_reverse,
      List.length_replicate]
    omega
  refine ⟨_, ByteArrayToHexStr_eq _ true (by rw [List.length_replicate]; omega)
    (replicate_lt _), hlen, ?_⟩
  exact HexStrToByteArray_reverse_beyond _ _ _ hlen (List.length_replicate _ _)

/-! ### `MoneyStringToMoney` -/

theorem bmod_small (x : Int) (h0 : 0 ≤ x) (h1 : x < 2 ^ 63) : x.bmod (2 ^ 64) = x := by
  unfold Int.bmod
  have hmod : x % ((2 ^ 64 : Nat) : Int) = x := Int.emod_eq_of_lt h0 (by omega)
  simp only [hmod]
  split <;> omega

/-- What the switch of `MoneyStringToMoney` does when it does not return: the
character is a unit that was not seen before, `unit` is its value, and its flag is
set. -/
theorem moneyUnit_some {last : Char} {v v1 : MoneyVars} {unit : Nat}
    (h : moneyUnit last v = some (unit, v1)) :
    (last = 'g' ∨ last = 's' ∨ last = 'c') ∧ hadUnit v last = false ∧
    unit = unitValue last ∧ v1.money = v.money ∧ hadUnit v1 last = true ∧
    ∀ u, u ≠ last → hadUnit v1 u = hadUnit v u := by
  unfold moneyUnit at h
  by_cases hg : last = 'g'
  · subst hg
    simp only [if_true] at h
    cases hv : v.hadG with
    | true => rw [hv] at h; simp at h
    | false =>
      rw [hv] at h
      simp only [Bool.false_eq_true, if_false, Option.some.injEq, Prod.mk.injEq] at h
      obtain ⟨hu, hv1⟩ := h
      subst hv1
      refine ⟨Or.inl rfl, by simp [hadUnit, hv], by rw [← hu]; decide, rfl,
        by simp [hadUnit], fun u hne => ?_⟩
      simp [hadUnit, hne]
  · rw [if_neg hg] at h
    by_cases hs : last = 's'
    · subst hs
      simp only [if_true] at h
      cases hv : v.hadS with
      | true => rw [hv] at h; simp at h
      | false =>
        rw [hv] at h
        simp only [Bool.false_eq_true, if_false, Option.some.injEq, Prod.mk.injEq] at h
        obtain ⟨hu, hv1⟩ := h
        subst hv1
        refine ⟨Or.inr (Or.inl rfl), by simp [hadUnit, hv], by rw [← hu]; decide, rfl,
          by simp [hadUnit], fun u hne => ?_⟩
        simp [hadUnit, hne]
    · rw [if_neg hs] at h
      by_cases hc : last = 'c'
      · subst hc
        simp only [if_true] at h
        cases hv : v.hadC with
        | true => rw [hv] at h; simp at h
        | false =>
          rw [hv] at h
          simp only [Bool.false_eq_true, if_false, Option.some.injEq, Prod.mk.injEq] at h
          obtain ⟨hu, hv1⟩ := h
          subst hv1
          refine ⟨Or.inr (Or.inr rfl), by simp [hadUnit, hv], by rw [← hu]; decide, rfl,
            by simp [hadUnit], fun u hne => ?_⟩
          simp [hadUnit, hne]
      · rw [if_neg hc] at h
        cases h

/-- The switch of `MoneyStringToMoney` does not return for a unit whose flag is not
set. -/
theorem moneyUnit_fresh {last : Char} {v : MoneyVars}
    (hu : last = 'g' ∨ last = 's' ∨ last = 'c') (hv : hadUnit v last = false) :
    ∃ v1, moneyUnit last v = some (unitValue last, v1) := by
  rcases hu with rfl | rfl | rfl
  · have : v.hadG = false := by simpa [hadUnit] using hv
    exact ⟨{ v with hadG := true }, by simp [moneyUnit, this, unitValue]⟩
  · have : v.hadS = false := by simpa [hadUnit] using hv
    exact ⟨{ v with hadS := true }, by simp [moneyUnit, this, unitValue]⟩
  · have : v.hadC = false := by simpa [hadUnit] using hv
    exact ⟨{ v with hadC := true }, by simp [moneyUnit, this, unitValue]⟩

theorem getLast?_partToken (p : List Char × Char × Nat) :
    (partToken p).getLast? = some p.2.1 := by
  simp [partToken]

theorem substr_partToken (p : List Char × Char × Nat) :
    substr (partToken p) 0 ((partToken p).length - 1) = p.1 := by
  simp [partToken, substr]

/-- The token loop of `MoneyStringToMoney` over tokens that are an amount followed
by a unit, with pairwise different units whose flags are not set: the copper
values are added up, as long as the sum stays in the `int64` range. -/
theorem moneyLoop_value (StringTo : List Char → Option Nat) :
    ∀ (parts : List (List Char × Char × Nat)) (v : MoneyVars),
      (∀ p ∈ parts, (p.2.1 = 'g' ∨ p.2.1 = 's' ∨ p.2.1 = 'c') ∧ StringTo p.1 = some p.2.2) →
      (parts.map (fun p => p.2.1)).Nodup →
      (∀ p ∈ parts, hadUnit v p.2.1 = false) →
      0 ≤ v.money → v.money + (partsTotal parts : Int) < 2 ^ 63 →
      moneyLoop StringTo (parts.map partToken) v
        = .ok (some (v.money + (partsTotal parts : Int))) := by
  intro parts
  induction parts with
  | nil =>
    intro v _ _ _ _ _
    simp [moneyLoop, partsTotal]
  | cons p rest ih =>
    intro v hparts hnodup hflags h0 hbound
    obtain ⟨hunit, hparse⟩ := hparts p (List.mem_cons_self _ _)
    obtain ⟨v1, hv1⟩ := moneyUnit_fresh hunit (hflags p (List.mem_cons_self _ _))
    obtain ⟨_, _, _, hmoney, hset, hkeep⟩ := moneyUnit_some hv1
    rw [List.map_cons, List.nodup_cons] at hnodup
    have htotal : partsTotal (p :: rest) = unitValue p.2.1 * p.2.2 + partsTotal rest := by
      simp [partsTotal]
    rw [htotal] at hbound ⊢
    have hprod : unitValue p.2.1 * p.2.2 % 2 ^ 64 = unitValue p.2.1 * p.2.2 :=
      Nat.mod_eq_of_lt (by omega)
    have hstep : (v1.money + ((unitValue p.2.1 * p.2.2 % 2 ^ 64 : Nat) : Int)).bmod (2 ^ 64)
        = v.money + ((unitValue p.2.1 * p.2.2 : Nat) : Int) := by
      rw [hprod, hmoney]
      exact bmod_small _ (by omega) (by omega)
    simp only [List.map_cons, moneyLoop, moneyToken, getLast?_partToken, hv1,
      substr_partToken, hparse, hstep]
    rw [ih _ (fun q hq => hparts q (List.mem_cons_of_mem _ hq)) hnodup.2 ?_ (by simp; omega)
      (by simp; omega)]
    · simp only [Nat.cast_add]
      congr 2
      omega
    · intro q hq
      have hne : q.2.1 ≠ p.2.1 := by
        intro hcon
        exact hnodup.1 (List.mem_map.mpr ⟨q, hq, hcon⟩)
      show hadUnit _ q.2.1 = false
      have := hkeep q.2.1 hne
      simp only [hadUnit] at this ⊢
      rw [this]
      exact hflags q (List.mem_cons_of_mem _ hq)

theorem amountOf_cons (u : Char) (p : List Char × Char × Nat)
    (rest : List (List Char × Char × Nat)) :
    amountOf u (p :: rest) = (if p.2.1 = u then p.2.2 else 0) + amountOf u rest := by
  unfold amountOf
  by_cases h : p.2.1 = u
  · simp [h]
  · simp [h]

theorem amountOf_absent (u : Char) (parts : List (List Char × Char × Nat))
    (h : u ∉ parts.map (fun p => p.2.1)) : amountOf u parts = 0 := by
  induction parts with
  | nil => rfl
  | cons p rest ih =>
    rw [List.map_cons, List.mem_cons, not_or] at h
    rw [amountOf_cons, if_neg (fun hcon => h.1 hcon.symm), ih h.2]

/-- With pairwise different units, the amount for a unit is the amount of at most
one part. -/
theorem amountOf_lt (u : Char) (bound : Nat) (hb : 0 < bound) :
    ∀ (parts : List (List Char × Char × Nat)),
      (parts.map (fun p => p.2.1)).Nodup → (∀ p ∈ parts, p.2.2 < bound) →
      amountOf u parts < bound := by
  intro parts
  induction parts with
  | nil => intro _ _; exact hb
  | cons p rest ih =>
    intro hnodup hlt
    rw [List.map_cons, List.nodup_cons] at hnodup
    rw [amountOf_cons]
    by_cases h : p.2.1 = u
    · rw [if_pos h, amountOf_absent u rest (by rw [← h]; exact hnodup.1)]
      exact hlt p (List.mem_cons_self _ _)
    · rw [if_neg h, Nat.zero_add]
      exact ih hnodup.2 (fun q hq => hlt q (List.mem_cons_of_mem _ hq))

/-- The copper total of parts whose units are `g`, `s` and `c`. -/
theorem partsTotal_eq (parts : List (List Char × Char × Nat))
    (h : ∀ p ∈ parts, p.2.1 = 'g' ∨ p.2.1 = 's' ∨ p.2.1 = 'c') :
    partsTotal parts
      = 10000 * amountOf 'g' parts + 100 * amountOf 's' parts + amountOf 'c' parts := by
  induction parts with
  | nil => rfl
  | cons p rest ih =>
    have hrest := ih (fun q hq => h q (List.mem_cons_of_mem _ hq))
    have htotal : partsTotal (p :: rest) = unitValue p.2.1 * p.2.2 + partsTotal rest := by
      simp [partsTotal]
    rw [htotal, hrest, amountOf_cons, amountOf_cons, amountOf_cons]
    have e1 : ('g' : Char) ≠ 's' := by decide
    have e2 : ('g' : Char) ≠ 'c' := by decide
    have e3 : ('s' : Char) ≠ 'g' := by decide
    have e4 : ('s' : Char) ≠ 'c' := by decide
    have e5 : ('c' : Char) ≠ 'g' := by decide
    have e6 : ('c' : Char) ≠ 's' := by decide
    rcases h p (List.mem_cons_self _ _) with hu | hu | hu <;>
      · rw [hu]
        simp only [unitValue]
        simp only [if_true, if_false, if_neg e1, if_neg e2, if_neg e3, if_neg e4, if_neg e5,
          if_neg e6]
        omega

/-- The token loop of `MoneyStringToMoney` returns `std::nullopt` when a token
does not end in a unit or has no valid amount before the unit, when two tokens
have the same last character, or when a token ends in a unit whose flag is
already set. -/
theorem moneyLoop_rejects (StringTo : List Char → Option Nat) :
    ∀ (tokens : List (List Char)) (v : MoneyVars), (∀ t ∈ tokens, t ≠ []) →
      ((∃ t ∈ tokens, ∀ last, t.getLast? = some last →
          (last ≠ 'g' ∧ last ≠ 's' ∧ last ≠ 'c') ∨
          StringTo (substr t 0 (t.length - 1)) = none) ∨
        ¬ (tokens.map List.getLast?).Nodup ∨
        (∃ t ∈ tokens, ∃ last, t.getLast? = some last ∧ hadUnit v last = true)) →
      moneyLoop StringTo tokens v = .ok none := by
  intro tokens
  induction tokens with
  | nil =>
    intro v _ h
    rcases h with ⟨t, ht, _⟩ | h | ⟨t, ht, _⟩
    · cases ht
    · exact absurd List.nodup_nil h
    · cases ht
  | cons t rest ih =>
    intro v hne h
    obtain ⟨last, hlast⟩ : ∃ last, t.getLast? = some last := by
      cases hl : t.getLast? with
      | none =>
        rw [List.getLast?_eq_none_iff] at hl
        exact absurd hl (hne t (List.mem_cons_self _ _))
      | some last => exact ⟨last, rfl⟩
    simp only [moneyLoop, moneyToken, hlast]
    cases hunit : moneyUnit last v with
    | none => rfl
    | some r =>
      obtain ⟨unit, v1⟩ := r
      obtain ⟨hu, hfresh, _, _, hset, hkeep⟩ := moneyUnit_some hunit
      simp only
      cases hparse : StringTo (substr t 0 (t.length - 1)) with
      | none => rfl
      | some amount =>
        simp only
        have hflag : ∀ u, hadUnit v u = true ∨ u = last →
            hadUnit { v1 with money := (v1.money
              + ((unit * amount % 2 ^ 64 : Nat) : Int)).bmod (2 ^ 64) } u = true := by
          intro u hcase
          show hadUnit v1 u = true
          by_cases hul : u = last
          · rw [hul]
            exact hset
          · rw [hkeep u hul]
            rcases hcase with h1 | h1
            · exact h1
            · exact absurd h1 hul
        refine ih _ (fun t' ht' => hne t' (List.mem_cons_of_mem _ ht')) ?_
        rcases h with ⟨t', ht', hbad⟩ | h | ⟨t', ht', last', hlast', hhad⟩
        · rw [List.mem_cons] at ht'
          rcases ht' with rfl | ht'
          · rcases hbad last hlast with ⟨h1, h2, h3⟩ | h1
            · rcases hu with hu | hu | hu
              · exact absurd hu h1
              · exact absurd hu h2
              · exact absurd hu h3
            · rw [hparse] at h1
              cases h1
          · exact Or.inl ⟨t', ht', hbad⟩
        · rw [List.map_cons, List.nodup_cons, not_and_or, not_not] at h
          rcases h with h | h
          · obtain ⟨t', ht', hsame⟩ := List.mem_map.mp h
            exact Or.inr (Or.inr ⟨t', ht', last, by rw [hsame, hlast],
              hflag last (Or.inr rfl)⟩)
          · exact Or.inr (Or.inl h)
        · rw [List.mem_cons] at ht'
          rcases ht' with rfl | ht'
          · rw [hlast] at hlast'
            cases hlast'
            rw [hfresh] at hhad
            cases hhad
          · exact Or.inr (Or.inr ⟨t', ht', last', hlast', hflag last' (Or.inl hhad)⟩)

/-- `Tokenize` without `keepEmpty` always returns, and its tokens are not empty
and do not contain the separator. -/
theorem Tokenize_nonempty (str : List Char) (sep : Char) :
    ∃ tokens, Tokenize str sep false = .ok tokens ∧ ∀ t ∈ tokens, t ≠ [] ∧ sep ∉ t := by
  obtain ⟨new, _, h2, _, h4⟩ := tokenizeLoop_spec str sep (str.count sep) 0
    (Nat.zero_le _) (by rw [List.drop_zero])
  have hcount : str.count sep < str.length + 1 := by
    have := List.count_le_length sep str
    omega
  refine ⟨_, by unfold Tokenize; rw [(h4 _ hcount).2], fun t ht => ?_⟩
  rw [List.nil_append, List.mem_filter] at ht
  exact ⟨by simpa using ht.2, h2 t ht.1⟩

theorem append_sep_inj (sep : Char) : ∀ (x y a b : List Char), sep ∉ x → sep ∉ y →
    x ++ sep :: a = y ++ sep :: b → x = y ∧ a = b := by
  intro x
  induction x with
  | nil =>
    intro y a b _ hy h
    cases y with
    | nil =>
      simp only [List.nil_append, List.cons.injEq, true_and] at h
      exact ⟨rfl, h⟩
    | cons d y =>
      simp only [List.nil_append, List.cons_append, List.cons.injEq] at h
      rw [← h.1] at hy
      simp at hy
  | cons c x ih =>
    intro y a b hx hy h
    cases y with
    | nil =>
      simp only [List.nil_append, List.cons_append, List.cons.injEq] at h
      rw [h.1] at hx
      simp at hx
    | cons d y =>
      simp only [List.cons_append, List.cons.injEq] at h
      simp only [List.mem_cons, not_or] at hx hy
      obtain ⟨hxy, hab⟩ := ih y a b hx.2 hy.2 h.2
      exact ⟨by rw [h.1, hxy], hab⟩

/-- Tokens without the separator are determined by their join. -/
theorem intercalate_inj (sep : Char) : ∀ (xs ys : List (List Char)), xs ≠ [] → ys ≠ [] →
    (∀ t ∈ xs, sep ∉ t) → (∀ t ∈ ys, sep ∉ t) →
    List.intercalate [sep] xs = List.intercalate [sep] ys → xs = ys := by
  intro xs
  induction xs with
  | nil => intro ys h; exact absurd rfl h
  | cons x xs ih =>
    intro ys _ hys hx hy h
    obtain ⟨y, ys, rfl⟩ := List.exists_cons_of_ne_nil hys
    have hxs := hx x (List.mem_cons_self _ _)
    have hyy := hy y (List.mem_cons_self _ _)
    cases xs with
    | nil =>
      cases ys with
      | nil =>
        simp [List.intercalate] at h
        rw [h]
      | cons y2 ys =>
        rw [intercalate_cons_cons] at h
        simp only [List.intercalate, List.intersperse_single, List.flatten_cons,
          List.flatten_nil, List.append_nil] at h
        rw [h] at hxs
        simp at hxs
    | cons x2 xs =>
      cases ys with
      | nil =>
        rw [intercalate_cons_cons] at h
        simp only [List.intercalate, List.intersperse_single, List.flatten_cons,
          List.flatten_nil, List.append_nil] at h
        rw [← h] at hyy
        simp at hyy
      | cons y2 ys =>
        rw [intercalate_cons_cons, intercalate_cons_cons, List.append_assoc,
          List.append_assoc, List.singleton_append, List.singleton_append] at h
        obtain ⟨hxy, hrest⟩ := append_sep_inj sep _ _ _ _ hxs hyy h
        rw [hxy, ih (y2 :: ys) (List.cons_ne_nil _ _) (List.cons_ne_nil _ _)
          (fun t ht => hx t (List.mem_cons_of_mem _ ht))
          (fun t ht => hy t (List.mem_cons_of_mem _ ht)) hrest]

/-- `Tokenize` without `keepEmpty` gives back the tokens of a string that was
made by joining tokens that are not empty and do not contain the separator. -/
theorem Tokenize_intercalate (sep : Char) (toks : List (List Char))
    (h : ∀ t ∈ toks, t ≠ [] ∧ sep ∉ t) :
    Tokenize (List.intercalate [sep] toks) sep false = .ok toks := by
  cases toks with
  | nil =>
    simp [List.intercalate, Tokenize, tokenizeLoop, find, findFrom]
  | cons t0 toks =>
    obtain ⟨new, h1, h2, h3, h4⟩ := tokenizeLoop_spec (List.intercalate [sep] (t0 :: toks)) sep
      ((List.intercalate [sep] (t0 :: toks)).count sep) 0 (Nat.zero_le _)
      (by rw [List.drop_zero])
    have hcount : (List.intercalate [sep] (t0 :: toks)).count sep
        < (List.intercalate [sep] (t0 :: toks)).length + 1 := by
      have := List.count_le_length sep (List.intercalate [sep] (t0 :: toks))
      omega
    have hnew : new ≠ [] := by
      intro hcon
      rw [hcon] at h1
      simp at h1
    rw [List.drop_zero] at h3
    have hsame : new = t0 :: toks :=
      intercalate_inj sep new (t0 :: toks) hnew (List.cons_ne_nil _ _) h2
        (fun t ht => (h t ht).2) h3
    unfold Tokenize
    rw [(h4 _ hcount).2, hsame, List.nil_append]
    congr 1
    rw [List.filter_eq_self]
    intro t ht
    simpa using (h t ht).1

/-- The value of `MoneyStringToMoney` when the tokens of the string are the
tokens of parts with valid amounts below `2 ^ 32` and pairwise different units. -/
theorem moneyLoop_parts (StringTo : List Char → Option Nat)
    (parts : List (List Char × Char × Nat))
    (hparts : ∀ p ∈ parts, (p.2.1 = 'g' ∨ p.2.1 = 's' ∨ p.2.1 = 'c') ∧
      StringTo p.1 = some p.2.2 ∧ p.2.2 < 2 ^ 32)
    (hnodup : (parts.map (fun p => p.2.1)).Nodup) :
    moneyLoop StringTo (parts.map partToken) ⟨0, false, false, false⟩
      = .ok (some ((10000 * amountOf 'g' parts + 100 * amountOf 's' parts
          + amountOf 'c' parts : Nat) : Int)) ∧
    10000 * amountOf 'g' parts + 100 * amountOf 's' parts + amountOf 'c' parts < 2 ^ 63 := by
  have hunits : ∀ p ∈ parts, p.2.1 = 'g' ∨ p.2.1 = 's' ∨ p.2.1 = 'c' :=
    fun p hp => (hparts p hp).1
  have hlt : ∀ p ∈ parts, p.2.2 < 2 ^ 32 := fun p hp => (hparts p hp).2.2
  have hg := amountOf_lt 'g' (2 ^ 32) (by decide) parts hnodup hlt
  have hs := amountOf_lt 's' (2 ^ 32) (by decide) parts hnodup hlt
  have hc := amountOf_lt 'c' (2 ^ 32) (by decide) parts hnodup hlt
  have htotal := partsTotal_eq parts hunits
  have hbound : 10000 * amountOf 'g' parts + 100 * amountOf 's' parts + amountOf 'c' parts
      < 2 ^ 63 := by omega
  refine ⟨?_, hbound⟩
  have h := moneyLoop_value StringTo parts ⟨0, false, false, false⟩
    (fun p hp => ⟨(hparts p hp).1, (hparts p hp).2.1⟩) hnodup
    (fun p hp => by
      rcases hunits p hp with hu | hu | hu <;> rw [hu] <;> rfl)
    (Int.le_refl _) (by
      show (0 : Int) + (partsTotal parts : Int) < 2 ^ 63
      rw [htotal]
      omega)
  rw [h, htotal]
  simp

/-- Claim C35. `MoneyStringToMoney` works on the tokens that `Tokenize` returns for
the string, which are not empty. When they are tokens of a valid amount below
`2 ^ 32` followed by `g`, `s` or `c`, with each unit at most once and in any
order, the result is exactly `10000 * gold + 100 * silver + copper`, which is below
`2 ^ 63`; so it is for such tokens joined by single spaces, and for the empty
string, which gives 0. The result is `std::nullopt` whenever a token ends in another
character or has no valid amount before its unit, or two tokens end in the same
character. -/
theorem MoneyStringToMoney_value_and_rejection (StringTo : List Char → Option Nat)
    (moneyString : List Char) :
    (∃ tokens, Tokenize moneyString ' ' false = .ok tokens ∧
      (∀ t ∈ tokens, t ≠ [] ∧ ' ' ∉ t) ∧
      (∀ parts : List (List Char × Char × Nat), tokens = parts.map partToken →
        (∀ p ∈ parts, (p.2.1 = 'g' ∨ p.2.1 = 's' ∨ p.2.1 = 'c') ∧
          StringTo p.1 = some p.2.2 ∧ p.2.2 < 2 ^ 32) →
        (parts.map (fun p => p.2.1)).Nodup →
        MoneyStringToMoney StringTo moneyString
          = .ok (some ((10000 * amountOf 'g' parts + 100 * amountOf 's' parts
              + amountOf 'c' parts : Nat) : Int)) ∧
        10000 * amountOf 'g' parts + 100 * amountOf 's' parts + amountOf 'c' parts
          < 2 ^ 63) ∧
      (((∃ t ∈ tokens, ∀ last, t.getLast? = some last →
            (last ≠ 'g' ∧ last ≠ 's' ∧ last ≠ 'c') ∨
            StringTo (substr t 0 (t.length - 1)) = none) ∨
          ¬ (tokens.map List.getLast?).Nodup) →
        MoneyStringToMoney StringTo moneyString = .ok none)) ∧
    (∀ parts : List (List Char × Char × Nat),
      (∀ p ∈ parts, (p.2.1 = 'g' ∨ p.2.1 = 's' ∨ p.2.1 = 'c') ∧ ' ' ∉ p.1 ∧
        StringTo p.1 = some p.2.2 ∧ p.2.2 < 2 ^ 32) →
      (parts.map (fun p => p.2.1)).Nodup →
      MoneyStringToMoney StringTo (List.intercalate [' '] (parts.map partToken))
        = .ok (some ((10000 * amountOf 'g' parts + 100 * amountOf 's' parts
            + amountOf 'c' parts : Nat) : Int))) ∧
    MoneyStringToMoney StringTo [] = .ok (some 0) := by
  refine ⟨?_, ?_, ?_⟩
  · obtain ⟨tokens, htok, hne⟩ := Tokenize_nonempty moneyString ' '
    refine ⟨tokens, htok, hne, fun parts hparts hvalid hnodup => ?_, fun hbad => ?_⟩
    · unfold MoneyStringToMoney
      rw [htok, hparts]
      exact moneyLoop_parts StringTo parts hvalid hnodup
    · unfold MoneyStringToMoney
      rw [htok]
      refine moneyLoop_rejects StringTo tokens _ (fun t ht => (hne t ht).1) ?_
      rcases hbad with h | h
      · exact Or.inl h
      · exact Or.inr (Or.inl h)
  · intro parts hvalid hnodup
    have htok := Tokenize_intercalate ' ' (parts.map partToken) (fun t ht => by
      obtain ⟨p, hp, rfl⟩ := List.mem_map.mp ht
      obtain ⟨hu, hsp, _, _⟩ := hvalid p hp
      refine ⟨by simp [partToken], ?_⟩
      simp only [partToken, List.mem_append, List.mem_singleton, not_or]
      refine ⟨hsp, ?_⟩
      rcases hu with hu | hu | hu <;> rw [hu] <;> decide)
    unfold MoneyStringToMoney
    rw [htok]
    exact (moneyLoop_parts StringTo parts
      (fun p hp => ⟨(hvalid p hp).1, (hvalid p hp).2.2.1, (hvalid p hp).2.2.2⟩) hnodup).1
  · simp [MoneyStringToMoney, Tokenize, tokenizeLoop, find, findFrom, moneyLoop]

/-- With the example implementation of `StringTo`: "12g 5c" is 120005 copper, and
"5c 7c", in which the unit `c` occurs twice, has no value. -/
theorem MoneyStringToMoney_value_and_rejection_witness :
    MoneyStringToMoney (parseUnsigned 32 10) "12g 5c".toList = .ok (some 120005) ∧
    MoneyStringToMoney (parseUnsigned 32 10) "5c 7c".toList = .ok none ∧
    MoneyStringToMoney (parseUnsigned 32 10) "5x".toList = .ok none ∧
    MoneyStringToMoney (parseUnsigned 32 10) "4294967296g".toList = .ok none ∧
    MoneyStringToMoney (parseUnsigned 32 10)
        (List.intercalate [' '] ([("12".toList, 'g', 12), ("5".toList, 'c', 5)].map partToken))
      = .ok (some ((10000 * amountOf 'g' [("12".toList, 'g', 12), ("5".toList, 'c', 5)]
          + 100 * amountOf 's' [("12".toList, 'g', 12), ("5".toList, 'c', 5)]
          + amountOf 'c' [("12".toList, 'g', 12), ("5".toList, 'c', 5)] : Nat) : Int)) :=
  ⟨by decide, by decide, by decide, by decide,
    (MoneyStringToMoney_value_and_rejection (parseUnsigned 32 10) "12g 5c".toList).2.1
      [("12".toList, 'g', 12), ("5".toList, 'c', 5)] (by decide) (by decide)⟩

/-! ### `GetMainPartOfName` -/

/-- The test `wname.ends_with(*itr)` after the length check. -/
theorem ends_with_iff (wname e : List Nat) :
    (e.length ≤ wname.length ∧ wname.drop (wname.length - e.length) = e) ↔
      ∃ p, wname = p ++ e := by
  constructor
  · rintro ⟨_, h⟩
    refine ⟨wname.take (wname.length - e.length), ?_⟩
    conv_lhs => rw [← List.take_append_drop (wname.length - e.length) wname]
    rw [h]
  · rintro ⟨p, rfl⟩
    refine ⟨by simp, ?_⟩
    rw [List.length_append, Nat.add_sub_cancel, List.drop_left]

/-- The loop of `GetMainPartOfName` stops at the first empty entry of the row. -/
theorem dropEndLoop_takeWhile (wname : List Nat) (row : List (List Nat)) :
    dropEndLoop wname row
      = dropEndLoop wname (row.takeWhile (fun e => decide (e ≠ []))) := by
  induction row with
  | nil => rfl
  | cons e row ih =>
    by_cases he : e = []
    · subst he
      simp [dropEndLoop]
    · rw [List.takeWhile_cons_of_pos (by simpa using he)]
      simp only [dropEndLoop, if_neg he]
      rw [ih]

/-- The loop of `GetMainPartOfName` over endings of which none is a suffix of the
name leaves the name as it is; over endings the first of which that is a suffix
is `e`, it removes `e`. -/
theorem dropEndLoop_first (wname : List Nat) :
    ∀ (es : List (List Nat)), (∀ e ∈ es, e ≠ []) →
      ((∀ e ∈ es, ¬ ∃ p, wname = p ++ e) → dropEndLoop wname es = wname) ∧
      (∀ pre e post p, es = pre ++ e :: post → (∀ x ∈ pre, ¬ ∃ q, wname = q ++ x) →
        wname = p ++ e → dropEndLoop wname es = p) := by
  intro es
  induction es with
  | nil =>
    intro _
    refine ⟨fun _ => rfl, fun pre e post p h => ?_⟩
    simp at h
  | cons x es ih =>
    intro hne
    have hx : x ≠ [] := hne x (List.mem_cons_self _ _)
    obtain ⟨ih1, ih2⟩ := ih (fun e he => hne e (List.mem_cons_of_mem _ he))
    have hiff := ends_with_iff wname x
    have hskip : (¬ ∃ p, wname = p ++ x) → dropEndLoop wname (x :: es) = dropEndLoop wname es := by
      intro hno
      simp only [dropEndLoop, if_neg hx]
      by_cases hlen : x.length > wname.length
      · rw [if_pos hlen]
      · rw [if_neg hlen, if_neg (fun hd => hno (hiff.mp ⟨by omega, hd⟩))]
    constructor
    · intro hnone
      rw [hskip (hnone x (List.mem_cons_self _ _))]
      exact ih1 (fun e he => hnone e (List.mem_cons_of_mem _ he))
    · intro pre e post p hes hpre hp
      cases pre with
      | nil =>
        simp only [List.nil_append, List.cons.injEq] at hes
        obtain ⟨rfl, _⟩ := hes
        obtain ⟨hle, hd⟩ := hiff.mpr ⟨p, hp⟩
        simp only [dropEndLoop, if_neg hx, if_neg (by omega : ¬ x.length > wname.length),
          if_pos hd]
        rw [hp, List.length_append, Nat.add_sub_cancel, List.take_left]
      | cons y pre =>
        simp only [List.cons_append, List.cons.injEq] at hes
        obtain ⟨rfl, hrest⟩ := hes
        rw [hskip (hpre _ (List.mem_cons_self _ _))]
        exact ih2 pre e post p hrest (fun z hz => hpre z (List.mem_cons_of_mem _ hz)) hp

/-- The loop of `GetMainPartOfName` returns the name or the name without one of
the endings of the row. -/
theorem dropEndLoop_cases (wname : List Nat) (row : List (List Nat)) :
    dropEndLoop wname row = wname ∨
      ∃ e ∈ row, wname = dropEndLoop wname row ++ e := by
  induction row with
  | nil => exact Or.inl rfl
  | cons x row ih =>
    simp only [dropEndLoop]
    by_cases hx : x = []
    · rw [if_pos hx]
      exact Or.inl rfl
    · rw [if_neg hx]
      by_cases hlen : x.length > wname.length
      · rw [if_pos hlen]
        rcases ih with h | ⟨e, he, h⟩
        · exact Or.inl h
        · exact Or.inr ⟨e, List.mem_cons_of_mem _ he, h⟩
      · rw [if_neg hlen]
        by_cases hd : wname.drop (wname.length - x.length) = x
        · rw [if_pos hd]
          refine Or.inr ⟨x, List.mem_cons_self _ _, ?_⟩
          conv_lhs => rw [← List.take_append_drop (wname.length - x.length) wname]
          rw [hd]
        · rw [if_neg hd]
          rcases ih with h | ⟨e, he, h⟩
          · exact Or.inl h
          · exact Or.inr ⟨e, List.mem_cons_of_mem _ he, h⟩

/-- No ending of the table has more than two characters. -/
theorem dropEnds_length (declension : Nat) :
    ∀ e ∈ dropEnds.getD declension [], e.length ≤ 2 := by
  by_cases hd : declension < 6
  · revert declension
    decide
  · have hlen : dropEnds.length = 6 := by decide
    have : dropEnds.getD declension [] = [] := by
      unfold List.getD
      rw [List.get?_eq_none.mpr (by omega)]
      rfl
    rw [this]
    intro e he
    cases he

/-- Claim C37. For every name and declension the result of `GetMainPartOfName` is
the name without an ending of at most 3 characters at its end. The name is
returned unchanged when it is empty, when its first character is not Cyrillic,
when the declension is greater than 5, and when no ending of the declension is a
suffix of the name; otherwise the result is the name without the first ending in
the order of the declension's list that is a suffix of the name. -/
theorem GetMainPartOfName_drops_first_ending (isCyrillicCharacter : Nat → Bool)
    (wname : List Nat) (declension : Nat) :
    (∃ e, wname = GetMainPartOfName isCyrillicCharacter wname declension ++ e ∧
      e.length ≤ 3) ∧
    (wname = [] → GetMainPartOfName isCyrillicCharacter wname declension = wname) ∧
    (∀ first rest, wname = first :: rest → isCyrillicCharacter first = false →
      GetMainPartOfName isCyrillicCharacter wname declension = wname) ∧
    (declension > 5 → GetMainPartOfName isCyrillicCharacter wname declension = wname) ∧
    (∀ first rest, wname = first :: rest → isCyrillicCharacter first = true →
      declension ≤ 5 →
      ((∀ e ∈ endingsOf declension, ¬ ∃ p, wname = p ++ e) →
        GetMainPartOfName isCyrillicCharacter wname declension = wname) ∧
      (∀ pre e post, endingsOf declension = pre ++ e :: post →
        (∀ x ∈ pre, ¬ ∃ q, wname = q ++ x) → (∃ p, wname = p ++ e) →
        wname = GetMainPartOfName isCyrillicCharacter wname declension ++ e)) := by
  refine ⟨?_, ?_, ?_, ?_, ?_⟩
  · cases wname with
    | nil => exact ⟨[], rfl, by decide⟩
    | cons first rest =>
      simp only [GetMainPartOfName]
      split
      · exact ⟨[], by simp, by decide⟩
      · rcases dropEndLoop_cases (first :: rest) (dropEnds.getD declension []) with h | ⟨e, he, h⟩
        · exact ⟨[], by rw [h]; simp, by decide⟩
        · have := dropEnds_length declension e he
          exact ⟨e, h, by omega⟩
  · intro h
    rw [h]
    rfl
  · intro first rest h hc
    rw [h]
    simp [GetMainPartOfName, hc]
  · intro hd
    cases wname with
    | nil => rfl
    | cons first rest => simp [GetMainPartOfName, hd]
  · intro first rest h hc hd
    have hres : GetMainPartOfName isCyrillicCharacter wname declension
        = dropEndLoop wname (endingsOf declension) := by
      rw [h]
      simp only [GetMainPartOfName, hc, Bool.not_true, Bool.false_or, decide_eq_true_eq,
        if_neg (by omega : ¬ declension > 5)]
      exact dropEndLoop_takeWhile _ _
    have hne : ∀ e ∈ endingsOf declension, e ≠ [] := by
      intro e he
      have := List.mem_takeWhile_imp he
      simpa using this
    obtain ⟨h1, h2⟩ := dropEndLoop_first wname (endingsOf declension) hne
    rw [hres]
    refine ⟨h1, fun pre e post hes hpre hsuf => ?_⟩
    obtain ⟨p, hp⟩ := hsuf
    rw [h2 pre e post p hes hpre hp]
    exact hp

/-- The name I-v-a-n-a in Cyrillic letters with the declension 0, whose endings are
tried in the order a, o, ya, ie, soft sign, short i: the ending a is removed. With
the declension 6 the name is returned as it is. -/
theorem GetMainPartOfName_drops_first_ending_witness :
    GetMainPartOfName isCyrillicExample [0x418, 0x432, 0x430, 0x43D, 0x430] 0
      = [0x418, 0x432, 0x430, 0x43D] ∧
    endingsOf 0 = [[0x430], [0x43E], [0x44F], [0x435], [0x44C], [0x439]] ∧
    GetMainPartOfName isCyrillicExample [0x418, 0x432, 0x430, 0x43D, 0x430] 6
      = [0x418, 0x432, 0x430, 0x43D, 0x430] ∧
    [0x418, 0x432, 0x430, 0x43D, 0x430]
      = GetMainPartOfName isCyrillicExample [0x418, 0x432, 0x430, 0x43D, 0x430] 0 ++ [0x430] :=
  ⟨by decide, by decide,
    (GetMainPartOfName_drops_first_ending isCyrillicExample
      [0x418, 0x432, 0x430, 0x43D, 0x430] 6).2.2.2.1 (by decide),
    ((GetMainPartOfName_drops_first_ending isCyrillicExample
      [0x418, 0x432, 0x430, 0x43D, 0x430] 0).2.2.2.2 0x418 [0x432, 0x430, 0x43D, 0x430] rfl
      (by decide) (by decide)).2 [] [0x430] [[0x43E], [0x44F], [0x435], [0x44C], [0x439]]
      (by decide) (fun x hx => by cases hx) ⟨[0x418, 0x432, 0x430, 0x43D], by decide⟩⟩

end Util
